import Mathlib

/-! Spatial planning subsystem of `ai_roguelike`.

A shallow embedding of `src/w7/pathfinder.cpp` (grid A*, portal A*, hierarchical
path query, portal graph construction) and `src/w4/dijkstraMapGen.cpp`
(influence-map relaxation), followed by theorems about the embedded functions.

Conventions.
* `int` coordinates are `Int`; `size_t` values are `Nat`.  Conversions between the
  two wrap explicitly (`toSizeT`, `toInt32`); `size_t` sums and products are taken
  modulo `2 ^ 64`.
* `std::vector` is `List`; an access outside the vector is undefined behaviour in
  the source and is reported as `Fault.outOfRange`.
* `while` loops take a fuel argument and report `Fault.outOfFuel` when it runs out.
* `from` and `to` are reserved words here; the source's `from`/`to` arguments are
  called `src`/`dst`.
* Float scores of the searches are abstracted by a function `fscore g d` that
  stands for the machine value of `float(g) + sqrtf(float(d))`; `g` values are
  whole numbers stored in floats, `FLT_MAX` is `none`.
* Influence-map values are rationals.  The fields seeded with 0 hold whole numbers
  up to 1e5, on which the binary32 operations of the relaxation are exact
  (`process_dmap`); the flee field is scaled by `-1.2f` and relaxed with every
  operation rounded to binary32 (`f32`, `process_dmap_f32`).
-/

set_option linter.unusedSectionVars false

set_option maxRecDepth 100000

namespace Roguelike

/-! ## Data model -/

/-- Modelled from the spec: the tile kinds of `dungeonUtils.h` (`dungeon::floor`,
`dungeon::wall`), whose declaration is not among the sources. -/
inductive Tile where
  | floor
  | wall
deriving DecidableEq, Repr

/-- Modelled from the spec: `IVec2` of `math.h`, a pair of `int` coordinates. -/
structure IVec2 where
  x : Int
  y : Int
deriving DecidableEq, Repr

/-- Modelled from the spec: `DungeonData` (width, height, row-major tiles). -/
structure DungeonData where
  width : Nat
  height : Nat
  tiles : List Tile
deriving Repr

/-- Ways in which a run of the embedded code fails to produce a value. -/
inductive Fault where
  | outOfRange
  | outOfFuel
  | divByZero
deriving DecidableEq, Repr

deriving instance DecidableEq for Except

/-- Conversion `size_t(v)` of an `int`. -/
def toSizeT (v : Int) : Nat := (v % (2 : Int) ^ 64).toNat

/-- Conversion `static_cast<int>(n)` of a `size_t` (two's complement wrap). -/
def toInt32 (n : Nat) : Int :=
  let m : Int := ((n % 2 ^ 32 : Nat) : Int)
  if m < (2 : Int) ^ 31 then m else m - (2 : Int) ^ 32

/-- `coord_to_idx<int>`: `size_t(y) * w + size_t(x)` in `size_t` arithmetic. -/
def coord_to_idx (x y : Int) (w : Nat) : Nat :=
  (toSizeT y * w + toSizeT x) % 2 ^ 64

/-- Squared argument of the `sqrtf` in `heuristic`: `sqr(lhs.x - rhs.x) + sqr(lhs.y - rhs.y)`. -/
def heuristic (lhs rhs : IVec2) : Nat :=
  ((lhs.x - rhs.x) * (lhs.x - rhs.x) + (lhs.y - rhs.y) * (lhs.y - rhs.y)).toNat

/-- The sentinel `IVec2{-1, -1}` of the predecessor array. -/
def noPrev : IVec2 := ⟨-1, -1⟩

/-! ## Grid A* (`find_path_a_star`) -/

/-- The loop of `reconstruct_path`: follow `prev` from `curPos` until the sentinel. -/
def reconstruct_loop (prev : List IVec2) (width : Nat) :
    Nat → IVec2 → List IVec2 → Except Fault (List IVec2)
  | 0, _, _ => .error .outOfFuel
  | fuel + 1, curPos, res =>
    match prev.get? (coord_to_idx curPos.x curPos.y width) with
    | none => .error .outOfRange
    | some q =>
      if q ≠ noPrev then reconstruct_loop prev width fuel q (q :: res)
      else .ok res

/-- `reconstruct_path(prev, to, width)`. -/
def reconstruct_path (prev : List IVec2) (dst : IVec2) (width : Nat) :
    Except Fault (List IVec2) :=
  reconstruct_loop prev width (prev.length + 1) dst [dst]

/-- Local state of a search: the arrays `g`, `f`, `prev` and the two lists. -/
structure AStar (S : Type) where
  g : List (Option Nat)
  f : List (Option S)
  prev : List IVec2
  openList : List IVec2
  closedList : List IVec2

/-- Comparison `a < b` of two stored floats, `none` being `FLT_MAX`. -/
def fltLt {S : Type} [LinearOrder S] : Option S → Option S → Bool
  | some a, some b => decide (a < b)
  | some _, none => true
  | none, _ => false

/-- The inner `for` loop choosing `bestIdx`: first index of a minimal score. -/
def scanBest {S : Type} [LinearOrder S] (getF : IVec2 → Option S) :
    List IVec2 → Nat → Nat → Option S → Nat
  | [], _, bestIdx, _ => bestIdx
  | p :: ps, i, bestIdx, bestScore =>
    if fltLt (getF p) bestScore then scanBest getF ps (i + 1) i (getF p)
    else scanBest getF ps (i + 1) bestIdx bestScore

section GridSearch

variable {S : Type} [LinearOrder S] (fscore : Nat → Nat → S)

/-- Lambda `getG`. -/
def getG (st : AStar S) (w : Nat) (p : IVec2) : Option Nat :=
  (st.g.get? (coord_to_idx p.x p.y w)).join

/-- Lambda `getF`. -/
def getF (st : AStar S) (w : Nat) (p : IVec2) : Option S :=
  (st.f.get? (coord_to_idx p.x p.y w)).join

/-- Comparison `gScore < getG(p)` on stored path costs, `none` being `FLT_MAX`. -/
def gLt : Option Nat → Option Nat → Bool
  | some a, some b => decide (a < b)
  | some _, none => true
  | none, _ => false

/-- Lambda `checkNeighbour` of `find_path_a_star`. -/
def checkNeighbour (dd : DungeonData) (dst lim_min lim_max curPos p : IVec2)
    (st : AStar S) : Except Fault (AStar S) :=
  if p.x < lim_min.x ∨ p.y < lim_min.y ∨ p.x ≥ lim_max.x ∨ p.y ≥ lim_max.y then .ok st
  else
    let idx := coord_to_idx p.x p.y dd.width
    match dd.tiles.get? idx with
    | none => .error .outOfRange
    | some t =>
      if t = Tile.wall then .ok st
      else if st.g.length ≤ idx then .error .outOfRange
      else
        let gScore : Option Nat := (getG st dd.width curPos).map (· + 1)
        let st1 : AStar S :=
          if gLt gScore (getG st dd.width p) then
            { st with
              prev := st.prev.set idx curPos
              g := st.g.set idx gScore
              f := st.f.set idx (gScore.map (fun gs => fscore gs (heuristic p dst))) }
          else st
        if p ∈ st1.openList then .ok st1
        else .ok { st1 with openList := st1.openList ++ [p] }

/-- The `while (!openList.empty())` loop of `find_path_a_star`. -/
def astar_loop (dd : DungeonData) (dst lim_min lim_max : IVec2) :
    Nat → AStar S → Except Fault (List IVec2)
  | 0, _ => .error .outOfFuel
  | fuel + 1, st =>
    match st.openList with
    | [] => .ok []
    | o :: os =>
      let bestIdx := scanBest (getF st dd.width) os 1 0 (getF st dd.width o)
      let curPos := (o :: os).getD bestIdx o
      if curPos = dst then reconstruct_path st.prev dst dd.width
      else
        let st0 : AStar S := { st with openList := (o :: os).eraseIdx bestIdx }
        if curPos ∈ st0.closedList then astar_loop dd dst lim_min lim_max fuel st0
        else
          let st1 : AStar S := { st0 with closedList := st0.closedList ++ [curPos] }
          match checkNeighbour fscore dd dst lim_min lim_max curPos
              ⟨curPos.x + 1, curPos.y + 0⟩ st1 with
          | .error e => .error e
          | .ok st2 =>
          match checkNeighbour fscore dd dst lim_min lim_max curPos
              ⟨curPos.x - 1, curPos.y + 0⟩ st2 with
          | .error e => .error e
          | .ok st3 =>
          match checkNeighbour fscore dd dst lim_min lim_max curPos
              ⟨curPos.x + 0, curPos.y + 1⟩ st3 with
          | .error e => .error e
          | .ok st4 =>
          match checkNeighbour fscore dd dst lim_min lim_max curPos
              ⟨curPos.x + 0, curPos.y - 1⟩ st4 with
          | .error e => .error e
          | .ok st5 => astar_loop dd dst lim_min lim_max fuel st5

/-- State of `find_path_a_star` on entry to its loop. -/
def astar_init (dd : DungeonData) (src dst : IVec2) : AStar S :=
  let inpSize := dd.width * dd.height
  let i := coord_to_idx src.x src.y dd.width
  { g := (List.replicate inpSize none).set i (some 0)
    f := (List.replicate inpSize none).set i (some (fscore 0 (heuristic src dst)))
    prev := List.replicate inpSize noPrev
    openList := [src]
    closedList := [] }

/-- Number of loop iterations granted to `find_path_a_star`: every iteration but the
last removes one entry of the open list, and at most `4 * N + 1` are ever added. -/
def astar_fuel (dd : DungeonData) : Nat := 4 * (dd.width * dd.height) + 2

/-- `find_path_a_star(dd, from, to, lim_min, lim_max)`. -/
def find_path_a_star (dd : DungeonData) (src dst lim_min lim_max : IVec2) :
    Except Fault (List IVec2) :=
  if src.x < 0 ∨ src.y < 0 ∨ src.x ≥ toInt32 dd.width ∨ src.y ≥ toInt32 dd.height then
    .ok []
  else
    astar_loop fscore dd dst lim_min lim_max (astar_fuel dd) (astar_init fscore dd src dst)

end GridSearch

/-! ## Portal graph and hierarchical query -/

/-- Modelled from the spec: `PortalConnection` of `pathfinder.h` (index of the connected
portal and the edge weight, a whole number stored in a float). -/
structure PortalConnection where
  connIdx : Nat
  score : Nat
deriving DecidableEq, Repr

/-- Modelled from the spec: `PathPortal` of `pathfinder.h`, a border segment given by its
start and end coordinates, with its connections.  Its `operator==` is taken to compare all
members; a value-initialised `PathPortal()` has all members zero. -/
structure PathPortal where
  startX : Nat
  startY : Nat
  endX : Nat
  endY : Nat
  conns : List PortalConnection
deriving DecidableEq, Repr

/-- Modelled from the spec: `DungeonPortals` of `pathfinder.h` (region size, the global
portal list, and for every region the indices of the portals touching it). -/
structure DungeonPortals where
  tileSplit : Nat
  portals : List PathPortal
  tilePortalsIndices : List (List Nat)
deriving Repr

/-- The value-initialised `PathPortal()`. -/
def PathPortal.zero : PathPortal := ⟨0, 0, 0, 0, []⟩

/-- Centre cell of a portal: `{int((startX + endX) / 2), int((startY + endY) / 2)}`. -/
def portalCentre (p : PathPortal) : IVec2 :=
  ⟨toInt32 ((p.startX + p.endX) % 2 ^ 64 / 2), toInt32 ((p.startY + p.endY) % 2 ^ 64 / 2)⟩

/-- `portal_to_idx(p, w)`. -/
def portal_to_idx (p : PathPortal) (w : Nat) : Nat :=
  coord_to_idx (portalCentre p).x (portalCentre p).y w

/-- Squared argument of the `sqrtf` in `portal_heuristic`. -/
def portal_heuristic (lhs rhs : PathPortal) : Nat :=
  heuristic (portalCentre lhs) (portalCentre rhs)

/-- Local state of `find_path_a_star_portal`. -/
structure PAStar where
  g : List (Option Nat)
  prev : List IVec2
  openList : List PathPortal
  closedList : List PathPortal

/-- The inner `for` loop of `find_path_a_star_portal` choosing `bestIdx`. -/
def scanBestPortal {S : Type} [LinearOrder S] (getF : PathPortal → Option S) :
    List PathPortal → Nat → Nat → Option S → Nat
  | [], _, bestIdx, _ => bestIdx
  | p :: ps, i, bestIdx, bestScore =>
    if fltLt (getF p) bestScore then scanBestPortal getF ps (i + 1) i (getF p)
    else scanBestPortal getF ps (i + 1) bestIdx bestScore

section PortalSearch

variable {S : Type} [LinearOrder S] (fscore : Nat → Nat → S)

/-- Lambda `getG` of `find_path_a_star_portal`. -/
def getGP (st : PAStar) (w : Nat) (p : PathPortal) : Option Nat :=
  (st.g.get? (portal_to_idx p w)).join

/-- Lambda `getF` of `find_path_a_star_portal`: `getG(p) + portal_heuristic(p, to)`. -/
def getFP (st : PAStar) (w : Nat) (dst p : PathPortal) : Option S :=
  (getGP st w p).map (fun gs => fscore gs (portal_heuristic p dst))

/-- Lambda `checkNeighbour` of `find_path_a_star_portal`. -/
def checkNeighbourPortal (dd : DungeonData) (curPortal p : PathPortal) (edgeWeight : Nat)
    (st : PAStar) : Except Fault PAStar :=
  let idx := portal_to_idx p dd.width
  if st.g.length ≤ idx then .error .outOfRange
  else
    let gScore : Option Nat := (getGP st dd.width curPortal).map (· + edgeWeight)
    let st1 : PAStar :=
      if gLt gScore (getGP st dd.width p) then
        { st with
          prev := st.prev.set idx (portalCentre curPortal)
          g := st.g.set idx gScore }
      else st
    if p ∈ st1.openList then .ok st1
    else .ok { st1 with openList := st1.openList ++ [p] }

/-- The loop `for (auto c : curPortal.conns) checkNeighbour(dp.portals[c.connIdx], c.score)`. -/
def expandPortal (dd : DungeonData) (dp : DungeonPortals) (curPortal : PathPortal) :
    List PortalConnection → PAStar → Except Fault PAStar
  | [], st => .ok st
  | c :: cs, st =>
    match dp.portals.get? c.connIdx with
    | none => .error .outOfRange
    | some p =>
      match checkNeighbourPortal dd curPortal p c.score st with
      | .error e => .error e
      | .ok st2 => expandPortal dd dp curPortal cs st2

/-- The `while (!openList.empty())` loop of `find_path_a_star_portal`. -/
def portal_loop (dd : DungeonData) (dp : DungeonPortals) (dst : PathPortal) :
    Nat → PAStar → Except Fault (List IVec2)
  | 0, _ => .error .outOfFuel
  | fuel + 1, st =>
    match st.openList with
    | [] => .ok []
    | o :: os =>
      let bestIdx := scanBestPortal (getFP fscore st dd.width dst) os 1 0
        (getFP fscore st dd.width dst o)
      let curPortal := (o :: os).getD bestIdx o
      if curPortal = dst then reconstruct_path st.prev (portalCentre dst) dd.width
      else
        let st0 : PAStar := { st with openList := (o :: os).eraseIdx bestIdx }
        if curPortal ∈ st0.closedList then portal_loop dd dp dst fuel st0
        else
          let st1 : PAStar := { st0 with closedList := st0.closedList ++ [curPortal] }
          match expandPortal dd dp curPortal curPortal.conns st1 with
          | .error e => .error e
          | .ok st2 => portal_loop dd dp dst fuel st2

/-- Number of loop iterations granted to `find_path_a_star_portal`: one per entry ever put
on the open list, plus the final one. -/
def portal_fuel (dp : DungeonPortals) (src : PathPortal) : Nat :=
  (dp.portals.map (fun q => q.conns.length)).sum + src.conns.length + 2

/-- `find_path_a_star_portal(dd, dp, from, to)`. -/
def find_path_a_star_portal (dd : DungeonData) (dp : DungeonPortals) (src dst : PathPortal) :
    Except Fault (List IVec2) :=
  let inpSize := dd.width * dd.height
  let i := portal_to_idx src dd.width
  if inpSize ≤ i then .error .outOfRange
  else
    portal_loop fscore dd dp dst (portal_fuel dp src)
      { g := (List.replicate inpSize none).set i (some 0)
        prev := List.replicate inpSize noPrev
        openList := [src]
        closedList := [] }

/-- Cells visited by the two nested `for` loops over a portal's rectangle clipped to the
bound, in loop order (rows outermost). -/
def portalCells (portal : PathPortal) (limMin limMax : IVec2) : List IVec2 :=
  let y0 := max portal.startY (toSizeT limMin.y)
  let y1 := min portal.endY (toSizeT (limMax.y - 1))
  let x0 := max portal.startX (toSizeT limMin.x)
  let x1 := min portal.endX (toSizeT (limMax.x - 1))
  (List.range' y0 (y1 + 1 - y0)).flatMap (fun toY =>
    (List.range' x0 (x1 + 1 - x0)).map (fun toX => ⟨toInt32 toX, toInt32 toY⟩))

/-- Body of the two nested loops of `get_shortest_path_portal` for one portal: returns the
local `path` and the flag `noPath`. -/
def scanPortalCells (dd : DungeonData) (src limMin limMax : IVec2) :
    List IVec2 → List IVec2 → Except Fault (List IVec2 × Bool)
  | [], path => .ok (path, false)
  | c :: cs, path =>
    match find_path_a_star fscore dd src c limMin limMax with
    | .error e => .error e
    | .ok curPath =>
      if curPath.isEmpty ∧ src ≠ c then .ok (path, true)
      else if path.isEmpty ∨ curPath.length < path.length then
        scanPortalCells dd src limMin limMax cs curPath
      else scanPortalCells dd src limMin limMax cs path

/-- The bound `limMin` that `find_hierarchical_path` and `get_shortest_path_portal` compute
for a region `tile`: `{int(tile.x * tileSplit), int(tile.y * tileSplit)}`. -/
def regionMin (dp : DungeonPortals) (tile : IVec2) : IVec2 :=
  ⟨toInt32 (toSizeT tile.x * dp.tileSplit % 2 ^ 64),
    toInt32 (toSizeT tile.y * dp.tileSplit % 2 ^ 64)⟩

/-- The bound `limMax` of a region:
`{int((tile.x + 1) * tileSplit), int((tile.y + 1) * tileSplit)}`. -/
def regionMax (dp : DungeonPortals) (tile : IVec2) : IVec2 :=
  ⟨toInt32 (toSizeT (tile.x + 1) * dp.tileSplit % 2 ^ 64),
    toInt32 (toSizeT (tile.y + 1) * dp.tileSplit % 2 ^ 64)⟩

/-- The loop of `get_shortest_path_portal` over the portal indices of the region. -/
def shortestPortalLoop (dd : DungeonData) (dp : DungeonPortals) (src tile : IVec2) :
    List Nat → List IVec2 × PathPortal → Except Fault (List IVec2 × PathPortal)
  | [], acc => .ok acc
  | portal_ind :: rest, (shortestPath, p) =>
    let limMin := regionMin dp tile
    let limMax := regionMax dp tile
    match dp.portals.get? portal_ind with
    | none => .error .outOfRange
    | some portal =>
      match scanPortalCells fscore dd src limMin limMax (portalCells portal limMin limMax) [] with
      | .error e => .error e
      | .ok (path, _) =>
        if shortestPath.isEmpty ∨ path.length < shortestPath.length then
          shortestPortalLoop dd dp src tile rest (path, portal)
        else shortestPortalLoop dd dp src tile rest (shortestPath, p)

/-- `get_shortest_path_portal(dd, dp, from, tile, p)`: the returned path together with the
final value of the reference parameter `p`. -/
def get_shortest_path_portal (dd : DungeonData) (dp : DungeonPortals) (src tile : IVec2)
    (p : PathPortal) : Except Fault (List IVec2 × PathPortal) :=
  if dp.tileSplit = 0 then .error .divByZero
  else
    let width := dd.width / dp.tileSplit
    match dp.tilePortalsIndices.get? ((toSizeT tile.y * width + toSizeT tile.x) % 2 ^ 64) with
    | none => .error .outOfRange
    | some inds => shortestPortalLoop fscore dd dp src tile inds ([], p)

/-- The region of a cell: `{int(p.x / tileSplit), int(p.y / tileSplit)}`. -/
def tileOf (dp : DungeonPortals) (p : IVec2) : IVec2 :=
  ⟨toInt32 (toSizeT p.x / dp.tileSplit), toInt32 (toSizeT p.y / dp.tileSplit)⟩

/-- `find_hierarchical_path(dp, dd, from, to)`. -/
def find_hierarchical_path (dp : DungeonPortals) (dd : DungeonData) (src dst : IVec2) :
    Except Fault (List IVec2) :=
  if dp.tileSplit = 0 then .error .divByZero
  else
    let fromTile := tileOf dp src
    let toTile := tileOf dp dst
    if fromTile = toTile then
      let limMin := regionMin dp fromTile
      let limMax := regionMax dp fromTile
      find_path_a_star fscore dd src dst limMin limMax
    else
      match get_shortest_path_portal fscore dd dp src fromTile PathPortal.zero with
      | .error e => .error e
      | .ok (fromStartToClosest, fromPortal) =>
        match get_shortest_path_portal fscore dd dp dst toTile PathPortal.zero with
        | .error e => .error e
        | .ok (fromTargetToClosest, toPortal) =>
          match find_path_a_star_portal fscore dd dp fromPortal toPortal with
          | .error e => .error e
          | .ok fromStartToTarget =>
            .ok (fromStartToClosest ++ fromStartToTarget ++ fromTargetToClosest)

/-! ## Portal graph construction (`prebuild_map`) -/

/-- State of the scan in `check_border`: `spanFrom`, `spanTo` and the portals written. -/
structure BorderScan where
  spanFrom : Int
  spanTo : Int
  portals : List PathPortal

/-- The portal written by `check_border` for the span `[spanFrom, spanTo]`. -/
def spanPortal (splitTiles xx yy dir_x dir_y : Nat) (offs_x offs_y spanFrom spanTo : Int) :
    PathPortal :=
  { startX := (xx * splitTiles + toSizeT spanFrom * dir_x + toSizeT offs_x) % 2 ^ 64
    startY := (yy * splitTiles + toSizeT spanFrom * dir_y + toSizeT offs_y) % 2 ^ 64
    endX := (xx * splitTiles + toSizeT spanTo * dir_x) % 2 ^ 64
    endY := (yy * splitTiles + toSizeT spanTo * dir_y) % 2 ^ 64
    conns := [] }

/-- The `for` loop of `check_border` over the positions `i` of the border. -/
def check_border_loop (dd : DungeonData) (splitTiles xx yy dir_x dir_y : Nat)
    (offs_x offs_y : Int) : List Nat → BorderScan → Except Fault BorderScan
  | [], sc => .ok sc
  | i :: is, sc =>
    let x := (xx * splitTiles + i * dir_x) % 2 ^ 64
    let y := (yy * splitTiles + i * dir_y) % 2 ^ 64
    let nx := (x + toSizeT offs_x) % 2 ^ 64
    let ny := (y + toSizeT offs_y) % 2 ^ 64
    match dd.tiles.get? ((y * dd.width + x) % 2 ^ 64) with
    | none => .error .outOfRange
    | some t =>
      if t ≠ Tile.wall then
        match dd.tiles.get? ((ny * dd.width + nx) % 2 ^ 64) with
        | none => .error .outOfRange
        | some nt =>
          if nt ≠ Tile.wall then
            check_border_loop dd splitTiles xx yy dir_x dir_y offs_x offs_y is
              { sc with
                spanFrom := if sc.spanFrom < 0 then toInt32 i else sc.spanFrom
                spanTo := toInt32 i }
          else if sc.spanFrom ≥ 0 then
            check_border_loop dd splitTiles xx yy dir_x dir_y offs_x offs_y is
              { sc with
                portals := sc.portals ++
                  [spanPortal splitTiles xx yy dir_x dir_y offs_x offs_y sc.spanFrom sc.spanTo]
                spanFrom := -1 }
          else check_border_loop dd splitTiles xx yy dir_x dir_y offs_x offs_y is sc
      else if sc.spanFrom ≥ 0 then
        check_border_loop dd splitTiles xx yy dir_x dir_y offs_x offs_y is
          { sc with
            portals := sc.portals ++
              [spanPortal splitTiles xx yy dir_x dir_y offs_x offs_y sc.spanFrom sc.spanTo]
            spanFrom := -1 }
      else check_border_loop dd splitTiles xx yy dir_x dir_y offs_x offs_y is sc

/-- Lambda `check_border`: the portals found on one border, appended to `portals`. -/
def check_border (dd : DungeonData) (splitTiles xx yy dir_x dir_y : Nat)
    (offs_x offs_y : Int) (portals : List PathPortal) : Except Fault (List PathPortal) :=
  match check_border_loop dd splitTiles xx yy dir_x dir_y offs_x offs_y
      (List.range splitTiles) ⟨-1, -1, portals⟩ with
  | .error e => .error e
  | .ok sc =>
    if sc.spanFrom ≥ 0 then
      .ok (sc.portals ++
        [spanPortal splitTiles xx yy dir_x dir_y offs_x offs_y sc.spanFrom sc.spanTo])
    else .ok sc.portals

/-- The portal list and the per-region index lists under construction. -/
structure PortalBuild where
  portals : List PathPortal
  tilePortalsIndices : List (List Nat)
deriving Repr

/-- `v[i].push_back(a)` on a vector of vectors. -/
def pushAt (v : List (List Nat)) (i a : Nat) : Except Fault (List (List Nat)) :=
  match v.get? i with
  | none => .error .outOfRange
  | some l => .ok (v.set i (l ++ [a]))

/-- Lambda `push_portals`. -/
def push_portals (width x y : Nat) (offs_x offs_y : Int) :
    List PathPortal → PortalBuild → Except Fault PortalBuild
  | [], b => .ok b
  | portal :: rest, b =>
    let idx := b.portals.length
    match pushAt b.tilePortalsIndices ((y * width + x) % 2 ^ 64) idx with
    | .error e => .error e
    | .ok t1 =>
      match pushAt t1
          ((((y + toSizeT offs_y) % 2 ^ 64) * width + x + toSizeT offs_x) % 2 ^ 64) idx with
      | .error e => .error e
      | .ok t2 => push_portals width x y offs_x offs_y rest ⟨b.portals ++ [portal], t2⟩

/-- Body of the double loop over the regions `(x, y)` in `prebuild_map`. -/
def scanRegion (dd : DungeonData) (splitTiles width : Nat) (x y : Nat) (b : PortalBuild) :
    Except Fault PortalBuild :=
  let b0 : PortalBuild := ⟨b.portals, b.tilePortalsIndices ++ [[]]⟩
  let top : Except Fault PortalBuild :=
    if y > 0 then
      match check_border dd splitTiles x y 1 0 0 (-1) [] with
      | .error e => .error e
      | .ok topPortals => push_portals width x y 0 (-1) topPortals b0
    else .ok b0
  match top with
  | .error e => .error e
  | .ok b1 =>
    if x > 0 then
      match check_border dd splitTiles x y 0 1 (-1) 0 [] with
      | .error e => .error e
      | .ok leftPortals => push_portals width x y (-1) 0 leftPortals b1
    else .ok b1

/-- The double loop `for y < height, for x < width` of `prebuild_map`. -/
def scanRegions (dd : DungeonData) (splitTiles width : Nat) :
    List (Nat × Nat) → PortalBuild → Except Fault PortalBuild
  | [], b => .ok b
  | (x, y) :: rest, b =>
    match scanRegion dd splitTiles width x y b with
    | .error e => .error e
    | .ok b2 => scanRegions dd splitTiles width rest b2

/-- Conversion `float(minDist)` of a `size_t`: exact for the path lengths that occur, and
`2 ^ 32` for the initial value `0xffffffff`. -/
def floatOfSize (n : Nat) : Nat := if n = 0xffffffff then 2 ^ 32 else n

/-- The four nested loops over the cell pairs of two portals: returns `noPath`, `minDist`. -/
def scanPairs (dd : DungeonData) (limMin limMax : IVec2) :
    List (IVec2 × IVec2) → Nat → Except Fault (Bool × Nat)
  | [], minDist => .ok (false, minDist)
  | (a, b) :: rest, minDist =>
    match find_path_a_star fscore dd a b limMin limMax with
    | .error e => .error e
    | .ok path =>
      if path.isEmpty ∧ a ≠ b then .ok (true, minDist)
      else scanPairs dd limMin limMax rest (min minDist path.length)

/-- `portals[i].conns.push_back(c)`. -/
def pushConn (portals : List PathPortal) (i : Nat) (c : PortalConnection) :
    List PathPortal :=
  portals.modify (fun q => { q with conns := q.conns ++ [c] }) i

/-- The loop over `j` in the connectivity step, for a fixed first portal index `pi`. -/
def connectFrom (dd : DungeonData) (limMin limMax : IVec2) (pi : Nat) :
    List Nat → List PathPortal → Except Fault (List PathPortal)
  | [], portals => .ok portals
  | pj :: rest, portals =>
    match portals.get? pi, portals.get? pj with
    | some firstPortal, some secondPortal =>
      let pairs := (portalCells firstPortal limMin limMax).flatMap (fun a =>
        (portalCells secondPortal limMin limMax).map (fun b => (a, b)))
      match scanPairs fscore dd limMin limMax pairs 0xffffffff with
      | .error e => .error e
      | .ok (noPath, minDist) =>
        if noPath then connectFrom dd limMin limMax pi rest portals
        else
          connectFrom dd limMin limMax pi rest
            (pushConn (pushConn portals pi ⟨pj, floatOfSize minDist⟩)
              pj ⟨pi, floatOfSize minDist⟩)
    | _, _ => .error .outOfRange

/-- The loop over `i` in the connectivity step of one region. -/
def connectRegion (dd : DungeonData) (limMin limMax : IVec2) :
    List Nat → List PathPortal → Except Fault (List PathPortal)
  | [], portals => .ok portals
  | pi :: rest, portals =>
    match connectFrom fscore dd limMin limMax pi rest portals with
    | .error e => .error e
    | .ok portals2 => connectRegion dd limMin limMax rest portals2

/-- The loop over `tidx` in the connectivity step. -/
def connectRegions (dd : DungeonData) (splitTiles width : Nat) :
    List (Nat × List Nat) → List PathPortal → Except Fault (List PathPortal)
  | [], portals => .ok portals
  | (tidx, indices) :: rest, portals =>
    let x := tidx % width
    let y := tidx / width
    let limMin : IVec2 := ⟨toInt32 (x * splitTiles % 2 ^ 64), toInt32 (y * splitTiles % 2 ^ 64)⟩
    let limMax : IVec2 :=
      ⟨toInt32 ((x + 1) * splitTiles % 2 ^ 64), toInt32 ((y + 1) * splitTiles % 2 ^ 64)⟩
    match connectRegion fscore dd limMin limMax indices portals with
    | .error e => .error e
    | .ok portals2 => connectRegions dd splitTiles width rest portals2

/-- `prebuild_map` for one `DungeonData`, with the region size `splitTiles` (the constant
`10` in the source) as an argument: the `DungeonPortals` it stores. -/
def prebuild_map (splitTiles : Nat) (dd : DungeonData) : Except Fault DungeonPortals :=
  if splitTiles = 0 then .error .divByZero
  else
    let width := dd.width / splitTiles
    let height := dd.height / splitTiles
    let regions := (List.range height).flatMap (fun y => (List.range width).map (fun x => (x, y)))
    match scanRegions dd splitTiles width regions ⟨[], []⟩ with
    | .error e => .error e
    | .ok b =>
      match connectRegions fscore dd splitTiles width b.tilePortalsIndices.enum b.portals with
      | .error e => .error e
      | .ok portals => .ok ⟨splitTiles, portals, b.tilePortalsIndices⟩

end PortalSearch

/-! ## Influence maps (`dijkstraMapGen.cpp`) -/

/-- The constant `invalid_tile_value = 1e5f`. -/
def invalid_tile_value : ℚ := 100000

/-- `init_tiles`: the map resized to `width * height` and filled with the sentinel. -/
def init_tiles (dd : DungeonData) : List ℚ :=
  List.replicate (dd.width * dd.height) invalid_tile_value

/-- Lambda `getMapAt` of `process_dmap`; the second test compares `y` with `dd.width`, as
the source does. -/
def getMapAt (dd : DungeonData) (map : List ℚ) (x y : Nat) (dflt : ℚ) : Except Fault ℚ :=
  if x < dd.width ∧ y < dd.width then
    match dd.tiles.get? ((y * dd.width + x) % 2 ^ 64) with
    | none => .error .outOfRange
    | some t =>
      if t = Tile.floor then
        match map.get? ((y * dd.width + x) % 2 ^ 64) with
        | none => .error .outOfRange
        | some v => .ok v
      else .ok dflt
  else .ok dflt

/-- Lambda `getMinNei` of `process_dmap`; `x - 1` and `y - 1` wrap as `size_t` does. -/
def getMinNei (dd : DungeonData) (map : List ℚ) (x y : Nat) : Except Fault ℚ :=
  match map.get? ((y * dd.width + x) % 2 ^ 64) with
  | none => .error .outOfRange
  | some v0 =>
    match getMapAt dd map ((x + (2 ^ 64 - 1)) % 2 ^ 64) y v0 with
    | .error e => .error e
    | .ok a1 =>
      let v1 := min v0 a1
      match getMapAt dd map ((x + 1) % 2 ^ 64) y v1 with
      | .error e => .error e
      | .ok a2 =>
        let v2 := min v1 a2
        match getMapAt dd map x ((y + (2 ^ 64 - 1)) % 2 ^ 64) v2 with
        | .error e => .error e
        | .ok a3 =>
          let v3 := min v2 a3
          match getMapAt dd map x ((y + 1) % 2 ^ 64) v3 with
          | .error e => .error e
          | .ok a4 => .ok (min v3 a4)

/-- One full row-major pass of the `while` loop of `process_dmap` over the listed cells:
returns the map and the flag `done`. -/
def dmap_pass (dd : DungeonData) :
    List (Nat × Nat) → List ℚ × Bool → Except Fault (List ℚ × Bool)
  | [], acc => .ok acc
  | (x, y) :: rest, (map, done) =>
    let i := (y * dd.width + x) % 2 ^ 64
    match dd.tiles.get? i with
    | none => .error .outOfRange
    | some t =>
      if t ≠ Tile.floor then dmap_pass dd rest (map, done)
      else
        match getMapAt dd map x y invalid_tile_value with
        | .error e => .error e
        | .ok myVal =>
          match getMinNei dd map x y with
          | .error e => .error e
          | .ok minVal =>
            if minVal < myVal - 1 then dmap_pass dd rest (map.set i (minVal + 1), false)
            else dmap_pass dd rest (map, done)

/-- The cells in the order of the loops `for y < height, for x < width`. -/
def scanOrder (dd : DungeonData) : List (Nat × Nat) :=
  (List.range dd.height).flatMap (fun y => (List.range dd.width).map (fun x => (x, y)))

/-- `process_dmap`: full passes until one leaves `done` set. -/
def process_dmap (dd : DungeonData) : Nat → List ℚ → Except Fault (List ℚ)
  | 0, _ => .error .outOfFuel
  | fuel + 1, map =>
    match dmap_pass dd (scanOrder dd) (map, true) with
    | .error e => .error e
    | .ok (map2, done) => if done then .ok map2 else process_dmap dd fuel map2

/-- Modelled from the spec: an actor as the queries of `dijkstraMapGen.cpp` see it, a
`Position` and a `Team` (the component declarations of `ecsTypes.h` are not among the
sources). -/
structure Actor where
  pos : IVec2
  team : Int
deriving DecidableEq, Repr

/-- The seeding loop of `gen_player_approach_map`: `map[pos.y * width + pos.x] = 0` for
every actor of team 0. -/
def seed_players (dd : DungeonData) : List Actor → List ℚ → Except Fault (List ℚ)
  | [], map => .ok map
  | a :: rest, map =>
    if a.team = 0 then
      let i := (toSizeT a.pos.y * dd.width + toSizeT a.pos.x) % 2 ^ 64
      if map.length ≤ i then .error .outOfRange
      else seed_players dd rest (map.set i 0)
    else seed_players dd rest map

/-- `dmaps::gen_player_approach_map` for one `DungeonData`. -/
def gen_player_approach_map (dd : DungeonData) (actors : List Actor) (fuel : Nat) :
    Except Fault (List ℚ) :=
  match seed_players dd actors (init_tiles dd) with
  | .error e => .error e
  | .ok map => process_dmap dd fuel map

/-- Integer square root by binary digits: tries the bits `2^(i-1) .. 2^0` in turn. -/
def isqrtBits (n : Nat) : Nat → Nat → Nat
  | 0, r => r
  | i + 1, r =>
    if (r + 2 ^ i) * (r + 2 ^ i) ≤ n then isqrtBits n i (r + 2 ^ i) else isqrtBits n i r

/-- A fixed-point stand-in for the float score: `g + sqrt d` truncated to 20 binary
digits and scaled by `2 ^ 20`; used to run the searches on concrete grids. -/
def fscoreFix (g d : Nat) : Nat := g * 2 ^ 20 + isqrtBits (d * 2 ^ 40) 32 0

/-! ## Predicates used in the statements -/

/-- The grid is well formed: one tile per cell, dimensions that fit an `int`. -/
def DungeonData.WF (dd : DungeonData) : Prop :=
  dd.tiles.length = dd.width * dd.height ∧ dd.width < 2 ^ 31 ∧ dd.height < 2 ^ 31

/-- The cell lies in `[0, width) x [0, height)`. -/
def InGrid (dd : DungeonData) (p : IVec2) : Prop :=
  0 ≤ p.x ∧ p.x < (dd.width : Int) ∧ 0 ≤ p.y ∧ p.y < (dd.height : Int)

/-- The cell lies in the search bound: `lim_min <= p < lim_max` componentwise. -/
def InLim (lim_min lim_max p : IVec2) : Prop :=
  lim_min.x ≤ p.x ∧ lim_min.y ≤ p.y ∧ p.x < lim_max.x ∧ p.y < lim_max.y

/-- The search bound lies inside the grid. -/
def LimInGrid (dd : DungeonData) (lim_min lim_max : IVec2) : Prop :=
  0 ≤ lim_min.x ∧ 0 ≤ lim_min.y ∧ lim_max.x ≤ (dd.width : Int) ∧ lim_max.y ≤ (dd.height : Int)

/-- The cells differ by exactly one in exactly one coordinate. -/
def Adj (a b : IVec2) : Prop :=
  (a.y = b.y ∧ (b.x = a.x + 1 ∨ b.x = a.x - 1)) ∨ (a.x = b.x ∧ (b.y = a.y + 1 ∨ b.y = a.y - 1))

/-- The tile stored for a cell (`none` outside the tile vector). -/
def tileAt (dd : DungeonData) (p : IVec2) : Option Tile :=
  dd.tiles.get? (coord_to_idx p.x p.y dd.width)

/-- The cell has a tile and it is not a wall. -/
def NonWall (dd : DungeonData) (p : IVec2) : Prop :=
  ∃ t, tileAt dd p = some t ∧ t ≠ Tile.wall

instance (dd : DungeonData) (p : IVec2) : Decidable (InGrid dd p) := by
  unfold InGrid; infer_instance

instance (a b p : IVec2) : Decidable (InLim a b p) := by
  unfold InLim; infer_instance

instance (dd : DungeonData) (a b : IVec2) : Decidable (LimInGrid dd a b) := by
  unfold LimInGrid; infer_instance

instance (a b : IVec2) : Decidable (Adj a b) := by
  unfold Adj; infer_instance

instance (dd : DungeonData) : Decidable dd.WF := by
  unfold DungeonData.WF; infer_instance

instance (dd : DungeonData) (p : IVec2) : Decidable (NonWall dd p) :=
  match h : tileAt dd p with
  | none => isFalse (by rintro ⟨t, ht, _⟩; simp [h] at ht)
  | some Tile.wall => isFalse (by rintro ⟨t, ht, hw⟩; simp [h] at ht; exact hw ht.symm)
  | some Tile.floor => isTrue ⟨Tile.floor, h, by decide⟩

/-! ## Invariants of the grid search -/

section GridSearchInvariants

variable {S : Type} [LinearOrder S] (fscore : Nat → Nat → S)

/-- What holds of the arrays of `find_path_a_star` before every loop iteration. -/
structure AInv (dd : DungeonData) (src lim_min lim_max : IVec2) (st : AStar S) : Prop where
  glen : st.g.length = dd.width * dd.height
  plen : st.prev.length = dd.width * dd.height
  gsrc : getG st dd.width src = some 0
  psrc : st.prev.get? (coord_to_idx src.x src.y dd.width) = some noPrev
  opn : ∀ p ∈ st.openList, InGrid dd p ∧ ∃ k, getG st dd.width p = some k
  reach : ∀ p k, InGrid dd p → p ≠ src → getG st dd.width p = some k →
    ∃ q j, st.prev.get? (coord_to_idx p.x p.y dd.width) = some q ∧ InGrid dd q ∧
      getG st dd.width q = some j ∧ j + 1 ≤ k ∧ Adj q p ∧
      InLim lim_min lim_max p ∧ NonWall dd p

/-- The open list after `checkNeighbour` has accepted the cell `p`. -/
def pushOpen (op : List IVec2) (p : IVec2) : List IVec2 :=
  if p ∈ op then op else op ++ [p]

/-- A path from `src` to `dst`: it starts at `src`, ends at `dst`, consecutive cells are
4-adjacent, and every cell after the first is a non-wall cell inside the bound. -/
def ValidPath (dd : DungeonData) (src dst lim_min lim_max : IVec2) (path : List IVec2) : Prop :=
  path.head? = some src ∧ path.getLast? = some dst ∧ List.Chain' Adj path ∧
    ∀ c ∈ path.tail, NonWall dd c ∧ InLim lim_min lim_max c

end GridSearchInvariants

/-! ## Walks and the optimality of the grid search -/

/-- `Walk dd lim_min lim_max a b n`: `b` is reached from `a` in `n` steps between 4-adjacent
cells, every cell after `a` being a non-wall cell inside the bound. -/
inductive Walk (dd : DungeonData) (lim_min lim_max : IVec2) : IVec2 → IVec2 → Nat → Prop where
  | nil (a : IVec2) : Walk dd lim_min lim_max a a 0
  | snoc {a b c : IVec2} {n : Nat} : Walk dd lim_min lim_max a b n → Adj b c →
      InLim lim_min lim_max c → NonWall dd c → Walk dd lim_min lim_max a c (n + 1)

section Optimality

variable {S : Type} [LinearOrder S] (fscore : Nat → Nat → S)

/-- `a <= b` on stored floats: `b` is not below `a`. -/
def fltLe (a b : Option S) : Prop := fltLt b a = false

/-- The float score orders strictly any two values `g + sqrt d`, with `g` and `d` up to `B`,
that differ by at least one. -/
def ScoreFaithful (fscore : Nat → Nat → S) (B : Nat) : Prop :=
  ∀ g1 d1 g2 d2 : Nat, g1 ≤ B → d1 ≤ B → g2 ≤ B → d2 ≤ B →
    (g1 : ℝ) + Real.sqrt d1 + 1 ≤ (g2 : ℝ) + Real.sqrt d2 → fscore g1 d1 < fscore g2 d2

/-- The part of the optimality invariant that holds throughout an expansion. -/
structure OBase (dd : DungeonData) (src dst lim_min lim_max : IVec2) (st : AStar S) : Prop where
  flen : st.f.length = dd.width * dd.height
  gwalk : ∀ q k, InGrid dd q → getG st dd.width q = some k → Walk dd lim_min lim_max src q k
  fsync : ∀ q, InGrid dd q →
    getF st dd.width q = (getG st dd.width q).map (fun gs => fscore gs (heuristic q dst))
  cgrid : ∀ c ∈ st.closedList, InGrid dd c
  cnodup : st.closedList.Nodup
  gbound : ∀ q k, InGrid dd q → getG st dd.width q = some k → k ≤ st.closedList.length
  copt : ∀ c ∈ st.closedList, ∃ k, getG st dd.width c = some k ∧
    ∀ n, Walk dd lim_min lim_max src c n → k ≤ n
  srcin : src ∈ st.openList ∨ src ∈ st.closedList
  nodst : dst ∉ st.closedList

/-- Every neighbour of the closed cell `c` that passes the tests has a cost at most one
above that of `c` and is open or closed. -/
def Front (dd : DungeonData) (lim_min lim_max : IVec2) (st : AStar S) (c : IVec2) : Prop :=
  ∀ q, Adj c q → InLim lim_min lim_max q → NonWall dd q →
    ∃ kc kq, getG st dd.width c = some kc ∧ getG st dd.width q = some kq ∧ kq ≤ kc + 1 ∧
      (q ∈ st.openList ∨ q ∈ st.closedList)

/-- The neighbour `q` of the cell under expansion, whose cost is `k`, has been handled. -/
def Done (dd : DungeonData) (lim_min lim_max : IVec2) (st : AStar S) (k : Nat) (q : IVec2) :
    Prop :=
  InLim lim_min lim_max q → NonWall dd q →
    ∃ kq, getG st dd.width q = some kq ∧ kq ≤ k + 1 ∧ (q ∈ st.openList ∨ q ∈ st.closedList)

end Optimality

/-! ## Concrete grids -/

/-- A 3x3 grid whose middle column is walled except for the bottom cell. -/
def grid3 : DungeonData :=
  ⟨3, 3, [.floor, .wall, .floor,
          .floor, .wall, .floor,
          .floor, .floor, .floor]⟩

/-- A 20x10 grid whose only floor cells are the 20 cells of the top row. -/
def corridor : DungeonData :=
  ⟨20, 10, List.replicate 20 .floor ++ List.replicate 180 .wall⟩

/-- The portal graph that `prebuild_map` builds on `corridor`. -/
def corridorPortals : DungeonPortals := ⟨10, [⟨9, 0, 10, 0, []⟩], [[0], [0]]⟩

/-- A 30x10 grid: the top row is floor except for a wall at (15,0); all else is wall. -/
def corridor3 : DungeonData :=
  ⟨30, 10, List.replicate 15 .floor ++ [.wall] ++ List.replicate 14 .floor
    ++ List.replicate 270 .wall⟩

/-- The portal graph that `prebuild_map` builds on `corridor3`. -/
def corridor3Portals : DungeonPortals :=
  ⟨10, [⟨9, 0, 10, 0, []⟩, ⟨19, 0, 20, 0, []⟩], [[0], [0, 1], [1]]⟩

/-- The 20x10 grid without walls. -/
def open20 : DungeonData := ⟨20, 10, List.replicate 200 .floor⟩

/-- The portal graph that `prebuild_map` builds on `open20`. -/
def open20Portals : DungeonPortals := ⟨10, [⟨9, 0, 10, 9, []⟩], [[0], [0]]⟩

/-- Tiles of `detour`: floor on the columns 0 and 2 down to row 10 and on the cells
(0,10), (1,10), (2,10) joining them. -/
def detourTile (i : Nat) : Tile :=
  if (i % 10 = 0 ∧ i / 10 ≤ 10) ∨ (i % 10 = 2 ∧ i / 10 ≤ 10) ∨ (i / 10 = 10 ∧ i % 10 ≤ 2)
  then .floor else .wall

/-- A 10x20 grid in which the cells (0,0) and (2,0) are joined only through row 10. -/
def detour : DungeonData := ⟨10, 20, (List.range 200).map detourTile⟩

/-- A grid one cell wide and two cells high, both cells floor. -/
def tall : DungeonData := ⟨1, 2, [.floor, .floor]⟩

/-- The portal graph that `prebuild_map` builds on `detour`. -/
def detourPortals : DungeonPortals :=
  ⟨10, [⟨0, 9, 0, 10, [⟨1, 3⟩]⟩, ⟨2, 9, 2, 10, [⟨0, 3⟩]⟩], [[0, 1], [0, 1]]⟩

/-- The cell `(x, y)` lies in the grid and its tile is `floor`. -/
def floorAt (dd : DungeonData) (x y : Nat) : Prop :=
  x < dd.width ∧ y < dd.height ∧ dd.tiles.get? (y * dd.width + x) = some Tile.floor

/-- The cells `(x, y)` and `(x2, y2)` are 4-adjacent. -/
def NatAdj (x y x2 y2 : Nat) : Prop :=
  (y2 = y ∧ (x2 = x + 1 ∨ x2 + 1 = x)) ∨ (x2 = x ∧ (y2 = y + 1 ∨ y2 + 1 = y))

/-- `SeedReach dd seed x y`: some 4-connected path of floor cells joins `(x, y)` to a floor
cell of the seed set. -/
inductive SeedReach (dd : DungeonData) (seed : Nat → Nat → Prop) : Nat → Nat → Prop where
  | base {x y : Nat} : floorAt dd x y → seed x y → SeedReach dd seed x y
  | step {x y x2 y2 : Nat} : SeedReach dd seed x y → NatAdj x y x2 y2 → floorAt dd x2 y2 →
      SeedReach dd seed x2 y2

/-- Every floor cell that no floor path joins to a seed holds the sentinel. -/
def UnreachedKept (dd : DungeonData) (seed : Nat → Nat → Prop) (map : List ℚ) : Prop :=
  ∀ x y, floorAt dd x y → ¬ SeedReach dd seed x y →
    map.get? (y * dd.width + x) = some invalid_tile_value

/-- A 3x3 grid whose centre floor cell is enclosed by four walls. -/
def enclosed : DungeonData :=
  ⟨3, 3, [.floor, .wall, .floor,
          .wall, .floor, .wall,
          .floor, .wall, .floor]⟩

/-- A grid two cells wide and three cells high, all floor. -/
def tall23 : DungeonData := ⟨2, 3, List.replicate 6 .floor⟩

/-- The cell `(x, y)` lies in the grid and its tile is not a wall. -/
def openAt (dd : DungeonData) (x y : Nat) : Prop :=
  x < dd.width ∧ y < dd.height ∧
    ∃ t, dd.tiles.get? (y * dd.width + x) = some t ∧ t ≠ Tile.wall

/-- Position `i` of a border of the region `(xx, yy)` is open: the border cell and its
neighbour across the border are both non-wall.  For the top border the cells are
`(xx*split + i, yy*split)` and the one above it, for the left border
`(xx*split, yy*split + i)` and the one left of it. -/
def borderOpen (dd : DungeonData) (split xx yy : Nat) (top : Bool) (i : Nat) : Prop :=
  if top then
    openAt dd (xx * split + i) (yy * split) ∧ openAt dd (xx * split + i) (yy * split - 1)
  else
    openAt dd (xx * split) (yy * split + i) ∧ openAt dd (xx * split - 1) (yy * split + i)

/-- `[a, b]` is a maximal contiguous run of positions below `n` at which `op` holds. -/
def IsMaxRun (op : Nat → Prop) (n a b : Nat) : Prop :=
  a ≤ b ∧ b < n ∧ (∀ i, a ≤ i → i ≤ b → op i) ∧ (a = 0 ∨ ¬ op (a - 1)) ∧
    (b + 1 = n ∨ ¬ op (b + 1))

/-- The portal whose rectangle covers the positions `a .. b` of a border on both sides. -/
def runPortal (split xx yy : Nat) (top : Bool) (a b : Nat) : PathPortal :=
  if top then ⟨xx * split + a, yy * split - 1, xx * split + b, yy * split, []⟩
  else ⟨xx * split - 1, yy * split + a, xx * split, yy * split + b, []⟩

/-- One iteration of the loop of `check_border`, given the outcome of its two tile tests. -/
def borderStep (mk : Int → Int → PathPortal) (sc : BorderScan) (i : Nat) (op : Bool) :
    BorderScan :=
  if op then
    { sc with spanFrom := if sc.spanFrom < 0 then toInt32 i else sc.spanFrom
              spanTo := toInt32 i }
  else if sc.spanFrom ≥ 0 then
    { sc with portals := sc.portals ++ [mk sc.spanFrom sc.spanTo], spanFrom := -1 }
  else sc

/-- State of the scan before position `i`: the spans written are the maximal runs that
ended before `i - 1`, in increasing order, and the open span, if any, reaches `i - 1`. -/
structure ScanInv (op : Nat → Prop) (n i : Nat) (mk : Int → Int → PathPortal)
    (pre : List PathPortal) (sc : BorderScan) (spans : List (Nat × Nat)) : Prop where
  ports : sc.portals = pre ++ spans.map (fun s => mk (s.1 : Int) (s.2 : Int))
  mem : ∀ a b, (a, b) ∈ spans ↔ IsMaxRun op n a b ∧ b + 1 < i
  sorted : spans.Pairwise (fun s t => s.2 < t.1)
  cur : (sc.spanFrom < 0 ∧ (i = 0 ∨ ¬ op (i - 1))) ∨
    (∃ a : Nat, sc.spanFrom = (a : Int) ∧ sc.spanTo = ((i - 1 : Nat) : Int) ∧ a + 1 ≤ i ∧
      (∀ j, a ≤ j → j + 1 ≤ i → op j) ∧ (a = 0 ∨ ¬ op (a - 1)))

/-- Index of the region across the top or left border of the region `(x, y)`. -/
def nbrIdx (W x y : Nat) (top : Bool) : Nat :=
  if top then (y - 1) * W + x else y * W + x - 1

/-- What holds of the portal list and the region lists while `prebuild_map` scans the
regions: every stored index is valid, and every portal is the portal of a run on the top
or left border of a region already entered, listed in that region and the one across. -/
structure BInv (split W H : Nat) (b : PortalBuild) : Prop where
  valid : ∀ r l, b.tilePortalsIndices.get? r = some l → ∀ k ∈ l, k < b.portals.length
  geom : ∀ k p, b.portals.get? k = some p →
    ∃ x y top a c, x < W ∧ y < H ∧ (if top then 0 < y else 0 < x) ∧ a ≤ c ∧ c < split ∧
      p = runPortal split x y top a c ∧ y * W + x < b.tilePortalsIndices.length ∧
      ∀ r l, b.tilePortalsIndices.get? r = some l →
        (k ∈ l ↔ (r = y * W + x ∨ r = nbrIdx W x y top))

/-- The cell pairs visited by the four nested loops of the connectivity step of
`prebuild_map` for two portals, in loop order. -/
def portalPairs (p q : PathPortal) (limMin limMax : IVec2) : List (IVec2 × IVec2) :=
  (portalCells p limMin limMax).flatMap (fun a =>
    (portalCells q limMin limMax).map (fun b => (a, b)))

/-- The coordinates of a portal, without its connections. -/
def PathPortal.rect (p : PathPortal) : Nat × Nat × Nat × Nat :=
  (p.startX, p.startY, p.endX, p.endY)

/-- The two `push_back` calls that record an edge of weight `w` between the portals `pi`
and `pj`. -/
def addEdge (ps : List PathPortal) (pi pj w : Nat) : List PathPortal :=
  pushConn (pushConn ps pi ⟨pj, w⟩) pj ⟨pi, w⟩

/-- Bound `limMin` of the region with index `tidx` in the connectivity step. -/
def tileLimMin (splitTiles width tidx : Nat) : IVec2 :=
  ⟨toInt32 (tidx % width * splitTiles % 2 ^ 64), toInt32 (tidx / width * splitTiles % 2 ^ 64)⟩

/-- Bound `limMax` of the region with index `tidx` in the connectivity step. -/
def tileLimMax (splitTiles width tidx : Nat) : IVec2 :=
  ⟨toInt32 ((tidx % width + 1) * splitTiles % 2 ^ 64),
    toInt32 ((tidx / width + 1) * splitTiles % 2 ^ 64)⟩

/-- Every connection has its mirror image: `(j, w)` stored at `i` has `(i, w)` stored
at `j`. -/
def SymConns (ps : List PathPortal) : Prop :=
  ∀ i p, ps.get? i = some p → ∀ c ∈ p.conns,
    ∃ q, ps.get? c.connIdx = some q ∧ (⟨i, c.score⟩ : PortalConnection) ∈ q.conns

/-- Index, in the row-major region list, of the region that holds the cell `(x, y)`. -/
def regionIndex (dd : DungeonData) (split x y : Nat) : Nat :=
  y / split * (dd.width / split) + x / split

/-- The 10x10 grid with every tile a floor tile. -/
def open10 : DungeonData := ⟨10, 10, List.replicate 100 .floor⟩

/-- The portal graph that `prebuild_map` builds on `open10` with regions of 5x5 cells. -/
def open10Portals : DungeonPortals :=
  ⟨5, [⟨4, 0, 5, 4, [⟨1, 1⟩, ⟨2, 1⟩]⟩, ⟨0, 4, 4, 5, [⟨0, 1⟩, ⟨3, 1⟩]⟩,
       ⟨5, 4, 9, 5, [⟨0, 1⟩, ⟨3, 1⟩]⟩, ⟨4, 5, 5, 9, [⟨1, 1⟩, ⟨2, 1⟩]⟩],
    [[0, 1], [0, 2], [1, 3], [2, 3]]⟩

section PairLength

variable {S : Type} [LinearOrder S] (fscore : Nat → Nat → S)

/-- The number `m` is the value of `minDist` after the four nested loops over the cells of
the portals `p` and `q` clipped to the bound have run without setting `noPath`: every pair
got a path from `find_path_a_star` (or is a pair of identical cells), `m` is at most the
number of cells of each of these paths and at most the initial `0xffffffff`, and `m` is one
of these numbers. -/
def MinPairLength (dd : DungeonData) (limMin limMax : IVec2) (p q : PathPortal) (m : Nat) :
    Prop :=
  m ≤ 0xffffffff ∧
  (∀ ab ∈ portalPairs p q limMin limMax, ∃ path,
    find_path_a_star fscore dd ab.1 ab.2 limMin limMax = .ok path ∧
      (path ≠ [] ∨ ab.1 = ab.2) ∧ m ≤ path.length) ∧
  (m = 0xffffffff ∨ ∃ ab ∈ portalPairs p q limMin limMax, ∃ path,
    find_path_a_star fscore dd ab.1 ab.2 limMin limMax = .ok path ∧ m = path.length)

end PairLength

/-- The assignment `map[p.y * dd.width + p.x] = 0` of the seeding loops. -/
def seedAt (dd : DungeonData) (map : List ℚ) (p : IVec2) : Except Fault (List ℚ) :=
  let i := (toSizeT p.y * dd.width + toSizeT p.x) % 2 ^ 64
  if map.length ≤ i then .error .outOfRange else .ok (map.set i 0)

/-- The assignment `seedAt` made for every cell of a list in turn. -/
def seedCells (dd : DungeonData) : List IVec2 → List ℚ → Except Fault (List ℚ)
  | [], map => .ok map
  | p :: rest, map =>
    match seedAt dd map p with
    | .error e => .error e
    | .ok m => seedCells dd rest m

/-- `std::vector::resize(n)` of a vector of floats: the first `n` elements are kept and new
elements are value-initialised. -/
def vecResize (v : List ℚ) (n : Nat) : List ℚ :=
  v.take n ++ List.replicate (n - v.length) 0

/-- `init_tiles(map, dd)` for a vector `map` that holds earlier contents: resized, then
every element overwritten with the sentinel. -/
def init_tiles_from (map : List ℚ) (dd : DungeonData) : List ℚ :=
  (vecResize map (dd.width * dd.height)).map (fun _ => invalid_tile_value)

/-- `dmaps::gen_player_approach_map` for one `DungeonData`, called with an output vector
that holds earlier contents. -/
def gen_player_approach_map_from (prev : List ℚ) (dd : DungeonData) (actors : List Actor)
    (fuel : Nat) : Except Fault (List ℚ) :=
  match seed_players dd actors (init_tiles_from prev dd) with
  | .error e => .error e
  | .ok map => process_dmap dd fuel map

/-- Modelled from the spec: an entity as `gen_ally_map` meets it, with its identity and
its `Position`, `Team` and `Hitpoints` components. -/
structure Ally where
  id : Nat
  pos : IVec2
  team : Int
  hitpoints : ℚ
deriving DecidableEq

/-- The loop `allyQuery.each` of `gen_ally_map`, run inside `e.get` with the team `eteam`
and the hit points `hp` of the requesting entity `e`. -/
def seed_allies (dd : DungeonData) (e : Nat) (eteam : Int) (hp crit_hp : ℚ) :
    List Ally → List ℚ → Except Fault (List ℚ)
  | [], map => .ok map
  | a :: rest, map =>
    if e ≠ a.id ∧ a.team = eteam ∧ hp < crit_hp then
      match seedAt dd map a.pos with
      | .error err => .error err
      | .ok m => seed_allies dd e eteam hp crit_hp rest m
    else seed_allies dd e eteam hp crit_hp rest map

/-- `dmaps::gen_ally_map` for one `DungeonData`: `e.get` runs its callback when the entity
`e` has a `Team` and `Hitpoints`, here when it is one of the listed entities. -/
def gen_ally_map (dd : DungeonData) (actors : List Ally) (e : Nat) (crit_hp : ℚ)
    (fuel : Nat) : Except Fault (List ℚ) :=
  match actors.find? (fun a => a.id = e) with
  | none => process_dmap dd fuel (init_tiles dd)
  | some r =>
    match seed_allies dd e r.team r.hitpoints crit_hp actors (init_tiles dd) with
    | .error err => .error err
    | .ok map => process_dmap dd fuel map

/-- A grid two cells wide and one cell high, both cells floor. -/
def wide : DungeonData := ⟨2, 1, [.floor, .floor]⟩

/-- A 2x2 grid with a wall at (1,0). -/
def walled2 : DungeonData := ⟨2, 2, [.floor, .wall, .floor, .floor]⟩

/-- The 2x2 grid without walls. -/
def open2 : DungeonData := ⟨2, 2, [.floor, .floor, .floor, .floor]⟩

/-- Tiles of `corner`: floor at (9,9), (10,9) and (9,10), wall elsewhere. -/
def cornerTile (i : Nat) : Tile :=
  if i = 9 * 20 + 9 ∨ i = 9 * 20 + 10 ∨ i = 10 * 20 + 9 then .floor else .wall

/-- A 20x20 grid whose only floor cells are the corner cell (9,9) of the upper left region
and its neighbours (10,9) and (9,10) in the regions to the right and below. -/
def corner : DungeonData := ⟨20, 20, (List.range 400).map cornerTile⟩

/-- The portal graph that `prebuild_map` builds on `corner`. -/
def cornerPortals : DungeonPortals :=
  ⟨10, [⟨9, 9, 10, 9, [⟨1, 1⟩]⟩, ⟨9, 9, 9, 10, [⟨0, 1⟩]⟩], [[0, 1], [0], [1], []]⟩

/-- The 15x20 grid without walls; its width is not a multiple of 10. -/
def strip : DungeonData := ⟨15, 20, List.replicate 300 .floor⟩

/-- The portal graph that `prebuild_map` builds on `strip`. -/
def stripPortals : DungeonPortals := ⟨10, [⟨0, 9, 9, 10, []⟩], [[0], [0]]⟩

section GridSearchStats

variable {S : Type} [LinearOrder S] (fscore : Nat → Nat → S)

/-- The `while` loop of `find_path_a_star` with two observations added to the result: the
closed list on exit and the number of times the loop body was entered. -/
def astar_loop_stats (dd : DungeonData) (dst lim_min lim_max : IVec2) :
    Nat → AStar S → Nat → Except Fault (List IVec2 × List IVec2 × Nat)
  | 0, _, _ => .error .outOfFuel
  | fuel + 1, st, n =>
    match st.openList with
    | [] => .ok ([], st.closedList, n)
    | o :: os =>
      let bestIdx := scanBest (getF st dd.width) os 1 0 (getF st dd.width o)
      let curPos := (o :: os).getD bestIdx o
      if curPos = dst then
        match reconstruct_path st.prev dst dd.width with
        | .error e => .error e
        | .ok path => .ok (path, st.closedList, n + 1)
      else
        let st0 : AStar S := { st with openList := (o :: os).eraseIdx bestIdx }
        if curPos ∈ st0.closedList then astar_loop_stats dd dst lim_min lim_max fuel st0 (n + 1)
        else
          let st1 : AStar S := { st0 with closedList := st0.closedList ++ [curPos] }
          match checkNeighbour fscore dd dst lim_min lim_max curPos
              ⟨curPos.x + 1, curPos.y + 0⟩ st1 with
          | .error e => .error e
          | .ok st2 =>
          match checkNeighbour fscore dd dst lim_min lim_max curPos
              ⟨curPos.x - 1, curPos.y + 0⟩ st2 with
          | .error e => .error e
          | .ok st3 =>
          match checkNeighbour fscore dd dst lim_min lim_max curPos
              ⟨curPos.x + 0, curPos.y + 1⟩ st3 with
          | .error e => .error e
          | .ok st4 =>
          match checkNeighbour fscore dd dst lim_min lim_max curPos
              ⟨curPos.x + 0, curPos.y - 1⟩ st4 with
          | .error e => .error e
          | .ok st5 => astar_loop_stats dd dst lim_min lim_max fuel st5 (n + 1)

/-- `find_path_a_star` with the observations of `astar_loop_stats`: the path, the cells
expanded in the order of their expansion, and the number of iterations of the main loop. -/
def find_path_a_star_stats (dd : DungeonData) (src dst lim_min lim_max : IVec2) :
    Except Fault (List IVec2 × List IVec2 × Nat) :=
  if src.x < 0 ∨ src.y < 0 ∨ src.x ≥ toInt32 dd.width ∨ src.y ≥ toInt32 dd.height then
    .ok ([], [], 0)
  else
    astar_loop_stats fscore dd dst lim_min lim_max (astar_fuel dd)
      (astar_init fscore dd src dst) 0

end GridSearchStats

/-- Conversion of a float to `int`, truncating toward zero, as in `int dy = - range`. -/
def truncQ (q : ℚ) : Int := if 0 ≤ q then ⌊q⌋ else ⌈q⌉

/-- The values that `dy` (and `dx`) takes in `for (int dy = - range; dy <= range; dy++)`. -/
def rangeOffsets (range : ℚ) : List Int :=
  (List.range (⌊range⌋ - truncQ (-range) + 1).toNat).map
    (fun (i : Nat) => truncQ (-range) + (i : Int))

/-- One step of the line-of-sight walk: along x when `abs(dpos.x) > abs(dpos.y)`, otherwise
along y, toward the destination. -/
def losStep (dest cur : IVec2) : IVec2 :=
  if (dest.x - cur.x).natAbs > (dest.y - cur.y).natAbs then
    ⟨cur.x + (if dest.x - cur.x > 0 then 1 else -1), cur.y⟩
  else ⟨cur.x, cur.y + (if dest.y - cur.y > 0 then 1 else -1)⟩

/-- The loop `while (destPos != curPos)` of `gen_range_approach_map`: the final value of
`isVisible`. -/
def los_walk (dd : DungeonData) (dest : IVec2) : Nat → IVec2 → Except Fault Bool
  | 0, _ => .error .outOfFuel
  | fuel + 1, cur =>
    if dest = cur then .ok true
    else
      let cur2 := losStep dest cur
      match dd.tiles.get? (coord_to_idx cur2.x cur2.y dd.width) with
      | none => .error .outOfRange
      | some t => if t = Tile.wall then .ok false else los_walk dd dest fuel cur2

/-- The Manhattan distance `abs(a.x - b.x) + abs(a.y - b.y)`. -/
def manhattan (a b : IVec2) : Nat := (a.x - b.x).natAbs + (a.y - b.y).natAbs

/-- Body of the loops over `dy` and `dx` in `gen_range_approach_map` for one actor position
and one pair of offsets. -/
def seed_range_cell (dd : DungeonData) (range : ℚ) (pos : IVec2) (fuel : Nat)
    (d : Int × Int) (map : List ℚ) : Except Fault (List ℚ) :=
  let x := pos.x + d.1
  let y := pos.y + d.2
  if x ≥ 0 ∧ x < toInt32 dd.width ∧ y ≥ 0 ∧ y < toInt32 dd.height then
    match dd.tiles.get? (coord_to_idx x y dd.width) with
    | none => .error .outOfRange
    | some t =>
      if t = Tile.floor then
        match los_walk dd ⟨x, y⟩ fuel pos with
        | .error e => .error e
        | .ok isVisible =>
          if isVisible = true ∧ ((manhattan ⟨x, y⟩ pos : Nat) : ℚ) ≤ range then
            seedAt dd map ⟨x, y⟩
          else .ok map
      else .ok map
  else .ok map

/-- The loops over `dy` and `dx` for one actor, over the listed offset pairs `(dx, dy)`. -/
def seed_range_cells (dd : DungeonData) (range : ℚ) (pos : IVec2) (fuel : Nat) :
    List (Int × Int) → List ℚ → Except Fault (List ℚ)
  | [], map => .ok map
  | d :: rest, map =>
    match seed_range_cell dd range pos fuel d map with
    | .error e => .error e
    | .ok m => seed_range_cells dd range pos fuel rest m

/-- The offset pairs `(dx, dy)` in the order of the loops, `dy` outermost. -/
def rangePairs (range : ℚ) : List (Int × Int) :=
  (rangeOffsets range).flatMap (fun dy => (rangeOffsets range).map (fun dx => (dx, dy)))

/-- The seeding loop of `gen_range_approach_map` over the actors. -/
def seed_range (dd : DungeonData) (range : ℚ) (fuel : Nat) :
    List Actor → List ℚ → Except Fault (List ℚ)
  | [], map => .ok map
  | a :: rest, map =>
    if a.team ≠ 0 then seed_range dd range fuel rest map
    else
      match seed_range_cells dd range a.pos fuel (rangePairs range) map with
      | .error e => .error e
      | .ok m => seed_range dd range fuel rest m

/-- `dmaps::gen_range_approach_map` for one `DungeonData`; `losFuel` bounds the steps of a
line-of-sight walk, `fuel` the passes of the relaxation. -/
def gen_range_approach_map (dd : DungeonData) (actors : List Actor) (range : ℚ)
    (losFuel fuel : Nat) : Except Fault (List ℚ) :=
  match seed_range dd range losFuel actors (init_tiles dd) with
  | .error e => .error e
  | .ok map => process_dmap dd fuel map

/-- The cells the line-of-sight walk from `cur` toward `dest` steps onto in its first `n`
steps. -/
def losPath (dest : IVec2) : Nat → IVec2 → List IVec2
  | 0, _ => []
  | n + 1, cur => if dest = cur then [] else losStep dest cur :: losPath dest n (losStep dest cur)

/-- The line-of-sight walk from `p` to `c` steps onto no wall cell. -/
def LosClear (dd : DungeonData) (p c : IVec2) : Prop :=
  ∀ q ∈ losPath c (manhattan c p) p, tileAt dd q ≠ some Tile.wall

instance (dd : DungeonData) (p c : IVec2) : Decidable (LosClear dd p c) := by
  unfold LosClear; infer_instance

/-- The cell `c` is one that `gen_range_approach_map` is to seed for an actor at `pos`: an
in-grid floor cell within Manhattan distance `range` of the actor whose line-of-sight walk
from the actor steps onto no wall. -/
def RangeSeed (dd : DungeonData) (range : ℚ) (pos c : IVec2) : Prop :=
  InGrid dd c ∧ tileAt dd c = some Tile.floor ∧ LosClear dd pos c ∧
    ((manhattan c pos : Nat) : ℚ) ≤ range

instance (dd : DungeonData) (range : ℚ) (pos c : IVec2) : Decidable (RangeSeed dd range pos c) := by
  unfold RangeSeed; infer_instance

/-- `FloorWalk dd sx sy x y n`: a 4-connected walk of `n` steps through floor cells from
the floor cell `(sx, sy)` to the floor cell `(x, y)`. -/
inductive FloorWalk (dd : DungeonData) : Nat → Nat → Nat → Nat → Nat → Prop where
  | refl {x y : Nat} : floorAt dd x y → FloorWalk dd x y x y 0
  | step {sx sy x y x2 y2 n : Nat} : FloorWalk dd sx sy x y n → NatAdj x y x2 y2 →
      floorAt dd x2 y2 → FloorWalk dd sx sy x2 y2 (n + 1)

/-- Every floor cell of `map` holds a value `t + n`, for a floor walk of `n` steps from a
cell that held `t` in the field `m0`, and no more than the cell held in `m0`. -/
def WalkVals (dd : DungeonData) (m0 map : List ℚ) : Prop :=
  ∀ x y, floorAt dd x y → ∃ v, map.get? (y * dd.width + x) = some v ∧
    (∃ sx sy n t, FloorWalk dd sx sy x y n ∧ m0.get? (sy * dd.width + sx) = some t ∧
      v = t + n) ∧
    (∃ t0, m0.get? (y * dd.width + x) = some t0 ∧ v ≤ t0)

/-- No listed floor cell would be rewritten by the relaxation. -/
def StableAt (dd : DungeonData) (map : List ℚ) (cells : List (Nat × Nat)) : Prop :=
  ∀ c ∈ cells, floorAt dd c.1 c.2 → ∃ v mv, map.get? (c.2 * dd.width + c.1) = some v ∧
    getMinNei dd map c.1 c.2 = .ok mv ∧ ¬ mv < v - 1

/-- The number of values `t + n`, with `t` an entry of `m0` and `n` a natural number, that
lie below `v`. -/
def valRank (m0 : List ℚ) (v : ℚ) : Nat := (m0.map (fun t => ⌈v - t⌉.toNat)).sum

/-- The sum of the ranks of the entries of a field. -/
def fieldRank (m0 map : List ℚ) : Nat := (map.map (valRank m0)).sum

/-- Every cell of the open list is the source or lies in the bound, and every entry of
`prev` is the sentinel, the source or a cell of the bound. -/
def LimInv {S : Type} (src lim_min lim_max : IVec2) (st : AStar S) : Prop :=
  (∀ q ∈ st.openList, q = src ∨ InLim lim_min lim_max q) ∧
    (∀ q ∈ st.prev, q = noPrev ∨ q = src ∨ InLim lim_min lim_max q)

/-- The loop `while (destPos != curPos)` of `gen_range_approach_map` with a record of the
cells whose tile it reads: returns `isVisible` and the cells read, one per iteration, in
order. -/
def los_walk_reads (dd : DungeonData) (dest : IVec2) :
    Nat → IVec2 → Except Fault (Bool × List IVec2)
  | 0, _ => .error .outOfFuel
  | fuel + 1, cur =>
    if dest = cur then .ok (true, [])
    else
      let cur2 := losStep dest cur
      match dd.tiles.get? (coord_to_idx cur2.x cur2.y dd.width) with
      | none => .error .outOfRange
      | some t =>
        if t = Tile.wall then .ok (false, [cur2])
        else
          match los_walk_reads dd dest fuel cur2 with
          | .error e => .error e
          | .ok (v, reads) => .ok (v, cur2 :: reads)

/-- A 20x10 grid: the top row is floor except for a wall at (5,0); all else is wall. -/
def corridorCut : DungeonData :=
  ⟨20, 10, List.replicate 5 .floor ++ [.wall] ++ List.replicate 14 .floor
    ++ List.replicate 180 .wall⟩

/-- The index `i` stands before the index `j` in a region's list: the loops
`for i, for j = i + 1` of the connectivity step handle the pair with `i` as the first
portal. -/
def Before (l : List Nat) (i j : Nat) : Prop :=
  ∃ a b, a < b ∧ l.get? a = some i ∧ l.get? b = some j

/-- Every pair of cells, one of each portal's rectangle clipped to the bound, is a pair of
identical cells or is joined by a path of non-wall cells inside the bound. -/
def AllJoined (dd : DungeonData) (limMin limMax : IVec2) (p q : PathPortal) : Prop :=
  ∀ ab ∈ portalPairs p q limMin limMax,
    ab.1 = ab.2 ∨ ∃ path, ValidPath dd ab.1 ab.2 limMin limMax path

/-- The connection `c` is stored at the portal with index `k`. -/
def HasConn (ps : List PathPortal) (k : Nat) (c : PortalConnection) : Prop :=
  ∃ p, ps.get? k = some p ∧ c ∈ p.conns

/-- The connection `c` stored at `k` is one of the two halves of the edge of weight `w`
between `i` and `j`. -/
def EdgeOf (i j w k : Nat) (c : PortalConnection) : Prop :=
  (k = i ∧ c = ⟨j, w⟩) ∨ (k = j ∧ c = ⟨i, w⟩)

section EdgeScan

variable {S : Type} [LinearOrder S] (fscore : Nat → Nat → S)

/-- The four nested loops for the portals stored at `i` and `j` end with `noPath` unset
and `minDist = m`. -/
def ScanOk (dd : DungeonData) (limMin limMax : IVec2) (ps : List PathPortal)
    (i j m : Nat) : Prop :=
  ∃ p q, ps.get? i = some p ∧ ps.get? j = some q ∧
    scanPairs fscore dd limMin limMax (portalPairs p q limMin limMax) 0xffffffff
      = .ok (false, m)

end EdgeScan

/-- Round to nearest, ties to even: the natural number nearest to the ratio `a / d`. -/
def rneDiv (a d : Nat) : Nat :=
  if 2 * (a % d) < d then a / d
  else if d < 2 * (a % d) then a / d + 1
  else if a / d % 2 = 0 then a / d else a / d + 1

/-- The binary logarithm of `n`, rounded down, for `1 ≤ n < 2 ^ fuel`; 0 for `n = 0`. -/
def ilog2 : Nat → Nat → Nat
  | 0, _ => 0
  | fuel + 1, n => if n < 2 then 0 else ilog2 fuel (n / 2) + 1

/-- The binary32 (`float`) value nearest to the rational `q`, ties to even, as a rational.
Every finite binary32 value is `m * 2 ^ s / 2 ^ 149` with `m ≤ 2 ^ 24`; with
`n = floor (|q| * 2 ^ 149)` the spacing of the values around `q` is `2 ^ s / 2 ^ 149` for
`s = floor (log2 n) - 23`, and `s = 0` below `2 ^ 24` (the subnormal values and the first
binade).  Magnitudes of `2 ^ 128` and above, which overflow in binary32, are rounded in
the same way; the maps never hold them. -/
def f32 (q : ℚ) : ℚ :=
  let a := q.num.natAbs * 2 ^ 149
  let s := ilog2 (a / q.den) (a / q.den) - 23
  let m := rneDiv a (q.den * 2 ^ s)
  if q.num < 0 then mkRat (-((m * 2 ^ s : Nat) : Int)) (2 ^ 149)
  else mkRat ((m * 2 ^ s : Nat) : Int) (2 ^ 149)

/-- The rational `v` is a binary32 value: `|v| = M * 2 ^ t / 2 ^ 149` with `M < 2 ^ 24`. -/
def IsF32 (v : ℚ) : Prop :=
  ∃ M t : Nat, M < 2 ^ 24 ∧ |v| * 2 ^ 149 = (M : ℚ) * 2 ^ t

/-- The rational `v` is a whole multiple of `2 ^ t / 2 ^ 149`. -/
def Mult (t : Nat) (v : ℚ) : Prop := ∃ k : Int, v * 2 ^ 149 = (k : ℚ) * 2 ^ t

/-- The binary32 constant `-1.2f`: the binary32 value nearest to -6/5. -/
def flee_factor : ℚ := -5033165 / 4194304

/-- The loop `for (float &v : map) if (v < invalid_tile_value) v *= -1.2f;` of
`gen_player_flee_map`: the product is rounded to binary32. -/
def flee_scale (map : List ℚ) : List ℚ :=
  map.map (fun v => if v < invalid_tile_value then f32 (v * flee_factor) else v)

/-- One full row-major pass of the `while` loop of `process_dmap` in binary32 arithmetic:
the difference `myVal - 1.f` and the sum `minVal + 1.f` are rounded.  On fields of whole
numbers below `2 ^ 24`, such as the approach field, it is `dmap_pass`. -/
def dmap_pass_f32 (dd : DungeonData) :
    List (Nat × Nat) → List ℚ × Bool → Except Fault (List ℚ × Bool)
  | [], acc => .ok acc
  | (x, y) :: rest, (map, done) =>
    let i := (y * dd.width + x) % 2 ^ 64
    match dd.tiles.get? i with
    | none => .error .outOfRange
    | some t =>
      if t ≠ Tile.floor then dmap_pass_f32 dd rest (map, done)
      else
        match getMapAt dd map x y invalid_tile_value with
        | .error e => .error e
        | .ok myVal =>
          match getMinNei dd map x y with
          | .error e => .error e
          | .ok minVal =>
            if minVal < f32 (myVal - 1) then
              dmap_pass_f32 dd rest (map.set i (f32 (minVal + 1)), false)
            else dmap_pass_f32 dd rest (map, done)

/-- `process_dmap` in binary32 arithmetic: full passes until one leaves `done` set. -/
def process_dmap_f32 (dd : DungeonData) : Nat → List ℚ → Except Fault (List ℚ)
  | 0, _ => .error .outOfFuel
  | fuel + 1, map =>
    match dmap_pass_f32 dd (scanOrder dd) (map, true) with
    | .error e => .error e
    | .ok (map2, done) => if done then .ok map2 else process_dmap_f32 dd fuel map2

/-- `dmaps::gen_player_flee_map` for one `DungeonData`: the approach field, whose values
are whole numbers up to 1e5 and on which the binary32 relaxation is exact, then the scaling
by `-1.2f` and the relaxation in binary32. -/
def gen_player_flee_map (dd : DungeonData) (actors : List Actor) (fuel1 fuel2 : Nat) :
    Except Fault (List ℚ) :=
  match gen_player_approach_map dd actors fuel1 with
  | .error e => .error e
  | .ok map => process_dmap_f32 dd fuel2 (flee_scale map)

/-- No listed floor cell would be rewritten by the binary32 relaxation. -/
def StableF32 (dd : DungeonData) (map : List ℚ) (cells : List (Nat × Nat)) : Prop :=
  ∀ c ∈ cells, floorAt dd c.1 c.2 → ∃ v mv, map.get? (c.2 * dd.width + c.1) = some v ∧
    getMinNei dd map c.1 c.2 = .ok mv ∧ ¬ mv < f32 (v - 1)

/-- The values the flee relaxation can hold at a cell whose approach value is `a`: binary32
values from `-2 ^ 17` on; multiples of `2 ^ -22` where the approach value is below the
sentinel, and the sentinel or multiples of `2 ^ -7` below it where it is the sentinel. -/
def FleeGood (a v : ℚ) : Prop :=
  IsF32 v ∧ -2 ^ 17 ≤ v ∧ (a < invalid_tile_value → Mult 127 v) ∧
    (¬ a < invalid_tile_value →
      v = invalid_tile_value ∨ (Mult 142 v ∧ v < invalid_tile_value))

/-- What the flee relaxation uses of the approach field `A`: at floor cells it holds the
sentinel or a whole number up to 99999, and 4-adjacent floor cells differ by at most 1. -/
def ApproachOK (dd : DungeonData) (A : List ℚ) : Prop :=
  A.length = dd.width * dd.height ∧
  (∀ x y, floorAt dd x y → ∃ a, A.get? (y * dd.width + x) = some a ∧
    (a = invalid_tile_value ∨ ∃ k : Nat, a = k ∧ k ≤ 99999)) ∧
  (∀ x y x2 y2 a a2, floorAt dd x y → floorAt dd x2 y2 → NatAdj x y x2 y2 →
    A.get? (y * dd.width + x) = some a → A.get? (y2 * dd.width + x2) = some a2 →
    a ≤ a2 + 1)

/-- The invariant of the flee relaxation over the approach field `A`. -/
def FleeInv (dd : DungeonData) (A map : List ℚ) : Prop :=
  map.length = dd.width * dd.height ∧ WalkVals dd (flee_scale A) map ∧
  ∀ x y, floorAt dd x y → ∃ a v, A.get? (y * dd.width + x) = some a ∧
    map.get? (y * dd.width + x) = some v ∧ FleeGood a v

/-- Tiles of `tee`: floor on the row 0 and on the column 4 down to row 5. -/
def teeTile (i : Nat) : Tile :=
  if i / 8 = 0 ∨ (i % 8 = 4 ∧ i / 8 ≤ 5) then .floor else .wall

/-- An 8x8 grid: the row 0 is floor, and a dead end leaves it at (4,0) down to (4,5). -/
def tee : DungeonData := ⟨8, 8, (List.range 64).map teeTile⟩

/-- The approach field of `tee` for team-0 actors at (0,0) and (7,0). -/
def teeApproach : List ℚ :=
  (List.range 64).map (fun i =>
    if i / 8 = 0 then ((min (i % 8) (7 - i % 8) : Nat) : ℚ)
    else if i % 8 = 4 ∧ i / 8 ≤ 5 then ((3 + i / 8 : Nat) : ℚ) else 100000)

/-- The flee field of `tee` for team-0 actors at (0,0) and (7,0). -/
def teeFlee : List ℚ :=
  (List.range 64).map (fun i =>
    if i / 8 = 0 ∧ i % 8 ≤ 3 then -((2516583 + 4194304 * (i % 8) : Nat) : ℚ) / 4194304
    else if i / 8 = 0 then -((2411725 - 524288 * (i % 8 - 4) : Nat) : ℚ) / 524288
    else if i % 8 = 4 ∧ i / 8 ≤ 5 then -((2411725 + 524288 * (i / 8) : Nat) : ℚ) / 524288
    else 100000)

/-- Every entry of the field is a whole number between 0 and 1e5. -/
def WholeField (map : List ℚ) : Prop := ∀ v ∈ map, ∃ k : Nat, v = k ∧ k ≤ 100000

/-! ## Lemmas -/

section Proofs

variable {S : Type} [LinearOrder S] (fscore : Nat → Nat → S)

theorem toInt32_of_lt {n : Nat} (h : n < 2 ^ 31) : toInt32 n = (n : Int) := by
  unfold toInt32
  have h1 : n % 2 ^ 32 = n := Nat.mod_eq_of_lt (by omega)
  simp only [h1]
  split
  · rfl
  · omega

theorem toSizeT_of_nonneg {v : Int} (h0 : 0 ≤ v) (h1 : v < 2 ^ 31) : toSizeT v = v.toNat := by
  unfold toSizeT
  rw [Int.emod_eq_of_lt h0 (by omega)]

theorem idx_bound {a b w h : Nat} (ha : a < w) (hb : b < h) : b * w + a < w * h := by
  have : (b + 1) * w ≤ h * w := Nat.mul_le_mul_right w hb
  rw [Nat.mul_comm w h]
  rw [Nat.add_mul] at this
  omega

theorem coord_to_idx_inGrid {dd : DungeonData} (hwf : dd.WF) {p : IVec2} (hp : InGrid dd p) :
    coord_to_idx p.x p.y dd.width = p.y.toNat * dd.width + p.x.toNat := by
  obtain ⟨_, hw, hh⟩ := hwf
  obtain ⟨hx0, hx1, hy0, hy1⟩ := hp
  unfold coord_to_idx
  rw [toSizeT_of_nonneg hx0 (by omega), toSizeT_of_nonneg hy0 (by omega)]
  apply Nat.mod_eq_of_lt
  have h1 : p.y.toNat * dd.width + p.x.toNat < dd.width * dd.height :=
    idx_bound (by omega) (by omega)
  have h2 : dd.width * dd.height ≤ 2 ^ 31 * 2 ^ 31 :=
    Nat.mul_le_mul (by omega) (by omega)
  have h3 : (2 : Nat) ^ 31 * 2 ^ 31 < 2 ^ 64 := by norm_num
  omega

theorem coord_to_idx_lt {dd : DungeonData} (hwf : dd.WF) {p : IVec2} (hp : InGrid dd p) :
    coord_to_idx p.x p.y dd.width < dd.width * dd.height := by
  rw [coord_to_idx_inGrid hwf hp]
  obtain ⟨hx0, hx1, hy0, hy1⟩ := hp
  exact idx_bound (by omega) (by omega)

theorem coord_to_idx_inj {dd : DungeonData} (hwf : dd.WF) {p q : IVec2}
    (hp : InGrid dd p) (hq : InGrid dd q)
    (h : coord_to_idx p.x p.y dd.width = coord_to_idx q.x q.y dd.width) : p = q := by
  rw [coord_to_idx_inGrid hwf hp, coord_to_idx_inGrid hwf hq] at h
  obtain ⟨hx0, hx1, hy0, hy1⟩ := hp
  obtain ⟨qx0, qx1, qy0, qy1⟩ := hq
  have hpx : p.x.toNat < dd.width := by omega
  have hqx : q.x.toNat < dd.width := by omega
  have h1 : (p.y.toNat * dd.width + p.x.toNat) / dd.width
      = (q.y.toNat * dd.width + q.x.toNat) / dd.width := by rw [h]
  have h2 : (p.y.toNat * dd.width + p.x.toNat) % dd.width
      = (q.y.toNat * dd.width + q.x.toNat) % dd.width := by rw [h]
  have hw : 0 < dd.width := by omega
  rw [Nat.mul_comm p.y.toNat, Nat.mul_comm q.y.toNat] at h1 h2
  rw [Nat.mul_add_div hw, Nat.mul_add_div hw, Nat.div_eq_of_lt hpx, Nat.div_eq_of_lt hqx] at h1
  rw [Nat.mul_add_mod, Nat.mul_add_mod, Nat.mod_eq_of_lt hpx, Nat.mod_eq_of_lt hqx] at h2
  cases p; cases q
  simp only [IVec2.mk.injEq]
  simp only at *
  omega

theorem inGrid_of_inLim {dd : DungeonData} {lim_min lim_max p : IVec2}
    (hl : LimInGrid dd lim_min lim_max) (hp : InLim lim_min lim_max p) : InGrid dd p := by
  unfold LimInGrid at hl; unfold InLim at hp; unfold InGrid; omega

theorem Adj.ne {a b : IVec2} (h : Adj a b) : a ≠ b := by
  intro hab; subst hab; unfold Adj at h; omega

theorem gLt_some_iff {a : Nat} {o : Option Nat} :
    gLt (some a) o = true ↔ ∀ b, o = some b → a < b := by
  cases o <;> simp [gLt]

theorem checkNeighbour_inv {dd : DungeonData} (hwf : dd.WF) {src dst lim_min lim_max : IVec2}
    (hlim : LimInGrid dd lim_min lim_max) {st st2 : AStar S} {curPos p : IVec2} {k : Nat}
    (hsrc : InGrid dd src)
    (hinv : AInv dd src lim_min lim_max st) (hcur : InGrid dd curPos)
    (hk : getG st dd.width curPos = some k) (hadj : Adj curPos p)
    (h : checkNeighbour fscore dd dst lim_min lim_max curPos p st = .ok st2) :
    AInv dd src lim_min lim_max st2 ∧ (∃ k2, getG st2 dd.width curPos = some k2) ∧
      st2.closedList = st.closedList := by
  unfold checkNeighbour at h
  split at h
  · cases h; exact ⟨hinv, ⟨k, hk⟩, rfl⟩
  rename_i hl
  have hpl : InLim lim_min lim_max p := by unfold InLim; omega
  have hpg : InGrid dd p := inGrid_of_inLim hlim hpl
  simp only at h
  split at h
  · cases h
  rename_i t ht
  split at h
  · cases h; exact ⟨hinv, ⟨k, hk⟩, rfl⟩
  rename_i hnw
  split at h
  · cases h
  have hnwp : NonWall dd p := ⟨t, ht, hnw⟩
  have hne : coord_to_idx curPos.x curPos.y dd.width ≠ coord_to_idx p.x p.y dd.width :=
    fun e => hadj.ne (coord_to_idx_inj hwf hcur hpg e)
  have hplt : coord_to_idx p.x p.y dd.width < st.g.length := by
    rw [hinv.glen]; exact coord_to_idx_lt hwf hpg
  -- the state after the relaxation step
  have key : ∀ st1 : AStar S,
      st1 = (if gLt ((getG st dd.width curPos).map (· + 1)) (getG st dd.width p) then
            { st with
              prev := st.prev.set (coord_to_idx p.x p.y dd.width) curPos
              g := st.g.set (coord_to_idx p.x p.y dd.width) ((getG st dd.width curPos).map (· + 1))
              f := st.f.set (coord_to_idx p.x p.y dd.width)
                (((getG st dd.width curPos).map (· + 1)).map
                  (fun gs => fscore gs (heuristic p dst))) }
          else st) →
      (AInv dd src lim_min lim_max { st1 with openList := st.openList } ∧
        (∃ k2, getG st1 dd.width curPos = some k2) ∧ st1.closedList = st.closedList ∧
        st1.openList = st.openList ∧ ∃ kp, getG st1 dd.width p = some kp) := by
    intro st1 hst1
    by_cases hlt : gLt ((getG st dd.width curPos).map (· + 1)) (getG st dd.width p) = true
    · rw [if_pos hlt] at hst1
      rw [hk] at hlt hst1
      simp only [Option.map_some'] at hlt hst1
      rw [gLt_some_iff] at hlt
      have hpsrc : p ≠ src := by
        intro e; rw [e] at hlt
        have := hlt 0 hinv.gsrc
        omega
      have hgset : ∀ q : IVec2, getG st1 dd.width q =
          if coord_to_idx p.x p.y dd.width = coord_to_idx q.x q.y dd.width then some (k + 1)
          else getG st dd.width q := by
        intro q
        subst hst1
        simp only [getG, List.get?_eq_getElem?, List.getElem?_set, hplt, if_true]
        split <;> simp
      have hpset : ∀ q : IVec2, st1.prev.get? (coord_to_idx q.x q.y dd.width) =
          if coord_to_idx p.x p.y dd.width = coord_to_idx q.x q.y dd.width then some curPos
          else st.prev.get? (coord_to_idx q.x q.y dd.width) := by
        intro q
        subst hst1
        have : coord_to_idx p.x p.y dd.width < st.prev.length := by
          rw [hinv.plen]; exact coord_to_idx_lt hwf hpg
        simp only [List.get?_eq_getElem?, List.getElem?_set, this, if_true]
      have hmono : ∀ q j, getG st dd.width q = some j →
          ∃ j2, getG st1 dd.width q = some j2 ∧ j2 ≤ j := by
        intro q j hq
        rw [hgset q]
        split
        · rename_i e
          refine ⟨k + 1, rfl, ?_⟩
          have : getG st dd.width q = getG st dd.width p := by
            simp only [getG, e]
          rw [this] at hq
          exact Nat.le_of_lt (hlt j hq)
        · exact ⟨j, hq, le_refl _⟩
      refine ⟨?_, ?_, by subst hst1; rfl, by subst hst1; rfl, ?_⟩
      · constructor
        · subst hst1; simp [hinv.glen]
        · subst hst1; simp [hinv.plen]
        · change getG st1 dd.width src = some 0
          obtain ⟨j2, h1, h2⟩ := hmono src 0 hinv.gsrc
          rw [h1]; congr; omega
        · change st1.prev.get? (coord_to_idx src.x src.y dd.width) = some noPrev
          rw [hpset src]
          split
          · rename_i e
            exact absurd (coord_to_idx_inj hwf hpg hsrc e) hpsrc
          · exact hinv.psrc
        · intro q hq
          obtain ⟨hqg, j, hj⟩ := hinv.opn q hq
          obtain ⟨j2, h1, _⟩ := hmono q j hj
          exact ⟨hqg, j2, h1⟩
        · intro q j hqg hqs hqj
          change getG st1 dd.width q = some j at hqj
          change ∃ q2 j2, st1.prev.get? (coord_to_idx q.x q.y dd.width) = some q2 ∧
            InGrid dd q2 ∧ getG st1 dd.width q2 = some j2 ∧ j2 + 1 ≤ j ∧ Adj q2 q ∧
            InLim lim_min lim_max q ∧ NonWall dd q
          rw [hpset q]
          rw [hgset q] at hqj
          split
          · rename_i e
            rw [if_pos e] at hqj
            have hqp : p = q := coord_to_idx_inj hwf hpg hqg e
            subst hqp
            obtain ⟨k2, hk2, hle⟩ := hmono curPos k hk
            refine ⟨curPos, k2, rfl, hcur, hk2, ?_, hadj, hpl, hnwp⟩
            cases hqj; omega
          · rename_i e
            rw [if_neg e] at hqj
            obtain ⟨q2, j2, h1, h2, h3, h4, h5⟩ := hinv.reach q j hqg hqs hqj
            obtain ⟨j3, h6, h7⟩ := hmono q2 j2 h3
            exact ⟨q2, j3, h1, h2, h6, by omega, h5⟩
      · rw [hgset curPos, if_neg (Ne.symm hne)]; exact ⟨k, hk⟩
      · rw [hgset p, if_pos rfl]; exact ⟨_, rfl⟩
    · rw [if_neg hlt] at hst1
      rw [hst1]
      refine ⟨hinv, ⟨k, hk⟩, rfl, rfl, ?_⟩
      rw [hk] at hlt
      simp only [Option.map_some'] at hlt
      cases hgp : getG st dd.width p with
      | none => rw [hgp] at hlt; simp [gLt] at hlt
      | some kp => exact ⟨kp, rfl⟩
  obtain ⟨st1, hst1⟩ : ∃ st1 : AStar S, st1 =
      (if gLt ((getG st dd.width curPos).map (· + 1)) (getG st dd.width p) then
            { st with
              prev := st.prev.set (coord_to_idx p.x p.y dd.width) curPos
              g := st.g.set (coord_to_idx p.x p.y dd.width) ((getG st dd.width curPos).map (· + 1))
              f := st.f.set (coord_to_idx p.x p.y dd.width)
                (((getG st dd.width curPos).map (· + 1)).map
                  (fun gs => fscore gs (heuristic p dst))) }
          else st) := ⟨_, rfl⟩
  obtain ⟨h1, h2, h3, h4, h5⟩ := key st1 hst1
  rw [← hst1] at h
  split at h
  · cases h
    refine ⟨?_, h2, h3⟩
    rw [← h4] at h1
    exact h1
  · cases h
    refine ⟨?_, h2, h3⟩
    constructor
    · exact h1.glen
    · exact h1.plen
    · exact h1.gsrc
    · exact h1.psrc
    · intro q hq
      simp only [List.mem_append, List.mem_singleton] at hq
      rcases hq with hq | hq
      · rw [h4] at hq; exact h1.opn q hq
      · subst hq; exact ⟨hpg, h5⟩
    · exact h1.reach

/-- The three outcomes of `checkNeighbour` when the bound lies inside the grid: the cell is
rejected, it is accepted without relaxation, or it is accepted and relaxed. -/
theorem checkNeighbour_cases {dd : DungeonData} (hwf : dd.WF) (dst : IVec2)
    {lim_min lim_max : IVec2} (hlim : LimInGrid dd lim_min lim_max) (st : AStar S) (curPos p : IVec2) (k : Nat)
    (hglen : st.g.length = dd.width * dd.height)
    (hk : getG st dd.width curPos = some k) :
    ((¬ InLim lim_min lim_max p ∨ ¬ NonWall dd p) ∧
      checkNeighbour fscore dd dst lim_min lim_max curPos p st = .ok st) ∨
    (InLim lim_min lim_max p ∧ NonWall dd p ∧ gLt (some (k + 1)) (getG st dd.width p) = false ∧
      checkNeighbour fscore dd dst lim_min lim_max curPos p st =
        .ok { st with openList := pushOpen st.openList p }) ∨
    (InLim lim_min lim_max p ∧ NonWall dd p ∧ gLt (some (k + 1)) (getG st dd.width p) = true ∧
      checkNeighbour fscore dd dst lim_min lim_max curPos p st =
        .ok { g := st.g.set (coord_to_idx p.x p.y dd.width) (some (k + 1))
              f := st.f.set (coord_to_idx p.x p.y dd.width)
                (some (fscore (k + 1) (heuristic p dst)))
              prev := st.prev.set (coord_to_idx p.x p.y dd.width) curPos
              openList := pushOpen st.openList p
              closedList := st.closedList }) := by
  by_cases hl : InLim lim_min lim_max p
  swap
  · left
    refine ⟨Or.inl hl, ?_⟩
    unfold checkNeighbour
    rw [if_pos]
    unfold InLim at hl; omega
  have hpg : InGrid dd p := inGrid_of_inLim hlim hl
  have hlt := coord_to_idx_lt hwf hpg
  have hc : ¬ (p.x < lim_min.x ∨ p.y < lim_min.y ∨ p.x ≥ lim_max.x ∨ p.y ≥ lim_max.y) := by
    unfold InLim at hl; omega
  obtain ⟨t, ht⟩ : ∃ t, dd.tiles.get? (coord_to_idx p.x p.y dd.width) = some t := by
    rw [List.get?_eq_getElem?]
    have : coord_to_idx p.x p.y dd.width < dd.tiles.length := by rw [hwf.1]; exact hlt
    exact ⟨_, List.getElem?_eq_getElem this⟩
  by_cases hw : t = Tile.wall
  · left
    refine ⟨Or.inr ?_, ?_⟩
    · rintro ⟨t2, ht2, hn⟩
      unfold tileAt at ht2
      rw [ht] at ht2
      cases ht2
      exact hn hw
    · unfold checkNeighbour
      rw [if_neg hc]
      simp only [ht, hw, if_true]
  have hnw : NonWall dd p := ⟨t, ht, hw⟩
  right
  have hg : ¬ st.g.length ≤ coord_to_idx p.x p.y dd.width := by rw [hglen]; omega
  cases hgl : gLt (some (k + 1)) (getG st dd.width p) with
  | false =>
    left
    refine ⟨hl, hnw, rfl, ?_⟩
    unfold checkNeighbour
    rw [if_neg hc]
    simp only [ht, hw, if_false, hg, hk, Option.map_some', hgl, pushOpen, Bool.false_eq_true]
    split <;> rfl
  | true =>
    right
    refine ⟨hl, hnw, rfl, ?_⟩
    unfold checkNeighbour
    rw [if_neg hc]
    simp only [ht, hw, if_false, hg, hk, Option.map_some', hgl, pushOpen, if_true]
    split <;> rfl

theorem getG_of_set {st st2 : AStar S} {i v : Nat} (w : Nat)
    (h : st2.g = st.g.set i (some v)) (hi : i < st.g.length) (q : IVec2) :
    getG st2 w q = if i = coord_to_idx q.x q.y w then some v else getG st w q := by
  simp only [getG, h, List.get?_eq_getElem?, List.getElem?_set, hi, if_true]
  split <;> simp

theorem pushOpen_length (op : List IVec2) (p : IVec2) :
    (pushOpen op p).length ≤ op.length + 1 := by
  unfold pushOpen; split <;> simp

theorem mem_pushOpen {op : List IVec2} {p q : IVec2} :
    q ∈ pushOpen op p ↔ q ∈ op ∨ q = p := by
  unfold pushOpen
  split
  · constructor
    · exact Or.inl
    · rintro (h | h)
      · exact h
      · subst h; assumption
  · simp

/-- One call of `checkNeighbour` never faults when the bound lies inside the grid; it keeps
the invariant, the cost of the expanded cell, the closed list and any bound `B` on the
stored costs that exceeds the cost of the expanded cell, and adds at most one open cell. -/
theorem checkNeighbour_step {dd : DungeonData} (hwf : dd.WF) (dst : IVec2)
    {src lim_min lim_max : IVec2}
    (hlim : LimInGrid dd lim_min lim_max) {st : AStar S} {curPos p : IVec2} {k B : Nat}
    (hsrc : InGrid dd src)
    (hinv : AInv dd src lim_min lim_max st) (hcur : InGrid dd curPos)
    (hk : getG st dd.width curPos = some k) (hadj : Adj curPos p) (hkB : k + 1 ≤ B)
    (hB : ∀ q j, InGrid dd q → getG st dd.width q = some j → j ≤ B) :
    ∃ st2, checkNeighbour fscore dd dst lim_min lim_max curPos p st = .ok st2 ∧
      AInv dd src lim_min lim_max st2 ∧ getG st2 dd.width curPos = some k ∧
      st2.closedList = st.closedList ∧ st2.openList.length ≤ st.openList.length + 1 ∧
      (∀ q j, InGrid dd q → getG st2 dd.width q = some j → j ≤ B) := by
  rcases checkNeighbour_cases fscore hwf dst hlim st curPos p k hinv.glen hk with
    ⟨_, h⟩ | ⟨_, _, _, h⟩ | ⟨hl, _, _, h⟩
  · exact ⟨st, h, hinv, hk, rfl, Nat.le_succ _, hB⟩
  · refine ⟨_, h, (checkNeighbour_inv fscore hwf hlim hsrc hinv hcur hk hadj h).1, hk, rfl,
      pushOpen_length _ _, hB⟩
  · refine ⟨_, h, (checkNeighbour_inv fscore hwf hlim hsrc hinv hcur hk hadj h).1, ?_, rfl,
      pushOpen_length _ _, ?_⟩
    · have hpg := inGrid_of_inLim hlim hl
      have hlt : coord_to_idx p.x p.y dd.width < st.g.length := by
        rw [hinv.glen]; exact coord_to_idx_lt hwf hpg
      rw [getG_of_set dd.width rfl hlt, if_neg]
      · exact hk
      · exact fun e => hadj.ne (coord_to_idx_inj hwf hcur hpg e.symm)
    · intro q j hq hj
      have hpg := inGrid_of_inLim hlim hl
      have hlt : coord_to_idx p.x p.y dd.width < st.g.length := by
        rw [hinv.glen]; exact coord_to_idx_lt hwf hpg
      rw [getG_of_set dd.width rfl hlt] at hj
      split at hj
      · cases hj; exact hkB
      · exact hB q j hq hj

theorem noPrev_not_inGrid (dd : DungeonData) : ¬ InGrid dd noPrev := by
  unfold InGrid noPrev; simp

theorem reconstruct_loop_valid {dd : DungeonData} {src dst lim_min lim_max : IVec2}
    {st : AStar S} (hinv : AInv dd src lim_min lim_max st) {path : List IVec2} :
    ∀ (fuel : Nat) (cur : IVec2) (rest : List IVec2) (k : Nat), InGrid dd cur →
      getG st dd.width cur = some k → List.Chain' Adj (cur :: rest) →
      (∀ c ∈ rest, NonWall dd c ∧ InLim lim_min lim_max c) →
      (cur :: rest).getLast? = some dst →
      reconstruct_loop st.prev dd.width fuel cur (cur :: rest) = .ok path →
      ValidPath dd src dst lim_min lim_max path := by
  intro fuel
  induction fuel with
  | zero => intro cur rest k _ _ _ _ _ h; simp [reconstruct_loop] at h
  | succ n ih =>
    intro cur rest k hcur hk hch hgood hlast h
    unfold reconstruct_loop at h
    by_cases hcs : cur = src
    · subst hcs
      rw [hinv.psrc] at h
      simp only [ne_eq, not_true_eq_false, if_false] at h
      cases h
      exact ⟨rfl, hlast, hch, hgood⟩
    · obtain ⟨q, j, hq, hqg, hqj, _, hadj, hl, hnw⟩ := hinv.reach cur k hcur hcs hk
      rw [hq] at h
      have hqn : q ≠ noPrev := fun e => noPrev_not_inGrid dd (e ▸ hqg)
      simp only [ne_eq, hqn, not_false_eq_true, if_true] at h
      refine ih q (cur :: rest) j hqg hqj (List.Chain'.cons hadj hch) ?_ ?_ h
      · intro c hc
        rcases List.mem_cons.mp hc with e | e
        · subst e; exact ⟨hnw, hl⟩
        · exact hgood c e
      · rw [List.getLast?_cons_cons]; exact hlast

theorem AInv.of_open {dd : DungeonData} {src lim_min lim_max : IVec2} {st : AStar S}
    (hinv : AInv dd src lim_min lim_max st) (op cl : List IVec2)
    (hsub : ∀ p ∈ op, p ∈ st.openList) :
    AInv dd src lim_min lim_max { st with openList := op, closedList := cl } :=
  ⟨hinv.glen, hinv.plen, hinv.gsrc, hinv.psrc, fun p hp => hinv.opn p (hsub p hp), hinv.reach⟩

theorem getD_mem_cons {α : Type} (o : α) (os : List α) (i : Nat) :
    (o :: os).getD i o ∈ o :: os := by
  rw [List.getD_eq_getElem?_getD]
  cases h : (o :: os)[i]? with
  | none => simp
  | some a => simpa using List.getElem?_mem h

theorem astar_loop_valid {dd : DungeonData} (hwf : dd.WF) {src dst lim_min lim_max : IVec2}
    (hlim : LimInGrid dd lim_min lim_max) (hsrc : InGrid dd src) {path : List IVec2} :
    ∀ (fuel : Nat) (st : AStar S), AInv dd src lim_min lim_max st →
      astar_loop fscore dd dst lim_min lim_max fuel st = .ok path → path ≠ [] →
      ValidPath dd src dst lim_min lim_max path := by
  intro fuel
  induction fuel with
  | zero => intro st _ h; simp [astar_loop] at h
  | succ n ih =>
    intro st hinv h hne
    unfold astar_loop at h
    split at h
    · cases h; exact absurd rfl hne
    rename_i o os hopen
    simp only at h
    have hmem : (o :: os).getD (scanBest (getF st dd.width) os 1 0 (getF st dd.width o)) o
        ∈ st.openList := by rw [hopen]; exact getD_mem_cons _ _ _
    have hsub : ∀ p ∈ (o :: os).eraseIdx
        (scanBest (getF st dd.width) os 1 0 (getF st dd.width o)), p ∈ st.openList := by
      intro p hp; rw [hopen]; exact List.mem_of_mem_eraseIdx hp
    generalize (o :: os).getD (scanBest (getF st dd.width) os 1 0 (getF st dd.width o)) o
      = cur at h hmem
    generalize (o :: os).eraseIdx (scanBest (getF st dd.width) os 1 0 (getF st dd.width o))
      = op2 at h hsub
    obtain ⟨hcg, k, hk⟩ := hinv.opn cur hmem
    split at h
    · rename_i hcd
      subst hcd
      exact reconstruct_loop_valid hinv _ cur [] k hcg hk (List.chain'_singleton _)
        (by simp) rfl h
    split at h
    · exact ih _ (hinv.of_open op2 _ hsub) h hne
    have hinv1 := hinv.of_open op2 (st.closedList ++ [cur]) hsub
    have hk1 : getG ({ st with openList := op2, closedList := st.closedList ++ [cur] } : AStar S)
        dd.width cur = some k := hk
    revert h
    generalize ({ st with openList := op2, closedList := st.closedList ++ [cur] } : AStar S)
      = st1 at hinv1 hk1
    intro h
    split at h
    · cases h
    rename_i st2 h2
    obtain ⟨hinv2, ⟨k2, hk2⟩, _⟩ := checkNeighbour_inv fscore hwf hlim hsrc hinv1 hcg hk1
      (by unfold Adj; simp) h2
    split at h
    · cases h
    rename_i st3 h3
    obtain ⟨hinv3, ⟨k3, hk3⟩, _⟩ := checkNeighbour_inv fscore hwf hlim hsrc hinv2 hcg hk2
      (by unfold Adj; simp) h3
    split at h
    · cases h
    rename_i st4 h4
    obtain ⟨hinv4, ⟨k4, hk4⟩, _⟩ := checkNeighbour_inv fscore hwf hlim hsrc hinv3 hcg hk3
      (by unfold Adj; simp) h4
    split at h
    · cases h
    rename_i st5 h5
    obtain ⟨hinv5, _, _⟩ := checkNeighbour_inv fscore hwf hlim hsrc hinv4 hcg hk4
      (by unfold Adj; simp) h5
    exact ih st5 hinv5 h hne

theorem scanBest_lt (getF : IVec2 → Option S) :
    ∀ (ps : List IVec2) (i b : Nat) (s : Option S), b < i →
      scanBest getF ps i b s < i + ps.length := by
  intro ps
  induction ps with
  | nil => intro i b s h; simpa [scanBest] using h
  | cons p ps ih =>
    intro i b s h
    unfold scanBest
    split
    · have := ih (i + 1) i (getF p) (Nat.lt_succ_self i)
      simp only [List.length_cons]; omega
    · have := ih (i + 1) b s (Nat.lt_succ_of_lt h)
      simp only [List.length_cons]; omega

theorem closed_length_le {dd : DungeonData} (hwf : dd.WF) (cl : List IVec2)
    (hnd : cl.Nodup) (hg : ∀ c ∈ cl, InGrid dd c) : cl.length ≤ dd.width * dd.height := by
  have hnd2 : (cl.map (fun c => coord_to_idx c.x c.y dd.width)).Nodup := by
    rw [List.nodup_map_iff_inj_on hnd]
    intro a ha b hb e
    exact coord_to_idx_inj hwf (hg a ha) (hg b hb) e
  have hsub : (cl.map (fun c => coord_to_idx c.x c.y dd.width)).toFinset
      ⊆ Finset.range (dd.width * dd.height) := by
    intro i hi
    simp only [List.mem_toFinset, List.mem_map] at hi
    obtain ⟨c, hc, rfl⟩ := hi
    exact Finset.mem_range.mpr (coord_to_idx_lt hwf (hg c hc))
  have := Finset.card_le_card hsub
  rw [List.toFinset_card_of_nodup hnd2, Finset.card_range, List.length_map] at this
  exact this

theorem reconstruct_loop_total {dd : DungeonData} {src lim_min lim_max : IVec2}
    {st : AStar S} (hinv : AInv dd src lim_min lim_max st) :
    ∀ (fuel : Nat) (cur : IVec2) (res : List IVec2) (k : Nat), InGrid dd cur →
      getG st dd.width cur = some k → k < fuel →
      ∃ path, reconstruct_loop st.prev dd.width fuel cur res = .ok path := by
  intro fuel
  induction fuel with
  | zero => intro cur res k _ _ h; omega
  | succ n ih =>
    intro cur res k hcur hk hlt
    unfold reconstruct_loop
    by_cases hcs : cur = src
    · subst hcs
      rw [hinv.psrc]
      simp
    · obtain ⟨q, j, hq, hqg, hqj, hjk, _⟩ := hinv.reach cur k hcur hcs hk
      rw [hq]
      have hqn : q ≠ noPrev := fun e => noPrev_not_inGrid dd (e ▸ hqg)
      simp only [ne_eq, hqn, not_false_eq_true, if_true]
      exact ih q (q :: res) j hqg hqj (by omega)

theorem astar_loop_total {dd : DungeonData} (hwf : dd.WF) {src dst lim_min lim_max : IVec2}
    (hlim : LimInGrid dd lim_min lim_max) (hsrc : InGrid dd src) :
    ∀ (fuel : Nat) (st : AStar S), AInv dd src lim_min lim_max st →
      st.closedList.Nodup → (∀ c ∈ st.closedList, InGrid dd c) →
      (∀ q j, InGrid dd q → getG st dd.width q = some j → j ≤ st.closedList.length) →
      st.openList.length + 1 + 4 * (dd.width * dd.height - st.closedList.length) ≤ fuel →
      ∃ path, astar_loop fscore dd dst lim_min lim_max fuel st = .ok path := by
  intro fuel
  induction fuel with
  | zero => intro st _ _ _ _ h; omega
  | succ n ih =>
    intro st hinv hnd hcg hB hfuel
    unfold astar_loop
    split
    · exact ⟨[], rfl⟩
    rename_i o os hopen
    simp only
    have hmem : (o :: os).getD (scanBest (getF st dd.width) os 1 0 (getF st dd.width o)) o
        ∈ st.openList := by rw [hopen]; exact getD_mem_cons _ _ _
    have hsub : ∀ p ∈ (o :: os).eraseIdx
        (scanBest (getF st dd.width) os 1 0 (getF st dd.width o)), p ∈ st.openList := by
      intro p hp; rw [hopen]; exact List.mem_of_mem_eraseIdx hp
    have hlen : ((o :: os).eraseIdx
        (scanBest (getF st dd.width) os 1 0 (getF st dd.width o))).length + 1
          = st.openList.length := by
      have := scanBest_lt (getF st dd.width) os 1 0 (getF st dd.width o) (by omega)
      rw [List.length_eraseIdx, hopen, if_pos (by simp only [List.length_cons]; omega)]
      simp
    generalize (o :: os).getD (scanBest (getF st dd.width) os 1 0 (getF st dd.width o)) o
      = cur at hmem
    generalize (o :: os).eraseIdx (scanBest (getF st dd.width) os 1 0 (getF st dd.width o))
      = op2 at hsub hlen
    obtain ⟨hcur, k, hk⟩ := hinv.opn cur hmem
    have hNle := closed_length_le hwf st.closedList hnd hcg
    split
    · rename_i hcd
      subst hcd
      exact reconstruct_loop_total hinv _ cur [cur] k hcur hk
        (by rw [hinv.plen]; have := hB cur k hcur hk; omega)
    split
    · exact ih _ (hinv.of_open op2 _ hsub) hnd hcg hB (by simp only; omega)
    rename_i hncl
    have hnd1 : (st.closedList ++ [cur]).Nodup := by
      rw [List.nodup_append]
      refine ⟨hnd, List.nodup_singleton _, ?_⟩
      intro a ha hb
      rw [List.mem_singleton] at hb
      subst hb
      exact hncl ha
    have hcg1 : ∀ c ∈ st.closedList ++ [cur], InGrid dd c := by
      intro c hc
      rcases List.mem_append.mp hc with h | h
      · exact hcg c h
      · rw [List.mem_singleton] at h; subst h; exact hcur
    have hNle1 := closed_length_le hwf _ hnd1 hcg1
    rw [List.length_append, List.length_singleton] at hNle1
    have hkB : k + 1 ≤ st.closedList.length + 1 := by have := hB cur k hcur hk; omega
    have hB0 : ∀ q j, InGrid dd q → getG st dd.width q = some j →
        j ≤ st.closedList.length + 1 := fun q j hq hj => Nat.le_succ_of_le (hB q j hq hj)
    have hinv1 := hinv.of_open op2 (st.closedList ++ [cur]) hsub
    obtain ⟨st2, e2, hinv2, hk2, hc2, hl2, hB2⟩ := checkNeighbour_step fscore hwf dst
      (p := ⟨cur.x + 1, cur.y + 0⟩) hlim hsrc hinv1 hcur hk (by unfold Adj; simp) hkB hB0
    obtain ⟨st3, e3, hinv3, hk3, hc3, hl3, hB3⟩ := checkNeighbour_step fscore hwf dst
      (p := ⟨cur.x - 1, cur.y + 0⟩) hlim hsrc hinv2 hcur hk2 (by unfold Adj; simp) hkB hB2
    obtain ⟨st4, e4, hinv4, hk4, hc4, hl4, hB4⟩ := checkNeighbour_step fscore hwf dst
      (p := ⟨cur.x + 0, cur.y + 1⟩) hlim hsrc hinv3 hcur hk3 (by unfold Adj; simp) hkB hB3
    obtain ⟨st5, e5, hinv5, hk5, hc5, hl5, hB5⟩ := checkNeighbour_step fscore hwf dst
      (p := ⟨cur.x + 0, cur.y - 1⟩) hlim hsrc hinv4 hcur hk4 (by unfold Adj; simp) hkB hB4
    rw [e2]; simp only
    rw [e3]; simp only
    rw [e4]; simp only
    rw [e5]; simp only
    have hc5' : st5.closedList = st.closedList ++ [cur] := by rw [hc5, hc4, hc3, hc2]
    refine ih st5 hinv5 (hc5' ▸ hnd1) (hc5' ▸ hcg1) ?_ ?_
    · intro q j hq hj
      rw [hc5', List.length_append, List.length_singleton]
      exact hB5 q j hq hj
    · rw [hc5', List.length_append, List.length_singleton]
      simp only at hl2
      omega

theorem astar_init_inv {dd : DungeonData} (hwf : dd.WF) {src dst lim_min lim_max : IVec2}
    (hsrc : InGrid dd src) :
    AInv dd src lim_min lim_max (astar_init fscore dd src dst) := by
  have hlt := coord_to_idx_lt hwf hsrc
  constructor
  · simp [astar_init]
  · simp [astar_init]
  · simp [astar_init, getG, List.getElem?_set, hlt]
  · simp [astar_init, List.getElem?_replicate, hlt]
  · intro p hp
    simp only [astar_init, List.mem_singleton] at hp
    subst hp
    exact ⟨hsrc, 0, by simp [astar_init, getG, List.getElem?_set, hlt]⟩
  · intro p k hp hps hk
    exfalso
    have hne : coord_to_idx src.x src.y dd.width ≠ coord_to_idx p.x p.y dd.width :=
      fun e => hps (coord_to_idx_inj hwf hsrc hp e).symm
    have hpl := coord_to_idx_lt hwf hp
    simp [astar_init, getG, List.getElem?_set, hne, List.getElem?_replicate, hpl] at hk

theorem find_path_a_star_inGrid {dd : DungeonData} (hwf : dd.WF)
    {src dst lim_min lim_max : IVec2} {path : List IVec2}
    (h : find_path_a_star fscore dd src dst lim_min lim_max = .ok path) (hne : path ≠ []) :
    InGrid dd src ∧ astar_loop fscore dd dst lim_min lim_max (astar_fuel dd)
      (astar_init fscore dd src dst) = .ok path := by
  unfold find_path_a_star at h
  rw [toInt32_of_lt hwf.2.1, toInt32_of_lt hwf.2.2] at h
  split at h
  · cases h; exact absurd rfl hne
  · refine ⟨?_, h⟩
    unfold InGrid; omega

theorem find_path_a_star_validPath {dd : DungeonData} (hwf : dd.WF)
    {src dst lim_min lim_max : IVec2} (hlim : LimInGrid dd lim_min lim_max)
    {path : List IVec2}
    (h : find_path_a_star fscore dd src dst lim_min lim_max = .ok path) (hne : path ≠ []) :
    ValidPath dd src dst lim_min lim_max path := by
  obtain ⟨hsrc, h2⟩ := find_path_a_star_inGrid fscore hwf h hne
  exact astar_loop_valid fscore hwf hlim hsrc _ _ (astar_init_inv fscore hwf hsrc) h2 hne

/-- On a well-formed grid with the bound inside the grid, `find_path_a_star` returns a
sequence: its loop neither runs out of iterations nor reads outside a vector. -/
theorem find_path_a_star_total {dd : DungeonData} (hwf : dd.WF)
    {lim_min lim_max : IVec2} (hlim : LimInGrid dd lim_min lim_max) (src dst : IVec2) :
    ∃ path, find_path_a_star fscore dd src dst lim_min lim_max = .ok path := by
  unfold find_path_a_star
  rw [toInt32_of_lt hwf.2.1, toInt32_of_lt hwf.2.2]
  split
  · exact ⟨[], rfl⟩
  · rename_i h
    have hsrc : InGrid dd src := by unfold InGrid; omega
    refine astar_loop_total fscore hwf hlim hsrc _ _ (astar_init_inv fscore hwf hsrc)
      (by simp [astar_init]) (by simp [astar_init]) ?_ ?_
    · intro q j hq hj
      have hlt := coord_to_idx_lt hwf hsrc
      have hql := coord_to_idx_lt hwf hq
      simp only [astar_init, getG, List.get?_eq_getElem?, List.getElem?_set,
        List.length_replicate, hlt, if_true, List.getElem?_replicate, hql] at hj
      split at hj
      · simp at hj; omega
      · simp at hj
    · simp [astar_init, astar_fuel]; omega

theorem toInt32_le (n : Nat) : toInt32 n ≤ (n : Int) := by
  unfold toInt32
  have h := Nat.mod_le n (2 ^ 32)
  simp only
  split <;> omega

theorem ValidPath.dst_good {dd : DungeonData} {src dst lim_min lim_max : IVec2}
    {path : List IVec2} (h : ValidPath dd src dst lim_min lim_max path) (hne : dst ≠ src) :
    NonWall dd dst ∧ InLim lim_min lim_max dst := by
  obtain ⟨h1, h2, _, h4⟩ := h
  cases path with
  | nil => simp at h1
  | cons a t =>
    simp only [List.head?_cons, Option.some.injEq] at h1
    subst h1
    cases t with
    | nil =>
      simp only [List.getLast?_singleton, Option.some.injEq] at h2
      exact absurd h2.symm hne
    | cons b t2 =>
      rw [List.getLast?_cons_cons] at h2
      exact h4 dst (List.mem_of_mem_getLast? h2)

/-- Searching from an in-grid cell to itself returns the one-cell path. -/
theorem find_path_a_star_self {dd : DungeonData} (hwf : dd.WF) {src : IVec2}
    (hsrc : InGrid dd src) (lim_min lim_max : IVec2) :
    find_path_a_star fscore dd src src lim_min lim_max = .ok [src] := by
  have hlt := coord_to_idx_lt hwf hsrc
  unfold find_path_a_star
  rw [toInt32_of_lt hwf.2.1, toInt32_of_lt hwf.2.2, if_neg (by unfold InGrid at hsrc; omega)]
  simp only [astar_fuel, astar_loop, astar_init, scanBest, List.getD_cons_zero, if_true,
    reconstruct_path, List.length_replicate, reconstruct_loop, List.get?_eq_getElem?,
    List.getElem?_replicate, hlt]
  simp

theorem toSizeT_natCast {n : Nat} (h : n < 2 ^ 31) : toSizeT (n : Int) = n := by
  rw [toSizeT_of_nonneg (by omega) (by omega)]; simp

theorem Walk.cons {dd : DungeonData} {lim_min lim_max a b c : IVec2} {n : Nat}
    (hab : Adj a b) (hl : InLim lim_min lim_max b) (hw : NonWall dd b)
    (h : Walk dd lim_min lim_max b c n) : Walk dd lim_min lim_max a c (n + 1) := by
  induction h with
  | nil => exact Walk.snoc (Walk.nil a) hab hl hw
  | snoc _ h2 h3 h4 ih => exact Walk.snoc ih h2 h3 h4

/-- Every step of a walk changes `x + y` by one, so the length has the parity of the
displacement. -/
theorem Walk.parity {dd : DungeonData} {lim_min lim_max a b : IVec2} {n : Nat}
    (h : Walk dd lim_min lim_max a b n) :
    ((n : Int) - ((b.x - a.x) + (b.y - a.y))) % 2 = 0 := by
  induction h with
  | nil => simp
  | snoc _ h2 _ _ ih =>
    unfold Adj at h2
    push_cast
    omega

theorem Walk.same_parity {dd : DungeonData} {lim_min lim_max a b : IVec2} {n m : Nat}
    (h1 : Walk dd lim_min lim_max a b n) (h2 : Walk dd lim_min lim_max a b m)
    (hlt : n < m) : n + 2 ≤ m := by
  have p1 := h1.parity
  have p2 := h2.parity
  omega

theorem validPath_walk {dd : DungeonData} {lim_min lim_max dst : IVec2} :
    ∀ (path : List IVec2) (src : IVec2), ValidPath dd src dst lim_min lim_max path →
      Walk dd lim_min lim_max src dst (path.length - 1) := by
  intro path
  induction path with
  | nil => intro src h; simp [ValidPath] at h
  | cons a t ih =>
    intro src ⟨h1, h2, h3, h4⟩
    simp only [List.head?_cons, Option.some.injEq] at h1
    subst h1
    cases t with
    | nil =>
      simp only [List.getLast?_singleton, Option.some.injEq] at h2
      subst h2
      exact Walk.nil a
    | cons b t2 =>
      rw [List.getLast?_cons_cons] at h2
      rw [List.chain'_cons] at h3
      have hb := h4 b (by simp)
      have hw := ih b ⟨rfl, h2, h3.2, fun c hc => h4 c (List.mem_cons_of_mem _ hc)⟩
      have := Walk.cons h3.1 hb.2 hb.1 hw
      simpa using this

theorem Walk.inGrid {dd : DungeonData} {lim_min lim_max a b : IVec2} {n : Nat}
    (hlim : LimInGrid dd lim_min lim_max) (ha : InGrid dd a)
    (h : Walk dd lim_min lim_max a b n) : InGrid dd b := by
  cases h with
  | nil => exact ha
  | snoc _ _ h3 _ => exact inGrid_of_inLim hlim h3

/-- One step changes the straight-line distance to any fixed cell by at most one. -/
theorem sqrt_heuristic_step (dst : IVec2) {b c : IVec2} (h : Adj b c) :
    Real.sqrt (heuristic b dst) ≤ Real.sqrt (heuristic c dst) + 1 := by
  have hb : ((heuristic b dst : Nat) : ℝ) =
      ((b.x - dst.x : Int) : ℝ) ^ 2 + ((b.y - dst.y : Int) : ℝ) ^ 2 := by
    unfold heuristic
    have : (0 : Int) ≤ (b.x - dst.x) * (b.x - dst.x) + (b.y - dst.y) * (b.y - dst.y) := by
      nlinarith [mul_self_nonneg (b.x - dst.x), mul_self_nonneg (b.y - dst.y)]
    rw [← Int.cast_natCast, Int.toNat_of_nonneg this]
    push_cast; ring
  have hc : ((heuristic c dst : Nat) : ℝ) =
      ((c.x - dst.x : Int) : ℝ) ^ 2 + ((c.y - dst.y : Int) : ℝ) ^ 2 := by
    unfold heuristic
    have : (0 : Int) ≤ (c.x - dst.x) * (c.x - dst.x) + (c.y - dst.y) * (c.y - dst.y) := by
      nlinarith [mul_self_nonneg (c.x - dst.x), mul_self_nonneg (c.y - dst.y)]
    rw [← Int.cast_natCast, Int.toNat_of_nonneg this]
    push_cast; ring
  rw [hb, hc]
  set u : ℝ := ((c.x - dst.x : Int) : ℝ) with hu
  set v : ℝ := ((c.y - dst.y : Int) : ℝ) with hv
  set r : ℝ := Real.sqrt (u ^ 2 + v ^ 2) with hr
  have hr0 : 0 ≤ r := Real.sqrt_nonneg _
  have hr2 : r ^ 2 = u ^ 2 + v ^ 2 := Real.sq_sqrt (by positivity)
  have hur : |u| ≤ r := by
    rw [hr]; apply Real.abs_le_sqrt; nlinarith [sq_nonneg v]
  have hvr : |v| ≤ r := by
    rw [hr]; apply Real.abs_le_sqrt; nlinarith [sq_nonneg u]
  have hu1 := abs_le.mp hur
  have hv1 := abs_le.mp hvr
  rw [Real.sqrt_le_left (by linarith)]
  unfold Adj at h
  rcases h with ⟨hy, hx | hx⟩ | ⟨hx, hy | hy⟩
  · have e1 : ((b.x - dst.x : Int) : ℝ) = u - 1 := by rw [hu]; push_cast; rw [hx]; push_cast; ring
    have e2 : ((b.y - dst.y : Int) : ℝ) = v := by rw [hv, hy]
    rw [e1, e2]; nlinarith
  · have e1 : ((b.x - dst.x : Int) : ℝ) = u + 1 := by rw [hu]; push_cast; rw [hx]; push_cast; ring
    have e2 : ((b.y - dst.y : Int) : ℝ) = v := by rw [hv, hy]
    rw [e1, e2]; nlinarith
  · have e1 : ((b.x - dst.x : Int) : ℝ) = u := by rw [hu, hx]
    have e2 : ((b.y - dst.y : Int) : ℝ) = v - 1 := by rw [hv]; push_cast; rw [hy]; push_cast; ring
    rw [e1, e2]; nlinarith
  · have e1 : ((b.x - dst.x : Int) : ℝ) = u := by rw [hu, hx]
    have e2 : ((b.y - dst.y : Int) : ℝ) = v + 1 := by rw [hv]; push_cast; rw [hy]; push_cast; ring
    rw [e1, e2]; nlinarith

/-- Along a walk of `n` steps the straight-line distance to `dst` drops by at most `n`. -/
theorem Walk.sqrt_heuristic {dd : DungeonData} {lim_min lim_max a b : IVec2} {n : Nat}
    (h : Walk dd lim_min lim_max a b n) (dst : IVec2) :
    Real.sqrt (heuristic a dst) ≤ Real.sqrt (heuristic b dst) + n := by
  induction h with
  | nil => simp
  | snoc _ h2 _ _ ih =>
    have := sqrt_heuristic_step dst h2
    push_cast
    linarith

theorem fltLe_refl (a : Option S) : fltLe a a := by
  cases a <;> simp [fltLe, fltLt]

theorem fltLe_of_lt {a b : Option S} (h : fltLt a b = true) : fltLe a b := by
  cases a <;> cases b <;> simp_all [fltLe, fltLt, le_of_lt]

theorem fltLe_trans {a b c : Option S} (h1 : fltLe a b) (h2 : fltLe b c) : fltLe a c := by
  cases a <;> cases b <;> cases c <;> simp_all [fltLe, fltLt]
  exact le_trans h1 h2

theorem fltLe_of_not_lt {a b : Option S} (h : ¬ fltLt a b = true) : fltLe b a := by
  simpa [fltLe] using h

/-- The index chosen by the scan is in range and holds a score below or equal to every
score of the list. -/
theorem scanBest_min (getF : IVec2 → Option S) (dflt : IVec2) :
    ∀ (ps pre : List IVec2) (b : Nat), b < pre.length →
      (∀ e ∈ pre, fltLe (getF (pre.getD b dflt)) (getF e)) →
      ∀ e ∈ pre ++ ps, fltLe (getF ((pre ++ ps).getD
        (scanBest getF ps pre.length b (getF (pre.getD b dflt))) dflt)) (getF e) := by
  intro ps
  induction ps with
  | nil =>
    intro pre b _ h e he
    simp only [List.append_nil] at he ⊢
    exact h e he
  | cons p ps ih =>
    intro pre b hb h e he
    unfold scanBest
    have hassoc : pre ++ p :: ps = (pre ++ [p]) ++ ps := by simp
    have hlen : (pre ++ [p]).length = pre.length + 1 := by simp
    split
    · rename_i hlt
      have hget : (pre ++ [p]).getD pre.length dflt = p := by
        simp [List.getD_eq_getElem?_getD]
      have := ih (pre ++ [p]) pre.length (by simp) (by
        intro e he
        rw [hget]
        rcases List.mem_append.mp he with h1 | h1
        · exact fltLe_trans (fltLe_of_lt hlt) (h e h1)
        · rw [List.mem_singleton] at h1; subst h1; exact fltLe_refl _) e (hassoc ▸ he)
      rw [hget, hlen] at this
      rw [hassoc]
      exact this
    · rename_i hlt
      have hget : (pre ++ [p]).getD b dflt = pre.getD b dflt := by
        simp [List.getD_eq_getElem?_getD, List.getElem?_append_left hb]
      have := ih (pre ++ [p]) b (by simp; omega) (by
        intro e he
        rw [hget]
        rcases List.mem_append.mp he with h1 | h1
        · exact h e h1
        · rw [List.mem_singleton] at h1; subst h1; exact fltLe_of_not_lt hlt) e (hassoc ▸ he)
      rw [hget, hlen] at this
      rw [hassoc]
      exact this

theorem scanBest_min_cons (getF : IVec2 → Option S) (o : IVec2) (os : List IVec2) :
    ∀ e ∈ o :: os, fltLe (getF ((o :: os).getD (scanBest getF os 1 0 (getF o)) o)) (getF e) := by
  have := scanBest_min getF o os [o] 0 (by simp) (by
    intro e he
    rw [List.mem_singleton] at he
    subst he
    exact fltLe_refl _)
  simpa using this

theorem mem_eraseIdx_of_ne {α : Type} [DecidableEq α] (l : List α) (b : Nat) (d q : α)
    (hq : q ∈ l) (hne : q ≠ l.getD b d) : q ∈ l.eraseIdx b := by
  rw [List.mem_eraseIdx_iff_getElem]
  obtain ⟨i, hi, rfl⟩ := List.getElem_of_mem hq
  refine ⟨i, hi, ?_, rfl⟩
  intro e
  subst e
  apply hne
  simp [List.getD_eq_getElem?_getD, List.getElem?_eq_getElem hi]

theorem getF_of_set {st st2 : AStar S} {i : Nat} {v : S} (w : Nat)
    (h : st2.f = st.f.set i (some v)) (hi : i < st.f.length) (q : IVec2) :
    getF st2 w q = if i = coord_to_idx q.x q.y w then some v else getF st w q := by
  simp only [getF, h, List.get?_eq_getElem?, List.getElem?_set, hi, if_true]
  split <;> simp

/-- What one call of `checkNeighbour` does, read cell by cell: the closed list is kept, the
cell `p` joins the open list when it passes the tests, and the stored cost and score change
at `p` only, and only to a smaller cost. -/
theorem checkNeighbour_abs {dd : DungeonData} (hwf : dd.WF) (dst : IVec2)
    {lim_min lim_max : IVec2} (hlim : LimInGrid dd lim_min lim_max) (st : AStar S)
    (curPos p : IVec2) (k : Nat)
    (hglen : st.g.length = dd.width * dd.height) (hflen : st.f.length = dd.width * dd.height)
    (hk : getG st dd.width curPos = some k) :
    ∃ st2, checkNeighbour fscore dd dst lim_min lim_max curPos p st = .ok st2 ∧
      st2.closedList = st.closedList ∧ st2.f.length = dd.width * dd.height ∧
      (∀ q, q ∈ st2.openList ↔ q ∈ st.openList ∨ (q = p ∧ InLim lim_min lim_max p ∧ NonWall dd p)) ∧
      (∀ q, InGrid dd q →
        (getG st2 dd.width q = getG st dd.width q ∧ getF st2 dd.width q = getF st dd.width q) ∨
        (q = p ∧ InLim lim_min lim_max p ∧ NonWall dd p ∧
          gLt (some (k + 1)) (getG st dd.width p) = true ∧
          getG st2 dd.width q = some (k + 1) ∧
          getF st2 dd.width q = some (fscore (k + 1) (heuristic p dst)))) ∧
      (InLim lim_min lim_max p → NonWall dd p →
        ∃ kp, getG st2 dd.width p = some kp ∧ kp ≤ k + 1) := by
  rcases checkNeighbour_cases fscore hwf dst hlim st curPos p k hglen hk with
    ⟨hbad, h⟩ | ⟨hl, hw, hlt, h⟩ | ⟨hl, hw, hlt, h⟩
  · refine ⟨st, h, rfl, hflen, ?_, fun q _ => Or.inl ⟨rfl, rfl⟩, ?_⟩
    · intro q
      constructor
      · exact Or.inl
      · rintro (h1 | ⟨_, h2, h3⟩)
        · exact h1
        · rcases hbad with hb | hb
          · exact absurd h2 hb
          · exact absurd h3 hb
    · intro h2 h3
      rcases hbad with hb | hb
      · exact absurd h2 hb
      · exact absurd h3 hb
  · refine ⟨_, h, rfl, hflen, ?_, fun q _ => Or.inl ⟨rfl, rfl⟩, ?_⟩
    · intro q
      simp only [mem_pushOpen]
      constructor
      · rintro (h1 | h1)
        · exact Or.inl h1
        · exact Or.inr ⟨h1, hl, hw⟩
      · rintro (h1 | ⟨h1, _⟩)
        · exact Or.inl h1
        · exact Or.inr h1
    · intro _ _
      change ∃ kp, getG st dd.width p = some kp ∧ kp ≤ k + 1
      cases hgp : getG st dd.width p with
      | none => rw [hgp] at hlt; simp [gLt] at hlt
      | some kp =>
        rw [hgp] at hlt
        simp only [gLt, decide_eq_false_iff_not, not_lt] at hlt
        exact ⟨kp, rfl, hlt⟩
  · have hpg := inGrid_of_inLim hlim hl
    have hlg : coord_to_idx p.x p.y dd.width < st.g.length := by
      rw [hglen]; exact coord_to_idx_lt hwf hpg
    have hlf : coord_to_idx p.x p.y dd.width < st.f.length := by
      rw [hflen]; exact coord_to_idx_lt hwf hpg
    refine ⟨_, h, rfl, by simp [hflen], ?_, ?_, ?_⟩
    · intro q
      simp only [mem_pushOpen]
      constructor
      · rintro (h1 | h1)
        · exact Or.inl h1
        · exact Or.inr ⟨h1, hl, hw⟩
      · rintro (h1 | ⟨h1, _⟩)
        · exact Or.inl h1
        · exact Or.inr h1
    · intro q hq
      rw [getG_of_set dd.width rfl hlg, getF_of_set dd.width rfl hlf]
      by_cases e : coord_to_idx p.x p.y dd.width = coord_to_idx q.x q.y dd.width
      · right
        have := coord_to_idx_inj hwf hpg hq e
        subst this
        simp [hl, hw, hlt]
      · left
        simp [e]
    · intro _ _
      rw [getG_of_set dd.width rfl hlg]
      simp

theorem checkNeighbour_opt {dd : DungeonData} (hwf : dd.WF) (dst : IVec2)
    {src lim_min lim_max : IVec2} (hlim : LimInGrid dd lim_min lim_max) {st : AStar S}
    {curPos p : IVec2} {k : Nat} (hsrc : InGrid dd src)
    (hinv : AInv dd src lim_min lim_max st) (hob : OBase fscore dd src dst lim_min lim_max st)
    (hcur : InGrid dd curPos) (hk : getG st dd.width curPos = some k) (hadj : Adj curPos p)
    (hkB : k + 1 ≤ st.closedList.length) :
    ∃ st2, checkNeighbour fscore dd dst lim_min lim_max curPos p st = .ok st2 ∧
      AInv dd src lim_min lim_max st2 ∧ OBase fscore dd src dst lim_min lim_max st2 ∧
      getG st2 dd.width curPos = some k ∧ st2.closedList = st.closedList ∧
      (∀ c ∈ st.closedList, Front dd lim_min lim_max st c → Front dd lim_min lim_max st2 c) ∧
      (∀ q, Done dd lim_min lim_max st k q → Done dd lim_min lim_max st2 k q) ∧
      Done dd lim_min lim_max st2 k p := by
  obtain ⟨st2, h, hcl, hfl, hop, hgf, hgp⟩ :=
    checkNeighbour_abs fscore hwf dst hlim st curPos p k hinv.glen hob.flen hk
  have hinv2 := (checkNeighbour_inv fscore hwf hlim hsrc hinv hcur hk hadj h).1
  -- costs never grow
  have hmono : ∀ q j, InGrid dd q → getG st dd.width q = some j →
      ∃ j2, getG st2 dd.width q = some j2 ∧ j2 ≤ j := by
    intro q j hq hj
    rcases hgf q hq with ⟨e, _⟩ | ⟨e, _, _, hlt, e2, _⟩
    · exact ⟨j, e ▸ hj, le_refl _⟩
    · subst e
      rw [gLt_some_iff] at hlt
      exact ⟨k + 1, e2, Nat.le_of_lt (hlt j hj)⟩
  -- the costs of closed cells are kept
  have hkeep : ∀ c ∈ st.closedList, getG st2 dd.width c = getG st dd.width c := by
    intro c hc
    rcases hgf c (hob.cgrid c hc) with ⟨e, _⟩ | ⟨e, hl, hw, hlt, _, _⟩
    · exact e
    · exfalso
      subst e
      obtain ⟨kc, hkc, hmin⟩ := hob.copt c hc
      rw [gLt_some_iff] at hlt
      have h1 := hlt kc hkc
      have h2 := hmin (k + 1) (Walk.snoc (hob.gwalk curPos k hcur hk) hadj hl hw)
      omega
  have hopen : ∀ q, q ∈ st.openList ∨ q ∈ st.closedList →
      q ∈ st2.openList ∨ q ∈ st2.closedList := by
    intro q hq
    rcases hq with hq | hq
    · exact Or.inl ((hop q).mpr (Or.inl hq))
    · exact Or.inr (hcl ▸ hq)
  have hcurk : getG st2 dd.width curPos = some k := by
    rcases hgf curPos hcur with ⟨e, _⟩ | ⟨e, _⟩
    · exact e ▸ hk
    · exact absurd e hadj.ne
  refine ⟨st2, h, hinv2, ?_, hcurk, hcl, ?_, ?_, ?_⟩
  · constructor
    · exact hfl
    · intro q j hq hj
      rcases hgf q hq with ⟨e, _⟩ | ⟨e, hl, hw, _, e2, _⟩
      · exact hob.gwalk q j hq (e ▸ hj)
      · subst e
        rw [e2] at hj
        cases hj
        exact Walk.snoc (hob.gwalk curPos k hcur hk) hadj hl hw
    · intro q hq
      rcases hgf q hq with ⟨e1, e2⟩ | ⟨e, _, _, _, e1, e2⟩
      · rw [e1, e2]; exact hob.fsync q hq
      · subst e
        rw [e1, e2]; rfl
    · intro c hc; exact hob.cgrid c (hcl ▸ hc)
    · rw [hcl]; exact hob.cnodup
    · intro q j hq hj
      rw [hcl]
      rcases hgf q hq with ⟨e, _⟩ | ⟨_, _, _, _, e2, _⟩
      · exact hob.gbound q j hq (e ▸ hj)
      · rw [e2] at hj; cases hj; exact hkB
    · intro c hc
      rw [hcl] at hc
      rw [hkeep c hc]
      exact hob.copt c hc
    · exact hopen src hob.srcin
    · rw [hcl]; exact hob.nodst
  · intro c hc hf q hcq hl hw
    obtain ⟨kc, kq, h1, h2, h3, h4⟩ := hf q hcq hl hw
    obtain ⟨j2, h5, h6⟩ := hmono q kq (inGrid_of_inLim hlim hl) h2
    exact ⟨kc, j2, (hkeep c hc).trans h1, h5, by omega, hopen q h4⟩
  · intro q hd hl hw
    obtain ⟨kq, h1, h2, h3⟩ := hd hl hw
    obtain ⟨j2, h5, h6⟩ := hmono q kq (inGrid_of_inLim hlim hl) h1
    exact ⟨j2, h5, by omega, hopen q h3⟩
  · intro hl hw
    obtain ⟨kp, h1, h2⟩ := hgp hl hw
    exact ⟨kp, h1, h2, Or.inl ((hop p).mpr (Or.inr ⟨rfl, hl, hw⟩))⟩

/-- On a walk from the source to a cell that is not closed there is an open cell whose
stored cost is at most its position on the walk. -/
theorem frontier {dd : DungeonData} {src dst lim_min lim_max : IVec2} {st : AStar S}
    (hinv : AInv dd src lim_min lim_max st)
    (hob : OBase fscore dd src dst lim_min lim_max st)
    (hfr : ∀ c ∈ st.closedList, Front dd lim_min lim_max st c)
    {t : IVec2} {n : Nat} (hw : Walk dd lim_min lim_max src t n) :
    t ∈ st.closedList ∨ ∃ m i j gm, m ∈ st.openList ∧ getG st dd.width m = some gm ∧
      gm ≤ i ∧ i + j = n ∧ Walk dd lim_min lim_max m t j := by
  induction hw with
  | nil =>
    rcases hob.srcin with h | h
    · exact Or.inr ⟨src, 0, 0, 0, h, hinv.gsrc, le_refl _, rfl, Walk.nil src⟩
    · exact Or.inl h
  | snoc hab hbc hl hnw ih =>
    rename_i b c n
    rcases ih with h | ⟨m, i, j, gm, h1, h2, h3, h4, h5⟩
    · obtain ⟨kb, hkb, hmin⟩ := hob.copt b h
      obtain ⟨kc, kq, e1, e2, e3, e4⟩ := hfr b h c hbc hl hnw
      rw [hkb] at e1
      cases e1
      have := hmin n hab
      rcases e4 with e4 | e4
      · right
        exact ⟨c, n + 1, 0, kq, e4, e2, by omega, rfl, Walk.nil c⟩
      · exact Or.inl e4
    · right
      exact ⟨m, i, j + 1, gm, h1, h2, h3, by omega, Walk.snoc h5 hbc hl hnw⟩

theorem heuristic_le {dd : DungeonData} {p q : IVec2} (hp : InGrid dd p) (hq : InGrid dd q) :
    heuristic p q ≤ dd.width * dd.width + dd.height * dd.height := by
  obtain ⟨p0, p1, p2, p3⟩ := hp
  obtain ⟨q0, q1, q2, q3⟩ := hq
  unfold heuristic
  have hx : (p.x - q.x) * (p.x - q.x) ≤ (dd.width : Int) * dd.width := by nlinarith
  have hy : (p.y - q.y) * (p.y - q.y) ≤ (dd.height : Int) * dd.height := by nlinarith
  have h0 : (0 : Int) ≤ (p.x - q.x) * (p.x - q.x) + (p.y - q.y) * (p.y - q.y) := by
    nlinarith [mul_self_nonneg (p.x - q.x), mul_self_nonneg (p.y - q.y)]
  zify
  rw [Int.toNat_of_nonneg h0]
  linarith

theorem cells_le_bound (w h : Nat) : w * h ≤ w * w + h * h := by
  nlinarith [sq_nonneg ((w : Int) - h), mul_self_nonneg ((w : Int) - h)]

/-- The cell chosen by the scan, when it is not yet closed, carries the length of a
shortest walk from the source. -/
theorem popped_optimal {dd : DungeonData} (hwf : dd.WF) {src dst lim_min lim_max : IVec2}
    {st : AStar S} (hsf : ScoreFaithful fscore (dd.width * dd.width + dd.height * dd.height))
    (hdst : InGrid dd dst)
    (hinv : AInv dd src lim_min lim_max st)
    (hob : OBase fscore dd src dst lim_min lim_max st)
    (hfr : ∀ c ∈ st.closedList, Front dd lim_min lim_max st c)
    {cur : IVec2} {k : Nat} (hcur : InGrid dd cur) (hk : getG st dd.width cur = some k)
    (hncl : cur ∉ st.closedList)
    (hmin : ∀ e ∈ st.openList, fltLe (getF st dd.width cur) (getF st dd.width e)) :
    ∀ n, Walk dd lim_min lim_max src cur n → k ≤ n := by
  intro n hw
  by_contra hlt
  have hlt : n < k := Nat.lt_of_not_le hlt
  rcases frontier fscore hinv hob hfr hw with h | ⟨m, i, j, gm, h1, h2, h3, h4, h5⟩
  · exact hncl h
  have hpar := Walk.same_parity hw (hob.gwalk cur k hcur hk) hlt
  have hsq := h5.sqrt_heuristic dst
  obtain ⟨hmg, _⟩ := hinv.opn m h1
  have hN := closed_length_le hwf st.closedList hob.cnodup hob.cgrid
  have hB := cells_le_bound dd.width dd.height
  have hlt2 := hsf gm (heuristic m dst) k (heuristic cur dst)
    (by have := hob.gbound m gm hmg h2; omega) (heuristic_le hmg hdst)
    (by have := hob.gbound cur k hcur hk; omega) (heuristic_le hcur hdst)
    (by
      have e1 : (gm : ℝ) ≤ i := by exact_mod_cast h3
      have e2 : ((i : ℝ) + j) + 2 ≤ k := by
        have : i + j + 2 ≤ k := by omega
        exact_mod_cast this
      linarith)
  have hle := hmin m h1
  rw [hob.fsync cur hcur, hob.fsync m hmg, hk, h2] at hle
  simp only [Option.map_some', fltLe, fltLt, decide_eq_false_iff_not] at hle
  exact hle hlt2

theorem reconstruct_loop_length {dd : DungeonData} {src lim_min lim_max : IVec2}
    {st : AStar S} (hinv : AInv dd src lim_min lim_max st) {path : List IVec2} :
    ∀ (fuel : Nat) (cur : IVec2) (res : List IVec2) (k : Nat), InGrid dd cur →
      getG st dd.width cur = some k → res ≠ [] →
      reconstruct_loop st.prev dd.width fuel cur res = .ok path →
      path ≠ [] ∧ path.length ≤ k + res.length := by
  intro fuel
  induction fuel with
  | zero => intro cur res k _ _ _ h; simp [reconstruct_loop] at h
  | succ n ih =>
    intro cur res k hcur hk hne h
    unfold reconstruct_loop at h
    by_cases hcs : cur = src
    · subst hcs
      rw [hinv.psrc] at h
      simp only [ne_eq, not_true_eq_false, if_false] at h
      cases h
      exact ⟨hne, Nat.le_add_left _ _⟩
    · obtain ⟨q, j, hq, hqg, hqj, hjk, _⟩ := hinv.reach cur k hcur hcs hk
      rw [hq] at h
      have hqn : q ≠ noPrev := fun e => noPrev_not_inGrid dd (e ▸ hqg)
      simp only [ne_eq, hqn, not_false_eq_true, if_true] at h
      obtain ⟨h1, h2⟩ := ih q (q :: res) j hqg hqj (by simp) h
      refine ⟨h1, ?_⟩
      simp only [List.length_cons] at h2
      omega

theorem adj_cases {c q : IVec2} (h : Adj c q) :
    q = ⟨c.x + 1, c.y + 0⟩ ∨ q = ⟨c.x - 1, c.y + 0⟩ ∨ q = ⟨c.x + 0, c.y + 1⟩ ∨
      q = ⟨c.x + 0, c.y - 1⟩ := by
  cases q with
  | mk qx qy =>
    unfold Adj at h
    simp only [IVec2.mk.injEq]
    simp only at h
    omega

theorem astar_loop_opt {dd : DungeonData} (hwf : dd.WF) {src dst lim_min lim_max : IVec2}
    (hlim : LimInGrid dd lim_min lim_max) (hsrc : InGrid dd src) (hdst : InGrid dd dst)
    (hsf : ScoreFaithful fscore (dd.width * dd.width + dd.height * dd.height))
    {n : Nat} (hwalk : Walk dd lim_min lim_max src dst n) {path : List IVec2} :
    ∀ (fuel : Nat) (st : AStar S), AInv dd src lim_min lim_max st →
      OBase fscore dd src dst lim_min lim_max st →
      (∀ c ∈ st.closedList, Front dd lim_min lim_max st c) →
      astar_loop fscore dd dst lim_min lim_max fuel st = .ok path →
      path ≠ [] ∧ path.length ≤ n + 1 := by
  intro fuel
  induction fuel with
  | zero => intro st _ _ _ h; simp [astar_loop] at h
  | succ fuel ih =>
    intro st hinv hob hfr h
    unfold astar_loop at h
    split at h
    · rename_i hopen
      exfalso
      rcases frontier fscore hinv hob hfr hwalk with h1 | ⟨m, _, _, _, h1, _⟩
      · exact hob.nodst h1
      · rw [hopen] at h1; simp at h1
    rename_i o os hopen
    simp only at h
    have hmem : (o :: os).getD (scanBest (getF st dd.width) os 1 0 (getF st dd.width o)) o
        ∈ st.openList := by rw [hopen]; exact getD_mem_cons _ _ _
    have hmin : ∀ e ∈ st.openList, fltLe (getF st dd.width
        ((o :: os).getD (scanBest (getF st dd.width) os 1 0 (getF st dd.width o)) o))
        (getF st dd.width e) := by
      rw [hopen]; exact scanBest_min_cons (getF st dd.width) o os
    have hsub : ∀ p ∈ (o :: os).eraseIdx
        (scanBest (getF st dd.width) os 1 0 (getF st dd.width o)), p ∈ st.openList := by
      intro p hp; rw [hopen]; exact List.mem_of_mem_eraseIdx hp
    have hrest : ∀ q ∈ st.openList,
        q ≠ (o :: os).getD (scanBest (getF st dd.width) os 1 0 (getF st dd.width o)) o →
        q ∈ (o :: os).eraseIdx (scanBest (getF st dd.width) os 1 0 (getF st dd.width o)) := by
      intro q hq hne
      rw [hopen] at hq
      exact mem_eraseIdx_of_ne _ _ o q hq hne
    generalize (o :: os).getD (scanBest (getF st dd.width) os 1 0 (getF st dd.width o)) o
      = cur at h hmem hmin hrest
    generalize (o :: os).eraseIdx (scanBest (getF st dd.width) os 1 0 (getF st dd.width o))
      = op2 at h hsub hrest
    obtain ⟨hcur, k, hk⟩ := hinv.opn cur hmem
    split at h
    · rename_i hcd
      subst hcd
      have hopt := popped_optimal fscore hwf hsf hdst hinv hob hfr hcur hk hob.nodst hmin
      obtain ⟨h1, h2⟩ := reconstruct_loop_length hinv _ cur [cur] k hcur hk (by simp) h
      exact ⟨h1, by have := hopt n hwalk; simp only [List.length_singleton] at h2; omega⟩
    -- membership after the chosen cell has left the open list
    have hmove : ∀ (cl : List IVec2) q, (cur ∈ cl) → (∀ c ∈ st.closedList, c ∈ cl) →
        q ∈ st.openList ∨ q ∈ st.closedList → q ∈ op2 ∨ q ∈ cl := by
      intro cl q hc hs hq
      rcases hq with hq | hq
      · by_cases e : q = cur
        · exact Or.inr (e ▸ hc)
        · exact Or.inl (hrest q hq e)
      · exact Or.inr (hs q hq)
    split at h
    · rename_i hcl
      refine ih _ (hinv.of_open op2 _ hsub) ?_ ?_ h
      · exact ⟨hob.flen, hob.gwalk, hob.fsync, hob.cgrid, hob.cnodup, hob.gbound, hob.copt,
          hmove st.closedList src hcl (fun _ hc => hc) hob.srcin, hob.nodst⟩
      · intro c hc q hcq hl hw
        obtain ⟨kc, kq, h1, h2, h3, h4⟩ := hfr c hc q hcq hl hw
        exact ⟨kc, kq, h1, h2, h3, hmove st.closedList q hcl (fun _ hc => hc) h4⟩
    rename_i hncd hncl
    have hopt := popped_optimal fscore hwf hsf hdst hinv hob hfr hcur hk hncl hmin
    have hinv1 := hinv.of_open op2 (st.closedList ++ [cur]) hsub
    have hcurin : cur ∈ st.closedList ++ [cur] := by simp
    have hsubcl : ∀ c ∈ st.closedList, c ∈ st.closedList ++ [cur] :=
      fun c hc => List.mem_append_left _ hc
    have hob1 : OBase fscore dd src dst lim_min lim_max
        ({ st with openList := op2, closedList := st.closedList ++ [cur] } : AStar S) := by
      refine ⟨hob.flen, hob.gwalk, hob.fsync, ?_, ?_, ?_, ?_, ?_, ?_⟩
      · intro c hc
        rcases List.mem_append.mp hc with h1 | h1
        · exact hob.cgrid c h1
        · rw [List.mem_singleton] at h1; subst h1; exact hcur
      · rw [List.nodup_append]
        refine ⟨hob.cnodup, List.nodup_singleton _, ?_⟩
        intro a ha hb
        rw [List.mem_singleton] at hb
        subst hb
        exact hncl ha
      · intro q j hq hj
        have := hob.gbound q j hq hj
        simp only [List.length_append, List.length_singleton]
        omega
      · intro c hc
        rcases List.mem_append.mp hc with h1 | h1
        · exact hob.copt c h1
        · rw [List.mem_singleton] at h1; subst h1; exact ⟨k, hk, hopt⟩
      · exact hmove _ src hcurin hsubcl hob.srcin
      · intro hd
        rcases List.mem_append.mp hd with h1 | h1
        · exact hob.nodst h1
        · rw [List.mem_singleton] at h1; exact hncd h1.symm
    have hfr1 : ∀ c ∈ st.closedList, Front dd lim_min lim_max
        ({ st with openList := op2, closedList := st.closedList ++ [cur] } : AStar S) c := by
      intro c hc q hcq hl hw
      obtain ⟨kc, kq, h1, h2, h3, h4⟩ := hfr c hc q hcq hl hw
      exact ⟨kc, kq, h1, h2, h3, hmove _ q hcurin hsubcl h4⟩
    have hk1 : getG ({ st with openList := op2, closedList := st.closedList ++ [cur] } : AStar S)
        dd.width cur = some k := hk
    have hkB : k + 1 ≤ ({ st with openList := op2, closedList := st.closedList ++ [cur] } :
        AStar S).closedList.length := by
      have := hob.gbound cur k hcur hk
      simp only [List.length_append, List.length_singleton]
      omega
    have hcl1 : ({ st with openList := op2, closedList := st.closedList ++ [cur] } :
        AStar S).closedList = st.closedList ++ [cur] := rfl
    revert h
    generalize ({ st with openList := op2, closedList := st.closedList ++ [cur] } : AStar S)
      = st1 at hinv1 hob1 hfr1 hk1 hkB hcl1
    intro h
    obtain ⟨st2, e2, hinv2, hob2, hk2, hc2, hf2, hd2, hp2⟩ :=
      checkNeighbour_opt fscore hwf dst hlim hsrc hinv1 hob1 hcur hk1
        (show Adj cur ⟨cur.x + 1, cur.y + 0⟩ by unfold Adj; simp) hkB
    obtain ⟨st3, e3, hinv3, hob3, hk3, hc3, hf3, hd3, hp3⟩ :=
      checkNeighbour_opt fscore hwf dst hlim hsrc hinv2 hob2 hcur hk2
        (show Adj cur ⟨cur.x - 1, cur.y + 0⟩ by unfold Adj; simp) (hc2 ▸ hkB)
    obtain ⟨st4, e4, hinv4, hob4, hk4, hc4, hf4, hd4, hp4⟩ :=
      checkNeighbour_opt fscore hwf dst hlim hsrc hinv3 hob3 hcur hk3
        (show Adj cur ⟨cur.x + 0, cur.y + 1⟩ by unfold Adj; simp) (hc3 ▸ hc2 ▸ hkB)
    obtain ⟨st5, e5, hinv5, hob5, hk5, hc5, hf5, hd5, hp5⟩ :=
      checkNeighbour_opt fscore hwf dst hlim hsrc hinv4 hob4 hcur hk4
        (show Adj cur ⟨cur.x + 0, cur.y - 1⟩ by unfold Adj; simp) (hc4 ▸ hc3 ▸ hc2 ▸ hkB)
    rw [e2] at h; simp only at h
    rw [e3] at h; simp only at h
    rw [e4] at h; simp only at h
    rw [e5] at h; simp only at h
    have hc5' : st5.closedList = st.closedList ++ [cur] := by rw [hc5, hc4, hc3, hc2, hcl1]
    refine ih st5 hinv5 hob5 ?_ h
    intro c hc
    rw [hc5'] at hc
    rcases List.mem_append.mp hc with h1 | h1
    · have m1 : c ∈ st1.closedList := hcl1 ▸ hsubcl c h1
      have m2 : c ∈ st2.closedList := hc2 ▸ m1
      have m3 : c ∈ st3.closedList := hc3 ▸ m2
      have m4 : c ∈ st4.closedList := hc4 ▸ m3
      exact hf5 c m4 (hf4 c m3 (hf3 c m2 (hf2 c m1 (hfr1 c h1))))
    · rw [List.mem_singleton] at h1
      subst h1
      intro q hcq hl hw
      have hdone : Done dd lim_min lim_max st5 k q := by
        rcases adj_cases hcq with e | e | e | e
        · rw [e]; exact hd5 _ (hd4 _ (hd3 _ hp2))
        · rw [e]; exact hd5 _ (hd4 _ hp3)
        · rw [e]; exact hd5 _ hp4
        · rw [e]; exact hp5
      obtain ⟨kq, g1, g2, g3⟩ := hdone hl hw
      exact ⟨k, kq, hk5, g1, g2, g3⟩

theorem astar_init_obase {dd : DungeonData} (hwf : dd.WF) {src dst lim_min lim_max : IVec2}
    (hsrc : InGrid dd src) :
    OBase fscore dd src dst lim_min lim_max (astar_init fscore dd src dst) := by
  have hlt := coord_to_idx_lt hwf hsrc
  have hg : ∀ q, InGrid dd q → (getG (astar_init fscore dd src dst) dd.width q =
      if q = src then some 0 else none) ∧
      (getF (astar_init fscore dd src dst) dd.width q =
      if q = src then some (fscore 0 (heuristic src dst)) else none) := by
    intro q hq
    have hql := coord_to_idx_lt hwf hq
    by_cases e : q = src
    · subst e
      simp [astar_init, getG, getF, List.getElem?_set, hlt]
    · have hne : coord_to_idx src.x src.y dd.width ≠ coord_to_idx q.x q.y dd.width :=
        fun h => e (coord_to_idx_inj hwf hsrc hq h).symm
      simp [astar_init, getG, getF, List.getElem?_set, hne, List.getElem?_replicate, hql, e]
  constructor
  · simp [astar_init]
  · intro q k hq hk
    rw [(hg q hq).1] at hk
    split at hk
    · rename_i e
      cases hk
      rw [e]
      exact Walk.nil src
    · cases hk
  · intro q hq
    rw [(hg q hq).1, (hg q hq).2]
    split
    · rename_i e; rw [e]; rfl
    · rfl
  · intro c hc; simp [astar_init] at hc
  · simp [astar_init]
  · intro q k hq hk
    rw [(hg q hq).1] at hk
    split at hk
    · cases hk; exact Nat.zero_le _
    · cases hk
  · intro c hc; simp [astar_init] at hc
  · left; simp [astar_init]
  · simp [astar_init]

/-- When some path joins the source to the destination, `find_path_a_star` returns a
non-empty path with no more cells than that path. -/
theorem find_path_a_star_le {dd : DungeonData} (hwf : dd.WF) {src dst lim_min lim_max : IVec2}
    (hlim : LimInGrid dd lim_min lim_max) (hsrc : InGrid dd src)
    (hsf : ScoreFaithful fscore (dd.width * dd.width + dd.height * dd.height))
    {other : List IVec2} (hother : ValidPath dd src dst lim_min lim_max other) :
    ∃ path, find_path_a_star fscore dd src dst lim_min lim_max = .ok path ∧ path ≠ [] ∧
      path.length ≤ other.length := by
  obtain ⟨path, hp⟩ := find_path_a_star_total fscore hwf hlim src dst
  have hw := validPath_walk other src hother
  have hdst : InGrid dd dst := hw.inGrid hlim hsrc
  have hone : other.length - 1 + 1 = other.length := by
    have : other ≠ [] := by
      intro e; rw [e] at hother; simp [ValidPath] at hother
    have := List.length_pos.mpr this
    omega
  have hp2 := hp
  unfold find_path_a_star at hp2
  rw [toInt32_of_lt hwf.2.1, toInt32_of_lt hwf.2.2,
    if_neg (by unfold InGrid at hsrc; omega)] at hp2
  obtain ⟨h1, h2⟩ := astar_loop_opt fscore hwf hlim hsrc hdst hsf hw _ _
    (astar_init_inv fscore hwf hsrc) (astar_init_obase fscore hwf hsrc)
    (by intro c hc; simp [astar_init] at hc) hp2
  exact ⟨path, hp, h1, hone ▸ h2⟩

theorem isqrtBits_spec (n : Nat) :
    ∀ (i r : Nat), r * r ≤ n → n < (r + 2 ^ i) * (r + 2 ^ i) →
      isqrtBits n i r * isqrtBits n i r ≤ n ∧
        n < (isqrtBits n i r + 1) * (isqrtBits n i r + 1) := by
  intro i
  induction i with
  | zero => intro r h1 h2; simpa [isqrtBits] using ⟨h1, h2⟩
  | succ i ih =>
    intro r h1 h2
    unfold isqrtBits
    split
    · rename_i h
      refine ih _ h ?_
      have : r + 2 ^ i + 2 ^ i = r + 2 ^ (i + 1) := by rw [pow_succ]; omega
      rw [this]; exact h2
    · rename_i h
      exact ih _ h1 (Nat.lt_of_not_le h)

theorem fscoreFix_faithful (B : Nat) (hB : B < 2 ^ 24) : ScoreFaithful fscoreFix B := by
  intro g1 d1 g2 d2 _ hd1 _ hd2 h
  unfold fscoreFix
  obtain ⟨a1, _⟩ := isqrtBits_spec (d1 * 2 ^ 40) 32 0 (by simp) (by
    have : d1 * 2 ^ 40 < 2 ^ 24 * 2 ^ 40 := Nat.mul_lt_mul_of_pos_right (by omega) (by norm_num)
    simpa using this)
  obtain ⟨_, b2⟩ := isqrtBits_spec (d2 * 2 ^ 40) 32 0 (by simp) (by
    have : d2 * 2 ^ 40 < 2 ^ 24 * 2 ^ 40 := Nat.mul_lt_mul_of_pos_right (by omega) (by norm_num)
    simpa using this)
  generalize isqrtBits (d1 * 2 ^ 40) 32 0 = s1 at a1 ⊢
  generalize isqrtBits (d2 * 2 ^ 40) 32 0 = s2 at b2 ⊢
  have e1 : (s1 : ℝ) ≤ 2 ^ 20 * Real.sqrt d1 := by
    have h0 : (0 : ℝ) ≤ 2 ^ 20 * Real.sqrt d1 := by positivity
    have hsq : ((s1 : ℝ)) ^ 2 ≤ (2 ^ 20 * Real.sqrt d1) ^ 2 := by
      rw [mul_pow, Real.sq_sqrt (Nat.cast_nonneg d1)]
      have : ((s1 * s1 : Nat) : ℝ) ≤ ((d1 * 2 ^ 40 : Nat) : ℝ) := by exact_mod_cast a1
      push_cast at this
      nlinarith
    exact le_of_pow_le_pow_left₀ (by norm_num) h0 hsq
  have e2 : 2 ^ 20 * Real.sqrt d2 < (s2 : ℝ) + 1 := by
    have h0 : (0 : ℝ) ≤ 2 ^ 20 * Real.sqrt d2 := by positivity
    have hsq : (2 ^ 20 * Real.sqrt d2) ^ 2 < ((s2 : ℝ) + 1) ^ 2 := by
      rw [mul_pow, Real.sq_sqrt (Nat.cast_nonneg d2)]
      have : ((d2 * 2 ^ 40 : Nat) : ℝ) < (((s2 + 1) * (s2 + 1) : Nat) : ℝ) := by
        exact_mod_cast b2
      push_cast at this
      nlinarith
    exact lt_of_pow_lt_pow_left₀ 2 (by positivity) hsq
  have : ((g1 * 2 ^ 20 + s1 : Nat) : ℝ) < ((g2 * 2 ^ 20 + s2 : Nat) : ℝ) := by
    push_cast
    nlinarith
  exact_mod_cast this

theorem scanPortalCells_spec {dd : DungeonData} {src limMin limMax : IVec2} :
    ∀ (cells path0 path : List IVec2) (b : Bool),
      scanPortalCells fscore dd src limMin limMax cells path0 = .ok (path, b) →
      path = path0 ∨ ∃ c, find_path_a_star fscore dd src c limMin limMax = .ok path := by
  intro cells
  induction cells with
  | nil =>
    intro path0 path b h
    simp only [scanPortalCells, Except.ok.injEq, Prod.mk.injEq] at h
    exact Or.inl h.1.symm
  | cons c cs ih =>
    intro path0 path b h
    unfold scanPortalCells at h
    split at h
    · cases h
    rename_i curPath hc
    split at h
    · simp only [Except.ok.injEq, Prod.mk.injEq] at h
      exact Or.inl h.1.symm
    split at h
    · rcases ih _ _ _ h with e | e
      · exact Or.inr ⟨c, e ▸ hc⟩
      · exact Or.inr e
    · exact ih _ _ _ h

theorem shortestPortalLoop_spec {dd : DungeonData} {dp : DungeonPortals} {src tile : IVec2} :
    ∀ (inds : List Nat) (acc : List IVec2 × PathPortal) (sp : List IVec2) (p : PathPortal),
      shortestPortalLoop fscore dd dp src tile inds acc = .ok (sp, p) →
      sp = acc.1 ∨ sp = [] ∨ ∃ c, find_path_a_star fscore dd src c (regionMin dp tile)
        (regionMax dp tile) = .ok sp := by
  intro inds
  induction inds with
  | nil =>
    intro acc sp p h
    simp only [shortestPortalLoop, Except.ok.injEq] at h
    exact Or.inl (by rw [h])
  | cons i rest ih =>
    intro acc sp p h
    obtain ⟨sp0, p0⟩ := acc
    unfold shortestPortalLoop at h
    simp only at h
    split at h
    · cases h
    rename_i portal _
    split at h
    · cases h
    rename_i path fl hsc
    split at h
    · rcases ih _ _ _ h with e | e | e
      · simp only at e
        rcases scanPortalCells_spec fscore _ _ _ _ hsc with e2 | e2
        · exact Or.inr (Or.inl (e.trans e2))
        · exact Or.inr (Or.inr (e ▸ e2))
      · exact Or.inr (Or.inl e)
      · exact Or.inr (Or.inr e)
    · exact ih _ _ _ h

/-- A non-empty path returned by `get_shortest_path_portal` is a path that
`find_path_a_star` returns from the cell to some cell, bounded to the region box. -/
theorem get_shortest_path_portal_spec {dd : DungeonData} {dp : DungeonPortals}
    {src tile : IVec2} {p0 p : PathPortal} {sp : List IVec2}
    (h : get_shortest_path_portal fscore dd dp src tile p0 = .ok (sp, p)) (hne : sp ≠ []) :
    ∃ c, find_path_a_star fscore dd src c (regionMin dp tile) (regionMax dp tile) = .ok sp := by
  unfold get_shortest_path_portal at h
  split at h
  · cases h
  simp only at h
  split at h
  · cases h
  rcases shortestPortalLoop_spec fscore _ _ _ _ h with e | e | e
  · exact absurd e hne
  · exact absurd e hne
  · exact e

theorem cell_idx_lt {dd : DungeonData} (hwf : dd.WF) {x y : Nat} (hx : x < dd.width)
    (hy : y < dd.width ∨ y < dd.height) : y * dd.width + x < 2 ^ 64 := by
  obtain ⟨_, hw, hh⟩ := hwf
  have hy2 : y < 2 ^ 31 := by omega
  have : y * dd.width ≤ 2 ^ 31 * 2 ^ 31 := Nat.mul_le_mul (by omega) (by omega)
  have h3 : (2 : Nat) ^ 31 * 2 ^ 31 < 2 ^ 63 := by norm_num
  omega

theorem getMapAt_spec {dd : DungeonData} (hwf : dd.WF) {map : List ℚ} {x y : Nat} {d a : ℚ}
    (h : getMapAt dd map x y d = .ok a) :
    a = d ∨ (floorAt dd x y ∧ map.get? (y * dd.width + x) = some a) := by
  unfold getMapAt at h
  split at h
  · rename_i hxy
    have hlt := cell_idx_lt hwf hxy.1 (Or.inl hxy.2)
    rw [Nat.mod_eq_of_lt hlt] at h
    split at h
    · cases h
    rename_i t ht
    split at h
    · rename_i hfl
      split at h
      · cases h
      rename_i v hv
      cases h
      right
      subst hfl
      refine ⟨⟨hxy.1, ?_, ht⟩, hv⟩
      have hlen : y * dd.width + x < dd.tiles.length := by
        rw [List.get?_eq_getElem?] at ht
        by_contra hc
        rw [List.getElem?_eq_none (Nat.le_of_not_lt hc)] at ht
        cases ht
      rw [hwf.1] at hlen
      by_contra hc
      have : dd.height * dd.width ≤ y * dd.width := Nat.mul_le_mul_right _ (Nat.le_of_not_lt hc)
      rw [Nat.mul_comm dd.width dd.height] at hlen
      omega
    · cases h; exact Or.inl rfl
  · cases h; exact Or.inl rfl

theorem getMinNei_spec {dd : DungeonData} (hwf : dd.WF) {map : List ℚ} {x y : Nat} {mv : ℚ}
    (hx : x < dd.width) (hy : y < dd.height)
    (h : getMinNei dd map x y = .ok mv) :
    map.get? (y * dd.width + x) = some mv ∨
      ∃ x2 y2, NatAdj x y x2 y2 ∧ floorAt dd x2 y2 ∧
        map.get? (y2 * dd.width + x2) = some mv := by
  have hlt := cell_idx_lt hwf hx (Or.inr hy)
  have hx64 : x < 2 ^ 64 := by omega
  have hy64 : y < 2 ^ 64 := by have := hwf.2.2; omega
  unfold getMinNei at h
  rw [Nat.mod_eq_of_lt hlt] at h
  split at h
  · cases h
  rename_i v0 hv0
  split at h
  · cases h
  rename_i a1 h1
  try simp only at h
  split at h
  · cases h
  rename_i a2 h2
  try simp only at h
  split at h
  · cases h
  rename_i a3 h3
  try simp only at h
  split at h
  · cases h
  rename_i a4 h4
  cases h
  -- each running minimum is the own value or the value of a floor neighbour
  have key : ∀ (v a : ℚ) (x2 y2 : Nat), (floorAt dd x2 y2 → NatAdj x y x2 y2) →
      (map.get? (y * dd.width + x) = some v ∨
        ∃ x3 y3, NatAdj x y x3 y3 ∧ floorAt dd x3 y3 ∧
          map.get? (y3 * dd.width + x3) = some v) →
      getMapAt dd map x2 y2 v = .ok a →
      (map.get? (y * dd.width + x) = some (min v a) ∨
        ∃ x3 y3, NatAdj x y x3 y3 ∧ floorAt dd x3 y3 ∧
          map.get? (y3 * dd.width + x3) = some (min v a)) := by
    intro v a x2 y2 hadj hv ha
    rcases getMapAt_spec hwf ha with e | ⟨hf, e⟩
    · rw [e, min_self]; exact hv
    · rcases min_choice v a with hm | hm
      · rw [hm]; exact hv
      · rw [hm]
        exact Or.inr ⟨x2, y2, hadj hf, hf, e⟩
  have hw31 := hwf.2.1
  have hh31 := hwf.2.2
  have wrap : ∀ z : Nat, z < 2 ^ 31 → ((z + (2 ^ 64 - 1)) % 2 ^ 64 < 2 ^ 31 →
      (z + (2 ^ 64 - 1)) % 2 ^ 64 + 1 = z) := by
    intro z hz hlt2
    by_cases h0 : z = 0
    · subst h0; simp at hlt2
    · have e : z + (2 ^ 64 - 1) = (z - 1) + 2 ^ 64 := by omega
      rw [e, Nat.add_mod_right, Nat.mod_eq_of_lt (by omega)]
      omega
  have adj1 : floorAt dd ((x + (2 ^ 64 - 1)) % 2 ^ 64) y →
      NatAdj x y ((x + (2 ^ 64 - 1)) % 2 ^ 64) y := by
    intro hf
    have := wrap x (by omega) (by have := hf.1; omega)
    unfold NatAdj; omega
  have adj2 : floorAt dd ((x + 1) % 2 ^ 64) y → NatAdj x y ((x + 1) % 2 ^ 64) y := by
    intro _
    rw [Nat.mod_eq_of_lt (by omega)]
    unfold NatAdj; omega
  have adj3 : floorAt dd x ((y + (2 ^ 64 - 1)) % 2 ^ 64) →
      NatAdj x y x ((y + (2 ^ 64 - 1)) % 2 ^ 64) := by
    intro hf
    have := wrap y (by omega) (by have := hf.2.1; omega)
    unfold NatAdj; omega
  have adj4 : floorAt dd x ((y + 1) % 2 ^ 64) → NatAdj x y x ((y + 1) % 2 ^ 64) := by
    intro _
    rw [Nat.mod_eq_of_lt (by omega)]
    unfold NatAdj; omega
  exact key _ _ _ _ adj4 (key _ _ _ _ adj3 (key _ _ _ _ adj2
    (key _ _ _ _ adj1 (Or.inl hv0) h1) h2) h3) h4

theorem cell_idx_inj {w x y x2 y2 : Nat} (hx : x < w) (hx2 : x2 < w)
    (h : y * w + x = y2 * w + x2) : x = x2 ∧ y = y2 := by
  have hw : 0 < w := by omega
  have h1 : (w * y + x) / w = (w * y2 + x2) / w := by
    rw [Nat.mul_comm w y, Nat.mul_comm w y2, h]
  have h2 : (w * y + x) % w = (w * y2 + x2) % w := by
    rw [Nat.mul_comm w y, Nat.mul_comm w y2, h]
  rw [Nat.mul_add_div hw, Nat.mul_add_div hw, Nat.div_eq_of_lt hx, Nat.div_eq_of_lt hx2] at h1
  rw [Nat.mul_add_mod, Nat.mul_add_mod, Nat.mod_eq_of_lt hx, Nat.mod_eq_of_lt hx2] at h2
  omega

/-- A pass of the relaxation writes no floor cell that is cut off from the seeds. -/
theorem dmap_pass_unreached {dd : DungeonData} (hwf : dd.WF) (seed : Nat → Nat → Prop) :
    ∀ (cells : List (Nat × Nat)) (map : List ℚ) (done : Bool) (map2 : List ℚ) (done2 : Bool),
      (∀ c ∈ cells, c.1 < dd.width ∧ c.2 < dd.height) →
      UnreachedKept dd seed map →
      dmap_pass dd cells (map, done) = .ok (map2, done2) →
      UnreachedKept dd seed map2 := by
  intro cells
  induction cells with
  | nil =>
    intro map done map2 done2 _ hk h
    simp only [dmap_pass, Except.ok.injEq, Prod.mk.injEq] at h
    rw [← h.1]; exact hk
  | cons c cs ih =>
    intro map done map2 done2 hc hk h
    obtain ⟨x, y⟩ := c
    have hxy := hc (x, y) (List.mem_cons_self _ _)
    have hcs : ∀ c ∈ cs, c.1 < dd.width ∧ c.2 < dd.height :=
      fun c h => hc c (List.mem_cons_of_mem _ h)
    simp only at hxy
    have hlt := cell_idx_lt hwf hxy.1 (Or.inr hxy.2)
    unfold dmap_pass at h
    simp only [Nat.mod_eq_of_lt hlt] at h
    split at h
    · cases h
    rename_i t ht
    split at h
    · exact ih _ _ _ _ hcs hk h
    rename_i hfl
    have hfl : t = Tile.floor := by simpa using hfl
    subst hfl
    have hfloor : floorAt dd x y := ⟨hxy.1, hxy.2, ht⟩
    split at h
    · cases h
    rename_i myVal hmy
    split at h
    · cases h
    rename_i minVal hmin
    split at h
    · rename_i hupd
      refine ih _ _ _ _ hcs ?_ h
      have hreach : SeedReach dd seed x y := by
        by_contra hnr
        have hown := hk x y hfloor hnr
        have hmy2 : myVal = invalid_tile_value := by
          rcases getMapAt_spec hwf hmy with e | ⟨_, e⟩
          · exact e
          · rw [hown] at e; cases e; rfl
        have hmin2 : minVal = invalid_tile_value := by
          rcases getMinNei_spec hwf hxy.1 hxy.2 hmin with e | ⟨x2, y2, hadj, hf2, e⟩
          · rw [hown] at e; cases e; rfl
          · have hnr2 : ¬ SeedReach dd seed x2 y2 := by
              intro hr
              apply hnr
              refine SeedReach.step hr ?_ hfloor
              unfold NatAdj at hadj ⊢
              omega
            rw [hk x2 y2 hf2 hnr2] at e
            cases e; rfl
        rw [hmy2, hmin2] at hupd
        linarith
      intro x2 y2 hf2 hnr2
      have hne : y * dd.width + x ≠ y2 * dd.width + x2 := by
        intro e
        obtain ⟨e1, e2⟩ := cell_idx_inj hxy.1 hf2.1 e
        subst e1; subst e2
        exact hnr2 hreach
      rw [List.get?_eq_getElem?, List.getElem?_set_ne hne, ← List.get?_eq_getElem?]
      exact hk x2 y2 hf2 hnr2
    · exact ih _ _ _ _ hcs hk h

theorem scanOrder_mem {dd : DungeonData} : ∀ c ∈ scanOrder dd, c.1 < dd.width ∧ c.2 < dd.height := by
  intro c hc
  simp only [scanOrder, List.mem_flatMap, List.mem_range, List.mem_map] at hc
  obtain ⟨y, hy, x, hx, rfl⟩ := hc
  exact ⟨hx, hy⟩

theorem process_dmap_unreached {dd : DungeonData} (hwf : dd.WF) (seed : Nat → Nat → Prop) :
    ∀ (fuel : Nat) (map map2 : List ℚ), UnreachedKept dd seed map →
      process_dmap dd fuel map = .ok map2 → UnreachedKept dd seed map2 := by
  intro fuel
  induction fuel with
  | zero => intro map map2 _ h; simp [process_dmap] at h
  | succ n ih =>
    intro map map2 hk h
    unfold process_dmap at h
    split at h
    · cases h
    rename_i m3 done hp
    have hk3 := dmap_pass_unreached hwf seed _ _ _ _ _ scanOrder_mem hk hp
    split at h
    · cases h; exact hk3
    · exact ih _ _ hk3 h

theorem IsMaxRun.eq_of_mem {op : Nat → Prop} {n a b a2 b2 i : Nat}
    (h1 : IsMaxRun op n a b) (h2 : IsMaxRun op n a2 b2)
    (hi1 : a ≤ i ∧ i ≤ b) (hi2 : a2 ≤ i ∧ i ≤ b2) : a = a2 ∧ b = b2 := by
  obtain ⟨_, hb, ho, ha, hbb⟩ := h1
  obtain ⟨_, hb2, ho2, ha2, hbb2⟩ := h2
  refine ⟨?_, ?_⟩
  · by_contra hne
    rcases Nat.lt_or_gt_of_ne hne with h | h
    · -- a < a2: position a2 - 1 lies in [a, b]
      rcases ha2 with e | e
      · omega
      · exact e (ho (a2 - 1) (by omega) (by omega))
    · rcases ha with e | e
      · omega
      · exact e (ho2 (a - 1) (by omega) (by omega))
  · by_contra hne
    rcases Nat.lt_or_gt_of_ne hne with h | h
    · rcases hbb with e | e
      · omega
      · exact e (ho2 (b + 1) (by omega) (by omega))
    · rcases hbb2 with e | e
      · omega
      · exact e (ho (b2 + 1) (by omega) (by omega))

theorem scanInv_step {op : Nat → Prop} [DecidablePred op] {n i : Nat}
    {mk : Int → Int → PathPortal} {pre : List PathPortal} {sc : BorderScan}
    {spans : List (Nat × Nat)} (hi : i < n) (hn : n < 2 ^ 31)
    (h : ScanInv op n i mk pre sc spans) :
    ∃ spans2, ScanInv op n (i + 1) mk pre (borderStep mk sc i (decide (op i))) spans2 := by
  have hcast : toInt32 i = (i : Int) := toInt32_of_lt (by omega)
  -- a maximal run ending at `i - 1` or later is not yet written
  have hold : ∀ a b, IsMaxRun op n a b → b + 1 < i + 1 → op i → b + 1 < i := by
    intro a b hr hb ho
    by_contra hc
    have : b + 1 = i := by omega
    rcases hr.2.2.2.2 with e | e
    · omega
    · exact e (this ▸ ho)
  by_cases ho : op i
  · refine ⟨spans, ?_⟩
    have hstep : borderStep mk sc i (decide (op i)) =
        { sc with spanFrom := if sc.spanFrom < 0 then toInt32 i else sc.spanFrom
                  spanTo := toInt32 i } := by
      simp [borderStep, ho]
    rw [hstep]
    refine ⟨h.ports, ?_, h.sorted, ?_⟩
    · intro a b
      rw [h.mem a b]
      constructor
      · rintro ⟨h1, h2⟩; exact ⟨h1, by omega⟩
      · rintro ⟨h1, h2⟩; exact ⟨h1, hold a b h1 h2 ho⟩
    · right
      rcases h.cur with ⟨hneg, hprev⟩ | ⟨a, ha, _, hai, hall, hstart⟩
      · refine ⟨i, ?_, ?_, by omega, ?_, ?_⟩
        · simp only [hneg, if_true, hcast]
        · simp only [hcast]; rfl
        · intro j h1 h2
          have : j = i := by omega
          rw [this]; exact ho
        · exact hprev
      · refine ⟨a, ?_, ?_, by omega, ?_, hstart⟩
        · have : ¬ (sc.spanFrom < 0) := by rw [ha]; omega
          simp only [this, if_false]
          exact ha
        · simp only [hcast]; rfl
        · intro j h1 h2
          by_cases e : j = i
          · rw [e]; exact ho
          · exact hall j h1 (by omega)
  · rcases h.cur with ⟨hneg, hprev⟩ | ⟨a, ha, hto, hai, hall, hstart⟩
    · refine ⟨spans, ?_⟩
      have hstep : borderStep mk sc i (decide (op i)) = sc := by
        have : ¬ (sc.spanFrom ≥ 0) := by omega
        simp [borderStep, ho, this]
      rw [hstep]
      refine ⟨h.ports, ?_, h.sorted, Or.inl ⟨hneg, Or.inr (by simpa using ho)⟩⟩
      intro a b
      rw [h.mem a b]
      constructor
      · rintro ⟨h1, h2⟩; exact ⟨h1, by omega⟩
      · rintro ⟨h1, h2⟩
        refine ⟨h1, ?_⟩
        by_contra hc
        have hb : b + 1 = i := by omega
        have hob := h1.2.2.1 b h1.1 (le_refl _)
        rcases hprev with e | e
        · omega
        · have : i - 1 = b := by omega
          exact e (this ▸ hob)
    · refine ⟨spans ++ [(a, i - 1)], ?_⟩
      have hstep : borderStep mk sc i (decide (op i)) =
          { sc with portals := sc.portals ++ [mk sc.spanFrom sc.spanTo], spanFrom := -1 } := by
        have : sc.spanFrom ≥ 0 := by rw [ha]; omega
        simp [borderStep, ho, this]
      rw [hstep]
      have hrun : IsMaxRun op n a (i - 1) :=
        ⟨by omega, by omega, fun j h1 h2 => hall j h1 (by omega), hstart,
          Or.inr (by rw [Nat.sub_add_cancel (by omega)]; exact ho)⟩
      refine ⟨?_, ?_, ?_, Or.inl ⟨by simp, Or.inr (by simpa using ho)⟩⟩
      · simp only [h.ports, List.map_append, List.map_cons, List.map_nil, List.append_assoc,
          ha, hto]
      · intro a2 b2
        rw [List.mem_append, h.mem a2 b2, List.mem_singleton, Prod.mk.injEq]
        constructor
        · rintro (⟨h1, h2⟩ | ⟨e1, e2⟩)
          · exact ⟨h1, by omega⟩
          · subst e1; subst e2; exact ⟨hrun, by omega⟩
        · rintro ⟨h1, h2⟩
          by_cases hb : b2 + 1 < i
          · exact Or.inl ⟨h1, hb⟩
          · right
            have hb2 : b2 = i - 1 := by omega
            have := IsMaxRun.eq_of_mem h1 hrun (i := i - 1) ⟨by rw [← hb2]; exact h1.1, by omega⟩
              ⟨by omega, le_refl _⟩
            exact this
      · rw [List.pairwise_append]
        refine ⟨h.sorted, List.pairwise_singleton _ _, ?_⟩
        intro s hs t ht
        rw [List.mem_singleton] at ht
        subst ht
        obtain ⟨hr, hlt⟩ := (h.mem s.1 s.2).mp hs
        simp only
        by_contra hc
        have := IsMaxRun.eq_of_mem hr hrun (i := s.2) ⟨hr.1, le_refl _⟩ ⟨by omega, by omega⟩
        omega

/-- The loop of `check_border` is the iteration of `borderStep` when its tile reads
succeed and their outcome is described by `op`. -/
theorem check_border_loop_eq (dd : DungeonData) (split xx yy dir_x dir_y : Nat)
    (offs_x offs_y : Int) (op : Nat → Prop) [DecidablePred op] :
    ∀ (is : List Nat) (sc : BorderScan),
      (∀ i ∈ is,
        (∃ t, dd.tiles.get? ((((yy * split + i * dir_y) % 2 ^ 64) * dd.width +
            (xx * split + i * dir_x) % 2 ^ 64) % 2 ^ 64) = some t ∧ t = Tile.wall ∧ ¬ op i) ∨
        (∃ t nt, dd.tiles.get? ((((yy * split + i * dir_y) % 2 ^ 64) * dd.width +
            (xx * split + i * dir_x) % 2 ^ 64) % 2 ^ 64) = some t ∧ t ≠ Tile.wall ∧
          dd.tiles.get? (((((yy * split + i * dir_y) % 2 ^ 64 + toSizeT offs_y) % 2 ^ 64) *
            dd.width + ((xx * split + i * dir_x) % 2 ^ 64 + toSizeT offs_x) % 2 ^ 64) % 2 ^ 64)
            = some nt ∧ (nt ≠ Tile.wall ↔ op i))) →
      check_border_loop dd split xx yy dir_x dir_y offs_x offs_y is sc =
        .ok (is.foldl (fun s i => borderStep
          (spanPortal split xx yy dir_x dir_y offs_x offs_y) s i (decide (op i))) sc) := by
  intro is
  induction is with
  | nil => intro sc _; rfl
  | cons i is ih =>
    intro sc h
    have hi := h i (List.mem_cons_self _ _)
    have hrest := fun j hj => h j (List.mem_cons_of_mem _ hj)
    unfold check_border_loop
    simp only [List.foldl_cons]
    rcases hi with ⟨t, ht, hw, hop⟩ | ⟨t, nt, ht, hw, hnt, hop⟩
    · simp only [ht, hw, ne_eq, not_true_eq_false, if_false]
      rw [← ih _ hrest]
      simp only [borderStep, hop, decide_False, Bool.false_eq_true, if_false]
      split <;> rfl
    · simp only [ht, hnt, ne_eq, hw, not_false_eq_true, if_true]
      by_cases ho : op i
      · have hn : ¬ nt = Tile.wall := hop.mpr ho
        simp only [hn, not_false_eq_true, if_true]
        rw [← ih _ hrest]
        simp only [borderStep, ho, decide_True, if_true]
      · have hn : nt = Tile.wall := by
          by_contra hc
          exact ho (hop.mp hc)
        simp only [hn, not_true_eq_false, if_false]
        rw [← ih _ hrest]
        simp only [borderStep, ho, decide_False, Bool.false_eq_true, if_false]
        split <;> rfl

theorem scanInv_range (op : Nat → Prop) [DecidablePred op] {n : Nat}
    (mk : Int → Int → PathPortal) (pre : List PathPortal) (hn : n < 2 ^ 31) :
    ∀ k, k ≤ n → ∃ spans, ScanInv op n k mk pre
      ((List.range k).foldl (fun s i => borderStep mk s i (decide (op i))) ⟨-1, -1, pre⟩)
      spans := by
  intro k
  induction k with
  | zero =>
    intro _
    refine ⟨[], ⟨by simp, ?_, List.Pairwise.nil, Or.inl ⟨by simp, Or.inl rfl⟩⟩⟩
    intro a b
    simp
  | succ k ih =>
    intro hk
    obtain ⟨spans, hinv⟩ := ih (by omega)
    rw [List.range_succ, List.foldl_append]
    simp only [List.foldl_cons, List.foldl_nil]
    exact scanInv_step (by omega) hn hinv

/-- After the loop and the final write, the portals are the maximal runs in increasing
order. -/
theorem scanInv_final {op : Nat → Prop} {n : Nat} {mk : Int → Int → PathPortal}
    {pre : List PathPortal} {sc : BorderScan} {spans : List (Nat × Nat)}
    (h : ScanInv op n n mk pre sc spans) :
    ∃ spans2 : List (Nat × Nat),
      (if sc.spanFrom ≥ 0 then sc.portals ++ [mk sc.spanFrom sc.spanTo] else sc.portals)
        = pre ++ spans2.map (fun s => mk (s.1 : Int) (s.2 : Int)) ∧
      (∀ a b, (a, b) ∈ spans2 ↔ IsMaxRun op n a b) ∧
      spans2.Pairwise (fun s t => s.2 < t.1) := by
  rcases h.cur with ⟨hneg, hprev⟩ | ⟨a, ha, hto, hai, hall, hstart⟩
  · refine ⟨spans, ?_, ?_, h.sorted⟩
    · rw [if_neg (by omega)]; exact h.ports
    · intro a b
      rw [h.mem a b]
      constructor
      · exact fun h1 => h1.1
      · intro h1
        refine ⟨h1, ?_⟩
        by_contra hc
        have hb : b + 1 = n := by have := h1.2.1; omega
        have hob := h1.2.2.1 b h1.1 (le_refl _)
        rcases hprev with e | e
        · omega
        · have : n - 1 = b := by omega
          exact e (this ▸ hob)
  · have hrun : IsMaxRun op n a (n - 1) :=
      ⟨by omega, by omega, fun j h1 h2 => hall j h1 (by omega), hstart, Or.inl (by omega)⟩
    refine ⟨spans ++ [(a, n - 1)], ?_, ?_, ?_⟩
    · rw [if_pos (by rw [ha]; omega)]
      simp only [h.ports, List.map_append, List.map_cons, List.map_nil, List.append_assoc,
        ha, hto]
    · intro a2 b2
      rw [List.mem_append, h.mem a2 b2, List.mem_singleton, Prod.mk.injEq]
      constructor
      · rintro (⟨h1, _⟩ | ⟨e1, e2⟩)
        · exact h1
        · subst e1; subst e2; exact hrun
      · intro h1
        by_cases hb : b2 + 1 < n
        · exact Or.inl ⟨h1, hb⟩
        · right
          have hb2 : b2 = n - 1 := by have := h1.2.1; omega
          exact IsMaxRun.eq_of_mem h1 hrun (i := n - 1) ⟨by rw [← hb2]; exact h1.1, by omega⟩
            ⟨by omega, le_refl _⟩
    · rw [List.pairwise_append]
      refine ⟨h.sorted, List.pairwise_singleton _ _, ?_⟩
      intro s hs t ht
      rw [List.mem_singleton] at ht
      subst ht
      obtain ⟨hr, hlt⟩ := (h.mem s.1 s.2).mp hs
      simp only
      by_contra hc
      have := IsMaxRun.eq_of_mem hr hrun (i := s.2) ⟨hr.1, le_refl _⟩ ⟨by omega, by omega⟩
      omega

theorem region_le {split n xx : Nat} (hs : 0 < split) (hx : xx < n / split) :
    (xx + 1) * split ≤ n := by
  have : xx + 1 ≤ n / split := hx
  exact (Nat.le_div_iff_mul_le hs).mp this

theorem tile_get {dd : DungeonData} (hwf : dd.WF) {x y : Nat} (hx : x < dd.width)
    (hy : y < dd.height) :
    (y * dd.width + x) % 2 ^ 64 = y * dd.width + x ∧
      ∃ t, dd.tiles.get? (y * dd.width + x) = some t := by
  refine ⟨Nat.mod_eq_of_lt (cell_idx_lt hwf hx (Or.inr hy)), ?_⟩
  have : y * dd.width + x < dd.tiles.length := by
    rw [hwf.1]; exact idx_bound hx hy
  exact ⟨_, by rw [List.get?_eq_getElem?]; exact List.getElem?_eq_getElem this⟩

theorem openAt_iff {dd : DungeonData} {x y : Nat} {t : Tile} (hx : x < dd.width)
    (hy : y < dd.height) (ht : dd.tiles.get? (y * dd.width + x) = some t) :
    openAt dd x y ↔ t ≠ Tile.wall := by
  constructor
  · rintro ⟨_, _, t2, h2, hw⟩
    rw [ht] at h2; cases h2; exact hw
  · intro hw; exact ⟨hx, hy, t, ht, hw⟩

theorem toSizeT_neg_one : toSizeT (-1) = 2 ^ 64 - 1 := by decide

theorem toSizeT_zero : toSizeT 0 = 0 := by decide

theorem pred_mod {z : Nat} (h0 : 0 < z) (hz : z < 2 ^ 64) :
    (z + (2 ^ 64 - 1)) % 2 ^ 64 = z - 1 := by
  have e : z + (2 ^ 64 - 1) = (z - 1) + 2 ^ 64 := by omega
  rw [e, Nat.add_mod_right, Nat.mod_eq_of_lt (by omega)]

/-- The two tile reads of one iteration of `check_border` succeed, and both tiles are
non-wall exactly when the position is open. -/
theorem border_tests {dd : DungeonData} (hwf : dd.WF) {split xx yy : Nat} (hs : 0 < split)
    (hx : xx < dd.width / split) (hy : yy < dd.height / split) (top : Bool)
    (hpos : if top then 0 < yy else 0 < xx) (i : Nat) (hi : i < split) :
    (∃ t, dd.tiles.get? ((((yy * split + i * (if top then 0 else 1)) % 2 ^ 64) * dd.width +
        (xx * split + i * (if top then 1 else 0)) % 2 ^ 64) % 2 ^ 64) = some t ∧
        t = Tile.wall ∧ ¬ borderOpen dd split xx yy top i) ∨
    (∃ t nt, dd.tiles.get? ((((yy * split + i * (if top then 0 else 1)) % 2 ^ 64) * dd.width +
        (xx * split + i * (if top then 1 else 0)) % 2 ^ 64) % 2 ^ 64) = some t ∧
        t ≠ Tile.wall ∧
      dd.tiles.get? (((((yy * split + i * (if top then 0 else 1)) % 2 ^ 64 +
          toSizeT (if top then -1 else 0)) % 2 ^ 64) * dd.width +
        ((xx * split + i * (if top then 1 else 0)) % 2 ^ 64 +
          toSizeT (if top then 0 else -1)) % 2 ^ 64) % 2 ^ 64) = some nt ∧
      (nt ≠ Tile.wall ↔ borderOpen dd split xx yy top i)) := by
  have hxw := region_le hs hx
  have hyh := region_le hs hy
  have hw31 := hwf.2.1
  have hh31 := hwf.2.2
  rw [Nat.add_mul, Nat.one_mul] at hxw hyh
  cases top with
  | true =>
    simp only [if_true, Nat.mul_zero, Nat.mul_one, Nat.add_zero, toSizeT_neg_one,
      toSizeT_zero] at hpos ⊢
    have hyy : 0 < yy * split := Nat.mul_pos hpos hs
    have hcx : xx * split + i < dd.width := by omega
    have hcy : yy * split < dd.height := by omega
    simp only [Nat.mod_eq_of_lt (show xx * split + i < 2 ^ 64 by omega),
      Nat.mod_eq_of_lt (show yy * split < 2 ^ 64 by omega),
      pred_mod hyy (show yy * split < 2 ^ 64 by omega)]
    obtain ⟨e1, t, ht⟩ := tile_get hwf hcx hcy
    obtain ⟨e2, nt, hnt⟩ := tile_get hwf hcx (show yy * split - 1 < dd.height by omega)
    rw [e1, e2]
    by_cases hw : t = Tile.wall
    · left
      refine ⟨t, ht, hw, ?_⟩
      simp only [borderOpen, if_true]
      rintro ⟨h1, _⟩
      exact (openAt_iff hcx hcy ht).mp h1 hw
    · right
      refine ⟨t, nt, ht, hw, hnt, ?_⟩
      simp only [borderOpen, if_true]
      rw [openAt_iff hcx hcy ht, openAt_iff hcx (by omega) hnt]
      exact ⟨fun h => ⟨hw, h⟩, fun h => h.2⟩
  | false =>
    simp only [Bool.false_eq_true, if_false, Nat.mul_zero, Nat.mul_one, Nat.add_zero,
      toSizeT_neg_one, toSizeT_zero] at hpos ⊢
    have hxx : 0 < xx * split := Nat.mul_pos hpos hs
    have hcx : xx * split < dd.width := by omega
    have hcy : yy * split + i < dd.height := by omega
    simp only [Nat.mod_eq_of_lt (show xx * split < 2 ^ 64 by omega),
      Nat.mod_eq_of_lt (show yy * split + i < 2 ^ 64 by omega),
      pred_mod hxx (show xx * split < 2 ^ 64 by omega)]
    obtain ⟨e1, t, ht⟩ := tile_get hwf hcx hcy
    obtain ⟨e2, nt, hnt⟩ := tile_get hwf (show xx * split - 1 < dd.width by omega) hcy
    rw [e1, e2]
    by_cases hw : t = Tile.wall
    · left
      refine ⟨t, ht, hw, ?_⟩
      simp only [borderOpen, Bool.false_eq_true, if_false]
      rintro ⟨h1, _⟩
      exact (openAt_iff hcx hcy ht).mp h1 hw
    · right
      refine ⟨t, nt, ht, hw, hnt, ?_⟩
      simp only [borderOpen, Bool.false_eq_true, if_false]
      rw [openAt_iff hcx hcy ht, openAt_iff (by omega) hcy hnt]
      exact ⟨fun h => ⟨hw, h⟩, fun h => h.2⟩

theorem spanPortal_eq {dd : DungeonData} (hwf : dd.WF) {split xx yy : Nat} (hs : 0 < split)
    (hx : xx < dd.width / split) (hy : yy < dd.height / split) (top : Bool)
    (hpos : if top then 0 < yy else 0 < xx) {a b : Nat} (ha : a < split) (hb : b < split) :
    spanPortal split xx yy (if top then 1 else 0) (if top then 0 else 1)
      (if top then 0 else -1) (if top then -1 else 0) (a : Int) (b : Int)
      = runPortal split xx yy top a b := by
  have hxw := region_le hs hx
  have hyh := region_le hs hy
  have hw31 := hwf.2.1
  have hh31 := hwf.2.2
  rw [Nat.add_mul, Nat.one_mul] at hxw hyh
  have hta : toSizeT (a : Int) = a := toSizeT_natCast (by omega)
  have htb : toSizeT (b : Int) = b := toSizeT_natCast (by omega)
  cases top with
  | true =>
    simp only [if_true] at hpos
    have hyy : 0 < yy * split := Nat.mul_pos hpos hs
    simp only [spanPortal, runPortal, if_true, hta, htb, Nat.mul_one, Nat.mul_zero,
      Nat.add_zero, toSizeT_zero, toSizeT_neg_one, pred_mod hyy (show yy * split < 2 ^ 64 by omega),
      Nat.mod_eq_of_lt (show xx * split + a < 2 ^ 64 by omega),
      Nat.mod_eq_of_lt (show xx * split + b < 2 ^ 64 by omega),
      Nat.mod_eq_of_lt (show yy * split < 2 ^ 64 by omega)]
  | false =>
    simp only [Bool.false_eq_true, if_false] at hpos
    have hxx : 0 < xx * split := Nat.mul_pos hpos hs
    simp only [spanPortal, runPortal, Bool.false_eq_true, if_false, hta, htb, Nat.mul_one,
      Nat.mul_zero, Nat.add_zero, toSizeT_zero, toSizeT_neg_one,
      pred_mod hxx (show xx * split < 2 ^ 64 by omega),
      Nat.mod_eq_of_lt (show yy * split + a < 2 ^ 64 by omega),
      Nat.mod_eq_of_lt (show yy * split + b < 2 ^ 64 by omega),
      Nat.mod_eq_of_lt (show xx * split < 2 ^ 64 by omega)]

/-- `check_border` on the top or left border of a region appends to `pre` one portal for
every maximal run of open positions, in increasing order. -/
theorem check_border_spec {dd : DungeonData} (hwf : dd.WF) {split xx yy : Nat}
    (hs : 0 < split) (hx : xx < dd.width / split) (hy : yy < dd.height / split) (top : Bool)
    (hpos : if top then 0 < yy else 0 < xx) (pre : List PathPortal) :
    ∃ spans : List (Nat × Nat),
      check_border dd split xx yy (if top then 1 else 0) (if top then 0 else 1)
        (if top then 0 else -1) (if top then -1 else 0) pre
        = .ok (pre ++ spans.map (fun s => runPortal split xx yy top s.1 s.2)) ∧
      (∀ a b, (a, b) ∈ spans ↔ IsMaxRun (borderOpen dd split xx yy top) split a b) ∧
      spans.Pairwise (fun s t => s.2 < t.1) := by
  classical
  have hsplit : split < 2 ^ 31 := by
    have := region_le hs hx
    have := hwf.2.1
    have : split ≤ (xx + 1) * split := Nat.le_mul_of_pos_left _ (by omega)
    omega
  have hloop := check_border_loop_eq dd split xx yy (if top then 1 else 0)
    (if top then 0 else 1) (if top then 0 else -1) (if top then -1 else 0)
    (borderOpen dd split xx yy top) (List.range split) ⟨-1, -1, pre⟩
    (fun i hi => border_tests hwf hs hx hy top hpos i (List.mem_range.mp hi))
  obtain ⟨spans0, hinv⟩ := scanInv_range (borderOpen dd split xx yy top)
    (spanPortal split xx yy (if top then 1 else 0) (if top then 0 else 1)
      (if top then 0 else -1) (if top then -1 else 0)) pre hsplit split (le_refl _)
  obtain ⟨spans, h1, h2, h3⟩ := scanInv_final hinv
  refine ⟨spans, ?_, h2, h3⟩
  unfold check_border
  rw [hloop]
  simp only
  have hmap : spans.map (fun s => spanPortal split xx yy (if top then 1 else 0)
      (if top then 0 else 1) (if top then 0 else -1) (if top then -1 else 0)
      (s.1 : Int) (s.2 : Int)) = spans.map (fun s => runPortal split xx yy top s.1 s.2) := by
    apply List.map_congr_left
    intro s hs2
    have hr := (h2 s.1 s.2).mp hs2
    exact spanPortal_eq hwf hs hx hy top hpos (by have := hr.1; have := hr.2.1; omega) hr.2.1
  rw [← hmap, ← h1]
  exact (apply_ite Except.ok _ _ _).symm

theorem pushAt_spec (v : List (List Nat)) (i a : Nat) (hi : i < v.length) :
    ∃ v2, pushAt v i a = .ok v2 ∧ v2.length = v.length ∧
      ∀ r, v2.get? r = (v.get? r).map (fun l0 => if r = i then l0 ++ [a] else l0) := by
  unfold pushAt
  rw [List.get?_eq_getElem?, List.getElem?_eq_getElem hi]
  refine ⟨_, rfl, by simp, ?_⟩
  intro r
  simp only [List.get?_eq_getElem?, List.getElem?_set, hi, if_true]
  by_cases e : i = r
  · subst e
    simp [List.getElem?_eq_getElem hi]
  · have e2 : ¬ r = i := fun h => e h.symm
    simp only [e, if_false, e2]
    cases v[r]? <;> simp

theorem nbrIdx_lt {W x y : Nat} {top : Bool} (hx : x < W)
    (hpos : if top then 0 < y else 0 < x) : nbrIdx W x y top < y * W + x := by
  unfold nbrIdx
  cases top with
  | true =>
    simp only [if_true] at hpos ⊢
    have : (y - 1) * W + W = y * W := by
      rw [← Nat.succ_mul]; congr 1; omega
    omega
  | false =>
    simp only [Bool.false_eq_true, if_false] at hpos ⊢
    omega

theorem push_portals_inv {split W H x y : Nat} (top : Bool) (hx : x < W) (hy : y < H)
    (hpos : if top then 0 < y else 0 < x) (hW : W < 2 ^ 31) (hH : H < 2 ^ 31) :
    ∀ (ps : List PathPortal) (b : PortalBuild), BInv split W H b →
      b.tilePortalsIndices.length = y * W + x + 1 →
      (∀ p ∈ ps, ∃ a c, a ≤ c ∧ c < split ∧ p = runPortal split x y top a c) →
      ∃ b2, push_portals W x y (if top then 0 else -1) (if top then -1 else 0) ps b = .ok b2 ∧
        BInv split W H b2 ∧ b2.tilePortalsIndices.length = b.tilePortalsIndices.length ∧
        b2.portals = b.portals ++ ps := by
  have hidx : y * W + x < 2 ^ 62 := by
    have : y * W ≤ (2 ^ 31 - 1) * (2 ^ 31 - 1) := Nat.mul_le_mul (by omega) (by omega)
    have h3 : ((2 : Nat) ^ 31 - 1) * (2 ^ 31 - 1) + 2 ^ 31 < 2 ^ 62 := by norm_num
    omega
  have hnb := nbrIdx_lt hx hpos
  have hsecond : (((y + toSizeT (if top then -1 else 0)) % 2 ^ 64) * W + x +
      toSizeT (if top then 0 else -1)) % 2 ^ 64 = nbrIdx W x y top := by
    unfold nbrIdx
    cases top with
    | true =>
      simp only [if_true] at hpos ⊢
      rw [toSizeT_neg_one, toSizeT_zero, pred_mod hpos (by omega), Nat.add_zero]
      apply Nat.mod_eq_of_lt
      have : (y - 1) * W ≤ y * W := Nat.mul_le_mul_right _ (by omega)
      omega
    | false =>
      simp only [Bool.false_eq_true, if_false] at hpos ⊢
      rw [toSizeT_neg_one, toSizeT_zero, Nat.add_zero, Nat.mod_eq_of_lt (show y < 2 ^ 64 by omega)]
      have : 0 < y * W + x := by omega
      exact pred_mod this (by omega)
  intro ps
  induction ps with
  | nil =>
    intro b hinv _ _
    exact ⟨b, rfl, hinv, rfl, by simp⟩
  | cons p ps ih =>
    intro b hinv hlen hps
    unfold push_portals
    simp only [Nat.mod_eq_of_lt (show y * W + x < 2 ^ 64 by omega), hsecond]
    obtain ⟨t1, e1, l1, g1⟩ := pushAt_spec b.tilePortalsIndices (y * W + x)
      b.portals.length (by omega)
    obtain ⟨t2, e2, l2, g2⟩ := pushAt_spec t1 (nbrIdx W x y top) b.portals.length (by omega)
    rw [e1]; simp only
    rw [e2]; simp only
    -- the lists after the two writes
    have hget : ∀ r, t2.get? r = (b.tilePortalsIndices.get? r).map (fun l0 =>
        if r = y * W + x ∨ r = nbrIdx W x y top then l0 ++ [b.portals.length] else l0) := by
      intro r
      rw [g2 r, g1 r]
      cases b.tilePortalsIndices.get? r with
      | none => rfl
      | some l0 =>
        simp only [Option.map_some', Option.some.injEq]
        by_cases h1 : r = y * W + x
        · have h2 : ¬ r = nbrIdx W x y top := by omega
          simp [h1, h2]
          intro h3; omega
        · by_cases h2 : r = nbrIdx W x y top
          · have h3 : ¬ nbrIdx W x y top = y * W + x := by omega
            simp [h2, h3]
          · simp [h1, h2]
    obtain ⟨a, c, hac, hc, hp⟩ := hps p (List.mem_cons_self _ _)
    have hinv2 : BInv split W H ⟨b.portals ++ [p], t2⟩ := by
      constructor
      · intro r l hl k hk
        simp only at hl
        rw [hget r] at hl
        simp only [List.length_append, List.length_singleton]
        cases h0 : b.tilePortalsIndices.get? r with
        | none => rw [h0] at hl; cases hl
        | some l0 =>
          rw [h0] at hl
          simp only [Option.map_some', Option.some.injEq] at hl
          subst hl
          have hv := hinv.valid r l0 h0
          split at hk
          · rcases List.mem_append.mp hk with h | h
            · have := hv k h; omega
            · rw [List.mem_singleton] at h; omega
          · have := hv k hk; omega
      · intro k q hq
        simp only at hq ⊢
        rw [l2, l1]
        by_cases hk : k < b.portals.length
        · rw [List.get?_eq_getElem?, List.getElem?_append_left hk,
            ← List.get?_eq_getElem?] at hq
          obtain ⟨x0, y0, top0, a0, c0, h1, h2, h3, h4, h5, h6, h7, h8⟩ := hinv.geom k q hq
          refine ⟨x0, y0, top0, a0, c0, h1, h2, h3, h4, h5, h6, h7, ?_⟩
          intro r l hl
          rw [hget r] at hl
          cases h0 : b.tilePortalsIndices.get? r with
          | none => rw [h0] at hl; cases hl
          | some l0 =>
            rw [h0] at hl
            simp only [Option.map_some', Option.some.injEq] at hl
            subst hl
            rw [← h8 r l0 h0]
            split
            · rw [List.mem_append, List.mem_singleton]
              constructor
              · rintro (h | h)
                · exact h
                · omega
              · exact Or.inl
            · rfl
        · have hk2 : k = b.portals.length := by
            have : k < (b.portals ++ [p]).length := by
              rw [List.get?_eq_getElem?] at hq
              by_contra hc2
              rw [List.getElem?_eq_none (Nat.le_of_not_lt hc2)] at hq
              cases hq
            simp only [List.length_append, List.length_singleton] at this
            omega
          subst hk2
          rw [List.get?_eq_getElem?, List.getElem?_append_right (le_refl _)] at hq
          simp only [Nat.sub_self, List.getElem?_cons_zero, Option.some.injEq] at hq
          subst hq
          refine ⟨x, y, top, a, c, hx, hy, hpos, hac, hc, hp, by omega, ?_⟩
          intro r l hl
          rw [hget r] at hl
          cases h0 : b.tilePortalsIndices.get? r with
          | none => rw [h0] at hl; cases hl
          | some l0 =>
            rw [h0] at hl
            simp only [Option.map_some', Option.some.injEq] at hl
            subst hl
            have hv := hinv.valid r l0 h0
            split
            · rename_i hr
              simp [hr]
            · rename_i hr
              constructor
              · intro hm; have := hv _ hm; omega
              · intro h; exact absurd h hr
    obtain ⟨b3, h1, h2, h3, h4⟩ := ih ⟨b.portals ++ [p], t2⟩ hinv2
      (by simp only; rw [l2, l1]; exact hlen)
      (fun q hq => hps q (List.mem_cons_of_mem _ hq))
    refine ⟨b3, h1, h2, ?_, ?_⟩
    · rw [h3]; simp only; rw [l2, l1]
    · rw [h4]; simp

theorem get?_snoc_nil {v : List (List Nat)} {r : Nat} {l : List Nat}
    (h : (v ++ [[]]).get? r = some l) : v.get? r = some l ∨ (r = v.length ∧ l = []) := by
  rw [List.get?_eq_getElem?] at h
  by_cases hr : r < v.length
  · rw [List.getElem?_append_left hr] at h
    left; rw [List.get?_eq_getElem?]; exact h
  · rw [List.getElem?_append_right (Nat.le_of_not_lt hr)] at h
    right
    by_cases h0 : r - v.length = 0
    · rw [h0] at h
      simp only [List.getElem?_cons_zero, Option.some.injEq] at h
      exact ⟨by omega, h.symm⟩
    · obtain ⟨m, hm⟩ := Nat.exists_eq_succ_of_ne_zero h0
      rw [hm] at h
      simp at h

theorem BInv.extend {split W H : Nat} {b : PortalBuild} (h : BInv split W H b) :
    BInv split W H ⟨b.portals, b.tilePortalsIndices ++ [[]]⟩ := by
  constructor
  · intro r l hl k hk
    rcases get?_snoc_nil hl with h1 | ⟨_, h1⟩
    · exact h.valid r l h1 k hk
    · subst h1; cases hk
  · intro k p hp
    obtain ⟨x, y, top, a, c, h1, h2, h3, h4, h5, h6, h7, h8⟩ := h.geom k p hp
    refine ⟨x, y, top, a, c, h1, h2, h3, h4, h5, h6, ?_, ?_⟩
    · simp only [List.length_append, List.length_singleton]; omega
    · intro r l hl
      rcases get?_snoc_nil hl with h9 | ⟨h9, h10⟩
      · exact h8 r l h9
      · subst h10
        have := nbrIdx_lt h1 h3
        constructor
        · intro hk; cases hk
        · intro hr; omega

theorem scanRegion_inv {dd : DungeonData} (hwf : dd.WF) {split x y : Nat} (hs : 0 < split)
    (hx : x < dd.width / split) (hy : y < dd.height / split) (b : PortalBuild)
    (hinv : BInv split (dd.width / split) (dd.height / split) b)
    (hlen : b.tilePortalsIndices.length = y * (dd.width / split) + x) :
    ∃ b2, scanRegion dd split (dd.width / split) x y b = .ok b2 ∧
      BInv split (dd.width / split) (dd.height / split) b2 ∧
      b2.tilePortalsIndices.length = y * (dd.width / split) + x + 1 := by
  have hW : dd.width / split < 2 ^ 31 := lt_of_le_of_lt (Nat.div_le_self _ _) hwf.2.1
  have hH : dd.height / split < 2 ^ 31 := lt_of_le_of_lt (Nat.div_le_self _ _) hwf.2.2
  have hside : ∀ (top : Bool) (b1 : PortalBuild), (if top then 0 < y else 0 < x) →
      BInv split (dd.width / split) (dd.height / split) b1 →
      b1.tilePortalsIndices.length = y * (dd.width / split) + x + 1 →
      ∃ ps b2, check_border dd split x y (if top then 1 else 0) (if top then 0 else 1)
              (if top then 0 else -1) (if top then -1 else 0) [] = .ok ps ∧
        push_portals (dd.width / split) x y (if top then 0 else -1)
                (if top then -1 else 0) ps b1 = .ok b2 ∧
        BInv split (dd.width / split) (dd.height / split) b2 ∧
        b2.tilePortalsIndices.length = y * (dd.width / split) + x + 1 := by
    intro top b1 hpos hb1 hl1
    obtain ⟨spans, e, hsp, _⟩ := check_border_spec hwf hs hx hy top hpos []
    obtain ⟨b2, e2, h2, h3, _⟩ := push_portals_inv top hx hy hpos hW hH
      (spans.map (fun s => runPortal split x y top s.1 s.2)) b1 hb1 hl1 (by
        intro p hp
        obtain ⟨s, hs1, hs2⟩ := List.mem_map.mp hp
        have := (hsp s.1 s.2).mp hs1
        exact ⟨s.1, s.2, this.1, this.2.1, hs2.symm⟩)
    exact ⟨_, b2, e, e2, h2, by rw [h3, hl1]⟩
  unfold scanRegion
  simp only []
  have h0 := hinv.extend
  have hl0 : (b.tilePortalsIndices ++ [[]]).length = y * (dd.width / split) + x + 1 := by
    simp [hlen]
  have hleft : ∀ b1 : PortalBuild, BInv split (dd.width / split) (dd.height / split) b1 →
      b1.tilePortalsIndices.length = y * (dd.width / split) + x + 1 →
      ∃ b2, (if x > 0 then
          match check_border dd split x y 0 1 (-1) 0 [] with
          | Except.error e => Except.error e
          | Except.ok leftPortals => push_portals (dd.width / split) x y (-1) 0 leftPortals b1
        else Except.ok b1) = Except.ok b2 ∧
        BInv split (dd.width / split) (dd.height / split) b2 ∧
        b2.tilePortalsIndices.length = y * (dd.width / split) + x + 1 := by
    intro b1 hb1 hl1
    by_cases hx0 : x > 0
    · simp only [hx0, if_true]
      obtain ⟨ps, b2, e1, e2, h2, h3⟩ := hside false b1 (by simpa using hx0) hb1 hl1
      simp only [Bool.false_eq_true, if_false] at e1 e2
      rw [e1]
      exact ⟨b2, e2, h2, h3⟩
    · simp only [hx0, if_false]
      exact ⟨_, rfl, hb1, hl1⟩
  by_cases hy0 : y > 0
  · simp only [hy0, if_true]
    obtain ⟨ps, b1, e1, e2, h2, h3⟩ := hside true _ (by simpa using hy0) h0 hl0
    simp only [if_true] at e1 e2
    rw [e1]
    simp only []
    rw [e2]
    exact hleft b1 h2 h3
  · simp only [hy0, if_false]
    exact hleft _ h0 hl0

theorem scanRegions_inv {dd : DungeonData} (hwf : dd.WF) {split : Nat} (hs : 0 < split) :
    ∀ (rs : List (Nat × Nat)) (b : PortalBuild),
      BInv split (dd.width / split) (dd.height / split) b →
      (∀ i x y, rs.get? i = some (x, y) → x < dd.width / split ∧ y < dd.height / split ∧
        y * (dd.width / split) + x = b.tilePortalsIndices.length + i) →
      ∃ b2, scanRegions dd split (dd.width / split) rs b = .ok b2 ∧
        BInv split (dd.width / split) (dd.height / split) b2 ∧
        b2.tilePortalsIndices.length = b.tilePortalsIndices.length + rs.length := by
  intro rs
  induction rs with
  | nil => intro b hb _; exact ⟨b, rfl, hb, rfl⟩
  | cons c rs ih =>
    intro b hb hrs
    obtain ⟨x, y⟩ := c
    obtain ⟨hx, hy, hi⟩ := hrs 0 x y rfl
    obtain ⟨b1, e1, hb1, hl1⟩ := scanRegion_inv hwf hs hx hy b hb (by omega)
    unfold scanRegions
    rw [e1]
    simp only []
    obtain ⟨b2, e2, hb2, hl2⟩ := ih b1 hb1 (by
      intro i x2 y2 hi2
      have := hrs (i + 1) x2 y2 (by simpa using hi2)
      omega)
    refine ⟨b2, e2, hb2, ?_⟩
    rw [hl2, hl1, List.length_cons]; omega

theorem regions_eq (W H : Nat) :
    (List.range H).flatMap (fun y => (List.range W).map (fun x => (x, y)))
      = (List.range (H * W)).map (fun i => (i % W, i / W)) := by
  induction H with
  | zero => simp
  | succ n ih =>
    rw [List.range_succ, List.flatMap_append, ih, Nat.succ_mul, List.range_add, List.map_append]
    congr 1
    simp only [List.flatMap_cons, List.flatMap_nil, List.append_nil, List.map_map]
    apply List.map_congr_left
    intro x hx
    have hx2 := List.mem_range.mp hx
    have hW : 0 < W := by omega
    simp only [Function.comp]
    rw [Nat.mul_comm n W, Nat.mul_add_mod, Nat.mod_eq_of_lt hx2, Nat.mul_add_div hW,
      Nat.div_eq_of_lt hx2, Nat.add_zero]

theorem BInv.empty (split W H : Nat) : BInv split W H ⟨[], []⟩ := by
  constructor
  · intro r l hl; simp at hl
  · intro k p hp; simp at hp

theorem scanRegions_all {dd : DungeonData} (hwf : dd.WF) {split : Nat} (hs : 0 < split) :
    ∃ b, scanRegions dd split (dd.width / split)
        ((List.range (dd.height / split)).flatMap (fun y =>
          (List.range (dd.width / split)).map (fun x => (x, y)))) ⟨[], []⟩ = .ok b ∧
      BInv split (dd.width / split) (dd.height / split) b ∧
      b.tilePortalsIndices.length = dd.height / split * (dd.width / split) := by
  obtain ⟨b, e, hb, hl⟩ := scanRegions_inv hwf hs
    ((List.range (dd.height / split)).flatMap (fun y =>
          (List.range (dd.width / split)).map (fun x => (x, y)))) ⟨[], []⟩
    (BInv.empty _ _ _) (by
      intro i x y hi
      rw [regions_eq, List.get?_eq_getElem?, List.getElem?_map] at hi
      by_cases hlt : i < dd.height / split * (dd.width / split)
      · rw [List.getElem?_range hlt] at hi
        simp only [Option.map_some', Option.some.injEq, Prod.mk.injEq] at hi
        obtain ⟨h1, h2⟩ := hi
        have hW : 0 < dd.width / split := by
          rcases Nat.eq_zero_or_pos (dd.width / split) with h | h
          · rw [h] at hlt; simp at hlt
          · exact h
        refine ⟨by rw [← h1]; exact Nat.mod_lt _ hW, ?_, ?_⟩
        · rw [← h2]; exact Nat.div_lt_of_lt_mul (by rw [Nat.mul_comm]; exact hlt)
        · rw [← h1, ← h2]
          simp only [List.length_nil, Nat.zero_add]
          rw [Nat.mul_comm]; exact Nat.div_add_mod i _
      · rw [List.getElem?_eq_none (by simpa using hlt)] at hi
        cases hi)
  refine ⟨b, e, hb, ?_⟩
  rw [hl, regions_eq]; simp

theorem pushConn_get (ps : List PathPortal) (i : Nat) (c : PortalConnection) (k : Nat) :
    (pushConn ps i c).get? k =
      (ps.get? k).map (fun q => if i = k then { q with conns := q.conns ++ [c] } else q) := by
  unfold pushConn
  rw [List.get?_eq_getElem?, List.get?_eq_getElem?, List.getElem?_modify]
  rfl

theorem addEdge_get (ps : List PathPortal) (pi pj w k : Nat) :
    (addEdge ps pi pj w).get? k = (ps.get? k).map (fun q =>
      { q with conns := q.conns ++ (if pi = k then [⟨pj, w⟩] else []) ++
          (if pj = k then [⟨pi, w⟩] else []) }) := by
  unfold addEdge
  rw [pushConn_get, pushConn_get]
  cases ps.get? k with
  | none => rfl
  | some q =>
    simp only [Option.map_some']
    by_cases h1 : pi = k <;> by_cases h2 : pj = k <;> simp [h1, h2]

theorem addEdge_rect (ps : List PathPortal) (pi pj w : Nat) :
    (addEdge ps pi pj w).map PathPortal.rect = ps.map PathPortal.rect := by
  apply List.ext_getElem?
  intro k
  rw [List.getElem?_map, List.getElem?_map, ← List.get?_eq_getElem?, ← List.get?_eq_getElem?,
    addEdge_get]
  cases ps.get? k <;> rfl

theorem addEdge_sym {ps : List PathPortal} {pi pj : Nat} (w : Nat) {p q : PathPortal}
    (hp : ps.get? pi = some p) (hq : ps.get? pj = some q) (h : SymConns ps) :
    SymConns (addEdge ps pi pj w) := by
  intro i r hr c hc
  rw [addEdge_get] at hr
  cases hi : ps.get? i with
  | none => rw [hi] at hr; cases hr
  | some r0 =>
    rw [hi] at hr
    simp only [Option.map_some', Option.some.injEq] at hr
    subst hr
    simp only [List.append_assoc, List.mem_append] at hc
    rcases hc with hc | hc | hc
    · obtain ⟨q0, hq0, hm⟩ := h i r0 hi c hc
      refine ⟨_, by rw [addEdge_get, hq0]; rfl, ?_⟩
      simp only [List.append_assoc, List.mem_append]
      exact Or.inl hm
    · split at hc
      · rename_i e
        rw [List.mem_singleton] at hc
        subst hc; subst e
        refine ⟨_, by rw [addEdge_get, hq]; rfl, ?_⟩
        simp
      · cases hc
    · split at hc
      · rename_i e
        rw [List.mem_singleton] at hc
        subst hc; subst e
        refine ⟨_, by rw [addEdge_get, hp]; rfl, ?_⟩
        simp
      · cases hc

/-- Induction over the loop `connectFrom`: a property kept by every recorded edge holds of
the result. -/
theorem connectFrom_ind (P : List PathPortal → Prop) {dd : DungeonData}
    {limMin limMax : IVec2} {pi : Nat} :
    ∀ (js : List Nat) (ps ps2 : List PathPortal),
      (∀ pj ∈ js, ∀ ps p q m, P ps → ps.get? pi = some p → ps.get? pj = some q →
        scanPairs fscore dd limMin limMax (portalPairs p q limMin limMax) 0xffffffff
          = .ok (false, m) → P (addEdge ps pi pj (floatOfSize m))) →
      P ps → connectFrom fscore dd limMin limMax pi js ps = .ok ps2 → P ps2 := by
  intro js
  induction js with
  | nil =>
    intro ps ps2 _ hP h
    unfold connectFrom at h
    cases h; exact hP
  | cons pj js ih =>
    intro ps ps2 hstep hP h
    unfold connectFrom at h
    cases hp : ps.get? pi with
    | none => rw [hp] at h; simp at h
    | some p =>
      cases hq : ps.get? pj with
      | none => rw [hp, hq] at h; simp at h
      | some q =>
        rw [hp, hq] at h
        simp only [] at h
        cases hs : scanPairs fscore dd limMin limMax (portalPairs p q limMin limMax) 0xffffffff with
        | error e =>
          unfold portalPairs at hs
          rw [hs] at h; cases h
        | ok r =>
          obtain ⟨noPath, m⟩ := r
          have hs2 := hs
          unfold portalPairs at hs2
          rw [hs2] at h
          simp only [] at h
          have htl : ∀ pj ∈ js, ∀ ps p q m, P ps → ps.get? pi = some p → ps.get? pj = some q →
              scanPairs fscore dd limMin limMax (portalPairs p q limMin limMax) 0xffffffff
                = .ok (false, m) → P (addEdge ps pi pj (floatOfSize m)) :=
            fun pj hpj => hstep pj (List.mem_cons_of_mem _ hpj)
          cases noPath with
          | true =>
            simp only [if_true] at h
            exact ih ps ps2 htl hP h
          | false =>
            simp only [Bool.false_eq_true, if_false] at h
            exact ih _ ps2 htl (hstep pj (List.mem_cons_self _ _) ps p q m hP hp hq hs) h

theorem connectRegion_ind (P : List PathPortal → Prop) {dd : DungeonData}
    {limMin limMax : IVec2} :
    ∀ (is : List Nat) (ps ps2 : List PathPortal),
      (∀ pi ∈ is, ∀ pj ∈ is, ∀ ps p q m, P ps → ps.get? pi = some p → ps.get? pj = some q →
        scanPairs fscore dd limMin limMax (portalPairs p q limMin limMax) 0xffffffff
          = .ok (false, m) → P (addEdge ps pi pj (floatOfSize m))) →
      P ps → connectRegion fscore dd limMin limMax is ps = .ok ps2 → P ps2 := by
  intro is
  induction is with
  | nil =>
    intro ps ps2 _ hP h
    unfold connectRegion at h
    cases h; exact hP
  | cons pi is ih =>
    intro ps ps2 hstep hP h
    unfold connectRegion at h
    cases h1 : connectFrom fscore dd limMin limMax pi is ps with
    | error e => rw [h1] at h; cases h
    | ok ps1 =>
      rw [h1] at h
      simp only [] at h
      have hP1 := connectFrom_ind fscore P is ps ps1
        (fun pj hpj => hstep pi (List.mem_cons_self _ _) pj (List.mem_cons_of_mem _ hpj)) hP h1
      exact ih ps1 ps2
        (fun a ha b hb => hstep a (List.mem_cons_of_mem _ ha) b (List.mem_cons_of_mem _ hb))
        hP1 h

theorem connectRegions_ind (P : List PathPortal → Prop) {dd : DungeonData}
    {split width : Nat} :
    ∀ (rs : List (Nat × List Nat)) (ps ps2 : List PathPortal),
      (∀ r ∈ rs, ∀ pi ∈ r.2, ∀ pj ∈ r.2, ∀ ps p q m, P ps → ps.get? pi = some p →
        ps.get? pj = some q →
        scanPairs fscore dd (tileLimMin split width r.1) (tileLimMax split width r.1)
          (portalPairs p q (tileLimMin split width r.1) (tileLimMax split width r.1)) 0xffffffff
          = .ok (false, m) → P (addEdge ps pi pj (floatOfSize m))) →
      P ps → connectRegions fscore dd split width rs ps = .ok ps2 → P ps2 := by
  intro rs
  induction rs with
  | nil =>
    intro ps ps2 _ hP h
    unfold connectRegions at h
    cases h; exact hP
  | cons r rs ih =>
    intro ps ps2 hstep hP h
    obtain ⟨tidx, indices⟩ := r
    unfold connectRegions at h
    simp only [] at h
    cases h1 : connectRegion fscore dd (tileLimMin split width tidx)
        (tileLimMax split width tidx) indices ps with
    | error e =>
      unfold tileLimMin tileLimMax at h1
      rw [h1] at h; cases h
    | ok ps1 =>
      have h1b := h1
      unfold tileLimMin tileLimMax at h1b
      rw [h1b] at h
      simp only [] at h
      have hP1 := connectRegion_ind fscore P indices ps ps1
        (hstep (tidx, indices) (List.mem_cons_self _ _)) hP h1
      exact ih ps1 ps2 (fun r hr => hstep r (List.mem_cons_of_mem _ hr)) hP1 h

theorem prebuild_map_inv {dd : DungeonData} (hwf : dd.WF) {split : Nat} {dp : DungeonPortals}
    (h : prebuild_map fscore split dd = .ok dp) :
    0 < split ∧ ∃ b : PortalBuild,
      BInv split (dd.width / split) (dd.height / split) b ∧
      b.tilePortalsIndices.length = dd.height / split * (dd.width / split) ∧
      connectRegions fscore dd split (dd.width / split) b.tilePortalsIndices.enum b.portals
        = .ok dp.portals ∧
      dp.tilePortalsIndices = b.tilePortalsIndices ∧ dp.tileSplit = split := by
  unfold prebuild_map at h
  by_cases hs : split = 0
  · simp [hs] at h
  · have hs2 : 0 < split := Nat.pos_of_ne_zero hs
    refine ⟨hs2, ?_⟩
    simp only [hs, if_false] at h
    obtain ⟨b, e, hb, hl⟩ := scanRegions_all hwf hs2
    rw [e] at h
    simp only [] at h
    refine ⟨b, hb, hl, ?_⟩
    cases hc : connectRegions fscore dd split (dd.width / split) b.tilePortalsIndices.enum
        b.portals with
    | error e2 => rw [hc] at h; cases h
    | ok ps =>
      rw [hc] at h
      simp only [Except.ok.injEq] at h
      subst h
      exact ⟨rfl, rfl, rfl⟩

theorem connectRegions_rect {dd : DungeonData} {split width : Nat}
    (rs : List (Nat × List Nat)) (ps ps2 : List PathPortal)
    (h : connectRegions fscore dd split width rs ps = .ok ps2) :
    ps2.map PathPortal.rect = ps.map PathPortal.rect :=
  connectRegions_ind fscore (fun l => l.map PathPortal.rect = ps.map PathPortal.rect) rs ps ps2
    (fun _ _ _ _ _ _ _ _ _ _ hl _ _ _ => by
      show List.map PathPortal.rect (addEdge _ _ _ _) = _
      rw [addEdge_rect]; exact hl) rfl h

theorem connectRegions_sym {dd : DungeonData} {split width : Nat}
    (rs : List (Nat × List Nat)) (ps ps2 : List PathPortal) (h0 : SymConns ps)
    (h : connectRegions fscore dd split width rs ps = .ok ps2) : SymConns ps2 :=
  connectRegions_ind fscore SymConns rs ps ps2
    (fun _ _ _ _ _ _ _ _ _ m hl hp hq _ => addEdge_sym (floatOfSize m) hp hq hl) h0 h

theorem rect_get {ps ps2 : List PathPortal}
    (h : ps2.map PathPortal.rect = ps.map PathPortal.rect) {k : Nat} {p : PathPortal}
    (hp : ps2.get? k = some p) : ∃ p0, ps.get? k = some p0 ∧ p0.rect = p.rect := by
  have := congrArg (fun l => l.get? k) h
  simp only [List.get?_eq_getElem?, List.getElem?_map] at this hp ⊢
  rw [hp] at this
  cases h0 : ps[k]? with
  | none => rw [h0] at this; cases this
  | some p0 =>
    rw [h0] at this
    simp only [Option.map_some', Option.some.injEq] at this
    exact ⟨p0, rfl, this.symm⟩

theorem runPortal_regions (dd : DungeonData) {split x y a c : Nat} (top : Bool)
    (hs : 0 < split) (hpos : if top then 0 < y else 0 < x) (ha : a ≤ c) (hc : c < split) :
    let p := runPortal split x y top a c
    regionIndex dd split p.startX p.startY = nbrIdx (dd.width / split) x y top ∧
      regionIndex dd split p.endX p.endY = y * (dd.width / split) + x := by
  have d1 : ∀ z r, r < split → (z * split + r) / split = z := by
    intro z r hr
    rw [Nat.mul_comm, Nat.mul_add_div hs, Nat.div_eq_of_lt hr, Nat.add_zero]
  have d2 : ∀ z, 0 < z → (z * split - 1) / split = z - 1 := by
    intro z hz
    obtain ⟨m, rfl⟩ := Nat.exists_eq_succ_of_ne_zero (Nat.pos_iff_ne_zero.mp hz)
    have : (m + 1) * split - 1 = m * split + (split - 1) := by
      rw [Nat.succ_mul]; omega
    rw [this, d1 m (split - 1) (by omega)]; rfl
  cases top with
  | true =>
    simp only [if_true] at hpos
    simp only [runPortal, regionIndex, nbrIdx, if_true]
    rw [d1 x a (by omega), d1 x c hc, d2 y hpos]
    have := d1 y 0 hs
    simp only [Nat.add_zero] at this
    rw [this]
    exact ⟨rfl, rfl⟩
  | false =>
    simp only [Bool.false_eq_true, if_false] at hpos
    simp only [runPortal, regionIndex, nbrIdx, Bool.false_eq_true, if_false]
    rw [d1 y a (by omega), d1 y c hc, d2 x hpos]
    have := d1 x 0 hs
    simp only [Nat.add_zero] at this
    rw [this]
    refine ⟨?_, rfl⟩
    omega

theorem portalCells_congr {p p2 : PathPortal} (h : p.rect = p2.rect) (a b : IVec2) :
    portalCells p a b = portalCells p2 a b := by
  simp only [PathPortal.rect, Prod.mk.injEq] at h
  obtain ⟨h1, h2, h3, h4⟩ := h
  unfold portalCells
  rw [h1, h2, h3, h4]

theorem portalPairs_congr {p p2 q q2 : PathPortal} (hp : p.rect = p2.rect)
    (hq : q.rect = q2.rect) (a b : IVec2) :
    portalPairs p q a b = portalPairs p2 q2 a b := by
  unfold portalPairs
  rw [portalCells_congr hp, portalCells_congr hq]

theorem scanPairs_spec {dd : DungeonData} {limMin limMax : IVec2} :
    ∀ (pairs : List (IVec2 × IVec2)) (m0 m : Nat),
      scanPairs fscore dd limMin limMax pairs m0 = .ok (false, m) →
      m ≤ m0 ∧
      (∀ ab ∈ pairs, ∃ path, find_path_a_star fscore dd ab.1 ab.2 limMin limMax = .ok path ∧
        (path ≠ [] ∨ ab.1 = ab.2) ∧ m ≤ path.length) ∧
      (m = m0 ∨ ∃ ab ∈ pairs, ∃ path,
        find_path_a_star fscore dd ab.1 ab.2 limMin limMax = .ok path ∧ m = path.length) := by
  intro pairs
  induction pairs with
  | nil =>
    intro m0 m h
    unfold scanPairs at h
    simp only [Except.ok.injEq, Prod.mk.injEq, true_and] at h
    subst h
    exact ⟨le_refl _, by simp, Or.inl rfl⟩
  | cons ab pairs ih =>
    intro m0 m h
    obtain ⟨a, b⟩ := ab
    unfold scanPairs at h
    cases hp : find_path_a_star fscore dd a b limMin limMax with
    | error e => rw [hp] at h; cases h
    | ok path =>
      rw [hp] at h
      simp only [] at h
      by_cases hc : path.isEmpty ∧ a ≠ b
      · rw [if_pos hc] at h
        simp at h
      · rw [if_neg hc] at h
        obtain ⟨h1, h2, h3⟩ := ih _ _ h
        have hgood : path ≠ [] ∨ a = b := by
          by_cases he : path = []
          · right
            by_contra hne
            exact hc ⟨by simp [he], hne⟩
          · exact Or.inl he
        refine ⟨le_trans h1 (min_le_left _ _), ?_, ?_⟩
        · intro ab hab
          rcases List.mem_cons.mp hab with e | hm
          · subst e
            exact ⟨path, hp, hgood, le_trans h1 (min_le_right _ _)⟩
          · exact h2 ab hm
        · rcases h3 with e | ⟨ab, hab, path2, hp2, e2⟩
          · rcases min_choice m0 path.length with e3 | e3
            · left; rw [e, e3]
            · right
              exact ⟨(a, b), List.mem_cons_self _ _, path, hp, by rw [e, e3]⟩
          · right
            exact ⟨ab, List.mem_cons_of_mem _ hab, path2, hp2, e2⟩

theorem connectRegions_just {dd : DungeonData} {split width : Nat}
    (rs : List (Nat × List Nat)) (ps0 ps2 : List PathPortal)
    (h0 : ∀ i p, ps0.get? i = some p → p.conns = [])
    (h : connectRegions fscore dd split width rs ps0 = .ok ps2) :
    ∀ i p, ps2.get? i = some p → ∀ c ∈ p.conns,
      ∃ r ∈ rs, i ∈ r.2 ∧ c.connIdx ∈ r.2 ∧ ∃ q m, ps2.get? c.connIdx = some q ∧
        c.score = floatOfSize m ∧
        (scanPairs fscore dd (tileLimMin split width r.1) (tileLimMax split width r.1)
            (portalPairs p q (tileLimMin split width r.1) (tileLimMax split width r.1))
            0xffffffff = .ok (false, m) ∨
          scanPairs fscore dd (tileLimMin split width r.1) (tileLimMax split width r.1)
            (portalPairs q p (tileLimMin split width r.1) (tileLimMax split width r.1))
            0xffffffff = .ok (false, m)) := by
  refine connectRegions_ind fscore (fun ps => ∀ i p, ps.get? i = some p → ∀ c ∈ p.conns,
      ∃ r ∈ rs, i ∈ r.2 ∧ c.connIdx ∈ r.2 ∧ ∃ q m, ps.get? c.connIdx = some q ∧
        c.score = floatOfSize m ∧
        (scanPairs fscore dd (tileLimMin split width r.1) (tileLimMax split width r.1)
            (portalPairs p q (tileLimMin split width r.1) (tileLimMax split width r.1))
            0xffffffff = .ok (false, m) ∨
          scanPairs fscore dd (tileLimMin split width r.1) (tileLimMax split width r.1)
            (portalPairs q p (tileLimMin split width r.1) (tileLimMax split width r.1))
            0xffffffff = .ok (false, m))) rs ps0 ps2 ?_ ?_ h
  · intro r hr pi hpi pj hpj ps p q m hP hp hq hs
    intro i p2 hp2 c hc
    rw [addEdge_get] at hp2
    -- the portal stored at any index after the step, and its rectangle
    have hnew : ∀ k t, ps.get? k = some t → ∃ t2,
        (addEdge ps pi pj (floatOfSize m)).get? k = some t2 ∧ t2.rect = t.rect := by
      intro k t ht
      rw [addEdge_get, ht]
      exact ⟨_, rfl, rfl⟩
    cases hi : ps.get? i with
    | none => rw [hi] at hp2; cases hp2
    | some p0 =>
      rw [hi] at hp2
      simp only [Option.map_some', Option.some.injEq] at hp2
      have hrect : p2.rect = p0.rect := by rw [← hp2]; rfl
      have hconns : p2.conns = p0.conns ++ (if pi = i then [⟨pj, floatOfSize m⟩] else []) ++
          (if pj = i then [⟨pi, floatOfSize m⟩] else []) := by rw [← hp2]
      rw [hconns] at hc
      simp only [List.append_assoc, List.mem_append] at hc
      rcases hc with hc | hc | hc
      · obtain ⟨r0, hr0, h1, h2, q0, m0, h3, h4, h5⟩ := hP i p0 hi c hc
        obtain ⟨q2, hq2, hq2r⟩ := hnew _ _ h3
        refine ⟨r0, hr0, h1, h2, q2, m0, hq2, h4, ?_⟩
        rw [portalPairs_congr hrect hq2r, portalPairs_congr hq2r hrect]
        exact h5
      · split at hc
        · rename_i e
          rw [List.mem_singleton] at hc
          subst hc; subst e
          rw [hp] at hi
          cases hi
          obtain ⟨q2, hq2, hq2r⟩ := hnew _ _ hq
          refine ⟨r, hr, hpi, hpj, q2, m, hq2, rfl, Or.inl ?_⟩
          rw [portalPairs_congr hrect hq2r]
          exact hs
        · cases hc
      · split at hc
        · rename_i e
          rw [List.mem_singleton] at hc
          subst hc; subst e
          rw [hq] at hi
          cases hi
          obtain ⟨q2, hq2, hq2r⟩ := hnew _ _ hp
          refine ⟨r, hr, hpj, hpi, q2, m, hq2, rfl, Or.inr ?_⟩
          rw [portalPairs_congr hq2r hrect]
          exact hs
        · cases hc
  · intro i p hp c hc
    rw [h0 i p hp] at hc
    cases hc

theorem prebuild_map_of_parts {dd : DungeonData} {split : Nat} {b : PortalBuild}
    {ps : List PathPortal} (h0 : split ≠ 0)
    (h1 : scanRegions dd split (dd.width / split)
      ((List.range (dd.height / split)).flatMap (fun y =>
        (List.range (dd.width / split)).map (fun x => (x, y)))) ⟨[], []⟩ = .ok b)
    (h2 : connectRegions fscore dd split (dd.width / split) b.tilePortalsIndices.enum b.portals
      = .ok ps) :
    prebuild_map fscore split dd = .ok ⟨split, ps, b.tilePortalsIndices⟩ := by
  unfold prebuild_map
  simp only [h0, if_false]
  rw [h1]
  simp only []
  rw [h2]

theorem connectRegions_cons {dd : DungeonData} {split width tidx : Nat} {indices : List Nat}
    {rest : List (Nat × List Nat)} {ps ps1 : List PathPortal}
    (h : connectRegion fscore dd (tileLimMin split width tidx) (tileLimMax split width tidx)
      indices ps = .ok ps1) :
    connectRegions fscore dd split width ((tidx, indices) :: rest) ps
      = connectRegions fscore dd split width rest ps1 := by
  unfold tileLimMin tileLimMax at h
  rw [connectRegions]
  try simp only []
  rw [h]

theorem open10_scan :
    scanRegions open10 5 (open10.width / 5)
        ((List.range (open10.height / 5)).flatMap (fun y =>
          (List.range (open10.width / 5)).map (fun x => (x, y)))) ⟨[], []⟩
      = .ok ⟨[⟨4, 0, 5, 4, []⟩, ⟨0, 4, 4, 5, []⟩, ⟨5, 4, 9, 5, []⟩, ⟨4, 5, 5, 9, []⟩],
          [[0, 1], [0, 2], [1, 3], [2, 3]]⟩ := by rfl

theorem seedAt_spec {dd : DungeonData} (hwf : dd.WF) {map : List ℚ}
    (hlen : map.length = dd.width * dd.height) {p : IVec2} (hp : InGrid dd p) :
    seedAt dd map p = .ok (map.set (coord_to_idx p.x p.y dd.width) 0) := by
  have h := coord_to_idx_lt hwf hp
  unfold seedAt
  simp only []
  have e : (toSizeT p.y * dd.width + toSizeT p.x) % 2 ^ 64 = coord_to_idx p.x p.y dd.width := rfl
  rw [e, if_neg (by omega)]

theorem seedCells_spec {dd : DungeonData} (hwf : dd.WF) :
    ∀ (cells : List IVec2) (map : List ℚ), map.length = dd.width * dd.height →
      (∀ p ∈ cells, InGrid dd p) →
      ∃ m, seedCells dd cells map = .ok m ∧ m.length = dd.width * dd.height ∧
        (∀ q, InGrid dd q → q ∈ cells → m.get? (coord_to_idx q.x q.y dd.width) = some 0) ∧
        (∀ j, (∀ q ∈ cells, coord_to_idx q.x q.y dd.width ≠ j) → m.get? j = map.get? j) := by
  intro cells
  induction cells with
  | nil =>
    intro map hlen _
    exact ⟨map, rfl, hlen, by simp, fun _ _ => rfl⟩
  | cons p cells ih =>
    intro map hlen hin
    have hp := hin p (List.mem_cons_self _ _)
    obtain ⟨m, e, hl, h1, h2⟩ := ih (map.set (coord_to_idx p.x p.y dd.width) 0)
      (by simp [hlen]) (fun q hq => hin q (List.mem_cons_of_mem _ hq))
    refine ⟨m, ?_, hl, ?_, ?_⟩
    · unfold seedCells
      rw [seedAt_spec hwf hlen hp]
      exact e
    · intro q hq hmem
      by_cases hq2 : q ∈ cells
      · exact h1 q hq hq2
      · have hqp : q = p := by
          rcases List.mem_cons.mp hmem with h | h
          · exact h
          · exact absurd h hq2
        subst hqp
        rw [h2 _ (fun r hr hrq => hq2 (by
          have := coord_to_idx_inj hwf (hin r (List.mem_cons_of_mem _ hr)) hq hrq
          rw [← this]; exact hr))]
        rw [List.get?_eq_getElem?, List.getElem?_set_self (by
          have := coord_to_idx_lt hwf hq; omega)]
    · intro j hj
      rw [h2 j (fun q hq => hj q (List.mem_cons_of_mem _ hq))]
      rw [List.get?_eq_getElem?, List.get?_eq_getElem?,
        List.getElem?_set_ne (hj p (List.mem_cons_self _ _))]

theorem seed_players_eq (dd : DungeonData) :
    ∀ (actors : List Actor) (map : List ℚ),
      seed_players dd actors map
        = seedCells dd ((actors.filter (fun a => decide (a.team = 0))).map (fun a => a.pos)) map := by
  intro actors
  induction actors with
  | nil => intro map; rfl
  | cons a rest ih =>
    intro map
    unfold seed_players
    by_cases ht : a.team = 0
    · simp only [ht, if_true, List.filter_cons, decide_True, List.map_cons]
      unfold seedCells seedAt
      simp only []
      split
      · rfl
      · exact ih _
    · simp only [ht, if_false, List.filter_cons, decide_False]
      exact ih _

theorem seed_allies_eq (dd : DungeonData) (e : Nat) (eteam : Int) (hp crit_hp : ℚ) :
    ∀ (actors : List Ally) (map : List ℚ),
      seed_allies dd e eteam hp crit_hp actors map
        = seedCells dd ((actors.filter (fun a =>
            decide (e ≠ a.id ∧ a.team = eteam ∧ hp < crit_hp))).map (fun a => a.pos)) map := by
  intro actors
  induction actors with
  | nil => intro map; rfl
  | cons a rest ih =>
    intro map
    unfold seed_allies
    by_cases ht : e ≠ a.id ∧ a.team = eteam ∧ hp < crit_hp
    · rw [if_pos ht, List.filter_cons_of_pos (by exact decide_eq_true ht), List.map_cons,
        seedCells]
      cases seedAt dd map a.pos with
      | error err => rfl
      | ok m => exact ih m
    · rw [if_neg ht, List.filter_cons_of_neg (by simpa using ht)]
      exact ih _

theorem init_tiles_get {dd : DungeonData} {j : Nat} (hj : j < dd.width * dd.height) :
    (init_tiles dd).get? j = some invalid_tile_value := by
  unfold init_tiles
  rw [List.get?_eq_getElem?, List.getElem?_replicate, if_pos hj]

theorem init_tiles_from_eq (prev : List ℚ) (dd : DungeonData) :
    init_tiles_from prev dd = init_tiles dd := by
  unfold init_tiles_from init_tiles vecResize
  apply List.ext_getElem
  · simp only [List.length_map, List.length_append, List.length_take,
      List.length_replicate]
    omega
  · intro n h1 h2
    simp

/-- A pass of the relaxation writes only cells whose tile is a floor tile. -/
theorem dmap_pass_frame {dd : DungeonData} :
    ∀ (cells : List (Nat × Nat)) (map : List ℚ) (done : Bool) (map2 : List ℚ) (done2 : Bool),
      dmap_pass dd cells (map, done) = .ok (map2, done2) →
      ∀ j, dd.tiles.get? j ≠ some Tile.floor → map2.get? j = map.get? j := by
  intro cells
  induction cells with
  | nil =>
    intro map done map2 done2 h j _
    simp only [dmap_pass, Except.ok.injEq, Prod.mk.injEq] at h
    rw [← h.1]
  | cons c cs ih =>
    intro map done map2 done2 h j hj
    obtain ⟨x, y⟩ := c
    unfold dmap_pass at h
    simp only [] at h
    split at h
    · cases h
    rename_i t ht
    split at h
    · exact ih _ _ _ _ h j hj
    rename_i hfl
    have hfl2 : t = Tile.floor := by
      by_contra hc; exact hfl hc
    split at h
    · cases h
    split at h
    · cases h
    split at h
    · have := ih _ _ _ _ h j hj
      rw [this, List.get?_eq_getElem?, List.get?_eq_getElem?, List.getElem?_set_ne]
      intro hij
      apply hj
      rw [← hij, ht, hfl2]
    · exact ih _ _ _ _ h j hj

theorem process_dmap_frame {dd : DungeonData} :
    ∀ (fuel : Nat) (map map2 : List ℚ), process_dmap dd fuel map = .ok map2 →
      ∀ j, dd.tiles.get? j ≠ some Tile.floor → map2.get? j = map.get? j := by
  intro fuel
  induction fuel with
  | zero => intro map map2 h; simp [process_dmap] at h
  | succ n ih =>
    intro map map2 h j hj
    unfold process_dmap at h
    split at h
    · cases h
    rename_i m3 done hp
    have h3 := dmap_pass_frame _ _ _ _ _ hp j hj
    split at h
    · cases h; exact h3
    · rw [ih _ _ h j hj, h3]

theorem region_of_nat {split n : Nat} (hs : 0 < split) (hn : n + split < 2 ^ 31) :
    toInt32 (toSizeT (n : Int) / split) = ((n / split : Nat) : Int) ∧
      toInt32 (toSizeT ((n / split : Nat) : Int) * split % 2 ^ 64)
        = ((n / split * split : Nat) : Int) ∧
      toInt32 (toSizeT (((n / split : Nat) : Int) + 1) * split % 2 ^ 64)
        = (((n / split + 1) * split : Nat) : Int) := by
  have hdiv : n / split ≤ n := Nat.div_le_self _ _
  have hmul : n / split * split ≤ n := Nat.div_mul_le_self _ _
  have hmul2 : (n / split + 1) * split ≤ n + split := by
    rw [Nat.succ_mul]; omega
  have e2 : (((n / split : Nat) : Int) + 1) = ((n / split + 1 : Nat) : Int) := by
    push_cast; rfl
  rw [e2, toSizeT_natCast (by omega), toSizeT_natCast (by omega), toSizeT_natCast (by omega),
    Nat.mod_eq_of_lt (by omega), Nat.mod_eq_of_lt (by omega),
    toInt32_of_lt (by omega), toInt32_of_lt (by omega), toInt32_of_lt (by omega)]
  exact ⟨rfl, rfl, rfl⟩

theorem astar_loop_stats_fst (dd : DungeonData) (dst lim_min lim_max : IVec2) :
    ∀ (fuel : Nat) (st : AStar S) (n : Nat),
      Except.map Prod.fst (astar_loop_stats fscore dd dst lim_min lim_max fuel st n)
        = astar_loop fscore dd dst lim_min lim_max fuel st := by
  intro fuel
  induction fuel with
  | zero => intro st n; rfl
  | succ m ih =>
    intro st n
    unfold astar_loop_stats astar_loop
    cases hopen : st.openList with
    | nil => rfl
    | cons o os =>
      simp only []
      split_ifs with h1 h2
      · cases reconstruct_path st.prev dst dd.width <;> rfl
      · exact ih _ _
      · cases checkNeighbour fscore dd dst lim_min lim_max _ _ _ with
        | error e => rfl
        | ok st2 =>
          simp only []
          cases checkNeighbour fscore dd dst lim_min lim_max _ _ st2 with
          | error e => rfl
          | ok st3 =>
            simp only []
            cases checkNeighbour fscore dd dst lim_min lim_max _ _ st3 with
            | error e => rfl
            | ok st4 =>
              simp only []
              cases checkNeighbour fscore dd dst lim_min lim_max _ _ st4 with
              | error e => rfl
              | ok st5 => exact ih _ _

theorem astar_loop_stats_total {dd : DungeonData} (hwf : dd.WF)
    {src lim_min lim_max : IVec2} (dst : IVec2)
    (hlim : LimInGrid dd lim_min lim_max) (hsrc : InGrid dd src) :
    ∀ (fuel : Nat) (st : AStar S) (n : Nat), AInv dd src lim_min lim_max st →
      st.closedList.Nodup → (∀ c ∈ st.closedList, InGrid dd c) →
      (∀ q j, InGrid dd q → getG st dd.width q = some j → j ≤ st.closedList.length) →
      st.openList.length + 1 + 4 * (dd.width * dd.height - st.closedList.length) ≤ fuel →
      ∃ path closed k,
        astar_loop_stats fscore dd dst lim_min lim_max fuel st n = .ok (path, closed, k) ∧
        closed.Nodup ∧ (∀ c ∈ closed, InGrid dd c) ∧
        k ≤ n + st.openList.length + 4 * (dd.width * dd.height - st.closedList.length) := by
  intro fuel
  induction fuel with
  | zero => intro st n _ _ _ _ h; omega
  | succ m ih =>
    intro st n hinv hnd hcg hB hfuel
    unfold astar_loop_stats
    split
    · exact ⟨[], st.closedList, n, rfl, hnd, hcg, by omega⟩
    rename_i o os hopen
    simp only
    have hmem : (o :: os).getD (scanBest (getF st dd.width) os 1 0 (getF st dd.width o)) o
        ∈ st.openList := by rw [hopen]; exact getD_mem_cons _ _ _
    have hsub : ∀ p ∈ (o :: os).eraseIdx
        (scanBest (getF st dd.width) os 1 0 (getF st dd.width o)), p ∈ st.openList := by
      intro p hp; rw [hopen]; exact List.mem_of_mem_eraseIdx hp
    have hlen : ((o :: os).eraseIdx
        (scanBest (getF st dd.width) os 1 0 (getF st dd.width o))).length + 1
          = st.openList.length := by
      have := scanBest_lt (getF st dd.width) os 1 0 (getF st dd.width o) (by omega)
      rw [List.length_eraseIdx, hopen, if_pos (by simp only [List.length_cons]; omega)]
      simp
    generalize (o :: os).getD (scanBest (getF st dd.width) os 1 0 (getF st dd.width o)) o
      = cur at hmem
    generalize (o :: os).eraseIdx (scanBest (getF st dd.width) os 1 0 (getF st dd.width o))
      = op2 at hsub hlen
    obtain ⟨hcur, k, hk⟩ := hinv.opn cur hmem
    have hNle := closed_length_le hwf st.closedList hnd hcg
    split
    · rename_i hcd
      subst hcd
      have hex : ∃ path, reconstruct_path st.prev cur dd.width = .ok path :=
        reconstruct_loop_total hinv _ cur [cur] k hcur hk
          (by rw [hinv.plen]; have := hB cur k hcur hk; omega)
      obtain ⟨path, hrp⟩ := hex
      rw [hrp]
      exact ⟨path, st.closedList, n + 1, rfl, hnd, hcg, by omega⟩
    split
    · obtain ⟨path, closed, k2, e1, h3, h4, h5⟩ :=
        ih _ (n + 1) (hinv.of_open op2 st.closedList hsub) hnd hcg hB
          (show op2.length + 1 + 4 * (dd.width * dd.height - st.closedList.length) ≤ m by
            omega)
      have h5b : k2 ≤ n + 1 + op2.length
          + 4 * (dd.width * dd.height - st.closedList.length) := h5
      exact ⟨path, closed, k2, e1, h3, h4, by omega⟩
    rename_i hncl
    have hnd1 : (st.closedList ++ [cur]).Nodup := by
      rw [List.nodup_append]
      refine ⟨hnd, List.nodup_singleton _, ?_⟩
      intro a ha hb
      rw [List.mem_singleton] at hb
      subst hb
      exact hncl ha
    have hcg1 : ∀ c ∈ st.closedList ++ [cur], InGrid dd c := by
      intro c hc
      rcases List.mem_append.mp hc with h | h
      · exact hcg c h
      · rw [List.mem_singleton] at h; subst h; exact hcur
    have hNle1 := closed_length_le hwf _ hnd1 hcg1
    rw [List.length_append, List.length_singleton] at hNle1
    have hkB : k + 1 ≤ st.closedList.length + 1 := by have := hB cur k hcur hk; omega
    have hB0 : ∀ q j, InGrid dd q → getG st dd.width q = some j →
        j ≤ st.closedList.length + 1 := fun q j hq hj => Nat.le_succ_of_le (hB q j hq hj)
    have hinv1 := hinv.of_open op2 (st.closedList ++ [cur]) hsub
    obtain ⟨st2, e2, hinv2, hk2, hc2, hl2, hB2⟩ := checkNeighbour_step fscore hwf dst
      (p := ⟨cur.x + 1, cur.y + 0⟩) hlim hsrc hinv1 hcur hk (by unfold Adj; simp) hkB hB0
    obtain ⟨st3, e3, hinv3, hk3, hc3, hl3, hB3⟩ := checkNeighbour_step fscore hwf dst
      (p := ⟨cur.x - 1, cur.y + 0⟩) hlim hsrc hinv2 hcur hk2 (by unfold Adj; simp) hkB hB2
    obtain ⟨st4, e4, hinv4, hk4, hc4, hl4, hB4⟩ := checkNeighbour_step fscore hwf dst
      (p := ⟨cur.x + 0, cur.y + 1⟩) hlim hsrc hinv3 hcur hk3 (by unfold Adj; simp) hkB hB3
    obtain ⟨st5, e5, hinv5, hk5, hc5, hl5, hB5⟩ := checkNeighbour_step fscore hwf dst
      (p := ⟨cur.x + 0, cur.y - 1⟩) hlim hsrc hinv4 hcur hk4 (by unfold Adj; simp) hkB hB4
    rw [e2]; simp only
    rw [e3]; simp only
    rw [e4]; simp only
    rw [e5]; simp only
    have hc5' : st5.closedList = st.closedList ++ [cur] := by rw [hc5, hc4, hc3, hc2]
    obtain ⟨path, closed, k2, r1, r3, r4, r5⟩ :=
      ih st5 (n + 1) hinv5 (hc5' ▸ hnd1) (hc5' ▸ hcg1) (by
        intro q j hq hj
        rw [hc5', List.length_append, List.length_singleton]
        exact hB5 q j hq hj) (by
        rw [hc5', List.length_append, List.length_singleton]
        simp only at hl2
        omega)
    refine ⟨path, closed, k2, r1, r3, r4, ?_⟩
    rw [hc5', List.length_append, List.length_singleton] at r5
    simp only at hl2
    omega

theorem losStep_manhattan {dest cur : IVec2} (h : dest ≠ cur) :
    manhattan dest (losStep dest cur) + 1 = manhattan dest cur := by
  unfold losStep manhattan
  have hne : dest.x ≠ cur.x ∨ dest.y ≠ cur.y := by
    by_contra hc
    push_neg at hc
    apply h
    cases dest; cases cur
    simp only [IVec2.mk.injEq]
    exact hc
  split
  · rename_i hgt
    simp only []
    split <;> omega
  · rename_i hgt
    simp only []
    split <;> omega

theorem losStep_box {dest cur : IVec2} (h : dest ≠ cur) :
    min cur.x dest.x ≤ (losStep dest cur).x ∧ (losStep dest cur).x ≤ max cur.x dest.x ∧
      min cur.y dest.y ≤ (losStep dest cur).y ∧ (losStep dest cur).y ≤ max cur.y dest.y := by
  unfold losStep
  have hne : dest.x ≠ cur.x ∨ dest.y ≠ cur.y := by
    by_contra hc
    push_neg at hc
    apply h
    cases dest; cases cur
    simp only [IVec2.mk.injEq]
    exact hc
  split
  · rename_i hgt
    simp only []
    split <;> omega
  · rename_i hgt
    simp only []
    split <;> omega

theorem losStep_inGrid {dd : DungeonData} {dest cur : IVec2} (h : dest ≠ cur)
    (hd : InGrid dd dest) (hc : InGrid dd cur) : InGrid dd (losStep dest cur) := by
  have := losStep_box h
  unfold InGrid at *
  omega

theorem los_walk_spec {dd : DungeonData} (hwf : dd.WF) {dest : IVec2} (hd : InGrid dd dest) :
    ∀ (n fuel : Nat) (cur : IVec2), InGrid dd cur → manhattan dest cur = n → n < fuel →
      los_walk dd dest fuel cur
        = .ok (decide (∀ q ∈ losPath dest n cur, tileAt dd q ≠ some Tile.wall)) := by
  intro n
  induction n with
  | zero =>
    intro fuel cur hc hm hf
    obtain ⟨f, rfl⟩ := Nat.exists_eq_succ_of_ne_zero (by omega : fuel ≠ 0)
    have : dest = cur := by
      unfold manhattan at hm
      cases dest; cases cur
      simp only [IVec2.mk.injEq]
      simp only [] at hm
      omega
    unfold los_walk
    rw [if_pos this]
    simp [losPath]
  | succ n ih =>
    intro fuel cur hc hm hf
    obtain ⟨f, rfl⟩ := Nat.exists_eq_succ_of_ne_zero (by omega : fuel ≠ 0)
    have hne : dest ≠ cur := by
      intro h
      subst h
      unfold manhattan at hm
      simp at hm
    have hstep := losStep_manhattan hne
    have hin := losStep_inGrid hne hd hc
    have hlt := coord_to_idx_lt hwf hin
    unfold los_walk
    rw [if_neg hne]
    simp only []
    have hget : dd.tiles.get? (coord_to_idx (losStep dest cur).x (losStep dest cur).y dd.width)
        = tileAt dd (losStep dest cur) := rfl
    rw [hget]
    cases ht : tileAt dd (losStep dest cur) with
    | none =>
      exfalso
      unfold tileAt at ht
      rw [List.get?_eq_getElem?, List.getElem?_eq_none_iff] at ht
      rw [hwf.1] at ht
      omega
    | some t =>
      simp only []
      by_cases hw : t = Tile.wall
      · rw [if_pos hw]
        congr 1
        symm
        rw [decide_eq_false_iff_not]
        intro hall
        apply hall (losStep dest cur)
        · unfold losPath; rw [if_neg hne]; exact List.mem_cons_self _ _
        · rw [ht, hw]
      · rw [if_neg hw, ih f _ hin (by omega) (by omega)]
        congr 1
        rw [decide_eq_decide]
        constructor
        · intro hall q hq
          unfold losPath at hq
          rw [if_neg hne] at hq
          rcases List.mem_cons.mp hq with h | h
          · rw [h, ht]; intro hc2; cases hc2; exact hw rfl
          · exact hall q h
        · intro hall q hq
          apply hall q
          unfold losPath
          rw [if_neg hne]
          exact List.mem_cons_of_mem _ hq

theorem manhattan_lt {dd : DungeonData} {a b : IVec2} (ha : InGrid dd a) (hb : InGrid dd b) :
    manhattan a b < dd.width + dd.height := by
  unfold manhattan
  unfold InGrid at ha hb
  omega

theorem seed_range_cell_eq {dd : DungeonData} (hwf : dd.WF) (range : ℚ) {pos : IVec2}
    (hpos : InGrid dd pos) {fuel : Nat} (hfuel : dd.width + dd.height ≤ fuel)
    (d : Int × Int) (map : List ℚ) :
    seed_range_cell dd range pos fuel d map
      = if RangeSeed dd range pos ⟨pos.x + d.1, pos.y + d.2⟩ then
          seedAt dd map ⟨pos.x + d.1, pos.y + d.2⟩
        else .ok map := by
  unfold seed_range_cell
  simp only []
  rw [toInt32_of_lt hwf.2.1, toInt32_of_lt hwf.2.2]
  by_cases hin : pos.x + d.1 ≥ 0 ∧ pos.x + d.1 < (dd.width : Int) ∧ pos.y + d.2 ≥ 0 ∧
      pos.y + d.2 < (dd.height : Int)
  · rw [if_pos hin]
    have hc : InGrid dd ⟨pos.x + d.1, pos.y + d.2⟩ := by unfold InGrid; simp only []; omega
    have hget : dd.tiles.get? (coord_to_idx (pos.x + d.1) (pos.y + d.2) dd.width)
        = tileAt dd ⟨pos.x + d.1, pos.y + d.2⟩ := rfl
    rw [hget]
    cases ht : tileAt dd ⟨pos.x + d.1, pos.y + d.2⟩ with
    | none =>
      exfalso
      have hlt := coord_to_idx_lt hwf hc
      unfold tileAt at ht
      rw [List.get?_eq_getElem?, List.getElem?_eq_none_iff] at ht
      rw [hwf.1] at ht
      omega
    | some t =>
      simp only []
      by_cases hfl : t = Tile.floor
      · rw [if_pos hfl]
        rw [los_walk_spec hwf hc _ fuel pos hpos rfl
          (lt_of_lt_of_le (manhattan_lt hc hpos) hfuel)]
        simp only []
        by_cases hgo : LosClear dd pos ⟨pos.x + d.1, pos.y + d.2⟩ ∧
            ((manhattan ⟨pos.x + d.1, pos.y + d.2⟩ pos : Nat) : ℚ) ≤ range
        · have hrs : RangeSeed dd range pos ⟨pos.x + d.1, pos.y + d.2⟩ :=
            ⟨hc, by rw [ht, hfl], hgo.1, hgo.2⟩
          rw [if_pos hrs, if_pos]
          exact ⟨decide_eq_true hgo.1, hgo.2⟩
        · have hrs : ¬ RangeSeed dd range pos ⟨pos.x + d.1, pos.y + d.2⟩ :=
            fun h => hgo ⟨h.2.2.1, h.2.2.2⟩
          rw [if_neg hrs, if_neg]
          rintro ⟨h1, h2⟩
          exact hgo ⟨of_decide_eq_true h1, h2⟩
      · rw [if_neg hfl, if_neg]
        intro h
        have := h.2.1
        rw [ht] at this
        exact hfl (Option.some.inj this)
  · rw [if_neg hin, if_neg]
    intro h
    apply hin
    have := h.1
    unfold InGrid at this
    simp only [] at this
    omega

theorem seedAt_length {dd : DungeonData} {map m : List ℚ} {p : IVec2}
    (h : seedAt dd map p = .ok m) : m.length = map.length := by
  unfold seedAt at h
  simp only [] at h
  split at h
  · cases h
  · cases h; simp

theorem seed_range_cells_eq {dd : DungeonData} (hwf : dd.WF) (range : ℚ) {pos : IVec2}
    (hpos : InGrid dd pos) {fuel : Nat} (hfuel : dd.width + dd.height ≤ fuel) :
    ∀ (pairs : List (Int × Int)) (map : List ℚ),
      seed_range_cells dd range pos fuel pairs map
        = seedCells dd ((pairs.map (fun d => (⟨pos.x + d.1, pos.y + d.2⟩ : IVec2))).filter
            (fun c => decide (RangeSeed dd range pos c))) map := by
  intro pairs
  induction pairs with
  | nil => intro map; rfl
  | cons d rest ih =>
    intro map
    unfold seed_range_cells
    rw [seed_range_cell_eq hwf range hpos hfuel, List.map_cons]
    by_cases hrs : RangeSeed dd range pos ⟨pos.x + d.1, pos.y + d.2⟩
    · rw [if_pos hrs, List.filter_cons_of_pos (by exact decide_eq_true hrs), seedCells]
      cases seedAt dd map ⟨pos.x + d.1, pos.y + d.2⟩ with
      | error e => rfl
      | ok m => exact ih m
    · rw [if_neg hrs, List.filter_cons_of_neg (by simpa using hrs)]
      exact ih map

theorem seedCells_append (dd : DungeonData) :
    ∀ (a b : List IVec2) (map : List ℚ),
      seedCells dd (a ++ b) map
        = match seedCells dd a map with
          | .error e => .error e
          | .ok m => seedCells dd b m := by
  intro a
  induction a with
  | nil => intro b map; rfl
  | cons p a ih =>
    intro b map
    rw [List.cons_append, seedCells, seedCells]
    cases seedAt dd map p with
    | error e => rfl
    | ok m => exact ih b m

/-- All cells seeded for the listed actors, in the order of the loops. -/
theorem seed_range_eq {dd : DungeonData} (hwf : dd.WF) (range : ℚ) {fuel : Nat}
    (hfuel : dd.width + dd.height ≤ fuel) :
    ∀ (actors : List Actor) (map : List ℚ), (∀ a ∈ actors, a.team = 0 → InGrid dd a.pos) →
      seed_range dd range fuel actors map
        = seedCells dd ((actors.filter (fun a => decide (a.team = 0))).flatMap (fun a =>
            ((rangePairs range).map (fun d => (⟨a.pos.x + d.1, a.pos.y + d.2⟩ : IVec2))).filter
              (fun c => decide (RangeSeed dd range a.pos c)))) map := by
  intro actors
  induction actors with
  | nil => intro map _; rfl
  | cons a rest ih =>
    intro map hin
    have hrest : ∀ b ∈ rest, b.team = 0 → InGrid dd b.pos :=
      fun b hb => hin b (List.mem_cons_of_mem _ hb)
    unfold seed_range
    by_cases ht : a.team = 0
    · rw [if_neg (by simpa using ht), List.filter_cons_of_pos (by exact decide_eq_true ht),
        List.flatMap_cons, seedCells_append,
        seed_range_cells_eq hwf range (hin a (List.mem_cons_self _ _) ht) hfuel]
      cases seedCells dd _ map with
      | error e => rfl
      | ok m => exact ih m hrest
    · rw [if_pos ht, List.filter_cons_of_neg (by simpa using ht)]
      exact ih map hrest

theorem mem_rangeOffsets {range : ℚ} (hr : 0 ≤ range) (d : Int) :
    d ∈ rangeOffsets range ↔ -⌊range⌋ ≤ d ∧ d ≤ ⌊range⌋ := by
  have hfl : 0 ≤ ⌊range⌋ := Int.floor_nonneg.mpr hr
  have htr : truncQ (-range) = -⌊range⌋ := by
    unfold truncQ
    by_cases h0 : 0 ≤ -range
    · have : range = 0 := by linarith
      subst this
      simp
    · rw [if_neg h0, Int.ceil_neg]
  unfold rangeOffsets
  simp only [htr, List.mem_map, List.mem_range]
  constructor
  · rintro ⟨i, hi, rfl⟩
    omega
  · rintro ⟨h1, h2⟩
    refine ⟨(d + ⌊range⌋).toNat, by omega, by omega⟩

theorem mem_scanOrder {dd : DungeonData} {x y : Nat} (hx : x < dd.width) (hy : y < dd.height) :
    (x, y) ∈ scanOrder dd := by
  simp only [scanOrder, List.mem_flatMap, List.mem_range, List.mem_map]
  exact ⟨y, hy, x, hx, rfl⟩

/-- With an empty open list, every cell of a path that starts at a closed cell and whose
later cells pass the tests of `checkNeighbour` is closed. -/
theorem closed_of_chain {dd : DungeonData} {lim_min lim_max : IVec2} {cl : List IVec2}
    (hfr : ∀ c ∈ cl, ∀ q, Adj c q → InLim lim_min lim_max q → NonWall dd q → q ∈ cl) :
    ∀ (l : List IVec2) (a : IVec2), a ∈ cl → List.Chain' Adj (a :: l) →
      (∀ c ∈ l, NonWall dd c ∧ InLim lim_min lim_max c) → ∀ c ∈ a :: l, c ∈ cl := by
  intro l
  induction l with
  | nil =>
    intro a ha _ _ c hc
    rw [List.mem_singleton] at hc
    rw [hc]; exact ha
  | cons b l ih =>
    intro a ha hch hgood c hc
    rcases List.mem_cons.mp hc with h | h
    · rw [h]; exact ha
    · have hab : Adj a b := (List.chain'_cons.mp hch).1
      have hb := hgood b (List.mem_cons_self _ _)
      have hbcl := hfr a ha b hab hb.2 hb.1
      exact ih b hbcl (List.chain'_cons.mp hch).2
        (fun c hc => hgood c (List.mem_cons_of_mem _ hc)) c h

theorem astar_loop_complete {dd : DungeonData} (hwf : dd.WF)
    {src dst lim_min lim_max : IVec2}
    (hlim : LimInGrid dd lim_min lim_max) (hsrc : InGrid dd src) {other : List IVec2}
    (hother : ValidPath dd src dst lim_min lim_max other) {path : List IVec2} :
    ∀ (fuel : Nat) (st : AStar S), AInv dd src lim_min lim_max st →
      st.f.length = dd.width * dd.height →
      (src ∈ st.openList ∨ src ∈ st.closedList) → dst ∉ st.closedList →
      (∀ c ∈ st.closedList, ∀ q, Adj c q → InLim lim_min lim_max q → NonWall dd q →
        q ∈ st.openList ∨ q ∈ st.closedList) →
      astar_loop fscore dd dst lim_min lim_max fuel st = .ok path → path ≠ [] := by
  intro fuel
  induction fuel with
  | zero => intro st _ _ _ _ _ h; simp [astar_loop] at h
  | succ fuel ih =>
    intro st hinv hflen hsrcin hnodst hfr h
    unfold astar_loop at h
    split at h
    · rename_i hopen
      exfalso
      have hsc : src ∈ st.closedList := by
        rcases hsrcin with h1 | h1
        · rw [hopen] at h1; cases h1
        · exact h1
      have hfr2 : ∀ c ∈ st.closedList, ∀ q, Adj c q → InLim lim_min lim_max q → NonWall dd q →
          q ∈ st.closedList := by
        intro c hc q h1 h2 h3
        rcases hfr c hc q h1 h2 h3 with h4 | h4
        · rw [hopen] at h4; cases h4
        · exact h4
      obtain ⟨h1, h2, h3, h4⟩ := hother
      cases other with
      | nil => simp at h1
      | cons a l =>
        simp only [List.head?_cons, Option.some.injEq] at h1
        subst h1
        have hall := closed_of_chain hfr2 l a hsc h3 (by simpa using h4)
        exact hnodst (hall dst (List.mem_of_mem_getLast? h2))
    rename_i o os hopen
    simp only at h
    have hmem : (o :: os).getD (scanBest (getF st dd.width) os 1 0 (getF st dd.width o)) o
        ∈ st.openList := by rw [hopen]; exact getD_mem_cons _ _ _
    have hsub : ∀ p ∈ (o :: os).eraseIdx
        (scanBest (getF st dd.width) os 1 0 (getF st dd.width o)), p ∈ st.openList := by
      intro p hp; rw [hopen]; exact List.mem_of_mem_eraseIdx hp
    have hrest : ∀ q ∈ st.openList,
        q ≠ (o :: os).getD (scanBest (getF st dd.width) os 1 0 (getF st dd.width o)) o →
        q ∈ (o :: os).eraseIdx (scanBest (getF st dd.width) os 1 0 (getF st dd.width o)) := by
      intro q hq hne
      rw [hopen] at hq
      exact mem_eraseIdx_of_ne _ _ o q hq hne
    generalize (o :: os).getD (scanBest (getF st dd.width) os 1 0 (getF st dd.width o)) o
      = cur at h hmem hrest
    generalize (o :: os).eraseIdx (scanBest (getF st dd.width) os 1 0 (getF st dd.width o))
      = op2 at h hsub hrest
    obtain ⟨hcur, k, hk⟩ := hinv.opn cur hmem
    split at h
    · rename_i hcd
      subst hcd
      exact (reconstruct_loop_length hinv _ cur [cur] k hcur hk (by simp) h).1
    have hmove : ∀ (cl : List IVec2) q, (cur ∈ cl) → (∀ c ∈ st.closedList, c ∈ cl) →
        q ∈ st.openList ∨ q ∈ st.closedList → q ∈ op2 ∨ q ∈ cl := by
      intro cl q hc hs hq
      rcases hq with hq | hq
      · by_cases e : q = cur
        · exact Or.inr (e ▸ hc)
        · exact Or.inl (hrest q hq e)
      · exact Or.inr (hs q hq)
    split at h
    · rename_i hcl
      refine ih _ (hinv.of_open op2 _ hsub) hflen
        (hmove st.closedList src hcl (fun _ hc => hc) hsrcin) hnodst ?_ h
      intro c hc q h1 h2 h3
      exact hmove st.closedList q hcl (fun _ hc => hc) (hfr c hc q h1 h2 h3)
    rename_i hncd hncl
    have hinv1 := hinv.of_open op2 (st.closedList ++ [cur]) hsub
    have hcurin : cur ∈ st.closedList ++ [cur] := by simp
    have hsubcl : ∀ c ∈ st.closedList, c ∈ st.closedList ++ [cur] :=
      fun c hc => List.mem_append_left _ hc
    have hk1 : getG ({ st with openList := op2, closedList := st.closedList ++ [cur] } : AStar S)
        dd.width cur = some k := hk
    have hcl1 : ({ st with openList := op2, closedList := st.closedList ++ [cur] } :
        AStar S).closedList = st.closedList ++ [cur] := rfl
    have hop1 : ({ st with openList := op2, closedList := st.closedList ++ [cur] } :
        AStar S).openList = op2 := rfl
    have hfl1 : ({ st with openList := op2, closedList := st.closedList ++ [cur] } :
        AStar S).f.length = dd.width * dd.height := hflen
    revert h
    generalize ({ st with openList := op2, closedList := st.closedList ++ [cur] } : AStar S)
      = st1 at hinv1 hk1 hcl1 hop1 hfl1
    intro h
    -- the four neighbour checks
    have hnb : ∀ (stA : AStar S) (p : IVec2) (kA : Nat), AInv dd src lim_min lim_max stA →
        stA.f.length = dd.width * dd.height → getG stA dd.width cur = some kA → Adj cur p →
        ∃ stB kB, checkNeighbour fscore dd dst lim_min lim_max cur p stA = .ok stB ∧
          AInv dd src lim_min lim_max stB ∧ stB.f.length = dd.width * dd.height ∧
          getG stB dd.width cur = some kB ∧ stB.closedList = stA.closedList ∧
          (∀ q, q ∈ stB.openList ↔
            q ∈ stA.openList ∨ (q = p ∧ InLim lim_min lim_max p ∧ NonWall dd p)) := by
      intro stA p kA hA hfA hkA hadj
      obtain ⟨stB, e, hc, hf, hm, _, _⟩ :=
        checkNeighbour_abs fscore hwf dst hlim stA cur p kA hA.glen hfA hkA
      obtain ⟨hB, ⟨kB, hkB⟩, _⟩ := checkNeighbour_inv fscore hwf hlim hsrc hA hcur hkA hadj e
      exact ⟨stB, kB, e, hB, hf, hkB, hc, hm⟩
    obtain ⟨st2, k2, e2, hinv2, hf2, hk2, hc2, hm2⟩ := hnb st1 ⟨cur.x + 1, cur.y + 0⟩ k hinv1
      hfl1 hk1 (by unfold Adj; simp)
    obtain ⟨st3, k3, e3, hinv3, hf3, hk3, hc3, hm3⟩ := hnb st2 ⟨cur.x - 1, cur.y + 0⟩ k2 hinv2
      hf2 hk2 (by unfold Adj; simp)
    obtain ⟨st4, k4, e4, hinv4, hf4, hk4, hc4, hm4⟩ := hnb st3 ⟨cur.x + 0, cur.y + 1⟩ k3 hinv3
      hf3 hk3 (by unfold Adj; simp)
    obtain ⟨st5, k5, e5, hinv5, hf5, hk5, hc5, hm5⟩ := hnb st4 ⟨cur.x + 0, cur.y - 1⟩ k4 hinv4
      hf4 hk4 (by unfold Adj; simp)
    rw [e2] at h; simp only at h
    rw [e3] at h; simp only at h
    rw [e4] at h; simp only at h
    rw [e5] at h; simp only at h
    have hc5' : st5.closedList = st.closedList ++ [cur] := by rw [hc5, hc4, hc3, hc2, hcl1]
    have hgrow : ∀ q, q ∈ op2 → q ∈ st5.openList := by
      intro q hq
      exact (hm5 q).mpr (Or.inl ((hm4 q).mpr (Or.inl ((hm3 q).mpr (Or.inl
        ((hm2 q).mpr (Or.inl (hop1 ▸ hq))))))))
    have hkeep : ∀ q, q ∈ st.openList ∨ q ∈ st.closedList →
        q ∈ st5.openList ∨ q ∈ st5.closedList := by
      intro q hq
      rcases hmove (st.closedList ++ [cur]) q hcurin hsubcl hq with h1 | h1
      · exact Or.inl (hgrow q h1)
      · exact Or.inr (hc5' ▸ h1)
    refine ih st5 hinv5 hf5 (hkeep src hsrcin) ?_ ?_ h
    · rw [hc5']
      intro hd
      rcases List.mem_append.mp hd with h1 | h1
      · exact hnodst h1
      · rw [List.mem_singleton] at h1; exact hncd h1.symm
    · intro c hc q hcq hl hw
      rw [hc5'] at hc
      rcases List.mem_append.mp hc with h1 | h1
      · exact hkeep q (hfr c h1 q hcq hl hw)
      · rw [List.mem_singleton] at h1
        subst h1
        left
        rcases adj_cases hcq with e | e | e | e
        · exact (hm5 q).mpr (Or.inl ((hm4 q).mpr (Or.inl ((hm3 q).mpr (Or.inl
            ((hm2 q).mpr (Or.inr ⟨e, e ▸ hl, e ▸ hw⟩)))))))
        · exact (hm5 q).mpr (Or.inl ((hm4 q).mpr (Or.inl ((hm3 q).mpr
            (Or.inr ⟨e, e ▸ hl, e ▸ hw⟩)))))
        · exact (hm5 q).mpr (Or.inl ((hm4 q).mpr (Or.inr ⟨e, e ▸ hl, e ▸ hw⟩)))
        · exact (hm5 q).mpr (Or.inr ⟨e, e ▸ hl, e ▸ hw⟩)

/-- Completeness of the grid search, for any score function: if some path joins the source
to the destination through non-wall cells inside the bound, `find_path_a_star` returns a
non-empty path. -/
theorem find_path_a_star_complete {dd : DungeonData} (hwf : dd.WF)
    {src dst lim_min lim_max : IVec2}
    (hlim : LimInGrid dd lim_min lim_max) (hsrc : InGrid dd src) {other : List IVec2}
    (hother : ValidPath dd src dst lim_min lim_max other) :
    ∃ path, find_path_a_star fscore dd src dst lim_min lim_max = .ok path ∧ path ≠ [] := by
  obtain ⟨path, hp⟩ := find_path_a_star_total fscore hwf hlim src dst
  refine ⟨path, hp, ?_⟩
  unfold find_path_a_star at hp
  rw [toInt32_of_lt hwf.2.1, toInt32_of_lt hwf.2.2] at hp
  have hg : ¬ (src.x < 0 ∨ src.y < 0 ∨ src.x ≥ (dd.width : Int) ∨ src.y ≥ (dd.height : Int)) := by
    unfold InGrid at hsrc; omega
  rw [if_neg hg] at hp
  refine astar_loop_complete fscore hwf hlim hsrc hother _ _ (astar_init_inv fscore hwf hsrc)
    (by simp [astar_init]) (by simp [astar_init]) (by simp [astar_init])
    (by intro c hc; simp [astar_init] at hc) hp

theorem IVec2.eq_of {a b : IVec2} (hx : a.x = b.x) (hy : a.y = b.y) : a = b := by
  cases a; cases b
  simp only [IVec2.mk.injEq]
  exact ⟨hx, hy⟩

theorem losStep_adj (dest cur : IVec2) : Adj cur (losStep dest cur) := by
  unfold losStep Adj
  split
  · split
    · left; exact ⟨rfl, Or.inl rfl⟩
    · left; exact ⟨rfl, Or.inr (by show cur.x + -1 = cur.x - 1; omega)⟩
  · split
    · right; exact ⟨rfl, Or.inl rfl⟩
    · right; exact ⟨rfl, Or.inr (by show cur.y + -1 = cur.y - 1; omega)⟩

/-- In a bound all of whose cells are non-wall, any two cells of the bound are joined by a
path inside the bound. -/
theorem box_path {dd : DungeonData} {lim_min lim_max : IVec2}
    (hopen : ∀ c, InLim lim_min lim_max c → NonWall dd c) {b : IVec2}
    (hb : InLim lim_min lim_max b) :
    ∀ (n : Nat) (a : IVec2), InLim lim_min lim_max a → manhattan b a = n →
      ∃ path, ValidPath dd a b lim_min lim_max path := by
  intro n
  induction n with
  | zero =>
    intro a _ hm
    have : a = b := by
      unfold manhattan at hm
      exact IVec2.eq_of (by omega) (by omega)
    rw [this]
    exact ⟨[b], rfl, rfl, List.chain'_singleton _, by simp⟩
  | succ n ih =>
    intro a ha hm
    have hne : b ≠ a := by
      intro h
      subst h
      unfold manhattan at hm
      simp at hm
    have hstep := losStep_manhattan hne
    have hbox := losStep_box hne
    have hin : InLim lim_min lim_max (losStep b a) := by
      unfold InLim at ha hb ⊢
      omega
    obtain ⟨path, h1, h2, h3, h4⟩ := ih (losStep b a) hin (by omega)
    cases path with
    | nil => simp at h1
    | cons c rest =>
      simp only [List.head?_cons, Option.some.injEq] at h1
      subst h1
      refine ⟨a :: losStep b a :: rest, rfl, ?_, ?_, ?_⟩
      · rw [List.getLast?_cons_cons]; exact h2
      · exact List.chain'_cons.mpr ⟨losStep_adj b a, h3⟩
      · intro q hq
        simp only [List.tail_cons] at hq h4
        rcases List.mem_cons.mp hq with h | h
        · rw [h]; exact ⟨hopen _ hin, hin⟩
        · exact h4 q h

theorem portalCells_inLim {dd : DungeonData} (hwf : dd.WF) {limMin limMax : IVec2}
    (hlim : LimInGrid dd limMin limMax)
    (hpos : limMin.x < limMax.x ∧ limMin.y < limMax.y)
    (p : PathPortal) : ∀ c ∈ portalCells p limMin limMax, InLim limMin limMax c := by
  intro c hc
  obtain ⟨h0x, h0y, h1x, h1y⟩ := hlim
  have hw := hwf.2.1
  have hh := hwf.2.2
  have e1 : toSizeT limMin.x = limMin.x.toNat :=
    toSizeT_of_nonneg h0x (by omega)
  have e2 : toSizeT limMin.y = limMin.y.toNat :=
    toSizeT_of_nonneg h0y (by omega)
  have e3 : toSizeT (limMax.x - 1) = (limMax.x - 1).toNat :=
    toSizeT_of_nonneg (by omega) (by omega)
  have e4 : toSizeT (limMax.y - 1) = (limMax.y - 1).toNat :=
    toSizeT_of_nonneg (by omega) (by omega)
  unfold portalCells at hc
  simp only [List.mem_flatMap, List.mem_map, List.mem_range'_1] at hc
  obtain ⟨y, ⟨hy1, hy2⟩, x, ⟨hx1, hx2⟩, rfl⟩ := hc
  rw [e1] at hx1 hx2
  rw [e3] at hx2
  rw [e2] at hy1 hy2
  rw [e4] at hy2
  have hx3 : x < 2 ^ 31 := by omega
  have hy3 : y < 2 ^ 31 := by omega
  unfold InLim
  simp only []
  rw [toInt32_of_lt hx3, toInt32_of_lt hy3]
  omega

theorem scanPairs_all {dd : DungeonData} (hwf : dd.WF) {limMin limMax : IVec2}
    (hlim : LimInGrid dd limMin limMax) :
    ∀ (pairs : List (IVec2 × IVec2)) (m0 : Nat),
      (∀ ab ∈ pairs, InGrid dd ab.1) →
      (∀ ab ∈ pairs, ab.1 = ab.2 ∨ ∃ path, ValidPath dd ab.1 ab.2 limMin limMax path) →
      ∃ m, scanPairs fscore dd limMin limMax pairs m0 = .ok (false, m) := by
  intro pairs
  induction pairs with
  | nil => intro m0 _ _; exact ⟨m0, rfl⟩
  | cons ab pairs ih =>
    intro m0 hin hgood
    obtain ⟨a, b⟩ := ab
    have ha : InGrid dd a := hin (a, b) (List.mem_cons_self _ _)
    have hne : ∃ path, find_path_a_star fscore dd a b limMin limMax = .ok path ∧ path ≠ [] := by
      rcases hgood (a, b) (List.mem_cons_self _ _) with h | ⟨other, h⟩
      · simp only [] at h
        subst h
        exact ⟨[a], find_path_a_star_self fscore hwf ha limMin limMax, by simp⟩
      · exact find_path_a_star_complete fscore hwf hlim ha h
    obtain ⟨path, hp, hpne⟩ := hne
    unfold scanPairs
    rw [hp]
    simp only []
    rw [if_neg (by
      rintro ⟨h1, _⟩
      apply hpne
      cases path with
      | nil => rfl
      | cons _ _ => simp at h1)]
    exact ih _ (fun ab h => hin ab (List.mem_cons_of_mem _ h))
      (fun ab h => hgood ab (List.mem_cons_of_mem _ h))

theorem scanPairs_some_bad {dd : DungeonData} (hwf : dd.WF) {limMin limMax : IVec2}
    (hlim : LimInGrid dd limMin limMax) :
    ∀ (pairs : List (IVec2 × IVec2)) (m0 : Nat),
      (∃ ab ∈ pairs, ab.1 ≠ ab.2 ∧ ¬ ∃ path, ValidPath dd ab.1 ab.2 limMin limMax path) →
      ∃ m, scanPairs fscore dd limMin limMax pairs m0 = .ok (true, m) := by
  intro pairs
  induction pairs with
  | nil => intro m0 h; obtain ⟨ab, hab, _⟩ := h; cases hab
  | cons ab pairs ih =>
    intro m0 hbad
    obtain ⟨a, b⟩ := ab
    obtain ⟨path, hp⟩ := find_path_a_star_total fscore hwf hlim a b
    unfold scanPairs
    rw [hp]
    simp only []
    by_cases hc : path.isEmpty ∧ a ≠ b
    · rw [if_pos hc]
      exact ⟨m0, rfl⟩
    · rw [if_neg hc]
      apply ih
      obtain ⟨cd, hcd, h1, h2⟩ := hbad
      rcases List.mem_cons.mp hcd with h | h
      · exfalso
        subst h
        simp only [] at h1 h2
        apply hc
        refine ⟨?_, h1⟩
        cases hpath : path with
        | nil => rfl
        | cons x xs =>
          exfalso
          apply h2
          exact ⟨path, find_path_a_star_validPath fscore hwf hlim hp (by rw [hpath]; simp)⟩
      · exact ⟨cd, h, h1, h2⟩

theorem connectFrom_cons_ok {dd : DungeonData} {limMin limMax : IVec2} {pi pj : Nat}
    {rest : List Nat} {portals : List PathPortal} {p q : PathPortal} {noPath : Bool} {m : Nat}
    (hp : portals.get? pi = some p) (hq : portals.get? pj = some q)
    (hs : scanPairs fscore dd limMin limMax (portalPairs p q limMin limMax) 0xffffffff
      = .ok (noPath, m)) :
    connectFrom fscore dd limMin limMax pi (pj :: rest) portals
      = if noPath then connectFrom fscore dd limMin limMax pi rest portals
        else connectFrom fscore dd limMin limMax pi rest
          (addEdge portals pi pj (floatOfSize m)) := by
  unfold portalPairs at hs
  rw [connectFrom]
  rw [hp, hq]
  simp only []
  rw [hs]
  rfl

theorem connectRegion_two {dd : DungeonData} {limMin limMax : IVec2} {i j : Nat}
    {portals : List PathPortal} {p q : PathPortal} {m : Nat}
    (hp : portals.get? i = some p) (hq : portals.get? j = some q)
    (hs : scanPairs fscore dd limMin limMax (portalPairs p q limMin limMax) 0xffffffff
      = .ok (false, m)) :
    connectRegion fscore dd limMin limMax [i, j] portals
      = .ok (addEdge portals i j (floatOfSize m)) := by
  rw [connectRegion, connectFrom_cons_ok fscore hp hq hs]
  simp [connectFrom, connectRegion]

theorem all_floor_nonWall {dd : DungeonData} (hwf : dd.WF)
    (hall : ∀ t ∈ dd.tiles, t ≠ Tile.wall) {c : IVec2} (hc : InGrid dd c) : NonWall dd c := by
  have hlt := coord_to_idx_lt hwf hc
  rw [← hwf.1] at hlt
  refine ⟨dd.tiles[coord_to_idx c.x c.y dd.width], ?_, hall _ (List.getElem_mem _)⟩
  unfold tileAt
  rw [List.get?_eq_getElem?, List.getElem?_eq_getElem hlt]

/-- In a bound without walls, two portals whose clipped lines share a cell get
`minDist = 1`. -/
theorem scanPairs_open_one {dd : DungeonData} (hwf : dd.WF) {limMin limMax : IVec2}
    (hlim : LimInGrid dd limMin limMax) (hpos : limMin.x < limMax.x ∧ limMin.y < limMax.y)
    (hopen : ∀ c, InLim limMin limMax c → NonWall dd c) (p q : PathPortal) (c : IVec2)
    (hcp : c ∈ portalCells p limMin limMax) (hcq : c ∈ portalCells q limMin limMax) :
    scanPairs fscore dd limMin limMax (portalPairs p q limMin limMax) 0xffffffff
      = .ok (false, 1) := by
  have hmemp : ∀ ab ∈ portalPairs p q limMin limMax,
      ab.1 ∈ portalCells p limMin limMax ∧ ab.2 ∈ portalCells q limMin limMax := by
    intro ab hab
    unfold portalPairs at hab
    simp only [List.mem_flatMap, List.mem_map] at hab
    obtain ⟨a, ha, b, hb, rfl⟩ := hab
    exact ⟨ha, hb⟩
  have hin : ∀ ab ∈ portalPairs p q limMin limMax, InGrid dd ab.1 := fun ab hab =>
    inGrid_of_inLim hlim (portalCells_inLim hwf hlim hpos p _ (hmemp ab hab).1)
  obtain ⟨m, hm⟩ := scanPairs_all fscore hwf hlim (portalPairs p q limMin limMax) 0xffffffff hin
    (by
      intro ab hab
      right
      exact box_path hopen (portalCells_inLim hwf hlim hpos q _ (hmemp ab hab).2) _ _
        (portalCells_inLim hwf hlim hpos p _ (hmemp ab hab).1) rfl)
  obtain ⟨h1, h2, h3⟩ := scanPairs_spec fscore _ _ _ hm
  have hcc : (c, c) ∈ portalPairs p q limMin limMax := by
    unfold portalPairs
    simp only [List.mem_flatMap, List.mem_map]
    exact ⟨c, hcp, c, hcq, rfl⟩
  have hself : ∀ ab ∈ portalPairs p q limMin limMax, ∀ path,
      find_path_a_star fscore dd ab.1 ab.2 limMin limMax = .ok path →
      (path ≠ [] ∨ ab.1 = ab.2) → 1 ≤ path.length := by
    intro ab hab path hp hor
    rcases hor with h | h
    · cases path with
      | nil => exact absurd rfl h
      | cons _ _ => simp
    · rw [← h, find_path_a_star_self fscore hwf (hin ab hab)] at hp
      cases hp
      simp
  have hle : m ≤ 1 := by
    obtain ⟨path, hp, _, hlen⟩ := h2 (c, c) hcc
    rw [find_path_a_star_self fscore hwf (hin (c, c) hcc)] at hp
    cases hp
    simpa using hlen
  have hge : 1 ≤ m := by
    rcases h3 with h | ⟨ab, hab, path, hp, hlen⟩
    · omega
    · obtain ⟨path2, hp2, hor, _⟩ := h2 ab hab
      rw [hp] at hp2
      cases hp2
      rw [hlen]
      exact hself ab hab path hp hor
  have : m = 1 := by omega
  rw [hm, this]

theorem open10_nonWall {lim_min lim_max : IVec2} (hlim : LimInGrid open10 lim_min lim_max) :
    ∀ c, InLim lim_min lim_max c → NonWall open10 c := by
  intro c hc
  refine all_floor_nonWall (by decide) ?_ (inGrid_of_inLim hlim hc)
  intro t ht
  have : t = Tile.floor := List.eq_of_mem_replicate ht
  rw [this]
  decide

theorem open10_region0 :
    connectRegion fscore open10 (tileLimMin 5 2 0) (tileLimMax 5 2 0) [0, 1]
        [⟨4, 0, 5, 4, []⟩, ⟨0, 4, 4, 5, []⟩, ⟨5, 4, 9, 5, []⟩, ⟨4, 5, 5, 9, []⟩]
      = .ok [⟨4, 0, 5, 4, [⟨1, 1⟩]⟩, ⟨0, 4, 4, 5, [⟨0, 1⟩]⟩, ⟨5, 4, 9, 5, []⟩,
          ⟨4, 5, 5, 9, []⟩] := by
  have hlim : LimInGrid open10 (tileLimMin 5 2 0) (tileLimMax 5 2 0) := by decide
  rw [connectRegion_two fscore (by rfl) (by rfl)
    (scanPairs_open_one fscore (by decide) hlim (by decide) (open10_nonWall hlim)
      ⟨4, 0, 5, 4, []⟩ ⟨0, 4, 4, 5, []⟩ ⟨4, 4⟩ (by decide) (by decide))]
  rfl

theorem open10_region1 :
    connectRegion fscore open10 (tileLimMin 5 2 1) (tileLimMax 5 2 1) [0, 2]
        [⟨4, 0, 5, 4, [⟨1, 1⟩]⟩, ⟨0, 4, 4, 5, [⟨0, 1⟩]⟩, ⟨5, 4, 9, 5, []⟩, ⟨4, 5, 5, 9, []⟩]
      = .ok [⟨4, 0, 5, 4, [⟨1, 1⟩, ⟨2, 1⟩]⟩, ⟨0, 4, 4, 5, [⟨0, 1⟩]⟩, ⟨5, 4, 9, 5, [⟨0, 1⟩]⟩,
          ⟨4, 5, 5, 9, []⟩] := by
  have hlim : LimInGrid open10 (tileLimMin 5 2 1) (tileLimMax 5 2 1) := by decide
  rw [connectRegion_two fscore (by rfl) (by rfl)
    (scanPairs_open_one fscore (by decide) hlim (by decide) (open10_nonWall hlim)
      ⟨4, 0, 5, 4, [⟨1, 1⟩]⟩ ⟨5, 4, 9, 5, []⟩ ⟨5, 4⟩ (by decide) (by decide))]
  rfl

theorem open10_region2 :
    connectRegion fscore open10 (tileLimMin 5 2 2) (tileLimMax 5 2 2) [1, 3]
        [⟨4, 0, 5, 4, [⟨1, 1⟩, ⟨2, 1⟩]⟩, ⟨0, 4, 4, 5, [⟨0, 1⟩]⟩, ⟨5, 4, 9, 5, [⟨0, 1⟩]⟩,
          ⟨4, 5, 5, 9, []⟩]
      = .ok [⟨4, 0, 5, 4, [⟨1, 1⟩, ⟨2, 1⟩]⟩, ⟨0, 4, 4, 5, [⟨0, 1⟩, ⟨3, 1⟩]⟩,
          ⟨5, 4, 9, 5, [⟨0, 1⟩]⟩, ⟨4, 5, 5, 9, [⟨1, 1⟩]⟩] := by
  have hlim : LimInGrid open10 (tileLimMin 5 2 2) (tileLimMax 5 2 2) := by decide
  rw [connectRegion_two fscore (by rfl) (by rfl)
    (scanPairs_open_one fscore (by decide) hlim (by decide) (open10_nonWall hlim)
      ⟨0, 4, 4, 5, [⟨0, 1⟩]⟩ ⟨4, 5, 5, 9, []⟩ ⟨4, 5⟩ (by decide) (by decide))]
  rfl

theorem open10_region3 :
    connectRegion fscore open10 (tileLimMin 5 2 3) (tileLimMax 5 2 3) [2, 3]
        [⟨4, 0, 5, 4, [⟨1, 1⟩, ⟨2, 1⟩]⟩, ⟨0, 4, 4, 5, [⟨0, 1⟩, ⟨3, 1⟩]⟩,
          ⟨5, 4, 9, 5, [⟨0, 1⟩]⟩, ⟨4, 5, 5, 9, [⟨1, 1⟩]⟩]
      = .ok open10Portals.portals := by
  have hlim : LimInGrid open10 (tileLimMin 5 2 3) (tileLimMax 5 2 3) := by decide
  rw [connectRegion_two fscore (by rfl) (by rfl)
    (scanPairs_open_one fscore (by decide) hlim (by decide) (open10_nonWall hlim)
      ⟨5, 4, 9, 5, [⟨0, 1⟩]⟩ ⟨4, 5, 5, 9, [⟨1, 1⟩]⟩ ⟨5, 5⟩ (by decide) (by decide))]
  rfl

theorem open10_prebuild : prebuild_map fscore 5 open10 = .ok open10Portals := by
  refine prebuild_map_of_parts fscore (by decide) open10_scan ?_
  show connectRegions fscore open10 5 2
    [(0, [0, 1]), (1, [0, 2]), (2, [1, 3]), (3, [2, 3])] _ = _
  rw [connectRegions_cons fscore (open10_region0 fscore),
    connectRegions_cons fscore (open10_region1 fscore),
    connectRegions_cons fscore (open10_region2 fscore),
    connectRegions_cons fscore (open10_region3 fscore)]
  rfl

theorem getMapAt_of_floor {dd : DungeonData} (hwf : dd.WF) {map : List ℚ} {x y : Nat}
    (hf : floorAt dd x y) (hyw : y < dd.width) {d a : ℚ}
    (h : getMapAt dd map x y d = .ok a) : map.get? (y * dd.width + x) = some a := by
  obtain ⟨hx, hy, ht⟩ := hf
  have hlt := cell_idx_lt hwf hx (Or.inr hy)
  unfold getMapAt at h
  rw [if_pos ⟨hx, hyw⟩, Nat.mod_eq_of_lt hlt, ht] at h
  simp only [if_true] at h
  split at h
  · cases h
  rename_i v hv
  cases h
  exact hv

theorem getMinNei_le {dd : DungeonData} (hwf : dd.WF) (hle : dd.height ≤ dd.width)
    {map : List ℚ} {x y : Nat} {mv : ℚ} (hx : x < dd.width) (hy : y < dd.height)
    (h : getMinNei dd map x y = .ok mv) :
    ∀ x2 y2, NatAdj x y x2 y2 → floorAt dd x2 y2 →
      ∃ v2, map.get? (y2 * dd.width + x2) = some v2 ∧ mv ≤ v2 := by
  have hlt := cell_idx_lt hwf hx (Or.inr hy)
  have hw31 := hwf.2.1
  have hh31 := hwf.2.2
  unfold getMinNei at h
  rw [Nat.mod_eq_of_lt hlt] at h
  split at h
  · cases h
  rename_i v0 hv0
  split at h
  · cases h
  rename_i a1 h1
  try simp only at h
  split at h
  · cases h
  rename_i a2 h2
  try simp only at h
  split at h
  · cases h
  rename_i a3 h3
  try simp only at h
  split at h
  · cases h
  rename_i a4 h4
  cases h
  intro x2 y2 hadj hf
  have hy2w : y2 < dd.width := by have := hf.2.1; omega
  have hx2 := hf.1
  have hy2 := hf.2.1
  unfold NatAdj at hadj
  rcases hadj with ⟨ey, ex | ex⟩ | ⟨ex, ey | ey⟩
  · -- right neighbour
    subst ey
    have e : (x + 1) % 2 ^ 64 = x2 := by rw [Nat.mod_eq_of_lt (by omega)]; omega
    rw [e] at h2
    refine ⟨a2, getMapAt_of_floor hwf hf hy2w h2, ?_⟩
    exact le_trans (min_le_left _ _) (le_trans (min_le_left _ _) (min_le_right _ _))
  · -- left neighbour
    subst ey
    have e : (x + (2 ^ 64 - 1)) % 2 ^ 64 = x2 := by
      have e1 : x + (2 ^ 64 - 1) = x2 + 2 ^ 64 := by omega
      rw [e1, Nat.add_mod_right, Nat.mod_eq_of_lt (by omega)]
    rw [e] at h1
    refine ⟨a1, getMapAt_of_floor hwf hf hy2w h1, ?_⟩
    exact le_trans (min_le_left _ _) (le_trans (min_le_left _ _)
      (le_trans (min_le_left _ _) (min_le_right _ _)))
  · -- lower neighbour
    subst ex
    have e : (y + 1) % 2 ^ 64 = y2 := by rw [Nat.mod_eq_of_lt (by omega)]; omega
    rw [e] at h4
    exact ⟨a4, getMapAt_of_floor hwf hf hy2w h4, min_le_right _ _⟩
  · -- upper neighbour
    subst ex
    have e : (y + (2 ^ 64 - 1)) % 2 ^ 64 = y2 := by
      have e1 : y + (2 ^ 64 - 1) = y2 + 2 ^ 64 := by omega
      rw [e1, Nat.add_mod_right, Nat.mod_eq_of_lt (by omega)]
    rw [e] at h3
    refine ⟨a3, getMapAt_of_floor hwf hf hy2w h3, ?_⟩
    exact le_trans (min_le_left _ _) (min_le_right _ _)

theorem NatAdj.symm {x y x2 y2 : Nat} (h : NatAdj x y x2 y2) : NatAdj x2 y2 x y := by
  unfold NatAdj at h ⊢
  omega

theorem dmap_pass_false {dd : DungeonData} :
    ∀ (cells : List (Nat × Nat)) (map : List ℚ) (map2 : List ℚ) (done2 : Bool),
      dmap_pass dd cells (map, false) = .ok (map2, done2) → done2 = false := by
  intro cells
  induction cells with
  | nil =>
    intro map map2 done2 h
    simp only [dmap_pass, Except.ok.injEq, Prod.mk.injEq] at h
    exact h.2.symm
  | cons c cs ih =>
    intro map map2 done2 h
    obtain ⟨x, y⟩ := c
    unfold dmap_pass at h
    simp only [] at h
    split at h
    · cases h
    split at h
    · exact ih _ _ _ h
    split at h
    · cases h
    split at h
    · cases h
    split at h
    · exact ih _ _ _ h
    · exact ih _ _ _ h

/-- One pass keeps every floor value of the form `t + n` and below the initial value. -/
theorem dmap_pass_walkVals {dd : DungeonData} (hwf : dd.WF) (hle : dd.height ≤ dd.width)
    (m0 : List ℚ) :
    ∀ (cells : List (Nat × Nat)) (map : List ℚ) (done : Bool) (map2 : List ℚ) (done2 : Bool),
      (∀ c ∈ cells, c.1 < dd.width ∧ c.2 < dd.height) →
      WalkVals dd m0 map →
      dmap_pass dd cells (map, done) = .ok (map2, done2) →
      WalkVals dd m0 map2 := by
  intro cells
  induction cells with
  | nil =>
    intro map done map2 done2 _ hk h
    simp only [dmap_pass, Except.ok.injEq, Prod.mk.injEq] at h
    rw [← h.1]; exact hk
  | cons c cs ih =>
    intro map done map2 done2 hc hk h
    obtain ⟨x, y⟩ := c
    have hxy := hc (x, y) (List.mem_cons_self _ _)
    have hcs : ∀ c ∈ cs, c.1 < dd.width ∧ c.2 < dd.height :=
      fun c h => hc c (List.mem_cons_of_mem _ h)
    simp only at hxy
    have hlt := cell_idx_lt hwf hxy.1 (Or.inr hxy.2)
    unfold dmap_pass at h
    simp only [Nat.mod_eq_of_lt hlt] at h
    split at h
    · cases h
    rename_i t ht
    split at h
    · exact ih _ _ _ _ hcs hk h
    rename_i hfl
    have hfl : t = Tile.floor := by simpa using hfl
    subst hfl
    have hfloor : floorAt dd x y := ⟨hxy.1, hxy.2, ht⟩
    split at h
    · cases h
    rename_i myVal hmy
    split at h
    · cases h
    rename_i minVal hmin
    split at h
    · rename_i hupd
      refine ih _ _ _ _ hcs ?_ h
      have hown := getMapAt_of_floor hwf hfloor (by omega) hmy
      obtain ⟨v, hv, _, t0, ht0, hvt0⟩ := hk x y hfloor
      rw [hown] at hv
      cases hv
      -- the minimum is the value of a floor neighbour
      obtain ⟨x2, y2, hadj, hf2, e2⟩ : ∃ x2 y2, NatAdj x y x2 y2 ∧ floorAt dd x2 y2 ∧
          map.get? (y2 * dd.width + x2) = some minVal := by
        rcases getMinNei_spec hwf hxy.1 hxy.2 hmin with e | e
        · rw [hown] at e
          cases e
          linarith
        · exact e
      obtain ⟨v2, hv2, ⟨sx, sy, n, t, hwalk, hts, hvn⟩, _⟩ := hk x2 y2 hf2
      rw [e2] at hv2
      cases hv2
      intro x3 y3 hf3
      by_cases hc3 : x3 = x ∧ y3 = y
      · obtain ⟨rfl, rfl⟩ := hc3
        have hlen : y3 * dd.width + x3 < map.length := by
          rw [List.get?_eq_getElem?] at hown
          by_contra hcon
          rw [List.getElem?_eq_none (Nat.le_of_not_lt hcon)] at hown
          cases hown
        refine ⟨minVal + 1, ?_, ⟨sx, sy, n + 1, t, FloorWalk.step hwalk hadj.symm hf3, hts, ?_⟩,
          t0, ht0, ?_⟩
        · rw [List.get?_eq_getElem?, List.getElem?_set_self hlen]
        · rw [hvn]; push_cast; ring
        · linarith
      · have hne : y * dd.width + x ≠ y3 * dd.width + x3 := by
          intro e
          obtain ⟨e1, e2⟩ := cell_idx_inj hxy.1 hf3.1 e
          exact hc3 ⟨e1.symm, e2.symm⟩
        rw [List.get?_eq_getElem?, List.getElem?_set_ne hne, ← List.get?_eq_getElem?]
        exact hk x3 y3 hf3
    · exact ih _ _ _ _ hcs hk h

/-- A pass that leaves `done` set changed nothing and found every listed floor cell
stable. -/
theorem dmap_pass_stable {dd : DungeonData} (hwf : dd.WF) (hle : dd.height ≤ dd.width) :
    ∀ (cells : List (Nat × Nat)) (map : List ℚ) (done : Bool) (map2 : List ℚ),
      (∀ c ∈ cells, c.1 < dd.width ∧ c.2 < dd.height) →
      dmap_pass dd cells (map, done) = .ok (map2, true) →
      map2 = map ∧ StableAt dd map cells := by
  intro cells
  induction cells with
  | nil =>
    intro map done map2 _ h
    simp only [dmap_pass, Except.ok.injEq, Prod.mk.injEq] at h
    refine ⟨h.1.symm, ?_⟩
    intro c hc
    cases hc
  | cons c cs ih =>
    intro map done map2 hc h
    obtain ⟨x, y⟩ := c
    have hxy := hc (x, y) (List.mem_cons_self _ _)
    have hcs : ∀ c ∈ cs, c.1 < dd.width ∧ c.2 < dd.height :=
      fun c h => hc c (List.mem_cons_of_mem _ h)
    simp only at hxy
    have hlt := cell_idx_lt hwf hxy.1 (Or.inr hxy.2)
    unfold dmap_pass at h
    simp only [Nat.mod_eq_of_lt hlt] at h
    split at h
    · cases h
    rename_i t ht
    split at h
    · rename_i hnf
      obtain ⟨e, hs⟩ := ih _ _ _ hcs h
      refine ⟨e, ?_⟩
      intro c hcm hf
      rcases List.mem_cons.1 hcm with rfl | hcm
      · exfalso
        apply hnf
        have := hf.2.2
        simp only at this
        rw [ht] at this
        cases this
        rfl
      · exact hs c hcm hf
    split at h
    · cases h
    rename_i myVal hmy
    split at h
    · cases h
    rename_i minVal hmin
    split at h
    · have := dmap_pass_false _ _ _ _ h
      cases this
    · rename_i hnupd
      obtain ⟨e, hs⟩ := ih _ _ _ hcs h
      refine ⟨e, ?_⟩
      intro c hcm hf
      rcases List.mem_cons.1 hcm with rfl | hcm
      · exact ⟨myVal, minVal, getMapAt_of_floor hwf hf (by have := hf.2.1; simp only at this; omega) hmy,
          hmin, hnupd⟩
      · exact hs c hcm hf

/-- The field returned by `process_dmap` holds walk values of the initial field and is
stable at every cell. -/
theorem process_dmap_walkVals {dd : DungeonData} (hwf : dd.WF) (hle : dd.height ≤ dd.width)
    (m0 : List ℚ) :
    ∀ (fuel : Nat) (map map2 : List ℚ), WalkVals dd m0 map →
      process_dmap dd fuel map = .ok map2 →
      WalkVals dd m0 map2 ∧ StableAt dd map2 (scanOrder dd) := by
  intro fuel
  induction fuel with
  | zero => intro map map2 _ h; simp [process_dmap] at h
  | succ n ih =>
    intro map map2 hk h
    unfold process_dmap at h
    split at h
    · cases h
    rename_i m3 done hp
    have hk3 := dmap_pass_walkVals hwf hle m0 _ _ _ _ _ scanOrder_mem hk hp
    split at h
    · rename_i hd
      cases h
      subst hd
      obtain ⟨e, hs⟩ := dmap_pass_stable hwf hle _ _ _ _ scanOrder_mem hp
      subst e
      exact ⟨hk3, hs⟩
    · exact ih _ _ hk3 h

theorem walkVals_self {dd : DungeonData} {m0 : List ℚ}
    (hlen : m0.length = dd.width * dd.height) : WalkVals dd m0 m0 := by
  intro x y hf
  have hlt : y * dd.width + x < m0.length := by
    rw [hlen]
    have := hf.1
    have h2 : (y + 1) * dd.width ≤ dd.height * dd.width := Nat.mul_le_mul_right _ hf.2.1
    rw [Nat.succ_mul] at h2
    rw [Nat.mul_comm dd.width dd.height]
    omega
  have hg : m0.get? (y * dd.width + x) = some (m0.get ⟨_, hlt⟩) := by
    rw [List.get?_eq_getElem?, List.getElem?_eq_getElem hlt]
    rfl
  exact ⟨_, hg, ⟨x, y, 0, _, FloorWalk.refl hf, hg, by simp⟩, _, hg, le_refl _⟩

theorem mem_scanOrder_of_lt {dd : DungeonData} {x y : Nat} (hx : x < dd.width)
    (hy : y < dd.height) : (x, y) ∈ scanOrder dd := by
  simp only [scanOrder, List.mem_flatMap, List.mem_range, List.mem_map]
  exact ⟨y, hy, x, hx, rfl⟩

/-- Min-plus closure of `process_dmap`: on a grid that is at least as wide as high, the
returned value of a floor cell is `t + n` for some floor walk of `n` steps from a cell
with initial value `t`, and is at most `t + n` for every such walk. -/
theorem process_dmap_closure {dd : DungeonData} (hwf : dd.WF) (hle : dd.height ≤ dd.width)
    {m0 m : List ℚ} {fuel : Nat} (hlen : m0.length = dd.width * dd.height)
    (h : process_dmap dd fuel m0 = .ok m) {x y : Nat} (hf : floorAt dd x y) :
    ∃ v, m.get? (y * dd.width + x) = some v ∧
      (∃ sx sy n t, FloorWalk dd sx sy x y n ∧ m0.get? (sy * dd.width + sx) = some t ∧
        v = t + n) ∧
      (∀ sx sy n t, FloorWalk dd sx sy x y n → m0.get? (sy * dd.width + sx) = some t →
        v ≤ t + n) := by
  obtain ⟨hw, hs⟩ := process_dmap_walkVals hwf hle m0 fuel m0 m (walkVals_self hlen) h
  have upper : ∀ sx sy x y n, FloorWalk dd sx sy x y n → ∀ t v,
      m0.get? (sy * dd.width + sx) = some t → m.get? (y * dd.width + x) = some v →
      v ≤ t + n := by
    intro sx sy x y n hwalk
    induction hwalk with
    | refl hf0 =>
      intro t v ht hv
      obtain ⟨v2, hv2, _, t0, ht0, hle0⟩ := hw _ _ hf0
      rw [hv] at hv2; cases hv2
      rw [ht] at ht0; cases ht0
      simpa using hle0
    | step hwalk hadj hf2 ih =>
      rename_i x1 y1 x2 y2 n1
      intro t v ht hv
      obtain ⟨v3, mv, hv3, hmin, hst⟩ := hs (x2, y2) (mem_scanOrder_of_lt hf2.1 hf2.2.1) hf2
      simp only at hv3 hmin
      rw [hv] at hv3; cases hv3
      have hf1 : floorAt dd x1 y1 := by
        cases hwalk with
        | refl h0 => exact h0
        | step _ _ h0 => exact h0
      obtain ⟨v1, hv1, hmv⟩ := getMinNei_le hwf hle hf2.1 hf2.2.1 hmin x1 y1 hadj.symm hf1
      have := ih t v1 ht hv1
      push_cast
      linarith
  obtain ⟨v, hv, hex, _⟩ := hw x y hf
  exact ⟨v, hv, hex, fun sx sy n t hwalk ht => upper sx sy x y n hwalk t v ht hv⟩

theorem valRank_mono (m0 : List ℚ) {v1 v2 : ℚ} (h : v1 ≤ v2) :
    valRank m0 v1 ≤ valRank m0 v2 := by
  unfold valRank
  apply List.sum_le_sum
  intro t _
  exact Int.toNat_le_toNat (Int.ceil_le_ceil (by linarith))

theorem valRank_lt {m0 : List ℚ} {t v1 v2 : ℚ} {n : Nat} (ht : t ∈ m0)
    (e : v1 = t + n) (h : v1 < v2) : valRank m0 v1 < valRank m0 v2 := by
  unfold valRank
  apply List.sum_lt_sum
  · intro t _
    exact Int.toNat_le_toNat (Int.ceil_le_ceil (by linarith))
  · refine ⟨t, ht, ?_⟩
    have e1 : ⌈v1 - t⌉ = (n : Int) := by
      rw [e]
      simp
    have e2 : (n : Int) + 1 ≤ ⌈v2 - t⌉ := by
      rw [Int.add_one_le_ceil_iff]
      push_cast
      linarith
    rw [e1]
    omega

theorem sum_map_set_lt (f : ℚ → Nat) :
    ∀ (l : List ℚ) (i : Nat) (a b : ℚ), l.get? i = some b → f a < f b →
      ((l.set i a).map f).sum < (l.map f).sum := by
  intro l
  induction l with
  | nil => intro i a b h; simp at h
  | cons c cs ih =>
    intro i a b h hlt
    cases i with
    | zero =>
      simp only [List.get?_cons_zero, Option.some.injEq] at h
      subst h
      simp only [List.set_cons_zero, List.map_cons, List.sum_cons]
      omega
    | succ j =>
      simp only [List.get?_cons_succ] at h
      have := ih j a b h hlt
      simp only [List.set_cons_succ, List.map_cons, List.sum_cons]
      omega

theorem getMapAt_total {dd : DungeonData} (hwf : dd.WF) (hsq : dd.width = dd.height)
    {map : List ℚ} (hlen : map.length = dd.width * dd.height) (x y : Nat) (d : ℚ) :
    ∃ a, getMapAt dd map x y d = .ok a := by
  unfold getMapAt
  split
  · rename_i hxy
    have hlt := cell_idx_lt hwf hxy.1 (Or.inl hxy.2)
    have hb : y * dd.width + x < dd.width * dd.height := by
      have h2 : (y + 1) * dd.width ≤ dd.height * dd.width :=
        Nat.mul_le_mul_right _ (by omega)
      rw [Nat.succ_mul] at h2
      rw [Nat.mul_comm dd.width dd.height]
      omega
    rw [Nat.mod_eq_of_lt hlt]
    have h1 : dd.tiles.get? (y * dd.width + x) = some (dd.tiles.get ⟨_, by rw [hwf.1]; exact hb⟩) := by
      rw [List.get?_eq_getElem?, List.getElem?_eq_getElem (by rw [hwf.1]; exact hb)]
      rfl
    have h2 : map.get? (y * dd.width + x) = some (map.get ⟨_, by rw [hlen]; exact hb⟩) := by
      rw [List.get?_eq_getElem?, List.getElem?_eq_getElem (by rw [hlen]; exact hb)]
      rfl
    rw [h1, h2]
    simp only []
    split
    · exact ⟨_, rfl⟩
    · exact ⟨_, rfl⟩
  · exact ⟨_, rfl⟩

theorem getMinNei_total {dd : DungeonData} (hwf : dd.WF) (hsq : dd.width = dd.height)
    {map : List ℚ} (hlen : map.length = dd.width * dd.height) {x y : Nat}
    (hx : x < dd.width) (hy : y < dd.height) :
    ∃ mv, getMinNei dd map x y = .ok mv := by
  have hlt := cell_idx_lt hwf hx (Or.inr hy)
  have hb : y * dd.width + x < dd.width * dd.height := by
    have h2 : (y + 1) * dd.width ≤ dd.height * dd.width :=
      Nat.mul_le_mul_right _ (by omega)
    rw [Nat.succ_mul] at h2
    rw [Nat.mul_comm dd.width dd.height]
    omega
  have h0 : map.get? (y * dd.width + x) = some (map.get ⟨_, by rw [hlen]; exact hb⟩) := by
    rw [List.get?_eq_getElem?, List.getElem?_eq_getElem (by rw [hlen]; exact hb)]
    rfl
  unfold getMinNei
  rw [Nat.mod_eq_of_lt hlt, h0]
  simp only []
  obtain ⟨a1, h1⟩ := getMapAt_total hwf hsq hlen ((x + (2 ^ 64 - 1)) % 2 ^ 64) y
    (map.get ⟨_, by rw [hlen]; exact hb⟩)
  rw [h1]
  simp only []
  obtain ⟨a2, h2⟩ := getMapAt_total hwf hsq hlen ((x + 1) % 2 ^ 64) y
    (min (map.get ⟨_, by rw [hlen]; exact hb⟩) a1)
  rw [h2]
  simp only []
  obtain ⟨a3, h3⟩ := getMapAt_total hwf hsq hlen x ((y + (2 ^ 64 - 1)) % 2 ^ 64)
    (min (min (map.get ⟨_, by rw [hlen]; exact hb⟩) a1) a2)
  rw [h3]
  simp only []
  obtain ⟨a4, h4⟩ := getMapAt_total hwf hsq hlen x ((y + 1) % 2 ^ 64)
    (min (min (min (map.get ⟨_, by rw [hlen]; exact hb⟩) a1) a2) a3)
  rw [h4]
  exact ⟨_, rfl⟩

/-- On a square grid a pass returns, never raises the rank of the field, and lowers it
when it clears `done`. -/
theorem dmap_pass_total {dd : DungeonData} (hwf : dd.WF) (hsq : dd.width = dd.height)
    (m0 : List ℚ) :
    ∀ (cells : List (Nat × Nat)) (map : List ℚ) (done : Bool),
      (∀ c ∈ cells, c.1 < dd.width ∧ c.2 < dd.height) →
      map.length = dd.width * dd.height →
      WalkVals dd m0 map →
      ∃ map2 done2, dmap_pass dd cells (map, done) = .ok (map2, done2) ∧
        map2.length = dd.width * dd.height ∧
        fieldRank m0 map2 ≤ fieldRank m0 map ∧
        (done = true → done2 = false → fieldRank m0 map2 < fieldRank m0 map) := by
  intro cells
  induction cells with
  | nil =>
    intro map done _ hlen _
    refine ⟨map, done, rfl, hlen, le_refl _, ?_⟩
    intro h1 h2
    rw [h1] at h2
    cases h2
  | cons c cs ih =>
    intro map done hc hlen hk
    obtain ⟨x, y⟩ := c
    have hxy := hc (x, y) (List.mem_cons_self _ _)
    have hcs : ∀ c ∈ cs, c.1 < dd.width ∧ c.2 < dd.height :=
      fun c h => hc c (List.mem_cons_of_mem _ h)
    simp only at hxy
    have hlt := cell_idx_lt hwf hxy.1 (Or.inr hxy.2)
    have hb : y * dd.width + x < dd.width * dd.height := by
      have h2 : (y + 1) * dd.width ≤ dd.height * dd.width :=
        Nat.mul_le_mul_right _ (by omega)
      rw [Nat.succ_mul] at h2
      rw [Nat.mul_comm dd.width dd.height]
      omega
    have h1 : dd.tiles.get? (y * dd.width + x)
        = some (dd.tiles.get ⟨_, by rw [hwf.1]; exact hb⟩) := by
      rw [List.get?_eq_getElem?, List.getElem?_eq_getElem (by rw [hwf.1]; exact hb)]
      rfl
    by_cases hfl : dd.tiles.get ⟨_, by rw [hwf.1]; exact hb⟩ = Tile.floor
    · have hfloor : floorAt dd x y := ⟨hxy.1, hxy.2, by rw [h1, hfl]⟩
      obtain ⟨myVal, hmy⟩ := getMapAt_total hwf hsq hlen x y invalid_tile_value
      obtain ⟨minVal, hmin⟩ := getMinNei_total hwf hsq hlen hxy.1 hxy.2
      have hown := getMapAt_of_floor hwf hfloor (by omega) hmy
      by_cases hupd : minVal < myVal - 1
      · have hstep : dmap_pass dd [(x, y)] (map, done)
            = .ok (map.set (y * dd.width + x) (minVal + 1), false) := by
          unfold dmap_pass
          simp only [Nat.mod_eq_of_lt hlt]
          rw [h1, hfl]
          simp only [ne_eq, not_true_eq_false, if_false]
          rw [hmy, hmin]
          simp only [if_pos hupd]
          rfl
        have hk2 := dmap_pass_walkVals hwf (by omega) m0 _ _ _ _ _
          (by intro c hc2; rcases List.mem_singleton.1 hc2 with rfl; exact hxy) hk hstep
        obtain ⟨map2, done2, e, hl2, hr2, _⟩ := ih (map.set (y * dd.width + x) (minVal + 1))
          false hcs (by simp [hlen]) hk2
        have hdec : fieldRank m0 (map.set (y * dd.width + x) (minVal + 1))
            < fieldRank m0 map := by
          unfold fieldRank
          apply sum_map_set_lt _ _ _ _ _ hown
          obtain ⟨v, hv, ⟨sx, sy, n, t, _, hts, hvn⟩, _⟩ := hk2 x y hfloor
          rw [List.get?_eq_getElem?, List.getElem?_set_self (by rw [hlen]; exact hb)] at hv
          cases hv
          exact valRank_lt (List.get?_mem hts) hvn (by linarith)
        refine ⟨map2, done2, ?_, hl2, by omega, fun _ _ => by omega⟩
        unfold dmap_pass
        simp only [Nat.mod_eq_of_lt hlt]
        rw [h1, hfl]
        simp only [ne_eq, not_true_eq_false, if_false]
        rw [hmy, hmin]
        simp only [if_pos hupd]
        exact e
      · obtain ⟨map2, done2, e, hl2, hr2, hr3⟩ := ih map done hcs hlen hk
        refine ⟨map2, done2, ?_, hl2, hr2, hr3⟩
        unfold dmap_pass
        simp only [Nat.mod_eq_of_lt hlt]
        rw [h1, hfl]
        simp only [ne_eq, not_true_eq_false, if_false]
        rw [hmy, hmin]
        simp only [if_neg hupd]
        exact e
    · obtain ⟨map2, done2, e, hl2, hr2, hr3⟩ := ih map done hcs hlen hk
      refine ⟨map2, done2, ?_, hl2, hr2, hr3⟩
      unfold dmap_pass
      simp only [Nat.mod_eq_of_lt hlt]
      rw [h1]
      simp only [ne_eq, hfl, not_false_eq_true, if_true]
      exact e

/-- On a square grid `process_dmap` returns once its fuel exceeds the rank of the field. -/
theorem process_dmap_total_of_rank {dd : DungeonData} (hwf : dd.WF)
    (hsq : dd.width = dd.height) (m0 : List ℚ) :
    ∀ (k : Nat) (map : List ℚ), map.length = dd.width * dd.height → WalkVals dd m0 map →
      fieldRank m0 map ≤ k →
      ∃ m, process_dmap dd (k + 1) map = .ok m ∧ m.length = dd.width * dd.height := by
  intro k
  induction k with
  | zero =>
    intro map hlen hk hr
    obtain ⟨map2, done2, e, hl2, _, hr3⟩ := dmap_pass_total hwf hsq m0 (scanOrder dd) map true
      scanOrder_mem hlen hk
    unfold process_dmap
    rw [e]
    simp only []
    cases done2 with
    | true => exact ⟨map2, rfl, hl2⟩
    | false =>
      have := hr3 rfl rfl
      omega
  | succ k ih =>
    intro map hlen hk hr
    obtain ⟨map2, done2, e, hl2, _, hr3⟩ := dmap_pass_total hwf hsq m0 (scanOrder dd) map true
      scanOrder_mem hlen hk
    have hk2 := dmap_pass_walkVals hwf (by omega) m0 _ _ _ _ _ scanOrder_mem hk e
    unfold process_dmap
    rw [e]
    simp only []
    cases done2 with
    | true => exact ⟨map2, rfl, hl2⟩
    | false =>
      have := hr3 rfl rfl
      exact ih map2 hl2 hk2 (by omega)

/-- Termination of the relaxation on square grids: for every field of the size of the
grid some fuel makes `process_dmap` return. -/
theorem process_dmap_total {dd : DungeonData} (hwf : dd.WF) (hsq : dd.width = dd.height)
    {m0 : List ℚ} (hlen : m0.length = dd.width * dd.height) :
    ∃ fuel m, process_dmap dd fuel m0 = .ok m ∧ m.length = dd.width * dd.height := by
  obtain ⟨m, e, hl⟩ := process_dmap_total_of_rank hwf hsq m0 (fieldRank m0 m0) m0 hlen
    (walkVals_self hlen) (le_refl _)
  exact ⟨_, m, e, hl⟩

theorem dmap_pass_length {dd : DungeonData} :
    ∀ (cells : List (Nat × Nat)) (map : List ℚ) (done : Bool) (map2 : List ℚ) (done2 : Bool),
      dmap_pass dd cells (map, done) = .ok (map2, done2) → map2.length = map.length := by
  intro cells
  induction cells with
  | nil =>
    intro map done map2 done2 h
    simp only [dmap_pass, Except.ok.injEq, Prod.mk.injEq] at h
    rw [← h.1]
  | cons c cs ih =>
    intro map done map2 done2 h
    obtain ⟨x, y⟩ := c
    unfold dmap_pass at h
    simp only [] at h
    split at h
    · cases h
    split at h
    · exact ih _ _ _ _ h
    split at h
    · cases h
    split at h
    · cases h
    split at h
    · rw [ih _ _ _ _ h, List.length_set]
    · exact ih _ _ _ _ h

theorem process_dmap_length {dd : DungeonData} :
    ∀ (fuel : Nat) (map map2 : List ℚ), process_dmap dd fuel map = .ok map2 →
      map2.length = map.length := by
  intro fuel
  induction fuel with
  | zero => intro map map2 h; simp [process_dmap] at h
  | succ n ih =>
    intro map map2 h
    unfold process_dmap at h
    split at h
    · cases h
    rename_i m3 done hp
    have h3 := dmap_pass_length _ _ _ _ _ hp
    split at h
    · cases h; exact h3
    · rw [ih _ _ h, h3]

theorem floorAt_of_idx {dd : DungeonData} {j : Nat} (hj : j < dd.width * dd.height)
    (ht : dd.tiles.get? j = some Tile.floor) :
    floorAt dd (j % dd.width) (j / dd.width) ∧ j / dd.width * dd.width + j % dd.width = j := by
  have hw : 0 < dd.width := by
    rcases Nat.eq_zero_or_pos dd.width with h | h
    · rw [h] at hj; simp at hj
    · exact h
  have e : j / dd.width * dd.width + j % dd.width = j := by
    rw [Nat.mul_comm]; exact Nat.div_add_mod j dd.width
  refine ⟨⟨Nat.mod_lt _ hw, ?_, by rw [e]; exact ht⟩, e⟩
  exact Nat.div_lt_of_lt_mul hj

/-- On a grid at least as wide as high, the returned field of `process_dmap` has 4-adjacent
floor cells at most 1 apart and no entry above its initial value. -/
theorem process_dmap_adjacent {dd : DungeonData} (hwf : dd.WF) (hle : dd.height ≤ dd.width)
    {m0 m : List ℚ} {fuel : Nat} (hlen : m0.length = dd.width * dd.height)
    (h : process_dmap dd fuel m0 = .ok m) :
    (∀ x y x2 y2, floorAt dd x y → floorAt dd x2 y2 → NatAdj x y x2 y2 →
      ∃ v v2, m.get? (y * dd.width + x) = some v ∧ m.get? (y2 * dd.width + x2) = some v2 ∧
        |v - v2| ≤ 1) ∧
    (∀ j, j < dd.width * dd.height →
      ∃ v v0, m.get? j = some v ∧ m0.get? j = some v0 ∧ v ≤ v0) := by
  obtain ⟨hw, hs⟩ := process_dmap_walkVals hwf hle m0 fuel m0 m (walkVals_self hlen) h
  have one : ∀ x y x2 y2, floorAt dd x y → floorAt dd x2 y2 → NatAdj x y x2 y2 →
      ∃ v v2, m.get? (y * dd.width + x) = some v ∧ m.get? (y2 * dd.width + x2) = some v2 ∧
        v ≤ v2 + 1 := by
    intro x y x2 y2 hf hf2 hadj
    obtain ⟨v, mv, hv, hmin, hst⟩ := hs (x, y) (mem_scanOrder hf.1 hf.2.1) hf
    simp only at hv hmin
    obtain ⟨v2, hv2, hmv⟩ := getMinNei_le hwf hle hf.1 hf.2.1 hmin x2 y2 hadj hf2
    exact ⟨v, v2, hv, hv2, by linarith⟩
  constructor
  · intro x y x2 y2 hf hf2 hadj
    obtain ⟨v, v2, hv, hv2, h1⟩ := one x y x2 y2 hf hf2 hadj
    obtain ⟨v2b, vb, hv2b, hvb, h2⟩ := one x2 y2 x y hf2 hf hadj.symm
    rw [hv2] at hv2b; cases hv2b
    rw [hv] at hvb; cases hvb
    refine ⟨v, v2, hv, hv2, ?_⟩
    rw [abs_le]
    constructor <;> linarith
  · intro j hj
    by_cases ht : dd.tiles.get? j = some Tile.floor
    · obtain ⟨hf, e⟩ := floorAt_of_idx hj ht
      obtain ⟨v, hv, _, t0, ht0, hle0⟩ := hw _ _ hf
      rw [e] at hv ht0
      exact ⟨v, t0, hv, ht0, hle0⟩
    · have hfr := process_dmap_frame fuel m0 m h j ht
      have hg : m0.get? j = some (m0.get ⟨j, by rw [hlen]; exact hj⟩) := by
        rw [List.get?_eq_getElem?, List.getElem?_eq_getElem (by rw [hlen]; exact hj)]
        rfl
      exact ⟨_, _, by rw [hfr]; exact hg, hg, le_refl _⟩

theorem tall_pass_raise (k : ℚ) (hk : k < 99999) :
    dmap_pass tall (scanOrder tall) ([100000, k], true) = .ok ([100000, k + 1], false) := by
  have hs : scanOrder tall = [(0, 0), (0, 1)] := by rfl
  have h0 : getMapAt tall [100000, k] 0 0 invalid_tile_value = .ok 100000 := by
    simp [getMapAt, tall]
  have h1 : getMinNei tall [100000, k] 0 0 = .ok 100000 := by
    simp [getMinNei, getMapAt, tall]
  have h2 : getMapAt tall [100000, k] 0 1 invalid_tile_value = .ok 100000 := by
    simp [getMapAt, tall, invalid_tile_value]
  have h3 : getMinNei tall [100000, k] 0 1 = .ok k := by
    simp [getMinNei, getMapAt, tall]
    linarith
  rw [hs]
  unfold dmap_pass
  simp only []
  have t0 : tall.tiles.get? ((0 * tall.width + 0) % 2 ^ 64) = some Tile.floor := by rfl
  have t1 : tall.tiles.get? ((1 * tall.width + 0) % 2 ^ 64) = some Tile.floor := by rfl
  rw [t0]
  simp only [ne_eq, not_true_eq_false, if_false]
  rw [h0, h1]
  simp only []
  rw [if_neg (by norm_num)]
  unfold dmap_pass
  simp only []
  rw [t1]
  simp only [ne_eq, not_true_eq_false, if_false]
  rw [h2, h3]
  simp only []
  rw [if_pos (by linarith)]
  unfold dmap_pass
  rfl

theorem tall_pass_stay :
    dmap_pass tall (scanOrder tall) ([100000, 99999], true) = .ok ([100000, 99999], true) := by
  decide!

theorem tall_process_raise :
    ∀ (n k : Nat), k + n = 99999 →
      process_dmap tall (n + 1) [100000, (k : ℚ)] = .ok [100000, 99999] := by
  intro n
  induction n with
  | zero =>
    intro k hk
    have e : (k : ℚ) = 99999 := by
      have : k = 99999 := by omega
      rw [this]; norm_num
    rw [e]
    unfold process_dmap
    rw [tall_pass_stay]
    rfl
  | succ n ih =>
    intro k hk
    have hlt : (k : ℚ) < 99999 := by
      have : k < 99999 := by omega
      exact_mod_cast this
    unfold process_dmap
    rw [tall_pass_raise _ hlt]
    simp only [Bool.false_eq_true, if_false]
    have := ih (k + 1) (by omega)
    push_cast at this
    exact this

theorem checkNeighbour_limInv {dd : DungeonData} {src dst lim_min lim_max curPos p : IVec2}
    {st st2 : AStar S} (hc : curPos = src ∨ InLim lim_min lim_max curPos)
    (hinv : LimInv src lim_min lim_max st)
    (h : checkNeighbour fscore dd dst lim_min lim_max curPos p st = .ok st2) :
    LimInv src lim_min lim_max st2 := by
  unfold checkNeighbour at h
  split at h
  · cases h; exact hinv
  rename_i hl
  have hp : InLim lim_min lim_max p := by unfold InLim; omega
  simp only [] at h
  split at h
  · cases h
  split at h
  · cases h; exact hinv
  split at h
  · cases h
  have hinv1 : LimInv src lim_min lim_max
      (if gLt ((getG st dd.width curPos).map (· + 1)) (getG st dd.width p) then
        { st with
          prev := st.prev.set (coord_to_idx p.x p.y dd.width) curPos
          g := st.g.set (coord_to_idx p.x p.y dd.width) ((getG st dd.width curPos).map (· + 1))
          f := st.f.set (coord_to_idx p.x p.y dd.width)
            (((getG st dd.width curPos).map (· + 1)).map
              (fun gs => fscore gs (heuristic p dst))) }
      else st) := by
    split
    · refine ⟨hinv.1, ?_⟩
      intro q hq
      rcases List.mem_or_eq_of_mem_set hq with e | e
      · exact hinv.2 q e
      · rw [e]; exact Or.inr hc
    · exact hinv
  revert h hinv1
  generalize (if gLt ((getG st dd.width curPos).map (· + 1)) (getG st dd.width p) then
        ({ st with
          prev := st.prev.set (coord_to_idx p.x p.y dd.width) curPos
          g := st.g.set (coord_to_idx p.x p.y dd.width) ((getG st dd.width curPos).map (· + 1))
          f := st.f.set (coord_to_idx p.x p.y dd.width)
            (((getG st dd.width curPos).map (· + 1)).map
              (fun gs => fscore gs (heuristic p dst))) } : AStar S)
      else st) = st1
  intro h hinv1
  split at h
  · cases h; exact hinv1
  · cases h
    refine ⟨?_, hinv1.2⟩
    intro q hq
    rcases List.mem_append.mp hq with e | e
    · exact hinv1.1 q e
    · rw [List.mem_singleton.mp e]; exact Or.inr hp

theorem reconstruct_loop_mem {prev : List IVec2} {w : Nat} {path : List IVec2} :
    ∀ (fuel : Nat) (cur : IVec2) (res : List IVec2),
      reconstruct_loop prev w fuel cur res = .ok path →
      ∀ c ∈ path, c ∈ res ∨ (c ∈ prev ∧ c ≠ noPrev) := by
  intro fuel
  induction fuel with
  | zero => intro cur res h; simp [reconstruct_loop] at h
  | succ n ih =>
    intro cur res h c hc
    unfold reconstruct_loop at h
    split at h
    · cases h
    rename_i q hq
    split at h
    · rename_i hne
      rcases ih q (q :: res) h c hc with e | e
      · rcases List.mem_cons.mp e with e2 | e2
        · right
          rw [e2]
          exact ⟨List.get?_mem hq, hne⟩
        · exact Or.inl e2
      · exact Or.inr e
    · cases h
      exact Or.inl hc

theorem astar_loop_limInv {dd : DungeonData} {src dst lim_min lim_max : IVec2}
    {path : List IVec2} :
    ∀ (fuel : Nat) (st : AStar S), LimInv src lim_min lim_max st →
      astar_loop fscore dd dst lim_min lim_max fuel st = .ok path →
      ∀ c ∈ path, c = src ∨ InLim lim_min lim_max c := by
  intro fuel
  induction fuel with
  | zero => intro st _ h; simp [astar_loop] at h
  | succ n ih =>
    intro st hinv h
    unfold astar_loop at h
    split at h
    · cases h; intro c hc; cases hc
    rename_i o os hopen
    simp only at h
    have hmem : (o :: os).getD (scanBest (getF st dd.width) os 1 0 (getF st dd.width o)) o
        ∈ st.openList := by rw [hopen]; exact getD_mem_cons _ _ _
    have hsub : ∀ p ∈ (o :: os).eraseIdx
        (scanBest (getF st dd.width) os 1 0 (getF st dd.width o)), p ∈ st.openList := by
      intro p hp; rw [hopen]; exact List.mem_of_mem_eraseIdx hp
    generalize (o :: os).getD (scanBest (getF st dd.width) os 1 0 (getF st dd.width o)) o
      = cur at h hmem
    generalize (o :: os).eraseIdx (scanBest (getF st dd.width) os 1 0 (getF st dd.width o))
      = op2 at h hsub
    have hcur := hinv.1 cur hmem
    split at h
    · rename_i hcd
      subst hcd
      intro c hc
      unfold reconstruct_path at h
      rcases reconstruct_loop_mem _ _ _ h c hc with e | ⟨e, hne⟩
      · rw [List.mem_singleton.mp e]; exact hcur
      · rcases hinv.2 c e with e2 | e2
        · exact absurd e2 hne
        · exact e2
    have hinv0 : ∀ cl, LimInv src lim_min lim_max
        ({ st with openList := op2, closedList := cl } : AStar S) :=
      fun cl => ⟨fun q hq => hinv.1 q (hsub q hq), hinv.2⟩
    split at h
    · exact ih _ (hinv0 _) h
    have hinv1 := hinv0 (st.closedList ++ [cur])
    revert h
    generalize ({ st with openList := op2, closedList := st.closedList ++ [cur] } : AStar S)
      = st1 at hinv1
    intro h
    split at h
    · cases h
    rename_i st2 h2
    have hinv2 := checkNeighbour_limInv fscore hcur hinv1 h2
    split at h
    · cases h
    rename_i st3 h3
    have hinv3 := checkNeighbour_limInv fscore hcur hinv2 h3
    split at h
    · cases h
    rename_i st4 h4
    have hinv4 := checkNeighbour_limInv fscore hcur hinv3 h4
    split at h
    · cases h
    rename_i st5 h5
    have hinv5 := checkNeighbour_limInv fscore hcur hinv4 h5
    exact ih st5 hinv5 h

theorem astar_init_limInv (dd : DungeonData) (src dst lim_min lim_max : IVec2) :
    LimInv src lim_min lim_max (astar_init fscore dd src dst) := by
  unfold astar_init LimInv
  simp only []
  constructor
  · intro q hq
    exact Or.inl (List.mem_singleton.mp hq)
  · intro q hq
    exact Or.inl (List.eq_of_mem_replicate hq)

theorem los_walk_reads_fst (dd : DungeonData) (dest : IVec2) :
    ∀ (fuel : Nat) (cur : IVec2),
      (los_walk_reads dd dest fuel cur).map Prod.fst = los_walk dd dest fuel cur := by
  intro fuel
  induction fuel with
  | zero => intro cur; rfl
  | succ n ih =>
    intro cur
    unfold los_walk_reads los_walk
    by_cases hd : dest = cur
    · rw [if_pos hd, if_pos hd]; rfl
    rw [if_neg hd, if_neg hd]
    simp only []
    cases dd.tiles.get? (coord_to_idx (losStep dest cur).x (losStep dest cur).y dd.width) with
    | none => rfl
    | some t =>
      simp only []
      by_cases hw : t = Tile.wall
      · rw [if_pos hw, if_pos hw]; rfl
      rw [if_neg hw, if_neg hw, ← ih]
      cases los_walk_reads dd dest n (losStep dest cur) with
      | error e => rfl
      | ok r => rfl

theorem los_walk_reads_spec {dd : DungeonData} (hwf : dd.WF) {dest : IVec2}
    (hd : InGrid dd dest) :
    ∀ (n fuel : Nat) (cur : IVec2), InGrid dd cur → manhattan dest cur = n → n < fuel →
      ∃ vis reads, los_walk_reads dd dest fuel cur = .ok (vis, reads) ∧
        reads.length ≤ n ∧ reads = losPath dest reads.length cur ∧
        (∀ i q, reads.get? i = some q → manhattan dest q + (i + 1) = n) ∧
        (∀ q ∈ reads, min cur.x dest.x ≤ q.x ∧ q.x ≤ max cur.x dest.x ∧
          min cur.y dest.y ≤ q.y ∧ q.y ≤ max cur.y dest.y) := by
  intro n
  induction n with
  | zero =>
    intro fuel cur hc hm hf
    obtain ⟨f, rfl⟩ := Nat.exists_eq_succ_of_ne_zero (by omega : fuel ≠ 0)
    have : dest = cur := by
      unfold manhattan at hm
      apply IVec2.eq_of <;> omega
    refine ⟨true, [], ?_, by simp, by simp [losPath], by simp, by simp⟩
    unfold los_walk_reads
    rw [if_pos this]
  | succ n ih =>
    intro fuel cur hc hm hf
    obtain ⟨f, rfl⟩ := Nat.exists_eq_succ_of_ne_zero (by omega : fuel ≠ 0)
    have hne : dest ≠ cur := by
      intro e
      rw [e] at hm
      unfold manhattan at hm
      simp at hm
    have hm2 := losStep_manhattan hne
    have hbox := losStep_box hne
    have hin := losStep_inGrid hne hd hc
    have hlt := coord_to_idx_lt hwf hin
    obtain ⟨t, ht⟩ : ∃ t, dd.tiles.get? (coord_to_idx (losStep dest cur).x (losStep dest cur).y
        dd.width) = some t := by
      rw [List.get?_eq_getElem?]
      exact ⟨_, List.getElem?_eq_getElem (by rw [hwf.1]; exact hlt)⟩
    unfold los_walk_reads
    rw [if_neg hne]
    simp only []
    rw [ht]
    simp only []
    by_cases hw : t = Tile.wall
    · rw [if_pos hw]
      refine ⟨false, [losStep dest cur], rfl, by simp, ?_, ?_, ?_⟩
      · simp [losPath, hne]
      · intro i q hq
        cases i with
        | zero =>
          simp only [List.get?_cons_zero, Option.some.injEq] at hq
          subst hq
          omega
        | succ j => simp at hq
      · intro q hq
        rw [List.mem_singleton.mp hq]
        exact hbox
    · rw [if_neg hw]
      obtain ⟨vis, reads, e, hl, hp, hstep, hb⟩ := ih f (losStep dest cur) hin (by omega)
        (by omega)
      rw [e]
      refine ⟨vis, losStep dest cur :: reads, rfl, by simp; omega, ?_, ?_, ?_⟩
      · simp only [List.length_cons, losPath, if_neg hne]
        rw [← hp]
      · intro i q hq
        cases i with
        | zero =>
          simp only [List.get?_cons_zero, Option.some.injEq] at hq
          subst hq
          omega
        | succ j =>
          simp only [List.get?_cons_succ] at hq
          have := hstep j q hq
          omega
      · intro q hq
        rcases List.mem_cons.mp hq with e2 | e2
        · rw [e2]; exact hbox
        · have := hb q e2
          omega

theorem before_cons (x : Nat) (l : List Nat) (i j : Nat) :
    Before (x :: l) i j ↔ (i = x ∧ j ∈ l) ∨ Before l i j := by
  constructor
  · rintro ⟨a, b, hab, ha, hb⟩
    cases b with
    | zero => omega
    | succ b2 =>
      simp only [List.get?_cons_succ] at hb
      cases a with
      | zero =>
        simp only [List.get?_cons_zero, Option.some.injEq] at ha
        exact Or.inl ⟨ha.symm, List.get?_mem hb⟩
      | succ a2 =>
        simp only [List.get?_cons_succ] at ha
        exact Or.inr ⟨a2, b2, by omega, ha, hb⟩
  · rintro (⟨rfl, hj⟩ | ⟨a, b, hab, ha, hb⟩)
    · obtain ⟨n, hn⟩ := List.mem_iff_get?.mp hj
      exact ⟨0, n + 1, by omega, rfl, hn⟩
    · exact ⟨a + 1, b + 1, by omega, ha, hb⟩

theorem scanOk_congr {dd : DungeonData} {limMin limMax : IVec2} {ps ps2 : List PathPortal}
    (h : ps2.map PathPortal.rect = ps.map PathPortal.rect) (i j m : Nat) :
    ScanOk fscore dd limMin limMax ps2 i j m ↔ ScanOk fscore dd limMin limMax ps i j m := by
  constructor
  · rintro ⟨p, q, hp, hq, hs⟩
    obtain ⟨p0, hp0, hpr⟩ := rect_get h hp
    obtain ⟨q0, hq0, hqr⟩ := rect_get h hq
    exact ⟨p0, q0, hp0, hq0, by rw [portalPairs_congr hpr hqr]; exact hs⟩
  · rintro ⟨p, q, hp, hq, hs⟩
    obtain ⟨p0, hp0, hpr⟩ := rect_get h.symm hp
    obtain ⟨q0, hq0, hqr⟩ := rect_get h.symm hq
    exact ⟨p0, q0, hp0, hq0, by rw [portalPairs_congr hpr hqr]; exact hs⟩

theorem hasConn_addEdge (ps : List PathPortal) (i j w k : Nat) (c : PortalConnection) :
    HasConn (addEdge ps i j w) k c ↔
      HasConn ps k c ∨ ((∃ p, ps.get? k = some p) ∧ EdgeOf i j w k c) := by
  unfold HasConn EdgeOf
  rw [addEdge_get]
  cases hk : ps.get? k with
  | none => simp
  | some p0 =>
    simp only [Option.map_some', Option.some.injEq, exists_eq_left', List.append_assoc,
      List.mem_append, exists_eq', true_and]
    constructor
    · rintro (h | h | h)
      · exact Or.inl h
      · split at h
        · rename_i e
          exact Or.inr (Or.inl ⟨e.symm, List.mem_singleton.mp h⟩)
        · cases h
      · split at h
        · rename_i e
          exact Or.inr (Or.inr ⟨e.symm, List.mem_singleton.mp h⟩)
        · cases h
    · rintro (h | ⟨e, hc⟩ | ⟨e, hc⟩)
      · exact Or.inl h
      · right; left
        rw [if_pos e.symm, hc]
        exact List.mem_singleton_self _
      · right; right
        rw [if_pos e.symm, hc]
        exact List.mem_singleton_self _

/-- The connections after the loop over `j`: those stored before, and both halves of an
edge for every `pj` of the list whose cell pairs all got a path. -/
theorem connectFrom_edges {dd : DungeonData} {limMin limMax : IVec2} {pi : Nat} :
    ∀ (js : List Nat) (ps ps2 : List PathPortal),
      connectFrom fscore dd limMin limMax pi js ps = .ok ps2 →
      ps2.map PathPortal.rect = ps.map PathPortal.rect ∧
      ∀ k c, HasConn ps2 k c ↔ HasConn ps k c ∨
        ∃ pj ∈ js, ∃ m, ScanOk fscore dd limMin limMax ps pi pj m ∧
          EdgeOf pi pj (floatOfSize m) k c := by
  intro js
  induction js with
  | nil =>
    intro ps ps2 h
    unfold connectFrom at h
    cases h
    exact ⟨rfl, fun k c => by simp⟩
  | cons pj js ih =>
    intro ps ps2 h
    cases hp : ps.get? pi with
    | none => unfold connectFrom at h; rw [hp] at h; simp at h
    | some p =>
      cases hq : ps.get? pj with
      | none => unfold connectFrom at h; rw [hp, hq] at h; simp at h
      | some q =>
        cases hs : scanPairs fscore dd limMin limMax (portalPairs p q limMin limMax)
            0xffffffff with
        | error e =>
          unfold connectFrom at h
          rw [hp, hq] at h
          simp only [] at h
          unfold portalPairs at hs
          rw [hs] at h
          cases h
        | ok r =>
          obtain ⟨noPath, m⟩ := r
          rw [connectFrom_cons_ok fscore hp hq hs] at h
          cases noPath with
          | true =>
            simp only [if_true] at h
            obtain ⟨h1, h2⟩ := ih ps ps2 h
            refine ⟨h1, fun k c => ?_⟩
            rw [h2]
            constructor
            · rintro (hc | ⟨pj2, hpj2, m2, hsc, he⟩)
              · exact Or.inl hc
              · exact Or.inr ⟨pj2, List.mem_cons_of_mem _ hpj2, m2, hsc, he⟩
            · rintro (hc | ⟨pj2, hpj2, m2, hsc, he⟩)
              · exact Or.inl hc
              · rcases List.mem_cons.mp hpj2 with e | e
                · subst e
                  obtain ⟨p2, q2, hp2, hq2, hs2⟩ := hsc
                  rw [hp] at hp2; cases hp2
                  rw [hq] at hq2; cases hq2
                  rw [hs] at hs2
                  cases hs2
                · exact Or.inr ⟨pj2, e, m2, hsc, he⟩
          | false =>
            simp only [Bool.false_eq_true, if_false] at h
            obtain ⟨h1, h2⟩ := ih _ ps2 h
            have hr : (addEdge ps pi pj (floatOfSize m)).map PathPortal.rect
                = ps.map PathPortal.rect := addEdge_rect _ _ _ _
            refine ⟨h1.trans hr, fun k c => ?_⟩
            rw [h2, hasConn_addEdge]
            constructor
            · rintro ((hc | ⟨_, he⟩) | ⟨pj2, hpj2, m2, hsc, he⟩)
              · exact Or.inl hc
              · exact Or.inr ⟨pj, List.mem_cons_self _ _, m, ⟨p, q, hp, hq, hs⟩, he⟩
              · exact Or.inr ⟨pj2, List.mem_cons_of_mem _ hpj2, m2,
                  (scanOk_congr fscore hr _ _ _).mp hsc, he⟩
            · rintro (hc | ⟨pj2, hpj2, m2, hsc, he⟩)
              · exact Or.inl (Or.inl hc)
              · rcases List.mem_cons.mp hpj2 with e | e
                · subst e
                  obtain ⟨p2, q2, hp2, hq2, hs2⟩ := hsc
                  rw [hp] at hp2; cases hp2
                  rw [hq] at hq2; cases hq2
                  rw [hs] at hs2
                  cases hs2
                  left; right
                  refine ⟨?_, he⟩
                  rcases he with ⟨e1, _⟩ | ⟨e1, _⟩
                  · rw [e1]; exact ⟨_, hp⟩
                  · rw [e1]; exact ⟨_, hq⟩
                · exact Or.inr ⟨pj2, e, m2, (scanOk_congr fscore hr _ _ _).mpr hsc, he⟩

/-- The connections after the loops of one region: those stored before, and an edge for
every pair `i` before `j` of the region's list whose cell pairs all got a path. -/
theorem connectRegion_edges {dd : DungeonData} {limMin limMax : IVec2} :
    ∀ (is : List Nat) (ps ps2 : List PathPortal),
      connectRegion fscore dd limMin limMax is ps = .ok ps2 →
      ps2.map PathPortal.rect = ps.map PathPortal.rect ∧
      ∀ k c, HasConn ps2 k c ↔ HasConn ps k c ∨
        ∃ i j m, Before is i j ∧ ScanOk fscore dd limMin limMax ps i j m ∧
          EdgeOf i j (floatOfSize m) k c := by
  intro is
  induction is with
  | nil =>
    intro ps ps2 h
    unfold connectRegion at h
    cases h
    refine ⟨rfl, fun k c => ?_⟩
    constructor
    · exact Or.inl
    · rintro (hc | ⟨i, j, m, ⟨a, b, _, ha, _⟩, _⟩)
      · exact hc
      · simp at ha
  | cons pi is ih =>
    intro ps ps2 h
    unfold connectRegion at h
    cases h1 : connectFrom fscore dd limMin limMax pi is ps with
    | error e => rw [h1] at h; cases h
    | ok ps1 =>
      rw [h1] at h
      simp only [] at h
      obtain ⟨r1, c1⟩ := connectFrom_edges fscore is ps ps1 h1
      obtain ⟨r2, c2⟩ := ih ps1 ps2 h
      refine ⟨r2.trans r1, fun k c => ?_⟩
      rw [c2, c1]
      constructor
      · rintro ((hc | ⟨pj, hpj, m, hsc, he⟩) | ⟨i, j, m, hb, hsc, he⟩)
        · exact Or.inl hc
        · exact Or.inr ⟨pi, pj, m, (before_cons _ _ _ _).mpr (Or.inl ⟨rfl, hpj⟩), hsc, he⟩
        · exact Or.inr ⟨i, j, m, (before_cons _ _ _ _).mpr (Or.inr hb),
            (scanOk_congr fscore r1 _ _ _).mp hsc, he⟩
      · rintro (hc | ⟨i, j, m, hb, hsc, he⟩)
        · exact Or.inl (Or.inl hc)
        · rcases (before_cons _ _ _ _).mp hb with ⟨e, hj⟩ | hb2
          · subst e
            exact Or.inl (Or.inr ⟨j, hj, m, hsc, he⟩)
          · exact Or.inr ⟨i, j, m, hb2, (scanOk_congr fscore r1 _ _ _).mpr hsc, he⟩

/-- The connections after the connectivity step: those stored before, and an edge for
every region and every pair `i` before `j` of its list whose cell pairs, clipped to that
region, all got a path. -/
theorem connectRegions_edges {dd : DungeonData} {split width : Nat} :
    ∀ (rs : List (Nat × List Nat)) (ps ps2 : List PathPortal),
      connectRegions fscore dd split width rs ps = .ok ps2 →
      ps2.map PathPortal.rect = ps.map PathPortal.rect ∧
      ∀ k c, HasConn ps2 k c ↔ HasConn ps k c ∨
        ∃ r ∈ rs, ∃ i j m, Before r.2 i j ∧
          ScanOk fscore dd (tileLimMin split width r.1) (tileLimMax split width r.1) ps i j m ∧
          EdgeOf i j (floatOfSize m) k c := by
  intro rs
  induction rs with
  | nil =>
    intro ps ps2 h
    unfold connectRegions at h
    cases h
    exact ⟨rfl, fun k c => by simp⟩
  | cons r rs ih =>
    intro ps ps2 h
    obtain ⟨tidx, indices⟩ := r
    unfold connectRegions at h
    simp only [] at h
    cases h1 : connectRegion fscore dd (tileLimMin split width tidx)
        (tileLimMax split width tidx) indices ps with
    | error e =>
      unfold tileLimMin tileLimMax at h1
      rw [h1] at h; cases h
    | ok ps1 =>
      have h1b := h1
      unfold tileLimMin tileLimMax at h1b
      rw [h1b] at h
      simp only [] at h
      obtain ⟨r1, c1⟩ := connectRegion_edges fscore indices ps ps1 h1
      obtain ⟨r2, c2⟩ := ih ps1 ps2 h
      refine ⟨r2.trans r1, fun k c => ?_⟩
      rw [c2, c1]
      constructor
      · rintro ((hc | ⟨i, j, m, hb, hsc, he⟩) | ⟨r, hr, i, j, m, hb, hsc, he⟩)
        · exact Or.inl hc
        · exact Or.inr ⟨(tidx, indices), List.mem_cons_self _ _, i, j, m, hb, hsc, he⟩
        · exact Or.inr ⟨r, List.mem_cons_of_mem _ hr, i, j, m, hb,
            (scanOk_congr fscore r1 _ _ _).mp hsc, he⟩
      · rintro (hc | ⟨r, hr, i, j, m, hb, hsc, he⟩)
        · exact Or.inl (Or.inl hc)
        · rcases List.mem_cons.mp hr with e | e
          · subst e
            exact Or.inl (Or.inr ⟨i, j, m, hb, hsc, he⟩)
          · exact Or.inr ⟨r, e, i, j, m, hb, (scanOk_congr fscore r1 _ _ _).mpr hsc, he⟩

theorem tileLim_inGrid {dd : DungeonData} (hwf : dd.WF) {split r : Nat} (hs : 0 < split)
    (hr : r < dd.height / split * (dd.width / split)) :
    LimInGrid dd (tileLimMin split (dd.width / split) r) (tileLimMax split (dd.width / split) r) ∧
      (tileLimMin split (dd.width / split) r).x < (tileLimMax split (dd.width / split) r).x ∧
      (tileLimMin split (dd.width / split) r).y < (tileLimMax split (dd.width / split) r).y := by
  have hW : 0 < dd.width / split := by
    rcases Nat.eq_zero_or_pos (dd.width / split) with h | h
    · rw [h] at hr; simp at hr
    · exact h
  have hx : r % (dd.width / split) < dd.width / split := Nat.mod_lt _ hW
  have hy : r / (dd.width / split) < dd.height / split :=
    Nat.div_lt_of_lt_mul (by rw [Nat.mul_comm]; exact hr)
  have hx1 := region_le hs hx
  have hy1 := region_le hs hy
  have hw31 := hwf.2.1
  have hh31 := hwf.2.2
  have hx0 : r % (dd.width / split) * split < (r % (dd.width / split) + 1) * split := by
    rw [Nat.succ_mul]; omega
  have hy0 : r / (dd.width / split) * split < (r / (dd.width / split) + 1) * split := by
    rw [Nat.succ_mul]; omega
  unfold LimInGrid tileLimMin tileLimMax
  simp only []
  rw [Nat.mod_eq_of_lt (by omega : r % (dd.width / split) * split < 2 ^ 64),
    Nat.mod_eq_of_lt (by omega : r / (dd.width / split) * split < 2 ^ 64),
    Nat.mod_eq_of_lt (by omega : (r % (dd.width / split) + 1) * split < 2 ^ 64),
    Nat.mod_eq_of_lt (by omega : (r / (dd.width / split) + 1) * split < 2 ^ 64),
    toInt32_of_lt (by omega : r % (dd.width / split) * split < 2 ^ 31),
    toInt32_of_lt (by omega : r / (dd.width / split) * split < 2 ^ 31),
    toInt32_of_lt (by omega : (r % (dd.width / split) + 1) * split < 2 ^ 31),
    toInt32_of_lt (by omega : (r / (dd.width / split) + 1) * split < 2 ^ 31)]
  omega

/-- The loops over the cell pairs end with `noPath` unset exactly when every pair is
joined inside the bound. -/
theorem scanPairs_iff_joined {dd : DungeonData} (hwf : dd.WF) {limMin limMax : IVec2}
    (hlim : LimInGrid dd limMin limMax) (hpos : limMin.x < limMax.x ∧ limMin.y < limMax.y)
    (p q : PathPortal) :
    (∃ m, scanPairs fscore dd limMin limMax (portalPairs p q limMin limMax) 0xffffffff
      = .ok (false, m)) ↔ AllJoined dd limMin limMax p q := by
  constructor
  · rintro ⟨m, hm⟩ ab hab
    obtain ⟨_, h2, _⟩ := scanPairs_spec fscore _ _ _ hm
    obtain ⟨path, hp, hgood, _⟩ := h2 ab hab
    by_cases he : ab.1 = ab.2
    · exact Or.inl he
    · right
      rcases hgood with hne | e
      · exact ⟨path, find_path_a_star_validPath fscore hwf hlim hp hne⟩
      · exact absurd e he
  · intro hall
    have hin : ∀ ab ∈ portalPairs p q limMin limMax, InGrid dd ab.1 := by
      intro ab hab
      unfold portalPairs at hab
      simp only [List.mem_flatMap, List.mem_map] at hab
      obtain ⟨a, ha, b, hb, rfl⟩ := hab
      exact inGrid_of_inLim hlim (portalCells_inLim hwf hlim hpos p _ ha)
    exact scanPairs_all fscore hwf hlim _ 0xffffffff hin hall

/-- The connections of a graph built by `prebuild_map`: `c` is stored at `k` exactly when
it is one half of the edge of a region and a pair of its list whose cell pairs all got a
path inside that region. -/
theorem prebuild_map_conns {dd : DungeonData} (hwf : dd.WF) {split : Nat}
    {dp : DungeonPortals} (h : prebuild_map fscore split dd = .ok dp) :
    0 < split ∧
    dp.tilePortalsIndices.length = dd.height / split * (dd.width / split) ∧
    ∃ ps0 : List PathPortal, dp.portals.map PathPortal.rect = ps0.map PathPortal.rect ∧
      ∀ k c, HasConn dp.portals k c ↔
        ∃ r l, dp.tilePortalsIndices.get? r = some l ∧ ∃ i j m, Before l i j ∧
          ScanOk fscore dd (tileLimMin split (dd.width / split) r)
            (tileLimMax split (dd.width / split) r) ps0 i j m ∧
          EdgeOf i j (floatOfSize m) k c := by
  obtain ⟨hs, b, hb, hlen, hc, hl, _⟩ := prebuild_map_inv fscore hwf h
  obtain ⟨hr, hconn⟩ := connectRegions_edges fscore _ _ _ hc
  refine ⟨hs, by rw [hl]; exact hlen, b.portals, hr, fun k c => ?_⟩
  rw [hconn]
  have h0 : ¬ HasConn b.portals k c := by
    rintro ⟨p, hp, hcm⟩
    obtain ⟨x, y, top, a, c2, _, _, _, _, _, h6, _⟩ := hb.geom k p hp
    subst h6
    unfold runPortal at hcm
    split at hcm <;> cases hcm
  constructor
  · rintro (hc0 | ⟨r, hrm, i, j, m, hbf, hsc, he⟩)
    · exact absurd hc0 h0
    · refine ⟨r.1, r.2, ?_, i, j, m, hbf, hsc, he⟩
      rw [hl, List.get?_eq_getElem?]
      exact List.mem_enum_iff_getElem?.mp hrm
  · rintro ⟨r, l, hg, i, j, m, hbf, hsc, he⟩
    right
    refine ⟨(r, l), ?_, i, j, m, hbf, hsc, he⟩
    rw [hl, List.get?_eq_getElem?] at hg
    exact List.mem_enum_iff_getElem?.mpr hg

theorem rneDiv_le {a d j : Nat} (hd : 0 < d) (h : a ≤ j * d) : rneDiv a d ≤ j := by
  have hk : a / d ≤ j := Nat.div_le_of_le_mul (by rw [Nat.mul_comm]; exact h)
  have hmod := Nat.mod_lt a hd
  have hdm := Nat.div_add_mod a d
  unfold rneDiv
  split
  · exact hk
  · rename_i h1
    have hlt : a / d < j := by
      rcases Nat.lt_or_ge (a / d) j with h2 | h2
      · exact h2
      · exfalso
        have e : a / d = j := Nat.le_antisymm hk h2
        have h3 : d * (a / d) = j * d := by rw [e, Nat.mul_comm]
        have h4 : a % d = 0 := by omega
        omega
    split
    · omega
    · split
      · omega
      · omega

theorem le_rneDiv {a d j : Nat} (hd : 0 < d) (h : j * d ≤ a) : j ≤ rneDiv a d := by
  have hk : j ≤ a / d := (Nat.le_div_iff_mul_le hd).mpr h
  unfold rneDiv
  split
  · exact hk
  · split
    · omega
    · split
      · exact hk
      · omega

theorem ilog2_spec : ∀ (fuel n : Nat), n ≠ 0 → n < 2 ^ fuel →
    2 ^ ilog2 fuel n ≤ n ∧ n < 2 ^ (ilog2 fuel n + 1) := by
  intro fuel
  induction fuel with
  | zero =>
    intro n h0 h
    simp at h
    omega
  | succ f ih =>
    intro n h0 h
    unfold ilog2
    split
    · rename_i h2
      simp
      omega
    · rename_i h2
      have hn : n / 2 ≠ 0 := by omega
      have hlt : n / 2 < 2 ^ f := by
        rw [Nat.pow_succ] at h
        omega
      obtain ⟨h3, h4⟩ := ih (n / 2) hn hlt
      constructor
      · rw [Nat.pow_succ]
        omega
      · rw [Nat.pow_succ]
        omega

theorem ilog2_self {n : Nat} (h0 : n ≠ 0) :
    2 ^ ilog2 n n ≤ n ∧ n < 2 ^ (ilog2 n n + 1) :=
  ilog2_spec n n h0 (Nat.lt_two_pow n)

theorem ilog2_zero : ilog2 0 0 = 0 := rfl

/-- The rounding of `a / d` to 24 significant bits, on natural numbers: the result
`m * 2 ^ s` has `m ≤ 2 ^ 24`, and no number `M * 2 ^ t` with `M < 2 ^ 24` lies strictly
between `a / d` and the result. -/
theorem rne_core (a d : Nat) (hd : 0 < d) :
    rneDiv a (d * 2 ^ (ilog2 (a / d) (a / d) - 23)) ≤ 2 ^ 24 ∧
    a < 2 ^ (24 + (ilog2 (a / d) (a / d) - 23)) * d ∧
    (∀ M t : Nat, M < 2 ^ 24 → a ≤ M * 2 ^ t * d →
      rneDiv a (d * 2 ^ (ilog2 (a / d) (a / d) - 23)) * 2 ^ (ilog2 (a / d) (a / d) - 23)
        ≤ M * 2 ^ t) ∧
    (∀ M t : Nat, M < 2 ^ 24 → M * 2 ^ t * d ≤ a →
      M * 2 ^ t
        ≤ rneDiv a (d * 2 ^ (ilog2 (a / d) (a / d) - 23)) * 2 ^ (ilog2 (a / d) (a / d) - 23)) := by
  generalize hN : a / d = N
  generalize he : ilog2 N N = e
  generalize hs : e - 23 = s
  have hNd : N * d ≤ a := by rw [← hN]; exact Nat.div_mul_le_self a d
  have hNd1 : a < (N + 1) * d := by
    rw [← hN]
    have := Nat.lt_succ_iff.mpr (Nat.le_refl (a / d))
    exact (Nat.div_lt_iff_lt_mul hd).mp this
  have hD : 0 < d * 2 ^ s := Nat.mul_pos hd (Nat.two_pow_pos _)
  have hps : 0 < 2 ^ s := Nat.two_pow_pos _
  -- the floor is below the next binade
  have hN1 : N + 1 ≤ 2 ^ (24 + s) := by
    rcases Nat.eq_zero_or_pos N with h0 | h0
    · subst h0
      have : 1 ≤ 2 ^ (24 + s) := Nat.one_le_two_pow
      omega
    · obtain ⟨_, h2⟩ := ilog2_self (Nat.pos_iff_ne_zero.mp h0)
      rw [he] at h2
      have : 2 ^ (e + 1) ≤ 2 ^ (24 + s) := Nat.pow_le_pow_right (by norm_num) (by omega)
      omega
  have ha : a < 2 ^ (24 + s) * d :=
    lt_of_lt_of_le hNd1 (Nat.mul_le_mul_right d hN1)
  -- when the spacing is above the least one, the floor is at least `2 ^ (23 + s)`
  have hbig : 0 < s → 2 ^ (23 + s) ≤ N := by
    intro h0
    have hN0 : N ≠ 0 := by
      intro h
      subst h
      rw [ilog2_zero] at he
      omega
    obtain ⟨h1, _⟩ := ilog2_self hN0
    rw [he] at h1
    have : 23 + s = e := by omega
    rw [this]
    exact h1
  refine ⟨?_, ha, ?_, ?_⟩
  · apply rneDiv_le hD
    have : 2 ^ 24 * (d * 2 ^ s) = 2 ^ (24 + s) * d := by
      rw [Nat.pow_add]; ring
    omega
  · intro M t hM hle
    rcases Nat.lt_or_ge t s with hts | hts
    · exfalso
      have h1 := hbig (by omega)
      have h2 : M * 2 ^ t < 2 ^ (23 + s) := by
        have h3 : M * 2 ^ t < 2 ^ 24 * 2 ^ t :=
          Nat.mul_lt_mul_of_pos_right hM (Nat.two_pow_pos _)
        have h4 : 2 ^ 24 * 2 ^ t ≤ 2 ^ (23 + s) := by
          rw [← Nat.pow_add]
          exact Nat.pow_le_pow_right (by norm_num) (by omega)
        omega
      have h5 : (M * 2 ^ t + 1) * d ≤ N * d := Nat.mul_le_mul_right d (by omega)
      have h6 : (M * 2 ^ t + 1) * d = M * 2 ^ t * d + d := by ring
      omega
    · have e1 : M * 2 ^ t = M * 2 ^ (t - s) * 2 ^ s := by
        rw [Nat.mul_assoc, ← Nat.pow_add]
        congr 2
        omega
      have h1 : a ≤ M * 2 ^ (t - s) * (d * 2 ^ s) := by
        have : M * 2 ^ (t - s) * (d * 2 ^ s) = M * 2 ^ (t - s) * 2 ^ s * d := by ring
        rw [this, ← e1]
        exact hle
      rw [e1]
      exact Nat.mul_le_mul_right _ (rneDiv_le hD h1)
  · intro M t hM hle
    rcases Nat.lt_or_ge t s with hts | hts
    · have h1 := hbig (by omega)
      have h2 : M * 2 ^ t < 2 ^ (23 + s) := by
        have h3 : M * 2 ^ t < 2 ^ 24 * 2 ^ t :=
          Nat.mul_lt_mul_of_pos_right hM (Nat.two_pow_pos _)
        have h4 : 2 ^ 24 * 2 ^ t ≤ 2 ^ (23 + s) := by
          rw [← Nat.pow_add]
          exact Nat.pow_le_pow_right (by norm_num) (by omega)
        omega
      have h3 : 2 ^ 23 ≤ rneDiv a (d * 2 ^ s) := by
        apply le_rneDiv hD
        have : 2 ^ 23 * (d * 2 ^ s) = 2 ^ (23 + s) * d := by
          rw [Nat.pow_add]; ring
        rw [this]
        exact le_trans (Nat.mul_le_mul_right d h1) hNd
      have h4 : 2 ^ 23 * 2 ^ s ≤ rneDiv a (d * 2 ^ s) * 2 ^ s := Nat.mul_le_mul_right _ h3
      rw [← Nat.pow_add] at h4
      omega
    · have e1 : M * 2 ^ t = M * 2 ^ (t - s) * 2 ^ s := by
        rw [Nat.mul_assoc, ← Nat.pow_add]
        congr 2
        omega
      have h1 : M * 2 ^ (t - s) * (d * 2 ^ s) ≤ a := by
        have : M * 2 ^ (t - s) * (d * 2 ^ s) = M * 2 ^ (t - s) * 2 ^ s * d := by ring
        rw [this, ← e1]
        exact hle
      rw [e1]
      exact Nat.mul_le_mul_right _ (le_rneDiv hD h1)

theorem rat_abs_mul_den (q : ℚ) : |q| * (q.den : ℚ) = (q.num.natAbs : ℚ) := by
  have hd : (0 : ℚ) < (q.den : ℚ) := by exact_mod_cast q.den_pos
  have h1 : (q.num.natAbs : ℚ) = |(q.num : ℚ)| := by
    rw [Nat.cast_natAbs, Int.cast_abs]
  have h2 : q = (q.num : ℚ) / (q.den : ℚ) := (Rat.num_div_den q).symm
  rw [h1]
  nth_rewrite 1 [h2]
  rw [abs_div, abs_of_pos hd]
  field_simp

/-- The value of `f32 q` in terms of the rounded significand. -/
theorem f32_eq (q : ℚ) :
    f32 q = (if q.num < 0 then -1 else 1) *
      (((rneDiv (q.num.natAbs * 2 ^ 149)
          (q.den * 2 ^ (ilog2 (q.num.natAbs * 2 ^ 149 / q.den)
            (q.num.natAbs * 2 ^ 149 / q.den) - 23)) *
        2 ^ (ilog2 (q.num.natAbs * 2 ^ 149 / q.den)
            (q.num.natAbs * 2 ^ 149 / q.den) - 23) : Nat) : ℚ) / 2 ^ 149) := by
  unfold f32
  simp only [Rat.mkRat_eq_div]
  split
  · push_cast
    ring
  · push_cast
    ring

/-- What `f32` computes: the result is `m * 2 ^ s / 2 ^ 149` in magnitude with
`m ≤ 2 ^ 24`, has the sign of `q`, and no binary32 value lies strictly between `q` and the
result. -/
theorem f32_spec (q : ℚ) : ∃ m s : Nat,
    |f32 q| * 2 ^ 149 = (m : ℚ) * 2 ^ s ∧ (0 ≤ q → 0 ≤ f32 q) ∧ (q ≤ 0 → f32 q ≤ 0) ∧
    m ≤ 2 ^ 24 ∧ |q| * 2 ^ 149 < 2 ^ (24 + s) ∧
    (∀ M t : Nat, M < 2 ^ 24 → |q| * 2 ^ 149 ≤ (M : ℚ) * 2 ^ t →
      (m : ℚ) * 2 ^ s ≤ (M : ℚ) * 2 ^ t) ∧
    (∀ M t : Nat, M < 2 ^ 24 → (M : ℚ) * 2 ^ t ≤ |q| * 2 ^ 149 →
      (M : ℚ) * 2 ^ t ≤ (m : ℚ) * 2 ^ s) := by
  have hd : 0 < q.den := q.den_pos
  have hdq : (0 : ℚ) < (q.den : ℚ) := by exact_mod_cast hd
  obtain ⟨c1, c2, c3, c4⟩ := rne_core (q.num.natAbs * 2 ^ 149) q.den hd
  have hval := f32_eq q
  generalize hs : ilog2 (q.num.natAbs * 2 ^ 149 / q.den)
    (q.num.natAbs * 2 ^ 149 / q.den) - 23 = s at c1 c2 c3 c4 hval
  generalize hm : rneDiv (q.num.natAbs * 2 ^ 149) (q.den * 2 ^ s) = m at c1 c2 c3 c4 hval
  have ha : ((q.num.natAbs * 2 ^ 149 : Nat) : ℚ) = |q| * 2 ^ 149 * (q.den : ℚ) := by
    push_cast
    rw [← rat_abs_mul_den q]
    ring
  have hR : (0 : ℚ) ≤ ((m * 2 ^ s : Nat) : ℚ) / 2 ^ 149 := by positivity
  refine ⟨m, s, ?_, ?_, ?_, c1, ?_, ?_, ?_⟩
  · rw [hval]
    split
    · rw [neg_one_mul, abs_neg, abs_of_nonneg hR]
      push_cast
      field_simp
    · rw [one_mul, abs_of_nonneg hR]
      push_cast
      field_simp
  · intro h0
    rw [hval]
    have : ¬ q.num < 0 := by
      have := Rat.num_nonneg.mpr h0
      omega
    rw [if_neg this, one_mul]
    exact hR
  · intro h0
    rw [hval]
    rcases Int.lt_or_le q.num 0 with h1 | h1
    · rw [if_pos h1, neg_one_mul]
      linarith
    · have h2 : q.num = 0 := by
        have := Rat.num_nonpos.mpr h0
        omega
      have h3 : q = 0 := Rat.num_eq_zero.mp h2
      subst h3
      have hm0 : m = 0 := by
        rw [← hm]
        unfold rneDiv
        simp
      rw [hm0]
      simp
  · have h1 : ((q.num.natAbs * 2 ^ 149 : Nat) : ℚ) < ((2 ^ (24 + s) * q.den : Nat) : ℚ) := by
      exact_mod_cast c2
    rw [ha] at h1
    push_cast at h1
    exact lt_of_mul_lt_mul_right h1 (le_of_lt hdq)
  · intro M t hM hle
    have h1 : ((q.num.natAbs * 2 ^ 149 : Nat) : ℚ) ≤ ((M * 2 ^ t * q.den : Nat) : ℚ) := by
      rw [ha]
      push_cast
      exact mul_le_mul_of_nonneg_right hle (le_of_lt hdq)
    have h2 : q.num.natAbs * 2 ^ 149 ≤ M * 2 ^ t * q.den := by exact_mod_cast h1
    have h3 := c3 M t hM h2
    exact_mod_cast h3
  · intro M t hM hle
    have h1 : ((M * 2 ^ t * q.den : Nat) : ℚ) ≤ ((q.num.natAbs * 2 ^ 149 : Nat) : ℚ) := by
      rw [ha]
      push_cast
      exact mul_le_mul_of_nonneg_right hle (le_of_lt hdq)
    have h2 : M * 2 ^ t * q.den ≤ q.num.natAbs * 2 ^ 149 := by exact_mod_cast h1
    have h3 := c4 M t hM h2
    exact_mod_cast h3

/-- No binary32 value lies strictly between `q` and `f32 q`: from above. -/
theorem f32_le {q v : ℚ} (hv : IsF32 v) (h : q ≤ v) : f32 q ≤ v := by
  obtain ⟨m, s, e, p1, p2, _, _, cA, cB⟩ := f32_spec q
  obtain ⟨M, t, hM, hMv⟩ := hv
  have h149 : (0 : ℚ) < 2 ^ 149 := by positivity
  rcases le_or_lt 0 q with hq | hq
  · have hv0 : 0 ≤ v := le_trans hq h
    rw [abs_of_nonneg hv0] at hMv
    have h1 : |q| * 2 ^ 149 ≤ (M : ℚ) * 2 ^ t := by
      rw [abs_of_nonneg hq, ← hMv]
      exact mul_le_mul_of_nonneg_right h (le_of_lt h149)
    have h2 := cA M t hM h1
    rw [← e, ← hMv, abs_of_nonneg (p1 hq)] at h2
    exact le_of_mul_le_mul_right h2 h149
  · have hf := p2 (le_of_lt hq)
    rcases le_or_lt 0 v with hv0 | hv0
    · exact le_trans hf hv0
    · rw [abs_of_neg hv0] at hMv
      have h1 : (M : ℚ) * 2 ^ t ≤ |q| * 2 ^ 149 := by
        rw [abs_of_neg hq, ← hMv]
        exact mul_le_mul_of_nonneg_right (by linarith) (le_of_lt h149)
      have h2 := cB M t hM h1
      rw [← e, ← hMv, abs_of_nonpos hf] at h2
      have := le_of_mul_le_mul_right h2 h149
      linarith

/-- No binary32 value lies strictly between `q` and `f32 q`: from below. -/
theorem le_f32 {q v : ℚ} (hv : IsF32 v) (h : v ≤ q) : v ≤ f32 q := by
  obtain ⟨m, s, e, p1, p2, _, _, cA, cB⟩ := f32_spec q
  obtain ⟨M, t, hM, hMv⟩ := hv
  have h149 : (0 : ℚ) < 2 ^ 149 := by positivity
  rcases le_or_lt q 0 with hq | hq
  · have hv0 : v ≤ 0 := le_trans h hq
    rw [abs_of_nonpos hv0] at hMv
    have h1 : |q| * 2 ^ 149 ≤ (M : ℚ) * 2 ^ t := by
      rw [abs_of_nonpos hq, ← hMv]
      exact mul_le_mul_of_nonneg_right (by linarith) (le_of_lt h149)
    have h2 := cA M t hM h1
    rw [← e, ← hMv, abs_of_nonpos (p2 hq)] at h2
    have := le_of_mul_le_mul_right h2 h149
    linarith
  · have hf := p1 (le_of_lt hq)
    rcases le_or_lt v 0 with hv0 | hv0
    · exact le_trans hv0 hf
    · rw [abs_of_pos hv0] at hMv
      have h1 : (M : ℚ) * 2 ^ t ≤ |q| * 2 ^ 149 := by
        rw [abs_of_pos hq, ← hMv]
        exact mul_le_mul_of_nonneg_right h (le_of_lt h149)
      have h2 := cB M t hM h1
      rw [← e, ← hMv, abs_of_nonneg hf] at h2
      exact le_of_mul_le_mul_right h2 h149

/-- Rounding leaves a binary32 value as it is. -/
theorem f32_of_isF32 {v : ℚ} (hv : IsF32 v) : f32 v = v :=
  le_antisymm (f32_le hv (le_refl v)) (le_f32 hv (le_refl v))

/-- Every result of `f32` is a binary32 value. -/
theorem isF32_f32 (q : ℚ) : IsF32 (f32 q) := by
  obtain ⟨m, s, e, _, _, hm, _, _, _⟩ := f32_spec q
  rcases Nat.lt_or_ge m (2 ^ 24) with h | h
  · exact ⟨m, s, h, e⟩
  · have e2 : m = 2 ^ 24 := Nat.le_antisymm hm h
    refine ⟨2 ^ 23, s + 1, by norm_num, ?_⟩
    rw [e, e2]
    push_cast
    ring

theorem Mult.mono {t u : Nat} {v : ℚ} (h : Mult t v) (hle : u ≤ t) : Mult u v := by
  obtain ⟨k, hk⟩ := h
  refine ⟨k * 2 ^ (t - u), ?_⟩
  rw [hk]
  push_cast
  rw [mul_assoc, ← pow_add]
  congr 2
  omega

theorem Mult.add_one {t : Nat} {v : ℚ} (h : Mult t v) (ht : t ≤ 149) : Mult t (v + 1) := by
  obtain ⟨k, hk⟩ := h
  refine ⟨k + 2 ^ (149 - t), ?_⟩
  rw [add_mul, hk]
  push_cast
  rw [add_mul, ← pow_add]
  congr 2
  · rw [one_mul]
    congr 1
    omega

/-- A multiple of the spacing `2 ^ t / 2 ^ 149` of magnitude at most `2 ^ 24` spacings is
a binary32 value. -/
theorem isF32_of_mult {t : Nat} {v : ℚ} (h : Mult t v)
    (hb : |v| * 2 ^ 149 ≤ 2 ^ 24 * 2 ^ t) : IsF32 v := by
  obtain ⟨k, hk⟩ := h
  have ht : (0 : ℚ) < 2 ^ t := by positivity
  have h149 : (0 : ℚ) < 2 ^ 149 := by positivity
  have e1 : |v| * 2 ^ 149 = (k.natAbs : ℚ) * 2 ^ t := by
    have h0 : |v * 2 ^ 149| = |(k : ℚ) * 2 ^ t| := by rw [hk]
    rw [abs_mul, abs_mul, abs_of_pos h149, abs_of_pos ht] at h0
    rw [h0, Nat.cast_natAbs, Int.cast_abs]
  rw [e1] at hb
  have h2 : (k.natAbs : ℚ) ≤ 2 ^ 24 := le_of_mul_le_mul_right hb ht
  have h3 : k.natAbs ≤ 2 ^ 24 := by exact_mod_cast h2
  rcases Nat.lt_or_ge k.natAbs (2 ^ 24) with h | h
  · exact ⟨k.natAbs, t, h, e1⟩
  · have e2 : k.natAbs = 2 ^ 24 := Nat.le_antisymm h3 h
    refine ⟨2 ^ 23, t + 1, by norm_num, ?_⟩
    rw [e1, e2]
    push_cast
    ring

/-- A binary32 value of magnitude at least `2 ^ (23 + t) / 2 ^ 149` is a multiple of the
spacing `2 ^ t / 2 ^ 149`. -/
theorem mult_of_isF32 {t : Nat} {v : ℚ} (h : IsF32 v)
    (hb : 2 ^ (23 + t) ≤ |v| * 2 ^ 149) : Mult t v := by
  obtain ⟨M, u, hM, hMv⟩ := h
  have htu : t ≤ u := by
    by_contra hcon
    have h1 : (M : ℚ) * 2 ^ u < 2 ^ (23 + t) := by
      have h2 : M * 2 ^ u < 2 ^ 24 * 2 ^ u :=
        Nat.mul_lt_mul_of_pos_right hM (Nat.two_pow_pos _)
      have h3 : 2 ^ 24 * 2 ^ u ≤ 2 ^ (23 + t) := by
        rw [← Nat.pow_add]
        exact Nat.pow_le_pow_right (by norm_num) (by omega)
      have h4 : M * 2 ^ u < 2 ^ (23 + t) := by omega
      exact_mod_cast h4
    rw [← hMv] at h1
    linarith
  have hu : Mult u v := by
    rcases le_or_lt 0 v with h0 | h0
    · rw [abs_of_nonneg h0] at hMv
      exact ⟨(M : Int), by rw [hMv]; push_cast; ring⟩
    · rw [abs_of_neg h0] at hMv
      refine ⟨-(M : Int), ?_⟩
      push_cast
      linarith
  exact hu.mono htu

/-- Adding one to a binary32 value between `-2 ^ 24` and `-1` is exact. -/
theorem isF32_add_one {v : ℚ} (h : IsF32 v) (h1 : v ≤ -1) (h2 : -2 ^ 24 ≤ v) :
    IsF32 (v + 1) := by
  obtain ⟨M, u, hM, hMv⟩ := h
  have h149 : (0 : ℚ) < 2 ^ 149 := by positivity
  have hneg : v < 0 := by linarith
  have habs : |v + 1| ≤ |v| := by
    rw [abs_of_neg hneg, abs_of_nonpos (by linarith)]
    linarith
  have hu : Mult u v := by
    rw [abs_of_neg hneg] at hMv
    refine ⟨-(M : Int), ?_⟩
    push_cast
    linarith
  have hMq : (M : ℚ) ≤ 2 ^ 24 := by
    have : M ≤ 2 ^ 24 := le_of_lt hM
    exact_mod_cast this
  rcases Nat.le_total u 149 with hle | hle
  · apply isF32_of_mult (hu.add_one hle)
    calc |v + 1| * 2 ^ 149 ≤ |v| * 2 ^ 149 :=
          mul_le_mul_of_nonneg_right habs (le_of_lt h149)
      _ = (M : ℚ) * 2 ^ u := hMv
      _ ≤ 2 ^ 24 * 2 ^ u := mul_le_mul_of_nonneg_right hMq (by positivity)
  · apply isF32_of_mult ((hu.mono hle).add_one (le_refl _))
    have : |v| ≤ 2 ^ 24 := by
      rw [abs_of_neg hneg]
      linarith
    calc |v + 1| * 2 ^ 149 ≤ |v| * 2 ^ 149 :=
          mul_le_mul_of_nonneg_right habs (le_of_lt h149)
      _ ≤ 2 ^ 24 * 2 ^ 149 := mul_le_mul_of_nonneg_right this (le_of_lt h149)

/-- Rounding keeps a value on every grid of spacing `2 ^ t / 2 ^ 149` it lies on. -/
theorem mult_f32 {t : Nat} {q : ℚ} (h : Mult t q) : Mult t (f32 q) := by
  obtain ⟨m, s, e, p1, p2, _, hb, _, _⟩ := f32_spec q
  rcases Nat.lt_or_ge s t with hst | hst
  · have hF : IsF32 q := by
      apply isF32_of_mult h
      have : (2 : ℚ) ^ (24 + s) ≤ 2 ^ 24 * 2 ^ t := by
        rw [← pow_add]
        exact pow_le_pow_right₀ (by norm_num) (by omega)
      linarith
    rw [f32_of_isF32 hF]
    exact h
  · have hs : Mult s (f32 q) := by
      rcases le_or_lt 0 q with h0 | h0
      · rw [abs_of_nonneg (p1 h0)] at e
        exact ⟨(m : Int), by rw [e]; push_cast; ring⟩
      · rw [abs_of_nonpos (p2 (le_of_lt h0))] at e
        refine ⟨-(m : Int), ?_⟩
        push_cast
        linarith
    exact hs.mono hst

/-- Whole numbers up to `2 ^ 24` in magnitude are binary32 values. -/
theorem isF32_int (k : Int) (h : |k| ≤ 2 ^ 24) : IsF32 (k : ℚ) := by
  apply isF32_of_mult (t := 149) ⟨k, rfl⟩
  have h1 : |(k : ℚ)| ≤ 2 ^ 24 := by
    rw [← Int.cast_abs]
    exact_mod_cast h
  exact mul_le_mul_of_nonneg_right h1 (by positivity)

theorem flee_scale_get {A : List ℚ} {i : Nat} {a : ℚ} (h : A.get? i = some a) :
    (flee_scale A).get? i
      = some (if a < invalid_tile_value then f32 (a * flee_factor) else a) := by
  unfold flee_scale
  rw [List.get?_eq_getElem?] at h
  rw [List.get?_eq_getElem?, List.getElem?_map, h]
  rfl

theorem flee_scale_length (A : List ℚ) : (flee_scale A).length = A.length := by
  unfold flee_scale
  rw [List.length_map]

theorem isF32_zero : IsF32 0 := by
  have := isF32_int 0 (by norm_num)
  simpa using this

theorem isF32_neg_one : IsF32 (-1) := by
  have := isF32_int (-1) (by norm_num)
  simpa using this

theorem isF32_sentinel : IsF32 invalid_tile_value := by
  have := isF32_int 100000 (by norm_num)
  unfold invalid_tile_value
  simpa using this

theorem isF32_99999 : IsF32 99999 := by
  have := isF32_int 99999 (by norm_num)
  simpa using this

theorem isF32_neg_pow (n : Nat) (h : n ≤ 24) : IsF32 (-2 ^ n) := by
  have h1 : (2 : Int) ^ n ≤ 2 ^ 24 := pow_le_pow_right₀ (by norm_num) h
  have := isF32_int (-2 ^ n) (by rw [abs_neg, abs_of_nonneg (by positivity)]; exact h1)
  simpa using this

/-- The scaled value of a whole approach value up to 99999. -/
theorem flee_scaled_value (k : Nat) (hk : k ≤ 99999) :
    IsF32 (f32 ((k : ℚ) * flee_factor)) ∧ f32 ((k : ℚ) * flee_factor) ≤ 0 ∧
      -2 ^ 17 ≤ f32 ((k : ℚ) * flee_factor) ∧ Mult 127 (f32 ((k : ℚ) * flee_factor)) ∧
      (k = 99999 → f32 ((k : ℚ) * flee_factor) ≤ -2 ^ 16) := by
  have hk0 : (0 : ℚ) ≤ (k : ℚ) := Nat.cast_nonneg k
  have hk1 : (k : ℚ) ≤ 99999 := by exact_mod_cast hk
  refine ⟨isF32_f32 _, ?_, ?_, ?_, ?_⟩
  · apply f32_le isF32_zero
    unfold flee_factor
    linarith
  · apply le_f32 (isF32_neg_pow 17 (by norm_num))
    unfold flee_factor
    linarith
  · apply mult_f32
    refine ⟨-(5033165 * (k : Int)), ?_⟩
    unfold flee_factor
    push_cast
    ring
  · intro e
    apply f32_le (isF32_neg_pow 16 (by norm_num))
    subst e
    unfold flee_factor
    norm_num

theorem fleeGood_init {a : ℚ} (h : a = invalid_tile_value ∨ ∃ k : Nat, a = k ∧ k ≤ 99999) :
    FleeGood a (if a < invalid_tile_value then f32 (a * flee_factor) else a) := by
  rcases h with e | ⟨k, e, hk⟩
  · subst e
    rw [if_neg (lt_irrefl _)]
    refine ⟨isF32_sentinel, ?_, fun h => absurd h (lt_irrefl _), fun _ => Or.inl rfl⟩
    unfold invalid_tile_value
    norm_num
  · subst e
    have hlt : (k : ℚ) < invalid_tile_value := by
      have : (k : ℚ) ≤ 99999 := by exact_mod_cast hk
      unfold invalid_tile_value
      linarith
    rw [if_pos hlt]
    obtain ⟨h1, _, h3, h4, _⟩ := flee_scaled_value k hk
    exact ⟨h1, h3, fun _ => h4, fun h => absurd hlt h⟩

/-- One rewrite of the binary32 relaxation on a field of the invariant: the sum
`minVal + 1.f` is exact, the new value is below the old one, and it is again a value of
the invariant. -/
theorem flee_step {dd : DungeonData} (hwf : dd.WF) {A map : List ℚ}
    (hA : ApproachOK dd A) (hinv : FleeInv dd A map) {x y : Nat} (hf : floorAt dd x y)
    {myVal minVal : ℚ} (hmy : map.get? (y * dd.width + x) = some myVal)
    (hmin : getMinNei dd map x y = .ok minVal) (hupd : minVal < f32 (myVal - 1)) :
    f32 (minVal + 1) = minVal + 1 ∧ minVal < myVal - 1 ∧
      ∀ a, A.get? (y * dd.width + x) = some a → FleeGood a (minVal + 1) := by
  obtain ⟨hlen, hwv, hgood⟩ := hinv
  obtain ⟨hAlen, hA1, hA2⟩ := hA
  have hsen : invalid_tile_value = 100000 := rfl
  -- the cell that holds the minimum
  obtain ⟨x2, y2, hf2, hadj, hv2⟩ : ∃ x2 y2, floorAt dd x2 y2 ∧
      ((x2 = x ∧ y2 = y) ∨ NatAdj x y x2 y2) ∧
      map.get? (y2 * dd.width + x2) = some minVal := by
    rcases getMinNei_spec hwf hf.1 hf.2.1 hmin with e | ⟨x2, y2, h1, h2, h3⟩
    · exact ⟨x, y, hf, Or.inl ⟨rfl, rfl⟩, e⟩
    · exact ⟨x2, y2, h2, Or.inr h1, h3⟩
  obtain ⟨a2, v2, hA2g, hv2b, hF2, hlow2, hfine2, hcoarse2⟩ := hgood x2 y2 hf2
  rw [hv2] at hv2b
  cases hv2b
  have hstrict : minVal < myVal - 1 := by
    by_contra hcon
    have := f32_le hF2 (not_lt.mp hcon)
    linarith
  obtain ⟨a, hAa, hacase⟩ := hA1 x y hf
  obtain ⟨v, hv, _, t0, ht0, hvt0⟩ := hwv x y hf
  rw [hmy] at hv
  cases hv
  rw [flee_scale_get hAa] at ht0
  cases ht0
  by_cases ha : a < invalid_tile_value
  · rw [if_pos ha] at hvt0
    obtain ⟨k, hk, hk9⟩ : ∃ k : Nat, a = k ∧ k ≤ 99999 := by
      rcases hacase with e | e
      · rw [e] at ha
        exact absurd ha (lt_irrefl _)
      · exact e
    subst hk
    obtain ⟨_, h0, _, _, _⟩ := flee_scaled_value k hk9
    have hm1 : f32 (myVal - 1) ≤ -1 := f32_le isF32_neg_one (by linarith)
    have hF : IsF32 (minVal + 1) :=
      isF32_add_one hF2 (by linarith) (by
        have h3 : -(2 : ℚ) ^ 24 ≤ -2 ^ 17 := by norm_num
        linarith)
    have hM : Mult 127 minVal := by
      by_cases ha2 : a2 < invalid_tile_value
      · exact hfine2 ha2
      · rcases hcoarse2 ha2 with e | ⟨h1, _⟩
        · rw [e, hsen] at hupd
          linarith
        · exact h1.mono (by norm_num)
    refine ⟨f32_of_isF32 hF, hstrict, ?_⟩
    intro a' ha'
    rw [hAa] at ha'
    cases ha'
    exact ⟨hF, by linarith, fun _ => hM.add_one (by norm_num), fun h => absurd ha h⟩
  · rw [if_neg ha] at hvt0
    have hae : a = invalid_tile_value := by
      rcases hacase with e | ⟨k, e, hk⟩
      · exact e
      · exfalso
        apply ha
        have : (k : ℚ) ≤ 99999 := by exact_mod_cast hk
        rw [e, hsen]
        linarith
    have hm1 : f32 (myVal - 1) ≤ 99999 := f32_le isF32_99999 (by rw [hae, hsen] at hvt0; linarith)
    have hlt : minVal < 99999 := lt_of_lt_of_le hupd hm1
    have hM : Mult 142 minVal := by
      by_cases ha2 : a2 < invalid_tile_value
      · -- the neighbour holds the approach value 99999
        have hadj2 : NatAdj x y x2 y2 := by
          rcases hadj with ⟨e1, e2⟩ | h
          · exfalso
            subst e1
            subst e2
            rw [hAa] at hA2g
            cases hA2g
            exact ha ha2
          · exact h
        obtain ⟨a2b, hA2b, hcase2⟩ := hA1 x2 y2 hf2
        rw [hA2g] at hA2b
        cases hA2b
        obtain ⟨k2, hk2, hk29⟩ : ∃ k : Nat, a2 = k ∧ k ≤ 99999 := by
          rcases hcase2 with e | e
          · rw [e] at ha2
            exact absurd ha2 (lt_irrefl _)
          · exact e
        have hle := hA2 x y x2 y2 a a2 hf hf2 hadj2 hAa hA2g
        have hk2e : k2 = 99999 := by
          rw [hae, hsen, hk2] at hle
          have h1 : (99999 : ℚ) ≤ (k2 : ℚ) := by linarith
          have h2 : 99999 ≤ k2 := by exact_mod_cast h1
          omega
        obtain ⟨_, _, _, _, h5⟩ := flee_scaled_value k2 hk29
        have h6 := h5 hk2e
        obtain ⟨v3, hv3, _, t3, ht3, hvt3⟩ := hwv x2 y2 hf2
        rw [hv2] at hv3
        cases hv3
        rw [flee_scale_get hA2g] at ht3
        cases ht3
        rw [if_pos ha2, hk2] at hvt3
        have hmv : minVal ≤ -2 ^ 16 := le_trans hvt3 h6
        apply mult_of_isF32 hF2
        rw [abs_of_nonpos (by linarith)]
        have e1 : (2 : ℚ) ^ (23 + 142) = 2 ^ 16 * 2 ^ 149 := by norm_num
        rw [e1]
        exact mul_le_mul_of_nonneg_right (by linarith) (by positivity)
      · rcases hcoarse2 ha2 with e | ⟨h1, _⟩
        · rw [e, hsen] at hlt
          linarith
        · exact h1
    have hF : IsF32 (minVal + 1) := by
      apply isF32_of_mult (hM.add_one (by norm_num))
      have habs : |minVal + 1| ≤ 2 ^ 17 := by
        rw [abs_le]
        constructor
        · linarith
        · have : (99999 : ℚ) + 1 ≤ 2 ^ 17 := by norm_num
          linarith
      have e1 : (2 : ℚ) ^ 24 * 2 ^ 142 = 2 ^ 17 * 2 ^ 149 := by norm_num
      rw [e1]
      exact mul_le_mul_of_nonneg_right habs (by positivity)
    refine ⟨f32_of_isF32 hF, hstrict, ?_⟩
    intro a' ha'
    rw [hAa] at ha'
    cases ha'
    refine ⟨hF, by linarith, fun h => absurd h ha, fun _ => Or.inr ⟨hM.add_one (by norm_num), ?_⟩⟩
    rw [hsen]
    linarith

theorem tile_of_lt {dd : DungeonData} (hwf : dd.WF) {x y : Nat} (hx : x < dd.width)
    (hy : y < dd.height) : ∃ t, dd.tiles.get? (y * dd.width + x) = some t := by
  have hb : y * dd.width + x < dd.width * dd.height := by
    have h2 : (y + 1) * dd.width ≤ dd.height * dd.width := Nat.mul_le_mul_right _ (by omega)
    rw [Nat.succ_mul] at h2
    rw [Nat.mul_comm dd.width dd.height]
    omega
  refine ⟨dd.tiles.get ⟨_, by rw [hwf.1]; exact hb⟩, ?_⟩
  rw [List.get?_eq_getElem?, List.getElem?_eq_getElem (by rw [hwf.1]; exact hb)]
  rfl

/-- The step of the binary32 pass at a floor cell. -/
theorem dmap_pass_f32_floor {dd : DungeonData} (hwf : dd.WF) {x y : Nat}
    (hf : floorAt dd x y) {map : List ℚ} {myVal minVal : ℚ}
    (hmy : getMapAt dd map x y invalid_tile_value = .ok myVal)
    (hmin : getMinNei dd map x y = .ok minVal) (rest : List (Nat × Nat)) (done : Bool) :
    dmap_pass_f32 dd ((x, y) :: rest) (map, done)
      = if minVal < f32 (myVal - 1) then
          dmap_pass_f32 dd rest (map.set (y * dd.width + x) (f32 (minVal + 1)), false)
        else dmap_pass_f32 dd rest (map, done) := by
  have hlt := cell_idx_lt hwf hf.1 (Or.inr hf.2.1)
  conv_lhs => unfold dmap_pass_f32
  simp only [Nat.mod_eq_of_lt hlt]
  rw [hf.2.2]
  simp only [ne_eq, not_true_eq_false, if_false]
  rw [hmy, hmin]

/-- The step of the binary32 pass at a cell that is not floor. -/
theorem dmap_pass_f32_skip {dd : DungeonData} (hwf : dd.WF) {x y : Nat}
    (hx : x < dd.width) (hy : y < dd.height) (hnf : ¬ floorAt dd x y) (map : List ℚ)
    (rest : List (Nat × Nat)) (done : Bool) :
    dmap_pass_f32 dd ((x, y) :: rest) (map, done) = dmap_pass_f32 dd rest (map, done) := by
  have hlt := cell_idx_lt hwf hx (Or.inr hy)
  obtain ⟨t, ht⟩ := tile_of_lt hwf hx hy
  have hne : t ≠ Tile.floor := by
    intro e
    subst e
    exact hnf ⟨hx, hy, ht⟩
  conv_lhs => unfold dmap_pass_f32
  simp only [Nat.mod_eq_of_lt hlt]
  rw [ht]
  simp only [ne_eq, hne, not_false_eq_true, if_true]

theorem dmap_pass_f32_nil (dd : DungeonData) (acc : List ℚ × Bool) :
    dmap_pass_f32 dd [] acc = .ok acc := by
  unfold dmap_pass_f32
  rfl

theorem dmap_pass_f32_false {dd : DungeonData} (hwf : dd.WF) (hsq : dd.width = dd.height) :
    ∀ (cells : List (Nat × Nat)) (map : List ℚ) (map2 : List ℚ) (done2 : Bool),
      (∀ c ∈ cells, c.1 < dd.width ∧ c.2 < dd.height) →
      map.length = dd.width * dd.height →
      dmap_pass_f32 dd cells (map, false) = .ok (map2, done2) → done2 = false := by
  intro cells
  induction cells with
  | nil =>
    intro map map2 done2 _ _ h
    rw [dmap_pass_f32_nil] at h
    cases h
    rfl
  | cons c cs ih =>
    intro map map2 done2 hc hlen h
    obtain ⟨x, y⟩ := c
    have hxy := hc (x, y) (List.mem_cons_self _ _)
    have hcs : ∀ c ∈ cs, c.1 < dd.width ∧ c.2 < dd.height :=
      fun c h => hc c (List.mem_cons_of_mem _ h)
    simp only at hxy
    by_cases hf : floorAt dd x y
    · obtain ⟨myVal, hmy⟩ := getMapAt_total hwf hsq hlen x y invalid_tile_value
      obtain ⟨minVal, hmin⟩ := getMinNei_total hwf hsq hlen hxy.1 hxy.2
      rw [dmap_pass_f32_floor hwf hf hmy hmin] at h
      split at h
      · exact ih _ _ _ hcs (by rw [List.length_set]; exact hlen) h
      · exact ih _ _ _ hcs hlen h
    · rw [dmap_pass_f32_skip hwf hxy.1 hxy.2 hf] at h
      exact ih _ _ _ hcs hlen h

/-- On a square grid a binary32 pass over a field of the invariant returns a field of the
invariant, never raises the rank of the field, and lowers it when it clears `done`. -/
theorem dmap_pass_f32_total {dd : DungeonData} (hwf : dd.WF) (hsq : dd.width = dd.height)
    {A : List ℚ} (hA : ApproachOK dd A) :
    ∀ (cells : List (Nat × Nat)) (map : List ℚ) (done : Bool),
      (∀ c ∈ cells, c.1 < dd.width ∧ c.2 < dd.height) →
      FleeInv dd A map →
      ∃ map2 done2, dmap_pass_f32 dd cells (map, done) = .ok (map2, done2) ∧
        FleeInv dd A map2 ∧
        fieldRank (flee_scale A) map2 ≤ fieldRank (flee_scale A) map ∧
        (done = true → done2 = false →
          fieldRank (flee_scale A) map2 < fieldRank (flee_scale A) map) := by
  intro cells
  induction cells with
  | nil =>
    intro map done _ hinv
    refine ⟨map, done, dmap_pass_f32_nil _ _, hinv, le_refl _, ?_⟩
    intro h1 h2
    rw [h1] at h2
    cases h2
  | cons c cs ih =>
    intro map done hc hinv
    obtain ⟨x, y⟩ := c
    have hxy := hc (x, y) (List.mem_cons_self _ _)
    have hcs : ∀ c ∈ cs, c.1 < dd.width ∧ c.2 < dd.height :=
      fun c h => hc c (List.mem_cons_of_mem _ h)
    simp only at hxy
    have hlen := hinv.1
    have hlt := cell_idx_lt hwf hxy.1 (Or.inr hxy.2)
    have hb : y * dd.width + x < dd.width * dd.height := by
      have h2 : (y + 1) * dd.width ≤ dd.height * dd.width :=
        Nat.mul_le_mul_right _ (by omega)
      rw [Nat.succ_mul] at h2
      rw [Nat.mul_comm dd.width dd.height]
      omega
    by_cases hf : floorAt dd x y
    · obtain ⟨myVal, hmy⟩ := getMapAt_total hwf hsq hlen x y invalid_tile_value
      obtain ⟨minVal, hmin⟩ := getMinNei_total hwf hsq hlen hxy.1 hxy.2
      have hown := getMapAt_of_floor hwf hf (by omega) hmy
      rw [dmap_pass_f32_floor hwf hf hmy hmin]
      by_cases hupd : minVal < f32 (myVal - 1)
      · rw [if_pos hupd]
        obtain ⟨e1, hstrict, hnew⟩ := flee_step hwf hA hinv hf hown hmin hupd
        rw [e1]
        have hstep : dmap_pass dd [(x, y)] (map, done)
            = .ok (map.set (y * dd.width + x) (minVal + 1), false) := by
          unfold dmap_pass
          simp only [Nat.mod_eq_of_lt hlt]
          rw [hf.2.2]
          simp only [ne_eq, not_true_eq_false, if_false]
          rw [hmy, hmin]
          simp only [if_pos hstrict]
          rfl
        have hk2 := dmap_pass_walkVals hwf (by omega) (flee_scale A) _ _ _ _ _
          (by intro c hc2; rcases List.mem_singleton.1 hc2 with rfl; exact hxy) hinv.2.1 hstep
        have hinv2 : FleeInv dd A (map.set (y * dd.width + x) (minVal + 1)) := by
          refine ⟨by rw [List.length_set]; exact hlen, hk2, ?_⟩
          intro x3 y3 hf3
          obtain ⟨a3, v3, hA3, hv3, hg3⟩ := hinv.2.2 x3 y3 hf3
          by_cases hc3 : x3 = x ∧ y3 = y
          · obtain ⟨rfl, rfl⟩ := hc3
            refine ⟨a3, minVal + 1, hA3, ?_, hnew a3 hA3⟩
            rw [List.get?_eq_getElem?, List.getElem?_set_self (by rw [hlen]; exact hb)]
          · have hne : y * dd.width + x ≠ y3 * dd.width + x3 := by
              intro e
              obtain ⟨e1, e2⟩ := cell_idx_inj hxy.1 hf3.1 e
              exact hc3 ⟨e1.symm, e2.symm⟩
            refine ⟨a3, v3, hA3, ?_, hg3⟩
            rw [List.get?_eq_getElem?, List.getElem?_set_ne hne, ← List.get?_eq_getElem?]
            exact hv3
        obtain ⟨map2, done2, e, hinv3, hr2, _⟩ := ih (map.set (y * dd.width + x) (minVal + 1))
          false hcs hinv2
        have hdec : fieldRank (flee_scale A) (map.set (y * dd.width + x) (minVal + 1))
            < fieldRank (flee_scale A) map := by
          unfold fieldRank
          apply sum_map_set_lt _ _ _ _ _ hown
          obtain ⟨v, hv, ⟨sx, sy, n, t, _, hts, hvn⟩, _⟩ := hk2 x y hf
          rw [List.get?_eq_getElem?, List.getElem?_set_self (by rw [hlen]; exact hb)] at hv
          cases hv
          exact valRank_lt (List.get?_mem hts) hvn (by linarith)
        exact ⟨map2, done2, e, hinv3, by omega, fun _ _ => by omega⟩
      · rw [if_neg hupd]
        exact ih map done hcs hinv
    · rw [dmap_pass_f32_skip hwf hxy.1 hxy.2 hf]
      exact ih map done hcs hinv

/-- A binary32 pass that leaves `done` set changed nothing and found every listed floor
cell stable. -/
theorem dmap_pass_f32_stable {dd : DungeonData} (hwf : dd.WF) (hsq : dd.width = dd.height) :
    ∀ (cells : List (Nat × Nat)) (map : List ℚ) (done : Bool) (map2 : List ℚ),
      (∀ c ∈ cells, c.1 < dd.width ∧ c.2 < dd.height) →
      map.length = dd.width * dd.height →
      dmap_pass_f32 dd cells (map, done) = .ok (map2, true) →
      map2 = map ∧ StableF32 dd map cells := by
  intro cells
  induction cells with
  | nil =>
    intro map done map2 _ _ h
    rw [dmap_pass_f32_nil] at h
    cases h
    refine ⟨rfl, ?_⟩
    intro c hc
    cases hc
  | cons c cs ih =>
    intro map done map2 hc hlen h
    obtain ⟨x, y⟩ := c
    have hxy := hc (x, y) (List.mem_cons_self _ _)
    have hcs : ∀ c ∈ cs, c.1 < dd.width ∧ c.2 < dd.height :=
      fun c h => hc c (List.mem_cons_of_mem _ h)
    simp only at hxy
    by_cases hf : floorAt dd x y
    · obtain ⟨myVal, hmy⟩ := getMapAt_total hwf hsq hlen x y invalid_tile_value
      obtain ⟨minVal, hmin⟩ := getMinNei_total hwf hsq hlen hxy.1 hxy.2
      have hown := getMapAt_of_floor hwf hf (by omega) hmy
      rw [dmap_pass_f32_floor hwf hf hmy hmin] at h
      split at h
      · have := dmap_pass_f32_false hwf hsq _ _ _ _ hcs
          (by rw [List.length_set]; exact hlen) h
        cases this
      · rename_i hnupd
        obtain ⟨e, hs⟩ := ih _ _ _ hcs hlen h
        refine ⟨e, ?_⟩
        intro c hcm hfc
        rcases List.mem_cons.1 hcm with rfl | hcm
        · exact ⟨myVal, minVal, hown, hmin, hnupd⟩
        · exact hs c hcm hfc
    · rw [dmap_pass_f32_skip hwf hxy.1 hxy.2 hf] at h
      obtain ⟨e, hs⟩ := ih _ _ _ hcs hlen h
      refine ⟨e, ?_⟩
      intro c hcm hfc
      rcases List.mem_cons.1 hcm with rfl | hcm
      · exact absurd hfc hf
      · exact hs c hcm hfc

/-- On a square grid the binary32 relaxation of a field of the invariant returns once its
fuel exceeds the rank of the field. -/
theorem process_dmap_f32_total_of_rank {dd : DungeonData} (hwf : dd.WF)
    (hsq : dd.width = dd.height) {A : List ℚ} (hA : ApproachOK dd A) :
    ∀ (k : Nat) (map : List ℚ), FleeInv dd A map →
      fieldRank (flee_scale A) map ≤ k →
      ∃ m, process_dmap_f32 dd (k + 1) map = .ok m := by
  intro k
  induction k with
  | zero =>
    intro map hinv hr
    obtain ⟨map2, done2, e, _, _, hr3⟩ := dmap_pass_f32_total hwf hsq hA (scanOrder dd) map true
      scanOrder_mem hinv
    unfold process_dmap_f32
    rw [e]
    simp only []
    cases done2 with
    | true => exact ⟨map2, rfl⟩
    | false =>
      have := hr3 rfl rfl
      omega
  | succ k ih =>
    intro map hinv hr
    obtain ⟨map2, done2, e, hinv2, _, hr3⟩ := dmap_pass_f32_total hwf hsq hA (scanOrder dd) map
      true scanOrder_mem hinv
    unfold process_dmap_f32
    rw [e]
    simp only []
    cases done2 with
    | true => exact ⟨map2, rfl⟩
    | false =>
      have := hr3 rfl rfl
      exact ih map2 hinv2 (by omega)

/-- The field returned by the binary32 relaxation of a field of the invariant is a field of
the invariant and is stable at every cell. -/
theorem process_dmap_f32_inv {dd : DungeonData} (hwf : dd.WF) (hsq : dd.width = dd.height)
    {A : List ℚ} (hA : ApproachOK dd A) :
    ∀ (fuel : Nat) (map m : List ℚ), FleeInv dd A map →
      process_dmap_f32 dd fuel map = .ok m →
      FleeInv dd A m ∧ StableF32 dd m (scanOrder dd) := by
  intro fuel
  induction fuel with
  | zero => intro map m _ h; simp [process_dmap_f32] at h
  | succ n ih =>
    intro map m hinv h
    obtain ⟨map2, done2, e, hinv2, _, _⟩ := dmap_pass_f32_total hwf hsq hA (scanOrder dd) map
      true scanOrder_mem hinv
    unfold process_dmap_f32 at h
    rw [e] at h
    simp only [] at h
    cases done2 with
    | true =>
      simp only [if_true] at h
      cases h
      obtain ⟨e2, hs⟩ := dmap_pass_f32_stable hwf hsq _ _ _ _ scanOrder_mem hinv.1 e
      subst e2
      exact ⟨hinv2, hs⟩
    | false =>
      simp only [Bool.false_eq_true, if_false] at h
      exact ih _ _ hinv2 h

/-- The scaled approach field is a field of the invariant. -/
theorem fleeInv_init {dd : DungeonData} {A : List ℚ} (hA : ApproachOK dd A) :
    FleeInv dd A (flee_scale A) := by
  obtain ⟨hAlen, hA1, _⟩ := hA
  have hlen : (flee_scale A).length = dd.width * dd.height := by
    rw [flee_scale_length, hAlen]
  refine ⟨hlen, walkVals_self hlen, ?_⟩
  intro x y hf
  obtain ⟨a, ha, hcase⟩ := hA1 x y hf
  exact ⟨a, _, ha, flee_scale_get ha, fleeGood_init hcase⟩

/-- The approach field of a square grid has the properties the flee relaxation uses. -/
theorem approachOK_of_map {dd : DungeonData} (hwf : dd.WF) (hsq : dd.width = dd.height)
    {actors : List Actor} (hin : ∀ a ∈ actors, a.team = 0 → InGrid dd a.pos)
    {fuel : Nat} {A : List ℚ} (h : gen_player_approach_map dd actors fuel = .ok A) :
    ApproachOK dd A := by
  have hcells : ∀ p ∈ (actors.filter (fun a : Actor => decide (a.team = 0))).map
      (fun a : Actor => a.pos), InGrid dd p := by
    intro p hp
    obtain ⟨a, ha, rfl⟩ := List.mem_map.mp hp
    obtain ⟨ha1, ha2⟩ := List.mem_filter.mp ha
    exact hin a ha1 (of_decide_eq_true ha2)
  obtain ⟨m0, e0, hl0, hseed, hother⟩ := seedCells_spec hwf
    ((actors.filter (fun a : Actor => decide (a.team = 0))).map (fun a : Actor => a.pos))
    (init_tiles dd) (by simp [init_tiles]) hcells
  have hA : process_dmap dd fuel m0 = .ok A := by
    unfold gen_player_approach_map at h
    rw [seed_players_eq, e0] at h
    exact h
  have hsen : invalid_tile_value = 100000 := rfl
  -- the seeded field holds 0 and the sentinel only
  have hm0 : ∀ j t, m0.get? j = some t → t = 0 ∨ t = invalid_tile_value := by
    intro j t ht
    have hj : j < dd.width * dd.height := by
      rw [← hl0]
      rw [List.get?_eq_getElem?] at ht
      by_contra hcon
      rw [List.getElem?_eq_none (Nat.le_of_not_lt hcon)] at ht
      cases ht
    by_cases hex : ∃ q ∈ (actors.filter (fun a : Actor => decide (a.team = 0))).map
        (fun a : Actor => a.pos), coord_to_idx q.x q.y dd.width = j
    · obtain ⟨q, hq, e⟩ := hex
      have := hseed q (hcells q hq) hq
      rw [e, ht] at this
      cases this
      exact Or.inl rfl
    · have h2 := hother j (fun q hq e => hex ⟨q, hq, e⟩)
      rw [init_tiles_get hj, ht] at h2
      cases h2
      exact Or.inr rfl
  obtain ⟨hadj, hle⟩ := process_dmap_adjacent hwf (by omega) hl0 hA
  have hb : ∀ x y, floorAt dd x y → y * dd.width + x < dd.width * dd.height := by
    intro x y hf
    have h2 : (y + 1) * dd.width ≤ dd.height * dd.width := Nat.mul_le_mul_right _ hf.2.1
    rw [Nat.succ_mul] at h2
    rw [Nat.mul_comm dd.width dd.height]
    have := hf.1
    omega
  refine ⟨by rw [process_dmap_length _ _ _ hA, hl0], ?_, ?_⟩
  · intro x y hf
    obtain ⟨v, hv, ⟨sx, sy, n, t, _, ht, hvn⟩, _⟩ :=
      process_dmap_closure hwf (by omega) hl0 hA hf
    obtain ⟨v1, v0, hv1, hv0, hle0⟩ := hle _ (hb x y hf)
    rw [hv] at hv1
    cases hv1
    refine ⟨v, hv, ?_⟩
    have hn0 : (0 : ℚ) ≤ (n : ℚ) := Nat.cast_nonneg n
    have hv0c : v0 ≤ 100000 := by
      rcases hm0 _ _ hv0 with e | e
      · rw [e]; norm_num
      · rw [e, hsen]
    rcases hm0 _ _ ht with e | e
    · subst e
      rw [zero_add] at hvn
      subst hvn
      have h1 : (n : ℚ) ≤ 100000 := le_trans hle0 hv0c
      have h2 : n ≤ 100000 := by exact_mod_cast h1
      rcases Nat.lt_or_ge n 100000 with h3 | h3
      · exact Or.inr ⟨n, rfl, by omega⟩
      · left
        have : n = 100000 := by omega
        rw [this, hsen]
        norm_num
    · left
      rw [e, hsen] at hvn
      rw [hsen]
      linarith
  · intro x y x2 y2 a a2 hf hf2 hnadj ha ha2
    obtain ⟨v, v2, hv, hv2, habs⟩ := hadj x y x2 y2 hf hf2 hnadj
    rw [ha] at hv
    cases hv
    rw [ha2] at hv2
    cases hv2
    have := (abs_le.mp habs).2
    linarith

theorem flee_scale_get_inv {A : List ℚ} {i : Nat} {t : ℚ}
    (h : (flee_scale A).get? i = some t) :
    ∃ a, A.get? i = some a ∧
      t = (if a < invalid_tile_value then f32 (a * flee_factor) else a) := by
  unfold flee_scale at h
  rw [List.get?_eq_getElem?, List.getElem?_map] at h
  cases ha : A[i]? with
  | none => rw [ha] at h; cases h
  | some a =>
    rw [ha] at h
    simp only [Option.map_some'] at h
    cases h
    exact ⟨a, by rw [List.get?_eq_getElem?]; exact ha, rfl⟩

theorem getMinNei_mem {dd : DungeonData} (hwf : dd.WF) {map : List ℚ} {x y : Nat} {mv : ℚ}
    (hx : x < dd.width) (hy : y < dd.height) (h : getMinNei dd map x y = .ok mv) :
    mv ∈ map := by
  rcases getMinNei_spec hwf hx hy h with e | ⟨_, _, _, _, e⟩
  · exact List.get?_mem e
  · exact List.get?_mem e

/-- On a field of whole numbers between 0 and 1e5 the binary32 pass is the exact pass, and
it returns such a field. -/
theorem dmap_pass_f32_whole {dd : DungeonData} (hwf : dd.WF) :
    ∀ (cells : List (Nat × Nat)) (map : List ℚ) (done : Bool),
      (∀ c ∈ cells, c.1 < dd.width ∧ c.2 < dd.height) → WholeField map →
      dmap_pass_f32 dd cells (map, done) = dmap_pass dd cells (map, done) ∧
      ∀ map2 done2, dmap_pass dd cells (map, done) = .ok (map2, done2) → WholeField map2 := by
  intro cells
  induction cells with
  | nil =>
    intro map done _ hw
    refine ⟨by rw [dmap_pass_f32_nil]; rfl, ?_⟩
    intro map2 done2 h
    simp only [dmap_pass, Except.ok.injEq, Prod.mk.injEq] at h
    rw [← h.1]
    exact hw
  | cons c cs ih =>
    intro map done hc hw
    obtain ⟨x, y⟩ := c
    have hxy := hc (x, y) (List.mem_cons_self _ _)
    have hcs : ∀ c ∈ cs, c.1 < dd.width ∧ c.2 < dd.height :=
      fun c h => hc c (List.mem_cons_of_mem _ h)
    simp only at hxy
    have hsen : invalid_tile_value = 100000 := rfl
    conv_lhs => unfold dmap_pass_f32
    unfold dmap_pass
    simp only []
    cases dd.tiles.get? ((y * dd.width + x) % 2 ^ 64) with
    | none =>
      refine ⟨rfl, ?_⟩
      intro map2 done2 h
      cases h
    | some t =>
      simp only []
      by_cases hfl : t = Tile.floor
      · simp only [hfl, ne_eq, not_true_eq_false, if_false]
        cases hmy : getMapAt dd map x y invalid_tile_value with
        | error e =>
          refine ⟨rfl, ?_⟩
          intro map2 done2 h
          cases h
        | ok myVal =>
          simp only []
          cases hmin : getMinNei dd map x y with
          | error e =>
            refine ⟨rfl, ?_⟩
            intro map2 done2 h
            cases h
          | ok minVal =>
            simp only []
            obtain ⟨k1, hk1, hk1b⟩ : ∃ k : Nat, myVal = k ∧ k ≤ 100000 := by
              rcases getMapAt_spec hwf hmy with e | ⟨_, e⟩
              · exact ⟨100000, by rw [e, hsen]; norm_num, le_refl _⟩
              · exact hw _ (List.get?_mem e)
            obtain ⟨k2, hk2, hk2b⟩ := hw _ (getMinNei_mem hwf hxy.1 hxy.2 hmin)
            have e1 : f32 (myVal - 1) = myVal - 1 := by
              apply f32_of_isF32
              have := isF32_int ((k1 : Int) - 1) (by
                rw [abs_le]
                constructor <;> omega)
              rw [hk1]
              push_cast at this
              exact this
            have e2 : f32 (minVal + 1) = minVal + 1 := by
              apply f32_of_isF32
              have := isF32_int ((k2 : Int) + 1) (by
                rw [abs_le]
                constructor <;> omega)
              rw [hk2]
              push_cast at this
              exact this
            rw [e1, e2]
            by_cases hupd : minVal < myVal - 1
            · simp only [if_pos hupd]
              apply ih _ _ hcs
              intro v hv
              rcases List.mem_or_eq_of_mem_set hv with h1 | h1
              · exact hw v h1
              · refine ⟨k2 + 1, by rw [h1, hk2]; push_cast; rfl, ?_⟩
                rw [hk1, hk2] at hupd
                have h2 : (k2 : ℚ) + 1 < (k1 : ℚ) := by linarith
                have h3 : k2 + 1 < k1 := by exact_mod_cast h2
                omega
            · simp only [if_neg hupd]
              exact ih _ _ hcs hw
      · simp only [ne_eq, hfl, not_false_eq_true, if_true]
        exact ih _ _ hcs hw

/-- On a field of whole numbers between 0 and 1e5 the binary32 relaxation is the exact
relaxation. -/
theorem process_dmap_f32_whole {dd : DungeonData} (hwf : dd.WF) :
    ∀ (fuel : Nat) (map : List ℚ), WholeField map →
      process_dmap_f32 dd fuel map = process_dmap dd fuel map := by
  intro fuel
  induction fuel with
  | zero => intro map _; rfl
  | succ n ih =>
    intro map hw
    obtain ⟨e, hw2⟩ := dmap_pass_f32_whole hwf (scanOrder dd) map true scanOrder_mem hw
    unfold process_dmap_f32 process_dmap
    rw [e]
    cases hp : dmap_pass dd (scanOrder dd) (map, true) with
    | error err => rfl
    | ok r =>
      obtain ⟨map2, done2⟩ := r
      simp only []
      cases done2 with
      | true => rfl
      | false =>
        simp only [Bool.false_eq_true, if_false]
        exact ih _ (hw2 _ _ hp)

theorem seed_players_whole (dd : DungeonData) :
    ∀ (actors : List Actor) (map m : List ℚ), WholeField map →
      seed_players dd actors map = .ok m → WholeField m := by
  intro actors
  induction actors with
  | nil =>
    intro map m hw h
    simp only [seed_players, Except.ok.injEq] at h
    rw [← h]
    exact hw
  | cons a rest ih =>
    intro map m hw h
    unfold seed_players at h
    split at h
    · simp only [] at h
      split at h
      · cases h
      · apply ih _ _ _ h
        intro v hv
        rcases List.mem_or_eq_of_mem_set hv with h1 | h1
        · exact hw v h1
        · exact ⟨0, by rw [h1]; norm_num, by norm_num⟩
    · exact ih _ _ hw h

/-- The relaxation of `gen_player_approach_map` run in binary32 arithmetic gives the field
of the exact relaxation: the approach field holds whole numbers up to 1e5. -/
theorem gen_player_approach_map_f32 {dd : DungeonData} (hwf : dd.WF) (actors : List Actor)
    (fuel : Nat) :
    gen_player_approach_map dd actors fuel
      = match seed_players dd actors (init_tiles dd) with
        | .error e => .error e
        | .ok map => process_dmap_f32 dd fuel map := by
  unfold gen_player_approach_map
  cases h : seed_players dd actors (init_tiles dd) with
  | error e => rfl
  | ok map =>
    simp only []
    rw [process_dmap_f32_whole hwf]
    apply seed_players_whole dd actors _ _ _ h
    intro v hv
    unfold init_tiles at hv
    have := List.eq_of_mem_replicate hv
    exact ⟨100000, by rw [this]; unfold invalid_tile_value; norm_num, le_refl _⟩

end Proofs

/-! ## Claims about `find_path_a_star` -/

/-- C1 (as amended): on a well-formed grid with the bound inside the grid, every non-empty
sequence returned by `find_path_a_star` starts with the source, ends with the destination,
has every consecutive pair of cells differing by exactly one in exactly one coordinate, and
every cell after the first is a non-wall cell; the whole path is non-wall when the source
cell is. -/
theorem find_path_a_star_path_valid {S : Type} [LinearOrder S] (fscore : Nat → Nat → S)
    (dd : DungeonData) (src dst lim_min lim_max : IVec2) (path : List IVec2)
    (hwf : dd.WF) (hlim : LimInGrid dd lim_min lim_max)
    (h : find_path_a_star fscore dd src dst lim_min lim_max = .ok path) (hne : path ≠ []) :
    path.head? = some src ∧ path.getLast? = some dst ∧ List.Chain' Adj path ∧
      (∀ c ∈ path.tail, NonWall dd c) ∧ (NonWall dd src → ∀ c ∈ path, NonWall dd c) := by
  obtain ⟨h1, h2, h3, h4⟩ := find_path_a_star_validPath fscore hwf hlim h hne
  refine ⟨h1, h2, h3, fun c hc => (h4 c hc).1, ?_⟩
  intro hs c hc
  cases path with
  | nil => exact absurd rfl hne
  | cons a t =>
    simp only [List.head?_cons, Option.some.injEq] at h1
    rcases List.mem_cons.mp hc with e | e
    · rw [e, h1]; exact hs
    · exact (h4 c e).1

/-- Witness for C1: the search on `grid3` from the top-left to the top-right corner. -/
theorem find_path_a_star_path_valid_witness :
    ([⟨0,0⟩, ⟨0,1⟩, ⟨0,2⟩, ⟨1,2⟩, ⟨2,2⟩, ⟨2,1⟩, ⟨2,0⟩] : List IVec2).getLast? = some ⟨2,0⟩ ∧
      ∀ c ∈ ([⟨0,0⟩, ⟨0,1⟩, ⟨0,2⟩, ⟨1,2⟩, ⟨2,2⟩, ⟨2,1⟩, ⟨2,0⟩] : List IVec2), NonWall grid3 c :=
  have h := find_path_a_star_path_valid fscoreFix grid3 ⟨0,0⟩ ⟨2,0⟩ ⟨0,0⟩ ⟨3,3⟩
    [⟨0,0⟩, ⟨0,1⟩, ⟨0,2⟩, ⟨1,2⟩, ⟨2,2⟩, ⟨2,1⟩, ⟨2,0⟩]
    (by decide) (by decide) (by rfl) (by simp)
  ⟨h.2.1, h.2.2.2.2 (by decide)⟩

/-- C1 fails as stated: from the wall cell (1,0) of `grid3`, an in-grid source, the search
returns a non-empty path whose first cell is a wall. -/
theorem find_path_a_star_wall_source :
    grid3.WF ∧ InGrid grid3 ⟨1,0⟩ ∧ LimInGrid grid3 ⟨0,0⟩ ⟨3,3⟩ ∧
      find_path_a_star fscoreFix grid3 ⟨1,0⟩ ⟨0,0⟩ ⟨0,0⟩ ⟨3,3⟩ = .ok [⟨1,0⟩, ⟨0,0⟩] ∧
      ¬ (∀ c ∈ ([⟨1,0⟩, ⟨0,0⟩] : List IVec2), NonWall grid3 c) := by
  refine ⟨by decide, by decide, by decide, by rfl, by decide⟩

/-- C9: a source with a negative coordinate, or a coordinate not below the grid's width or
height, makes `find_path_a_star` return the empty sequence at once, whatever the tiles, the
destination, the bound and the score function are. -/
theorem find_path_a_star_source_off_grid {S : Type} [LinearOrder S] (fscore : Nat → Nat → S)
    (dd : DungeonData) (src dst lim_min lim_max : IVec2)
    (h : src.x < 0 ∨ src.y < 0 ∨ (dd.width : Int) ≤ src.x ∨ (dd.height : Int) ≤ src.y) :
    find_path_a_star fscore dd src dst lim_min lim_max = .ok [] := by
  unfold find_path_a_star
  rw [if_pos]
  have h1 := toInt32_le dd.width
  have h2 := toInt32_le dd.height
  omega

/-- Witness for C9: the source (3,0) lies right of the 3x3 grid `grid3`. -/
theorem find_path_a_star_source_off_grid_witness :
    find_path_a_star fscoreFix grid3 ⟨3,0⟩ ⟨0,0⟩ ⟨0,0⟩ ⟨3,3⟩ = .ok [] :=
  find_path_a_star_source_off_grid fscoreFix grid3 ⟨3,0⟩ ⟨0,0⟩ ⟨0,0⟩ ⟨3,3⟩
    (Or.inr (Or.inr (Or.inl (by decide))))

/-- C8 (as amended): on a well-formed grid with the bound inside the grid, if the
destination differs from the source and lies outside the bound, is a wall cell, or is joined
to the source by no path whose cells after the source are non-wall cells inside the bound,
then `find_path_a_star` returns the empty sequence; when the destination equals an in-grid
source the result is the one-cell path. -/
theorem find_path_a_star_no_path {S : Type} [LinearOrder S] (fscore : Nat → Nat → S)
    (dd : DungeonData) (src dst lim_min lim_max : IVec2)
    (hwf : dd.WF) (hlim : LimInGrid dd lim_min lim_max) :
    (dst ≠ src →
      (¬ InLim lim_min lim_max dst ∨ ¬ NonWall dd dst ∨
        ¬ ∃ path, ValidPath dd src dst lim_min lim_max path) →
      find_path_a_star fscore dd src dst lim_min lim_max = .ok []) ∧
    (dst = src → InGrid dd src →
      find_path_a_star fscore dd src dst lim_min lim_max = .ok [src]) := by
  constructor
  · intro hne h
    obtain ⟨path, hp⟩ := find_path_a_star_total fscore hwf hlim src dst
    rw [hp]
    by_cases he : path = []
    · rw [he]
    · exfalso
      have hv := find_path_a_star_validPath fscore hwf hlim hp he
      have hg := hv.dst_good hne
      rcases h with h | h | h
      · exact h hg.2
      · exact h hg.1
      · exact h ⟨path, hv⟩
  · intro he hs
    subst he
    exact find_path_a_star_self fscore hwf hs lim_min lim_max

/-- Witness for C8: on `grid3` the wall cell (1,0) is not reached from (0,0), and the
search from (0,0) to itself gives the one-cell path. -/
theorem find_path_a_star_no_path_witness :
    find_path_a_star fscoreFix grid3 ⟨0,0⟩ ⟨1,0⟩ ⟨0,0⟩ ⟨3,3⟩ = .ok [] ∧
      find_path_a_star fscoreFix grid3 ⟨0,0⟩ ⟨0,0⟩ ⟨0,0⟩ ⟨3,3⟩ = .ok [⟨0,0⟩] :=
  ⟨(find_path_a_star_no_path fscoreFix grid3 ⟨0,0⟩ ⟨1,0⟩ ⟨0,0⟩ ⟨3,3⟩ (by decide) (by decide)).1
      (by decide) (Or.inr (Or.inl (by decide))),
    (find_path_a_star_no_path fscoreFix grid3 ⟨0,0⟩ ⟨0,0⟩ ⟨0,0⟩ ⟨3,3⟩ (by decide) (by decide)).2
      rfl (by decide)⟩

/-- C8 fails as stated: with the destination equal to the source, a destination that is a
wall cell, or that lies outside the bound, still gives a non-empty result. -/
theorem find_path_a_star_self_wall :
    grid3.WF ∧ InGrid grid3 ⟨1,0⟩ ∧ ¬ NonWall grid3 ⟨1,0⟩ ∧
      find_path_a_star fscoreFix grid3 ⟨1,0⟩ ⟨1,0⟩ ⟨0,0⟩ ⟨3,3⟩ = .ok [⟨1,0⟩] ∧
      InGrid grid3 ⟨0,0⟩ ∧ ¬ InLim ⟨1,1⟩ ⟨3,3⟩ ⟨0,0⟩ ∧
      find_path_a_star fscoreFix grid3 ⟨0,0⟩ ⟨0,0⟩ ⟨1,1⟩ ⟨3,3⟩ = .ok [⟨0,0⟩] := by
  refine ⟨by decide, by decide, by decide, by rfl, by decide, by decide, by rfl⟩

/-- C7, the code at the failing input: region (1,0) of `corridor3` lists the portals 0 and
1; from (12,0) the cell (10,0) of portal 0 is reached by a path of three cells and the
cell (19,0) of portal 1 is not reached; `get_shortest_path_portal` returns the empty path
and portal 1. -/
theorem get_shortest_path_portal_unreachable_last :
    prebuild_map fscoreFix 10 corridor3 = .ok corridor3Portals ∧
      find_path_a_star fscoreFix corridor3 ⟨12,0⟩ ⟨10,0⟩ ⟨10,0⟩ ⟨20,10⟩
        = .ok [⟨12,0⟩, ⟨11,0⟩, ⟨10,0⟩] ∧
      find_path_a_star fscoreFix corridor3 ⟨12,0⟩ ⟨19,0⟩ ⟨10,0⟩ ⟨20,10⟩ = .ok [] ∧
      get_shortest_path_portal fscoreFix corridor3 corridor3Portals ⟨12,0⟩ ⟨1,0⟩
        PathPortal.zero = .ok ([], ⟨19, 0, 20, 0, []⟩) := by
  refine ⟨by rfl, by rfl, by rfl, by rfl⟩

/-- C10, the code at the failing input: on the 20x10 grid `open20` with the portal graph
built for region size 10, the source (25,3) lies outside the grid and the query to (11,5)
reads the region list number 2 of a vector of two lists. -/
theorem find_hierarchical_path_off_grid_source :
    prebuild_map fscoreFix 10 open20 = .ok open20Portals ∧
      ¬ InGrid open20 ⟨25,3⟩ ∧ InGrid open20 ⟨11,5⟩ ∧
      tileOf open20Portals ⟨25,3⟩ = ⟨2,0⟩ ∧ open20Portals.tilePortalsIndices.length = 2 ∧
      find_hierarchical_path fscoreFix open20Portals open20 ⟨25,3⟩ ⟨11,5⟩
        = .error .outOfRange := by
  refine ⟨by rfl, by decide, by decide, by decide, by decide, by rfl⟩

/-! ## Claims about the influence maps -/

theorem process_dmap_tall_loop :
    ∀ fuel : Nat, process_dmap tall fuel [0, 1] = .error .outOfFuel := by
  have p2 : dmap_pass tall (scanOrder tall) ([0, 1], true) = .ok ([0, 1], false) := by decide!
  intro fuel
  induction fuel with
  | zero => rfl
  | succ n ih =>
    unfold process_dmap
    rw [p2]
    simpa using ih

/-- C4, the code at the failing input: on the grid `tall` (width 1, height 2, both cells
floor) with one team-0 actor on the floor cell (0,0), every pass of `process_dmap` writes
the value 1 to the cell (0,1) again and clears `done`, because `getMapAt` reads no row
`y >= width`; the loop never exits, whatever number of passes is granted. -/
theorem gen_player_approach_map_tall_diverges :
    tall.WF ∧ NonWall tall ⟨0,0⟩ ∧
      dmap_pass tall (scanOrder tall) ([0, 100000], true) = .ok ([0, 1], false) ∧
      dmap_pass tall (scanOrder tall) ([0, 1], true) = .ok ([0, 1], false) ∧
      ∀ fuel : Nat,
        gen_player_approach_map tall [⟨⟨0,0⟩, 0⟩] fuel = .error .outOfFuel := by
  have p1 : dmap_pass tall (scanOrder tall) ([0, 100000], true) = .ok ([0, 1], false) := by
    decide!
  refine ⟨by decide, by decide, p1, by decide!, ?_⟩
  intro fuel
  have hs : seed_players tall [⟨⟨0,0⟩, 0⟩] (init_tiles tall) = .ok [0, 100000] := by decide!
  unfold gen_player_approach_map
  rw [hs]
  cases fuel with
  | zero => rfl
  | succ n =>
    simp only
    unfold process_dmap
    rw [p1]
    simpa using process_dmap_tall_loop n

/-! ## Claims about the relaxation -/

/-- C11: on a well-formed grid, if before relaxation every floor cell outside the seed set
holds the sentinel (as after `init_tiles` and seeding), then in every field that
`process_dmap` returns every floor cell that no 4-connected path of floor cells joins to a
floor seed holds the sentinel `1e5`. -/
theorem process_dmap_unreached_sentinel (dd : DungeonData) (seed : Nat → Nat → Prop)
    (fuel : Nat) (m0 m : List ℚ) (hwf : dd.WF)
    (h0 : ∀ x y, floorAt dd x y → ¬ seed x y →
      m0.get? (y * dd.width + x) = some invalid_tile_value)
    (h : process_dmap dd fuel m0 = .ok m) :
    ∀ x y, floorAt dd x y → ¬ SeedReach dd seed x y →
      m.get? (y * dd.width + x) = some invalid_tile_value := by
  refine process_dmap_unreached hwf seed fuel m0 m ?_ h
  intro x y hf hnr
  exact h0 x y hf (fun hs => hnr (SeedReach.base hf hs))

/-- Witness for C11: on `enclosed` with the seed (0,0), the enclosed centre cell and the
other cut-off corners keep the sentinel. -/
theorem process_dmap_unreached_sentinel_witness :
    gen_player_approach_map enclosed [⟨⟨0,0⟩, 0⟩] 1 =
        .ok [0, 100000, 100000, 100000, 100000, 100000, 100000, 100000, 100000] ∧
      ∀ x y, floorAt enclosed x y → ¬ SeedReach enclosed (fun x y => x = 0 ∧ y = 0) x y →
        ([0, 100000, 100000, 100000, 100000, 100000, 100000, 100000, 100000] : List ℚ).get?
          (y * enclosed.width + x) = some invalid_tile_value :=
  ⟨by decide!,
    process_dmap_unreached_sentinel enclosed (fun x y => x = 0 ∧ y = 0) 1
      [0, 100000, 100000, 100000, 100000, 100000, 100000, 100000, 100000]
      [0, 100000, 100000, 100000, 100000, 100000, 100000, 100000, 100000] (by decide)
      (by
        intro x y hf hs
        obtain ⟨hx, hy, _⟩ := hf
        have hx3 : x < 3 := hx
        have hy3 : y < 3 := hy
        interval_cases x <;> interval_cases y <;> first | rfl | (exact absurd ⟨rfl, rfl⟩ hs))
      (by decide!)⟩

/-- Once the distances 0,1,1,2,2,3 stand in `tall23`, every pass rewrites row 2 and the
loop runs out of any fuel. -/
theorem process_dmap_tall23_loop :
    ∀ fuel : Nat, process_dmap tall23 fuel [0, 1, 1, 2, 2, 3] = .error .outOfFuel := by
  have p2 : dmap_pass tall23 (scanOrder tall23) ([0, 1, 1, 2, 2, 3], true)
      = .ok ([0, 1, 1, 2, 2, 3], false) := by decide!
  intro fuel
  induction fuel with
  | zero => rfl
  | succ n ih =>
    unfold process_dmap
    rw [p2]
    simpa using ih

/-- C12, the code at the failing input: on the all-floor grid `tall23` (width 2, height 3)
seeded at (0,0), the first pass writes the distances 0,1,1,2,2,3, and every later pass
writes the two cells of row 2 again and clears `done`; no number of passes makes the loop
exit. -/
theorem process_dmap_tall23_never_exits :
    tall23.WF ∧
      seed_players tall23 [⟨⟨0,0⟩, 0⟩] (init_tiles tall23)
        = .ok [0, 100000, 100000, 100000, 100000, 100000] ∧
      dmap_pass tall23 (scanOrder tall23) ([0, 100000, 100000, 100000, 100000, 100000], true)
        = .ok ([0, 1, 1, 2, 2, 3], false) ∧
      dmap_pass tall23 (scanOrder tall23) ([0, 1, 1, 2, 2, 3], true)
        = .ok ([0, 1, 1, 2, 2, 3], false) ∧
      ∀ fuel : Nat, process_dmap tall23 fuel [0, 100000, 100000, 100000, 100000, 100000]
        = .error .outOfFuel := by
  have p1 : dmap_pass tall23 (scanOrder tall23)
      ([0, 100000, 100000, 100000, 100000, 100000], true)
      = .ok ([0, 1, 1, 2, 2, 3], false) := by decide!
  refine ⟨by decide, by decide!, p1, by decide!, ?_⟩
  intro fuel
  cases fuel with
  | zero => rfl
  | succ n =>
    unfold process_dmap
    rw [p1]
    simpa using process_dmap_tall23_loop n

/-! ## Claims about prebuild_map -/

/-- C13: in every portal graph that `prebuild_map` builds on a well-formed grid, for every
connection `(j, w)` stored in the adjacency of portal `i` there is a connection `(i, w)`
with the same weight stored in the adjacency of portal `j`. -/
theorem prebuild_map_conns_symmetric {S : Type} [LinearOrder S] (fscore : Nat → Nat → S)
    (split : Nat) (dd : DungeonData) (dp : DungeonPortals) (hwf : dd.WF)
    (h : prebuild_map fscore split dd = .ok dp) :
    ∀ i p, dp.portals.get? i = some p → ∀ c ∈ p.conns,
      ∃ q, dp.portals.get? c.connIdx = some q ∧
        (⟨i, c.score⟩ : PortalConnection) ∈ q.conns := by
  obtain ⟨_, b, hb, _, hc, _, _⟩ := prebuild_map_inv fscore hwf h
  refine connectRegions_sym fscore _ _ _ ?_ hc
  intro i p hp c hcm
  obtain ⟨x, y, top, a, c2, _, _, _, _, _, h6, _⟩ := hb.geom i p hp
  subst h6
  unfold runPortal at hcm
  split at hcm <;> cases hcm

/-- Witness for C13: the graph built on `detour`, whose two portals are connected to each
other with weight 3. -/
theorem prebuild_map_conns_symmetric_witness :
    detour.WF ∧ prebuild_map fscoreFix 10 detour = .ok detourPortals ∧
      ∀ i p, detourPortals.portals.get? i = some p → ∀ c ∈ p.conns,
        ∃ q, detourPortals.portals.get? c.connIdx = some q ∧
          (⟨i, c.score⟩ : PortalConnection) ∈ q.conns :=
  ⟨by decide, by rfl,
    prebuild_map_conns_symmetric fscoreFix 10 detour detourPortals (by decide) (by rfl)⟩

/-- C18: in every portal graph that `prebuild_map` builds on a well-formed grid, every index
stored in a region list is a valid index into the portal list, and the index of every
portal is stored in the lists of exactly two regions, the region of the portal's start
cell and the region of its end cell, which are two different regions of the graph. -/
theorem prebuild_map_region_lists {S : Type} [LinearOrder S] (fscore : Nat → Nat → S)
    (split : Nat) (dd : DungeonData) (dp : DungeonPortals) (hwf : dd.WF)
    (h : prebuild_map fscore split dd = .ok dp) :
    (∀ r l, dp.tilePortalsIndices.get? r = some l → ∀ k ∈ l, k < dp.portals.length) ∧
      ∀ k p, dp.portals.get? k = some p →
        regionIndex dd split p.startX p.startY < regionIndex dd split p.endX p.endY ∧
        regionIndex dd split p.endX p.endY < dp.tilePortalsIndices.length ∧
        ∀ r l, dp.tilePortalsIndices.get? r = some l →
          (k ∈ l ↔ (r = regionIndex dd split p.startX p.startY ∨
            r = regionIndex dd split p.endX p.endY)) := by
  obtain ⟨hs, b, hb, _, hc, hl, _⟩ := prebuild_map_inv fscore hwf h
  have hr := connectRegions_rect fscore _ _ _ hc
  have hlen : dp.portals.length = b.portals.length := by
    have := congrArg List.length hr
    simpa using this
  rw [hl, hlen]
  refine ⟨hb.valid, ?_⟩
  intro k p hp
  obtain ⟨p0, hp0, hrect⟩ := rect_get hr hp
  obtain ⟨x, y, top, a, c, h1, h2, h3, h4, h5, h6, h7, h8⟩ := hb.geom k p0 hp0
  have hreg := runPortal_regions dd top hs h3 h4 h5
  simp only [] at hreg
  rw [← h6] at hreg
  simp only [PathPortal.rect, Prod.mk.injEq] at hrect
  obtain ⟨r1, r2, r3, r4⟩ := hrect
  rw [← r1, ← r2, ← r3, ← r4, hreg.1, hreg.2]
  refine ⟨nbrIdx_lt h1 h3, h7, ?_⟩
  intro r l hrl
  rw [h8 r l hrl]
  exact Or.comm

/-- Witness for C18: the graph built on `detour`, with two portals on the border between
its two regions. -/
theorem prebuild_map_region_lists_witness :
    detour.WF ∧ prebuild_map fscoreFix 10 detour = .ok detourPortals ∧
    (∀ r l, detourPortals.tilePortalsIndices.get? r = some l →
        ∀ k ∈ l, k < detourPortals.portals.length) ∧
      ∀ k p, detourPortals.portals.get? k = some p →
        regionIndex detour 10 p.startX p.startY < regionIndex detour 10 p.endX p.endY ∧
        regionIndex detour 10 p.endX p.endY < detourPortals.tilePortalsIndices.length ∧
        ∀ r l, detourPortals.tilePortalsIndices.get? r = some l →
          (k ∈ l ↔ (r = regionIndex detour 10 p.startX p.startY ∨
            r = regionIndex detour 10 p.endX p.endY)) :=
  ⟨by decide, by rfl,
    prebuild_map_region_lists fscoreFix 10 detour detourPortals (by decide) (by rfl)⟩

/-! ## Claims about check_border -/

/-- C16: on a well-formed grid, for the top border (`top = true`, scanned along x with the
neighbour one row up) or the left border (`top = false`, scanned along y with the neighbour
one column to the left) of a region that has a region across that border, `check_border`
emits one portal per maximal run of border positions at which both the cell and its
neighbour across the border are non-wall: the runs are exactly the maximal ones, they come
in increasing order, the portal of a run is the rectangle covering the run on both sides
of the border, and every cell of every such rectangle is a non-wall cell of the grid. -/
theorem check_border_maximal_runs (dd : DungeonData) (split xx yy : Nat) (top : Bool)
    (hwf : dd.WF) (hs : 0 < split) (hx : xx < dd.width / split) (hy : yy < dd.height / split)
    (hpos : if top then 0 < yy else 0 < xx) :
    ∃ spans : List (Nat × Nat),
      check_border dd split xx yy (if top then 1 else 0) (if top then 0 else 1)
          (if top then 0 else -1) (if top then -1 else 0) []
        = .ok (spans.map (fun s => runPortal split xx yy top s.1 s.2)) ∧
      (∀ a b, (a, b) ∈ spans ↔ IsMaxRun (borderOpen dd split xx yy top) split a b) ∧
      spans.Pairwise (fun s t => s.2 < t.1) ∧
      ∀ s ∈ spans, ∀ x y,
        (runPortal split xx yy top s.1 s.2).startX ≤ x →
        x ≤ (runPortal split xx yy top s.1 s.2).endX →
        (runPortal split xx yy top s.1 s.2).startY ≤ y →
        y ≤ (runPortal split xx yy top s.1 s.2).endY → openAt dd x y := by
  obtain ⟨spans, h1, h2, h3⟩ := check_border_spec hwf hs hx hy top hpos []
  refine ⟨spans, by simpa using h1, h2, h3, ?_⟩
  intro s hsm x y hx1 hx2 hy1 hy2
  have hrun := (h2 s.1 s.2).mp hsm
  obtain ⟨hab, hb, hopen, _, _⟩ := hrun
  cases top with
  | true =>
    simp only [if_true] at hpos
    simp only [runPortal, if_true] at hx1 hx2 hy1 hy2
    have hpos2 : 0 < yy * split := Nat.mul_pos hpos hs
    have ho := hopen (x - xx * split) (by omega) (by omega)
    simp only [borderOpen, if_true] at ho
    have e : xx * split + (x - xx * split) = x := by omega
    rw [e] at ho
    rcases Nat.eq_or_lt_of_le hy2 with h | h
    · rw [h]; exact ho.1
    · have : y = yy * split - 1 := by omega
      rw [this]; exact ho.2
  | false =>
    simp only [Bool.false_eq_true, if_false] at hpos
    simp only [runPortal, Bool.false_eq_true, if_false] at hx1 hx2 hy1 hy2
    have hpos2 : 0 < xx * split := Nat.mul_pos hpos hs
    have ho := hopen (y - yy * split) (by omega) (by omega)
    simp only [borderOpen, Bool.false_eq_true, if_false] at ho
    have e : yy * split + (y - yy * split) = y := by omega
    rw [e] at ho
    rcases Nat.eq_or_lt_of_le hx2 with h | h
    · rw [h]; exact ho.1
    · have : x = xx * split - 1 := by omega
      rw [this]; exact ho.2

/-- Witness for C16: the top border of the lower region of `detour`, where the columns 0
and 2 are the two maximal runs. -/
theorem check_border_maximal_runs_witness :
    detour.WF ∧ check_border detour 10 0 1 1 0 0 (-1) [] =
        .ok [⟨0, 9, 0, 10, []⟩, ⟨2, 9, 2, 10, []⟩] ∧
      ∃ spans : List (Nat × Nat),
        check_border detour 10 0 1 1 0 0 (-1) []
          = .ok (spans.map (fun s => runPortal 10 0 1 true s.1 s.2)) ∧
        (∀ a b, (a, b) ∈ spans ↔ IsMaxRun (borderOpen detour 10 0 1 true) 10 a b) ∧
        spans.Pairwise (fun s t => s.2 < t.1) ∧
        ∀ s ∈ spans, ∀ x y,
          (runPortal 10 0 1 true s.1 s.2).startX ≤ x →
          x ≤ (runPortal 10 0 1 true s.1 s.2).endX →
          (runPortal 10 0 1 true s.1 s.2).startY ≤ y →
          y ≤ (runPortal 10 0 1 true s.1 s.2).endY → openAt detour x y :=
  ⟨by decide, by rfl,
    check_border_maximal_runs detour 10 0 1 true (by decide) (by decide) (by decide)
      (by decide) (by decide)⟩

/-! ## Claims about the portals and edge weights of prebuild_map -/

/-- C15: on the 10x10 all-floor grid with regions of 5x5 cells, the border scan and
registration of `prebuild_map` yield four region lists and four portals, one for each of
the four borders between adjacent regions, each portal spanning the five cells of its
border on both sides; the stored graph has these region lists and these rectangles. -/
theorem prebuild_map_open10_portals :
    scanRegions open10 5 (open10.width / 5)
        ((List.range (open10.height / 5)).flatMap (fun y =>
          (List.range (open10.width / 5)).map (fun x => (x, y)))) ⟨[], []⟩
      = .ok ⟨[⟨4, 0, 5, 4, []⟩, ⟨0, 4, 4, 5, []⟩, ⟨5, 4, 9, 5, []⟩, ⟨4, 5, 5, 9, []⟩],
          [[0, 1], [0, 2], [1, 3], [2, 3]]⟩ ∧
      prebuild_map fscoreFix 5 open10 = .ok open10Portals ∧
      open10Portals.tilePortalsIndices = [[0, 1], [0, 2], [1, 3], [2, 3]] ∧
      open10Portals.portals.map PathPortal.rect =
        [(4, 0, 5, 4), (0, 4, 4, 5), (5, 4, 9, 5), (4, 5, 5, 9)] := by
  exact ⟨open10_scan, open10_prebuild fscoreFix, rfl, rfl⟩

/-- C14 fails as stated: on the 10x10 all-floor grid with regions of 5x5 cells the edge
recorded between the portals 0 and 1 of region 0 has weight 1, and so has every recorded
edge, while the centres (4,2) and (2,4) of the two portals are 4 steps apart: the path
`find_path_a_star` returns between them inside the region has 5 cells, and no path
between them inside the region has fewer. -/
theorem prebuild_map_open10_weight_not_centre_distance :
    prebuild_map fscoreFix 5 open10 = .ok open10Portals ∧
      open10Portals.portals.get? 0 = some ⟨4, 0, 5, 4, [⟨1, 1⟩, ⟨2, 1⟩]⟩ ∧
      open10Portals.portals.get? 1 = some ⟨0, 4, 4, 5, [⟨0, 1⟩, ⟨3, 1⟩]⟩ ∧
      open10Portals.tilePortalsIndices.get? 0 = some [0, 1] ∧
      portalCentre ⟨4, 0, 5, 4, []⟩ = ⟨4, 2⟩ ∧ portalCentre ⟨0, 4, 4, 5, []⟩ = ⟨2, 4⟩ ∧
      find_path_a_star fscoreFix open10 ⟨4, 2⟩ ⟨2, 4⟩ (tileLimMin 5 2 0) (tileLimMax 5 2 0)
        = .ok [⟨4, 2⟩, ⟨3, 2⟩, ⟨3, 3⟩, ⟨2, 3⟩, ⟨2, 4⟩] ∧
      (∀ path, ValidPath open10 ⟨4, 2⟩ ⟨2, 4⟩ (tileLimMin 5 2 0) (tileLimMax 5 2 0) path →
        5 ≤ path.length) ∧
      (∀ p ∈ open10Portals.portals, ∀ c ∈ p.conns, c.score = 1) := by
  have hp : find_path_a_star fscoreFix open10 ⟨4, 2⟩ ⟨2, 4⟩ (tileLimMin 5 2 0)
      (tileLimMax 5 2 0) = .ok [⟨4, 2⟩, ⟨3, 2⟩, ⟨3, 3⟩, ⟨2, 3⟩, ⟨2, 4⟩] := by rfl
  refine ⟨open10_prebuild fscoreFix, by rfl, by rfl, by rfl, by rfl, by rfl, hp, ?_, by decide⟩
  intro path hpath
  obtain ⟨best, hb, _, hle⟩ := find_path_a_star_le fscoreFix (show open10.WF by decide)
    (show LimInGrid open10 (tileLimMin 5 2 0) (tileLimMax 5 2 0) by decide)
    (show InGrid open10 ⟨4, 2⟩ by decide)
    (fscoreFix_faithful _ (by decide)) hpath
  rw [hp] at hb
  cases hb
  exact hle

/-- C14 (as amended): in every portal graph that `prebuild_map` builds on a well-formed
grid, every connection `(j, w)` stored at portal `i` comes from a region whose list holds
both `i` and `j`, and `w` is `float(m)` for the value `m` of `minDist` over the cell pairs of
the two portals clipped to that region: every pair got a path from `find_path_a_star`
inside the region, `m` is at most the number of cells of each of these paths, and `m` is
the number of cells of one of them (or the initial `0xffffffff`). -/
theorem prebuild_map_weight_min_cells {S : Type} [LinearOrder S] (fscore : Nat → Nat → S)
    (split : Nat) (dd : DungeonData) (dp : DungeonPortals) (hwf : dd.WF)
    (h : prebuild_map fscore split dd = .ok dp) :
    ∀ i p, dp.portals.get? i = some p → ∀ c ∈ p.conns,
      ∃ r l q m, dp.tilePortalsIndices.get? r = some l ∧ i ∈ l ∧ c.connIdx ∈ l ∧
        dp.portals.get? c.connIdx = some q ∧ c.score = floatOfSize m ∧
        (MinPairLength fscore dd (tileLimMin split (dd.width / split) r)
            (tileLimMax split (dd.width / split) r) p q m ∨
          MinPairLength fscore dd (tileLimMin split (dd.width / split) r)
            (tileLimMax split (dd.width / split) r) q p m) := by
  obtain ⟨_, b, hb, _, hc, hl, _⟩ := prebuild_map_inv fscore hwf h
  intro i p hp c hcm
  have h0 : ∀ i p, b.portals.get? i = some p → p.conns = [] := by
    intro i p hp
    obtain ⟨x, y, top, a, c2, _, _, _, _, _, h6, _⟩ := hb.geom i p hp
    subst h6
    unfold runPortal
    split <;> rfl
  obtain ⟨r, hr, h1, h2, q, m, h3, h4, h5⟩ :=
    connectRegions_just fscore _ _ _ h0 hc i p hp c hcm
  have hr2 : b.tilePortalsIndices.get? r.1 = some r.2 := by
    rw [List.get?_eq_getElem?]
    exact List.mem_enum_iff_getElem?.mp hr
  refine ⟨r.1, r.2, q, m, by rw [hl]; exact hr2, h1, h2, h3, h4, ?_⟩
  rcases h5 with h5 | h5
  · left
    obtain ⟨k1, k2, k3⟩ := scanPairs_spec fscore _ _ _ h5
    exact ⟨k1, k2, k3⟩
  · right
    obtain ⟨k1, k2, k3⟩ := scanPairs_spec fscore _ _ _ h5
    exact ⟨k1, k2, k3⟩

/-- Witness for C14 (as amended): the graph built on `detour`, whose only edge has
weight 3. -/
theorem prebuild_map_weight_min_cells_witness :
    detour.WF ∧ prebuild_map fscoreFix 10 detour = .ok detourPortals ∧
      ∀ i p, detourPortals.portals.get? i = some p → ∀ c ∈ p.conns,
        ∃ r l q m, detourPortals.tilePortalsIndices.get? r = some l ∧ i ∈ l ∧
          c.connIdx ∈ l ∧ detourPortals.portals.get? c.connIdx = some q ∧
          c.score = floatOfSize m ∧
          (MinPairLength fscoreFix detour (tileLimMin 10 (detour.width / 10) r)
              (tileLimMax 10 (detour.width / 10) r) p q m ∨
            MinPairLength fscoreFix detour (tileLimMin 10 (detour.width / 10) r)
              (tileLimMax 10 (detour.width / 10) r) q p m) :=
  ⟨by decide, by rfl,
    prebuild_map_weight_min_cells fscoreFix 10 detour detourPortals (by decide) (by rfl)⟩

/-! ## Claims about the seeding and the frame of the influence maps -/

/-- C19 fails as stated: on the 2x2 all-floor grid with the threshold 10, a requester with
100 hit points and a same-team ally with 1 hit point give no seed at all, and a requester
with 1 hit point and a same-team ally with 100 hit points give a seed at the ally's cell:
the test reads the hit points of the requester, not those of the ally. -/
theorem seed_allies_reads_requester_hp :
    [(⟨0, ⟨0, 0⟩, 1, 100⟩ : Ally), ⟨1, ⟨1, 0⟩, 1, 1⟩].find? (fun a => a.id = 0)
        = some ⟨0, ⟨0, 0⟩, 1, 100⟩ ∧
      seed_allies open2 0 1 100 10 [⟨0, ⟨0, 0⟩, 1, 100⟩, ⟨1, ⟨1, 0⟩, 1, 1⟩] (init_tiles open2)
        = .ok [100000, 100000, 100000, 100000] ∧
      gen_ally_map open2 [⟨0, ⟨0, 0⟩, 1, 100⟩, ⟨1, ⟨1, 0⟩, 1, 1⟩] 0 10 1
        = .ok [100000, 100000, 100000, 100000] ∧
      seed_allies open2 0 1 1 10 [⟨0, ⟨0, 0⟩, 1, 1⟩, ⟨1, ⟨1, 0⟩, 1, 100⟩] (init_tiles open2)
        = .ok [100000, 0, 100000, 100000] := by
  refine ⟨by rfl, by decide!, by decide!, by decide!⟩

/-- C19 (as amended): on a well-formed grid with every listed entity in the grid, the
seeding loop of `gen_ally_map` run for the requester `r` returns a field in which a cell
holds 0 exactly when the requester's own hit points are below `crit_hp` and the cell is
occupied by an entity of the requester's team other than the requester; every other cell
holds the sentinel. -/
theorem seed_allies_cells (dd : DungeonData) (actors : List Ally) (r : Ally) (crit_hp : ℚ)
    (hwf : dd.WF) (hin : ∀ a ∈ actors, InGrid dd a.pos) :
    ∃ m, seed_allies dd r.id r.team r.hitpoints crit_hp actors (init_tiles dd) = .ok m ∧
      ∀ q, InGrid dd q →
        ((r.hitpoints < crit_hp ∧ ∃ a ∈ actors, a.id ≠ r.id ∧ a.team = r.team ∧ a.pos = q) →
          m.get? (coord_to_idx q.x q.y dd.width) = some 0) ∧
        (¬ (r.hitpoints < crit_hp ∧ ∃ a ∈ actors, a.id ≠ r.id ∧ a.team = r.team ∧ a.pos = q) →
          m.get? (coord_to_idx q.x q.y dd.width) = some invalid_tile_value) := by
  rw [seed_allies_eq]
  obtain ⟨m, e, _, h1, h2⟩ := seedCells_spec hwf
    ((actors.filter (fun a =>
      decide (r.id ≠ a.id ∧ a.team = r.team ∧ r.hitpoints < crit_hp))).map (fun a => a.pos))
    (init_tiles dd) (by simp [init_tiles]) (by
      intro p hp
      obtain ⟨a, ha, rfl⟩ := List.mem_map.mp hp
      exact hin a (List.mem_of_mem_filter ha))
  refine ⟨m, e, ?_⟩
  intro q hq
  constructor
  · rintro ⟨hlow, a, ha, hid, hteam, hpos⟩
    apply h1 q hq
    apply List.mem_map.mpr
    refine ⟨a, List.mem_filter.mpr ⟨ha, ?_⟩, hpos⟩
    exact decide_eq_true ⟨fun h => hid h.symm, hteam, hlow⟩
  · intro hnot
    rw [h2]
    · exact init_tiles_get (coord_to_idx_lt hwf hq)
    · intro p hp hidx
      obtain ⟨a, ha, rfl⟩ := List.mem_map.mp hp
      obtain ⟨ha1, ha2⟩ := List.mem_filter.mp ha
      have ha3 := of_decide_eq_true ha2
      apply hnot
      refine ⟨ha3.2.2, a, ha1, fun h => ha3.1 h.symm, ha3.2.1, ?_⟩
      exact coord_to_idx_inj hwf (hin a ha1) hq hidx

/-- Witness for C19 (as amended): the 2x2 all-floor grid with a requester at (0,0) and a
same-team ally at (1,0). -/
theorem seed_allies_cells_witness :
    open2.WF ∧
      ∃ m, seed_allies open2 0 1 1 10 [⟨0, ⟨0, 0⟩, 1, 1⟩, ⟨1, ⟨1, 0⟩, 1, 100⟩] (init_tiles open2)
          = .ok m ∧
        ∀ q, InGrid open2 q →
          (((1 : ℚ) < 10 ∧ ∃ a ∈ [(⟨0, ⟨0, 0⟩, 1, 1⟩ : Ally), ⟨1, ⟨1, 0⟩, 1, 100⟩],
              a.id ≠ 0 ∧ a.team = 1 ∧ a.pos = q) →
            m.get? (coord_to_idx q.x q.y open2.width) = some 0) ∧
          (¬ ((1 : ℚ) < 10 ∧ ∃ a ∈ [(⟨0, ⟨0, 0⟩, 1, 1⟩ : Ally), ⟨1, ⟨1, 0⟩, 1, 100⟩],
              a.id ≠ 0 ∧ a.team = 1 ∧ a.pos = q) →
            m.get? (coord_to_idx q.x q.y open2.width) = some invalid_tile_value) :=
  ⟨by decide,
    seed_allies_cells open2 [⟨0, ⟨0, 0⟩, 1, 1⟩, ⟨1, ⟨1, 0⟩, 1, 100⟩] ⟨0, ⟨0, 0⟩, 1, 1⟩ 10
      (by decide) (by decide)⟩

/-- C22: for a fixed grid, fixed actors and a fixed number of passes, what
`gen_player_approach_map` writes does not depend on the vector it is given: any two earlier
contents give the same result, the result is the one obtained from an empty vector, and
generating again into the vector just written gives that result again. -/
theorem gen_player_approach_map_from_any (dd : DungeonData) (actors : List Actor)
    (fuel : Nat) (prev1 prev2 : List ℚ) :
    gen_player_approach_map_from prev1 dd actors fuel
        = gen_player_approach_map_from prev2 dd actors fuel ∧
      gen_player_approach_map_from prev1 dd actors fuel
        = gen_player_approach_map dd actors fuel ∧
      (gen_player_approach_map_from prev1 dd actors fuel).bind
          (fun m => gen_player_approach_map_from m dd actors fuel)
        = gen_player_approach_map_from prev1 dd actors fuel := by
  have key : ∀ prev, gen_player_approach_map_from prev dd actors fuel
      = gen_player_approach_map dd actors fuel := by
    intro prev
    unfold gen_player_approach_map_from gen_player_approach_map
    rw [init_tiles_from_eq]
    try rfl
  refine ⟨by rw [key, key], key prev1, ?_⟩
  rw [key]
  cases h : gen_player_approach_map dd actors fuel with
  | error e => rfl
  | ok m =>
    show gen_player_approach_map_from m dd actors fuel = _
    rw [key, h]

/-- C23 fails as stated: on the 2x2 grid with a wall at (1,0) and a team-0 actor placed on
that in-grid wall cell, the field holds 0 at the wall cell. -/
theorem gen_player_approach_map_wall_seed :
    InGrid walled2 ⟨1, 0⟩ ∧ tileAt walled2 ⟨1, 0⟩ = some Tile.wall ∧
      gen_player_approach_map walled2 [⟨⟨1, 0⟩, 0⟩] 1 = .ok [100000, 0, 100000, 100000] := by
  refine ⟨by decide, by rfl, by decide!⟩

/-- C23 (as amended): on a well-formed grid with every team-0 actor in the grid, in every
field that `gen_player_approach_map` returns a wall cell holds the sentinel `1e5` unless a
team-0 actor stands on it, in which case it holds 0: the relaxation writes no wall cell,
the seeding writes the cells of the team-0 actors whatever their tile. -/
theorem gen_player_approach_map_walls (dd : DungeonData) (actors : List Actor) (fuel : Nat)
    (m : List ℚ) (hwf : dd.WF) (hin : ∀ a ∈ actors, a.team = 0 → InGrid dd a.pos)
    (h : gen_player_approach_map dd actors fuel = .ok m) :
    ∀ q, InGrid dd q → tileAt dd q = some Tile.wall →
      ((∀ a ∈ actors, a.team = 0 → a.pos ≠ q) →
        m.get? (coord_to_idx q.x q.y dd.width) = some invalid_tile_value) ∧
      ((∃ a ∈ actors, a.team = 0 ∧ a.pos = q) →
        m.get? (coord_to_idx q.x q.y dd.width) = some 0) := by
  intro q hq hwall
  unfold gen_player_approach_map at h
  rw [seed_players_eq] at h
  obtain ⟨m0, e, _, h1, h2⟩ := seedCells_spec hwf
    ((actors.filter (fun a : Actor => decide (a.team = 0))).map (fun a : Actor => a.pos))
    (init_tiles dd) (by simp [init_tiles]) (by
      intro p hp
      obtain ⟨a, ha, rfl⟩ := List.mem_map.mp hp
      obtain ⟨ha1, ha2⟩ := List.mem_filter.mp ha
      exact hin a ha1 (of_decide_eq_true ha2))
  rw [e] at h
  simp only [] at h
  have hfr := process_dmap_frame fuel m0 m h (coord_to_idx q.x q.y dd.width) (by
    unfold tileAt at hwall
    rw [hwall]; simp)
  rw [hfr]
  constructor
  · intro hfree
    rw [h2]
    · exact init_tiles_get (coord_to_idx_lt hwf hq)
    · intro p hp hidx
      obtain ⟨a, ha, rfl⟩ := List.mem_map.mp hp
      obtain ⟨ha1, ha2⟩ := List.mem_filter.mp ha
      have ht := of_decide_eq_true ha2
      exact hfree a ha1 ht (coord_to_idx_inj hwf (hin a ha1 ht) hq hidx)
  · rintro ⟨a, ha, ht, hpos⟩
    apply h1 q hq
    exact List.mem_map.mpr ⟨a, List.mem_filter.mpr ⟨ha, decide_eq_true ht⟩, hpos⟩

/-- Witness for C23 (as amended): the 2x2 grid with a wall at (1,0) and a team-0 actor on
the floor cell (0,0). -/
theorem gen_player_approach_map_walls_witness :
    walled2.WF ∧ gen_player_approach_map walled2 [⟨⟨0, 0⟩, 0⟩] 2 = .ok [0, 100000, 1, 2] ∧
      ∀ q, InGrid walled2 q → tileAt walled2 q = some Tile.wall →
        ((∀ a ∈ [(⟨⟨0, 0⟩, 0⟩ : Actor)], a.team = 0 → a.pos ≠ q) →
          ([0, 100000, 1, 2] : List ℚ).get? (coord_to_idx q.x q.y walled2.width)
            = some invalid_tile_value) ∧
        ((∃ a ∈ [(⟨⟨0, 0⟩, 0⟩ : Actor)], a.team = 0 ∧ a.pos = q) →
          ([0, 100000, 1, 2] : List ℚ).get? (coord_to_idx q.x q.y walled2.width) = some 0) :=
  ⟨by decide, by decide!,
    gen_player_approach_map_walls walled2 [⟨⟨0, 0⟩, 0⟩] 2 [0, 100000, 1, 2] (by decide)
      (by decide) (by decide!)⟩

/-- C29, the code at the failing input: on the all-floor grid `wide` (width 2, height 1)
seeded at (0,0), the look-up `getMapAt(0, 1, _)` made for the cell (0,0) passes the test
`y < dd.width` and reads `dd.tiles` at the index 2 = width * height, outside the array;
every run of `process_dmap` makes this read in its first pass. -/
theorem process_dmap_wide_out_of_range :
    wide.WF ∧ 0 < wide.width ∧ 0 < wide.height ∧
      seed_players wide [⟨⟨0, 0⟩, 0⟩] (init_tiles wide) = .ok [0, 100000] ∧
      1 * wide.width + 0 = wide.width * wide.height ∧
      wide.tiles.get? (1 * wide.width + 0) = none ∧
      getMapAt wide [0, 100000] 0 1 0 = .error .outOfRange ∧
      getMinNei wide [0, 100000] 0 0 = .error .outOfRange ∧
      ∀ fuel : Nat, process_dmap wide (fuel + 1) [0, 100000] = .error .outOfRange := by
  refine ⟨by decide, by decide, by decide, by decide!, by decide, by rfl, by decide!,
    by decide!, ?_⟩
  intro fuel
  have hp : dmap_pass wide (scanOrder wide) ([0, 100000], true) = .error .outOfRange := by
    decide!
  unfold process_dmap
  rw [hp]

/-! ## Claims about the region index, the portal centres and the portal heuristic -/

/-- C24: for every portal graph with a non-zero region size, every grid and every two
cells to which `find_hierarchical_path` assigns the same region, the result is the result
of `find_path_a_star` for the same source and destination with the box of that region as
its bound; for a source `(x, y)` with natural coordinates below `2^31 - split` that region
is `(x / split, y / split)` and its box is `[region * split, (region + 1) * split)` on both
axes. -/
theorem find_hierarchical_path_same_region {S : Type} [LinearOrder S]
    (fscore : Nat → Nat → S) (dp : DungeonPortals) (dd : DungeonData) (src dst : IVec2)
    (hs : dp.tileSplit ≠ 0) (hreg : tileOf dp src = tileOf dp dst) :
    find_hierarchical_path fscore dp dd src dst =
        find_path_a_star fscore dd src dst (regionMin dp (tileOf dp src))
          (regionMax dp (tileOf dp src)) ∧
      ∀ x y : Nat, src = ⟨x, y⟩ → x + dp.tileSplit < 2 ^ 31 → y + dp.tileSplit < 2 ^ 31 →
        tileOf dp src = ⟨(x / dp.tileSplit : Nat), (y / dp.tileSplit : Nat)⟩ ∧
        regionMin dp (tileOf dp src)
          = ⟨(x / dp.tileSplit * dp.tileSplit : Nat), (y / dp.tileSplit * dp.tileSplit : Nat)⟩ ∧
        regionMax dp (tileOf dp src)
          = ⟨((x / dp.tileSplit + 1) * dp.tileSplit : Nat),
              ((y / dp.tileSplit + 1) * dp.tileSplit : Nat)⟩ := by
  constructor
  · unfold find_hierarchical_path
    rw [if_neg hs]
    simp only [hreg, if_true]
  · intro x y hsrc hx hy
    subst hsrc
    have hs0 : 0 < dp.tileSplit := Nat.pos_of_ne_zero hs
    obtain ⟨kx1, kx2, kx3⟩ := region_of_nat hs0 hx
    obtain ⟨ky1, ky2, ky3⟩ := region_of_nat hs0 hy
    have ht : tileOf dp ⟨x, y⟩ = ⟨(x / dp.tileSplit : Nat), (y / dp.tileSplit : Nat)⟩ := by
      unfold tileOf
      simp only []
      rw [kx1, ky1]
    refine ⟨ht, ?_, ?_⟩
    · rw [ht]; unfold regionMin; simp only []; rw [kx2, ky2]
    · rw [ht]; unfold regionMax; simp only []; rw [kx3, ky3]

/-- Witness for C24: the cells (0,0) and (0,9) of `detour` lie in the same region. -/
theorem find_hierarchical_path_same_region_witness :
    find_hierarchical_path fscoreFix detourPortals detour ⟨0, 0⟩ ⟨0, 9⟩ =
        find_path_a_star fscoreFix detour ⟨0, 0⟩ ⟨0, 9⟩
          (regionMin detourPortals (tileOf detourPortals ⟨0, 0⟩))
          (regionMax detourPortals (tileOf detourPortals ⟨0, 0⟩)) ∧
      find_hierarchical_path fscoreFix detourPortals detour ⟨0, 0⟩ ⟨0, 9⟩ =
        .ok ((List.range 10).map (fun i => ⟨0, (i : Int)⟩)) :=
  ⟨(find_hierarchical_path_same_region fscoreFix detourPortals detour ⟨0, 0⟩ ⟨0, 9⟩
    (by decide) (by decide)).1, by rfl⟩

/-- C27, the code at the failing input: on the 10x10 all-floor grid with regions of 5x5
cells, `prebuild_map` records an edge of weight 1 between the portals 0 and 1, whose
centres (4,2) and (2,4) have squared distance 8; the heuristic of the portal search,
`sqrt 8`, exceeds the weight of the edge. -/
theorem portal_heuristic_exceeds_weight :
    prebuild_map fscoreFix 5 open10 = .ok open10Portals ∧
      open10Portals.portals.get? 0 = some ⟨4, 0, 5, 4, [⟨1, 1⟩, ⟨2, 1⟩]⟩ ∧
      open10Portals.portals.get? 1 = some ⟨0, 4, 4, 5, [⟨0, 1⟩, ⟨3, 1⟩]⟩ ∧
      portalCentre ⟨4, 0, 5, 4, [⟨1, 1⟩, ⟨2, 1⟩]⟩ = ⟨4, 2⟩ ∧
      portalCentre ⟨0, 4, 4, 5, [⟨0, 1⟩, ⟨3, 1⟩]⟩ = ⟨2, 4⟩ ∧
      portal_heuristic ⟨4, 0, 5, 4, [⟨1, 1⟩, ⟨2, 1⟩]⟩ ⟨0, 4, 4, 5, [⟨0, 1⟩, ⟨3, 1⟩]⟩ = 8 ∧
      ¬ (portal_heuristic ⟨4, 0, 5, 4, [⟨1, 1⟩, ⟨2, 1⟩]⟩ ⟨0, 4, 4, 5, [⟨0, 1⟩, ⟨3, 1⟩]⟩
          ≤ 1 * 1) := by
  refine ⟨open10_prebuild fscoreFix, by rfl, by rfl, by rfl, by rfl, by rfl, by decide⟩

/-- C28, the code at the failing input: on the grid `corner` the graph built by
`prebuild_map` has two different portals, one on the left border of the upper right region
and one on the top border of the lower left region, with the same centre cell (9,9) and
so the same index into the cost and predecessor arrays of `find_path_a_star_portal`; a
search started at the first reads the cost 0 for the second before having reached it. -/
theorem prebuild_map_corner_centres_alias :
    corner.WF ∧ prebuild_map fscoreFix 10 corner = .ok cornerPortals ∧
      cornerPortals.portals.get? 0 = some ⟨9, 9, 10, 9, [⟨1, 1⟩]⟩ ∧
      cornerPortals.portals.get? 1 = some ⟨9, 9, 9, 10, [⟨0, 1⟩]⟩ ∧
      (⟨9, 9, 10, 9, [⟨1, 1⟩]⟩ : PathPortal) ≠ ⟨9, 9, 9, 10, [⟨0, 1⟩]⟩ ∧
      portalCentre ⟨9, 9, 10, 9, [⟨1, 1⟩]⟩ = ⟨9, 9⟩ ∧
      portalCentre ⟨9, 9, 9, 10, [⟨0, 1⟩]⟩ = ⟨9, 9⟩ ∧
      portal_to_idx ⟨9, 9, 10, 9, [⟨1, 1⟩]⟩ corner.width
        = portal_to_idx ⟨9, 9, 9, 10, [⟨0, 1⟩]⟩ corner.width ∧
      getGP ⟨(List.replicate 400 none).set (portal_to_idx ⟨9, 9, 10, 9, [⟨1, 1⟩]⟩ 20) (some 0),
          List.replicate 400 noPrev, [⟨9, 9, 10, 9, [⟨1, 1⟩]⟩], []⟩ 20
        ⟨9, 9, 9, 10, [⟨0, 1⟩]⟩ = some 0 := by
  refine ⟨⟨by rfl, by decide, by decide⟩, by rfl, by rfl, by rfl, by decide, by rfl, by rfl,
    by rfl, by rfl⟩

/-- C30, the code at the failing input: on the 15x20 all-floor grid `strip` with the graph
built for region size 10 there are 2 = (15 / 10) * (20 / 10) region lists; the in-grid cell
(12,10) has the region index 2, outside the vector of lists, and the in-grid cell (12,0)
has the region index 1, the list of the region whose box `[0,10) x [10,20)` does not
contain it. -/
theorem get_shortest_path_portal_strip_out_of_range :
    strip.WF ∧ prebuild_map fscoreFix 10 strip = .ok stripPortals ∧
      stripPortals.tilePortalsIndices.length = strip.width / 10 * (strip.height / 10) ∧
      InGrid strip ⟨12, 10⟩ ∧ regionIndex strip 10 12 10 = 2 ∧
      get_shortest_path_portal fscoreFix strip stripPortals ⟨12, 10⟩
        (tileOf stripPortals ⟨12, 10⟩) PathPortal.zero = .error .outOfRange ∧
      find_hierarchical_path fscoreFix stripPortals strip ⟨12, 10⟩ ⟨0, 0⟩
        = .error .outOfRange ∧
      InGrid strip ⟨12, 0⟩ ∧ regionIndex strip 10 12 0 = 1 ∧
      tileLimMin 10 (strip.width / 10) 1 = ⟨0, 10⟩ ∧
      tileLimMax 10 (strip.width / 10) 1 = ⟨10, 20⟩ ∧
      ¬ InLim (tileLimMin 10 (strip.width / 10) 1) (tileLimMax 10 (strip.width / 10) 1)
        ⟨12, 0⟩ := by
  refine ⟨⟨by rfl, by decide, by decide⟩, by rfl, by rfl, by decide, by rfl, by rfl, by rfl,
    by decide, by rfl, by rfl, by rfl, by decide⟩

/-! ## Claims about the termination of find_path_a_star -/

/-- C26: on a well-formed grid of `N = width * height` cells, for every in-grid source,
every destination and every bound inside the grid, `find_path_a_star` returns; the cells
it expanded are pairwise different cells of the grid (no cell is expanded twice), and the
body of its main loop was entered at most `4 * N + 1` times. -/
theorem find_path_a_star_terminates {S : Type} [LinearOrder S] (fscore : Nat → Nat → S)
    (dd : DungeonData) (src dst lim_min lim_max : IVec2) (hwf : dd.WF)
    (hlim : LimInGrid dd lim_min lim_max) (hsrc : InGrid dd src) :
    ∃ path closed k,
      find_path_a_star_stats fscore dd src dst lim_min lim_max = .ok (path, closed, k) ∧
      find_path_a_star fscore dd src dst lim_min lim_max = .ok path ∧
      closed.Nodup ∧ (∀ c ∈ closed, InGrid dd c) ∧ closed.length ≤ dd.width * dd.height ∧
      k ≤ 4 * (dd.width * dd.height) + 1 := by
  unfold find_path_a_star_stats find_path_a_star
  rw [toInt32_of_lt hwf.2.1, toInt32_of_lt hwf.2.2]
  have hg : ¬ (src.x < 0 ∨ src.y < 0 ∨ src.x ≥ (dd.width : Int) ∨ src.y ≥ (dd.height : Int)) := by
    unfold InGrid at hsrc; omega
  rw [if_neg hg, if_neg hg]
  obtain ⟨path, closed, k, h1, h3, h4, h5⟩ :=
    astar_loop_stats_total fscore hwf dst hlim hsrc (astar_fuel dd)
      (astar_init fscore dd src dst) 0 (astar_init_inv fscore hwf hsrc)
      (by simp [astar_init]) (by simp [astar_init]) (by
        intro q j hq hj
        have hlt := coord_to_idx_lt hwf hsrc
        have hql := coord_to_idx_lt hwf hq
        simp only [astar_init, getG, List.get?_eq_getElem?, List.getElem?_set,
          List.length_replicate, hlt, if_true, List.getElem?_replicate, hql] at hj
        split at hj
        · simp at hj; omega
        · simp at hj) (by simp [astar_init, astar_fuel]; omega)
  have h2 := astar_loop_stats_fst fscore dd dst lim_min lim_max (astar_fuel dd)
    (astar_init fscore dd src dst) 0
  rw [h1] at h2
  refine ⟨path, closed, k, h1, h2.symm, h3, h4, closed_length_le hwf closed h3 h4, ?_⟩
  simp only [astar_init, List.length_singleton, List.length_nil] at h5
  omega

/-- Witness for C26: the search across `grid3` from (0,0) to (2,0). -/
theorem find_path_a_star_terminates_witness :
    grid3.WF ∧ LimInGrid grid3 ⟨0, 0⟩ ⟨3, 3⟩ ∧ InGrid grid3 ⟨0, 0⟩ ∧
      ∃ path closed k,
        find_path_a_star_stats fscoreFix grid3 ⟨0, 0⟩ ⟨2, 0⟩ ⟨0, 0⟩ ⟨3, 3⟩
          = .ok (path, closed, k) ∧
        find_path_a_star fscoreFix grid3 ⟨0, 0⟩ ⟨2, 0⟩ ⟨0, 0⟩ ⟨3, 3⟩ = .ok path ∧
        closed.Nodup ∧ (∀ c ∈ closed, InGrid grid3 c) ∧
        closed.length ≤ grid3.width * grid3.height ∧
        k ≤ 4 * (grid3.width * grid3.height) + 1 :=
  ⟨by decide, by decide, by decide,
    find_path_a_star_terminates fscoreFix grid3 ⟨0, 0⟩ ⟨2, 0⟩ ⟨0, 0⟩ ⟨3, 3⟩ (by decide)
      (by decide) (by decide)⟩

/-! ## Claims about the seeds of gen_range_approach_map -/

/-- C20: on a well-formed grid, for every non-negative range and every list of actors whose
team-0 members are in the grid, the seeding of `gen_range_approach_map` (given at least
`width + height` steps for each line-of-sight walk) returns a field in which a cell of the
grid holds 0 exactly when it is a floor cell for which some team-0 actor at `p` has
`|c.x - p.x| + |c.y - p.y| <= range` and the line-of-sight walk from `p` to the cell steps
onto no wall cell; every other cell holds the sentinel. -/
theorem seed_range_cells_exact (dd : DungeonData) (actors : List Actor) (range : ℚ)
    (fuel : Nat) (hwf : dd.WF) (hr : 0 ≤ range)
    (hin : ∀ a ∈ actors, a.team = 0 → InGrid dd a.pos)
    (hfuel : dd.width + dd.height ≤ fuel) :
    ∃ m, seed_range dd range fuel actors (init_tiles dd) = .ok m ∧
      ∀ c, InGrid dd c →
        ((tileAt dd c = some Tile.floor ∧ ∃ a ∈ actors, a.team = 0 ∧
            ((manhattan c a.pos : Nat) : ℚ) ≤ range ∧ LosClear dd a.pos c) →
          m.get? (coord_to_idx c.x c.y dd.width) = some 0) ∧
        (¬ (tileAt dd c = some Tile.floor ∧ ∃ a ∈ actors, a.team = 0 ∧
            ((manhattan c a.pos : Nat) : ℚ) ≤ range ∧ LosClear dd a.pos c) →
          m.get? (coord_to_idx c.x c.y dd.width) = some invalid_tile_value) := by
  rw [seed_range_eq hwf range hfuel actors _ hin]
  have hmem : ∀ q, q ∈ ((actors.filter (fun a => decide (a.team = 0))).flatMap (fun a =>
      ((rangePairs range).map (fun d => (⟨a.pos.x + d.1, a.pos.y + d.2⟩ : IVec2))).filter
        (fun c => decide (RangeSeed dd range a.pos c)))) ↔
      ∃ a ∈ actors, a.team = 0 ∧ RangeSeed dd range a.pos q := by
    intro q
    simp only [List.mem_flatMap, List.mem_filter, List.mem_map, decide_eq_true_eq]
    constructor
    · rintro ⟨a, ⟨ha, ht⟩, _, hrs⟩
      exact ⟨a, ha, ht, hrs⟩
    · rintro ⟨a, ha, ht, hrs⟩
      refine ⟨a, ⟨ha, ht⟩, ⟨(q.x - a.pos.x, q.y - a.pos.y), ?_, ?_⟩, hrs⟩
      · have hm := hrs.2.2.2
        have hmf : ((manhattan q a.pos : Nat) : Int) ≤ ⌊range⌋ := by
          rw [Int.le_floor]
          exact_mod_cast hm
        unfold manhattan at hmf
        unfold rangePairs
        simp only [List.mem_flatMap, List.mem_map, Prod.mk.injEq]
        refine ⟨q.y - a.pos.y, (mem_rangeOffsets hr _).mpr (by omega), q.x - a.pos.x,
          (mem_rangeOffsets hr _).mpr (by omega), rfl, rfl⟩
      · cases q
        simp
  obtain ⟨m, e, _, h1, h2⟩ := seedCells_spec hwf _ (init_tiles dd) (by simp [init_tiles]) (by
    intro p hp
    obtain ⟨a, _, _, hrs⟩ := (hmem p).mp hp
    exact hrs.1)
  refine ⟨m, e, ?_⟩
  intro c hc
  constructor
  · rintro ⟨hfl, a, ha, ht, hm, hclear⟩
    exact h1 c hc ((hmem c).mpr ⟨a, ha, ht, hc, hfl, hclear, hm⟩)
  · intro hnot
    rw [h2]
    · exact init_tiles_get (coord_to_idx_lt hwf hc)
    · intro p hp hidx
      obtain ⟨a, ha, ht, hrs⟩ := (hmem p).mp hp
      have hpc : p = c := coord_to_idx_inj hwf hrs.1 hc hidx
      subst hpc
      exact hnot ⟨hrs.2.1, a, ha, ht, hrs.2.2.2, hrs.2.2.1⟩

/-- Witness for C20: on `grid3` with a team-0 actor at (0,0) and range 2, the cells (0,0),
(0,1) and (0,2) are seeded; the floor cell (2,0) at distance 2 is not, its walk steps onto
the wall (1,0). -/
theorem seed_range_cells_exact_witness :
    grid3.WF ∧
      seed_range grid3 2 6 [⟨⟨0, 0⟩, 0⟩] (init_tiles grid3)
        = .ok [0, 100000, 100000, 0, 100000, 100000, 0, 100000, 100000] ∧
      ∃ m, seed_range grid3 2 6 [⟨⟨0, 0⟩, 0⟩] (init_tiles grid3) = .ok m ∧
        ∀ c, InGrid grid3 c →
          ((tileAt grid3 c = some Tile.floor ∧ ∃ a ∈ [(⟨⟨0, 0⟩, 0⟩ : Actor)], a.team = 0 ∧
              ((manhattan c a.pos : Nat) : ℚ) ≤ 2 ∧ LosClear grid3 a.pos c) →
            m.get? (coord_to_idx c.x c.y grid3.width) = some 0) ∧
          (¬ (tileAt grid3 c = some Tile.floor ∧ ∃ a ∈ [(⟨⟨0, 0⟩, 0⟩ : Actor)], a.team = 0 ∧
              ((manhattan c a.pos : Nat) : ℚ) ≤ 2 ∧ LosClear grid3 a.pos c) →
            m.get? (coord_to_idx c.x c.y grid3.width) = some invalid_tile_value) :=
  ⟨by decide, by decide!,
    seed_range_cells_exact grid3 [⟨⟨0, 0⟩, 0⟩] 2 6 (by decide) (by norm_num) (by decide)
      (by decide)⟩

/-! ## Claims about the seed of gen_exploration_map -/

/-- C31, the code at the failing input: on the grid `tall` (width 1, height 2, both cells
floor) `getMapAt` reads no row `y >= width`, so the own value of the cell (0,1) reads as
the sentinel and each pass rewrites it to its value plus 1 while that value is below 99999.
From the field `[1e5, 99998]` the relaxation returns `[1e5, 99999]` after two passes; from
the field `[1e5, 0]` that `gen_player_approach_map` seeds for a team-0 actor on (0,1) it
returns `[1e5, 99999]` after 100000 passes: the returned value of the cell (0,1) is greater
than its initial value.  From `[100002, 1e5]` it returns the field unchanged, with the two
adjacent floor cells 2 apart. -/
theorem process_dmap_tall_raises_value :
    tall.WF ∧ floorAt tall 0 0 ∧ floorAt tall 0 1 ∧ NatAdj 0 0 0 1 ∧
      process_dmap tall 2 [100000, 99998] = .ok [100000, 99999] ∧
      seed_players tall [⟨⟨0, 1⟩, 0⟩] (init_tiles tall) = .ok [100000, 0] ∧
      gen_player_approach_map tall [⟨⟨0, 1⟩, 0⟩] 100000 = .ok [100000, 99999] ∧
      process_dmap tall 1 [100002, 100000] = .ok [100002, 100000] := by
  have hs : seed_players tall [⟨⟨0, 1⟩, 0⟩] (init_tiles tall) = .ok [100000, 0] := by decide!
  refine ⟨by decide, ⟨by decide, by decide, by rfl⟩, ⟨by decide, by decide, by rfl⟩,
    by unfold NatAdj; omega, by decide!, hs, ?_, by decide!⟩
  unfold gen_player_approach_map
  rw [hs]
  have := tall_process_raise 99999 0 (by omega)
  simpa using this

/-! ## Claims about the bound of find_path_a_star -/

/-- C32: for every grid, source, destination and bound, every cell of a sequence returned
by `find_path_a_star` other than the source satisfies `lim_min <= p < lim_max`
componentwise (minimum corner inclusive, maximum corner exclusive). -/
theorem find_path_a_star_in_bound {S : Type} [LinearOrder S] (fscore : Nat → Nat → S)
    (dd : DungeonData) (src dst lim_min lim_max : IVec2) (path : List IVec2)
    (h : find_path_a_star fscore dd src dst lim_min lim_max = .ok path) :
    ∀ c ∈ path, c ≠ src →
      lim_min.x ≤ c.x ∧ lim_min.y ≤ c.y ∧ c.x < lim_max.x ∧ c.y < lim_max.y := by
  intro c hc hne
  unfold find_path_a_star at h
  split at h
  · cases h; cases hc
  · rcases astar_loop_limInv fscore _ _ (astar_init_limInv fscore dd src dst lim_min lim_max)
      h c hc with e | e
    · exact absurd e hne
    · exact e

/-- Witness for C32: the search on `grid3` from the top-left to the top-right corner inside
the bound `[(0,0), (3,3))`; the path runs through cells with `x = 0` and with `x = 2`. -/
theorem find_path_a_star_in_bound_witness :
    find_path_a_star fscoreFix grid3 ⟨0,0⟩ ⟨2,0⟩ ⟨0,0⟩ ⟨3,3⟩
        = .ok [⟨0,0⟩, ⟨0,1⟩, ⟨0,2⟩, ⟨1,2⟩, ⟨2,2⟩, ⟨2,1⟩, ⟨2,0⟩] ∧
      ∀ c ∈ ([⟨0,0⟩, ⟨0,1⟩, ⟨0,2⟩, ⟨1,2⟩, ⟨2,2⟩, ⟨2,1⟩, ⟨2,0⟩] : List IVec2), c ≠ ⟨0,0⟩ →
        (0 : Int) ≤ c.x ∧ (0 : Int) ≤ c.y ∧ c.x < 3 ∧ c.y < 3 :=
  ⟨by rfl, find_path_a_star_in_bound fscoreFix grid3 ⟨0,0⟩ ⟨2,0⟩ ⟨0,0⟩ ⟨3,3⟩
    [⟨0,0⟩, ⟨0,1⟩, ⟨0,2⟩, ⟨1,2⟩, ⟨2,2⟩, ⟨2,1⟩, ⟨2,0⟩] (by rfl)⟩

/-! ## Claims about the line-of-sight walk of gen_range_approach_map -/

/-- C33: on a well-formed grid, for every in-grid actor position `p` and in-grid target
cell `c`, the line-of-sight walk of `gen_range_approach_map` returns once it is granted
more than `|c.x - p.x| + |c.y - p.y|` loop tests; it makes at most that many steps, the cell
reached by its step number `i + 1` has Manhattan distance to `c` exactly `i + 1` less than
`p` has, and every cell whose tile it reads lies in the axis-aligned box spanned by `p` and
`c` and in the grid. -/
theorem los_walk_reads_bounded (dd : DungeonData) (p c : IVec2) (fuel : Nat) (hwf : dd.WF)
    (hp : InGrid dd p) (hc : InGrid dd c) (hfuel : manhattan c p < fuel) :
    ∃ vis reads, los_walk_reads dd c fuel p = .ok (vis, reads) ∧
      los_walk dd c fuel p = .ok vis ∧
      reads.length ≤ (c.x - p.x).natAbs + (c.y - p.y).natAbs ∧
      reads = losPath c reads.length p ∧
      (∀ i q, reads.get? i = some q → manhattan c q + (i + 1) = manhattan c p) ∧
      (∀ q ∈ reads, min p.x c.x ≤ q.x ∧ q.x ≤ max p.x c.x ∧
        min p.y c.y ≤ q.y ∧ q.y ≤ max p.y c.y ∧ InGrid dd q) := by
  obtain ⟨vis, reads, e, hl, hpath, hstep, hb⟩ :=
    los_walk_reads_spec hwf hc (manhattan c p) fuel p hp rfl hfuel
  refine ⟨vis, reads, e, ?_, hl, hpath, hstep, ?_⟩
  · rw [← los_walk_reads_fst, e]
    rfl
  · intro q hq
    have := hb q hq
    refine ⟨this.1, this.2.1, this.2.2.1, this.2.2.2, ?_⟩
    unfold InGrid at *
    omega

/-- Witness for C33: on the all-floor 10x10 grid the walk from (0,0) to (2,1) makes three
steps, through (1,0), (1,1) and (2,1). -/
theorem los_walk_reads_bounded_witness :
    open10.WF ∧ InGrid open10 ⟨0, 0⟩ ∧ InGrid open10 ⟨2, 1⟩ ∧ manhattan ⟨2, 1⟩ ⟨0, 0⟩ < 4 ∧
      los_walk_reads open10 ⟨2, 1⟩ 4 ⟨0, 0⟩ = .ok (true, [⟨1, 0⟩, ⟨1, 1⟩, ⟨2, 1⟩]) ∧
      ∃ vis reads, los_walk_reads open10 ⟨2, 1⟩ 4 ⟨0, 0⟩ = .ok (vis, reads) ∧
        los_walk open10 ⟨2, 1⟩ 4 ⟨0, 0⟩ = .ok vis ∧
        reads.length ≤ ((2 : Int) - 0).natAbs + ((1 : Int) - 0).natAbs ∧
        reads = losPath ⟨2, 1⟩ reads.length ⟨0, 0⟩ ∧
        (∀ i q, reads.get? i = some q →
          manhattan ⟨2, 1⟩ q + (i + 1) = manhattan ⟨2, 1⟩ ⟨0, 0⟩) ∧
        (∀ q ∈ reads, min (0 : Int) 2 ≤ q.x ∧ q.x ≤ max (0 : Int) 2 ∧
          min (0 : Int) 1 ≤ q.y ∧ q.y ≤ max (0 : Int) 1 ∧ InGrid open10 q) :=
  ⟨by decide, by decide, by decide, by decide, by rfl,
    los_walk_reads_bounded open10 ⟨0, 0⟩ ⟨2, 1⟩ 4 (by decide) (by decide) (by decide)
      (by decide)⟩

/-! ## Claims about the fallback seed of gen_exploration_map -/

/-- C3, the code at the failing input: on `corridor` with the portal graph built for region
size 10, the query from (8,0) to (11,0) gets the source-side segment (8,0),(9,0), the
portal route (9,0) and, from `get_shortest_path_portal(dd, dp, to, toTile, toPortal)`, the
segment (11,0),(10,0) that runs from the destination to its portal; the three are appended
as computed, so the result ends at the portal cell (10,0) instead of the destination and
steps from (9,0) to (11,0).  With the third segment reversed the sequence would end at
the destination and, the repeated join cell apart, consist of adjacent cells. -/
theorem find_hierarchical_path_not_a_path :
    prebuild_map fscoreFix 10 corridor = .ok corridorPortals ∧
      corridor.WF ∧ InGrid corridor ⟨8,0⟩ ∧ InGrid corridor ⟨11,0⟩ ∧
      tileOf corridorPortals ⟨8,0⟩ ≠ tileOf corridorPortals ⟨11,0⟩ ∧
      get_shortest_path_portal fscoreFix corridor corridorPortals ⟨8,0⟩
        (tileOf corridorPortals ⟨8,0⟩) PathPortal.zero
        = .ok ([⟨8,0⟩, ⟨9,0⟩], ⟨9, 0, 10, 0, []⟩) ∧
      get_shortest_path_portal fscoreFix corridor corridorPortals ⟨11,0⟩
        (tileOf corridorPortals ⟨11,0⟩) PathPortal.zero
        = .ok ([⟨11,0⟩, ⟨10,0⟩], ⟨9, 0, 10, 0, []⟩) ∧
      find_path_a_star_portal fscoreFix corridor corridorPortals
        ⟨9, 0, 10, 0, []⟩ ⟨9, 0, 10, 0, []⟩ = .ok [⟨9,0⟩] ∧
      find_hierarchical_path fscoreFix corridorPortals corridor ⟨8,0⟩ ⟨11,0⟩
        = .ok [⟨8,0⟩, ⟨9,0⟩, ⟨9,0⟩, ⟨11,0⟩, ⟨10,0⟩] ∧
      ([⟨8,0⟩, ⟨9,0⟩, ⟨9,0⟩, ⟨11,0⟩, ⟨10,0⟩] : List IVec2).getLast? = some ⟨10,0⟩ ∧
      ([⟨8,0⟩, ⟨9,0⟩, ⟨9,0⟩, ⟨11,0⟩, ⟨10,0⟩] : List IVec2).getLast? ≠ some ⟨11,0⟩ ∧
      ¬ Adj ⟨9,0⟩ ⟨11,0⟩ ∧
      ¬ List.Chain' Adj ([⟨8,0⟩, ⟨9,0⟩, ⟨9,0⟩, ⟨11,0⟩, ⟨10,0⟩] : List IVec2) ∧
      (([⟨8,0⟩, ⟨9,0⟩] : List IVec2) ++ ([⟨9,0⟩] : List IVec2) ++
        ([⟨11,0⟩, ⟨10,0⟩] : List IVec2).reverse).getLast? = some ⟨11,0⟩ ∧
      List.Chain' (fun a b => a = b ∨ Adj a b)
        (([⟨8,0⟩, ⟨9,0⟩] : List IVec2) ++ ([⟨9,0⟩] : List IVec2) ++
          ([⟨11,0⟩, ⟨10,0⟩] : List IVec2).reverse) := by
  refine ⟨by rfl, by decide, by decide, by decide, by decide, by rfl, by rfl, by rfl, by rfl,
    by decide, by decide, by decide, ?_, by decide, ?_⟩
  · simp [Adj]
  · simp [Adj]

/-- C6, the code at the failing input: on `corridorCut` with the portal graph built for
region size 10, the wall at (5,0) cuts the source (2,0) off from the one portal of its
region, so the source-to-portal search yields no path (and no route to (12,0) exists in the
whole grid); `find_hierarchical_path` tests none of the three results and returns the
portal centre followed by the destination-side segment. -/
theorem find_hierarchical_path_partial :
    prebuild_map fscoreFix 10 corridorCut = .ok corridorPortals ∧
      corridorCut.WF ∧ InGrid corridorCut ⟨2,0⟩ ∧ InGrid corridorCut ⟨12,0⟩ ∧
      tileOf corridorPortals ⟨2,0⟩ ≠ tileOf corridorPortals ⟨12,0⟩ ∧
      find_path_a_star fscoreFix corridorCut ⟨2,0⟩ ⟨9,0⟩ ⟨0,0⟩ ⟨10,10⟩ = .ok [] ∧
      get_shortest_path_portal fscoreFix corridorCut corridorPortals ⟨2,0⟩
        (tileOf corridorPortals ⟨2,0⟩) PathPortal.zero = .ok ([], ⟨9, 0, 10, 0, []⟩) ∧
      get_shortest_path_portal fscoreFix corridorCut corridorPortals ⟨12,0⟩
        (tileOf corridorPortals ⟨12,0⟩) PathPortal.zero
        = .ok ([⟨12,0⟩, ⟨11,0⟩, ⟨10,0⟩], ⟨9, 0, 10, 0, []⟩) ∧
      find_path_a_star_portal fscoreFix corridorCut corridorPortals
        ⟨9, 0, 10, 0, []⟩ ⟨9, 0, 10, 0, []⟩ = .ok [⟨9,0⟩] ∧
      find_path_a_star fscoreFix corridorCut ⟨2,0⟩ ⟨12,0⟩ ⟨0,0⟩ ⟨20,10⟩ = .ok [] ∧
      find_hierarchical_path fscoreFix corridorPortals corridorCut ⟨2,0⟩ ⟨12,0⟩
        = .ok [⟨9,0⟩, ⟨12,0⟩, ⟨11,0⟩, ⟨10,0⟩] := by
  refine ⟨by rfl, by decide, by decide, by decide, by decide, by rfl, by rfl, by rfl, by rfl,
    by rfl, by rfl⟩

/-! ## Claims about the seed of gen_exploration_map on large grids -/

/-- C17 (as amended): in every portal graph that `prebuild_map` builds on a well-formed
grid, a connection to the portal `j` is stored at the portal `i` exactly when, for some
region whose list holds both, every pair of cells, one of each portal's rectangle clipped
to that region, is a pair of identical cells or is joined by a path inside that region
(the portal that stands first in the list being the first of each pair); and every such
connection has the weight `float(m)`, `m` being the value of `minDist` over those pairs in
such a region: at most the number of cells of the path `find_path_a_star` returns for each
pair, and the number of cells of one of them. -/
theorem prebuild_map_edge_iff {S : Type} [LinearOrder S] (fscore : Nat → Nat → S)
    (split : Nat) (dd : DungeonData) (dp : DungeonPortals) (hwf : dd.WF)
    (h : prebuild_map fscore split dd = .ok dp) :
    ∀ i j p q, dp.portals.get? i = some p → dp.portals.get? j = some q →
      ((∃ c ∈ p.conns, c.connIdx = j) ↔
        ∃ r l, dp.tilePortalsIndices.get? r = some l ∧
          ((Before l i j ∧ AllJoined dd (tileLimMin split (dd.width / split) r)
              (tileLimMax split (dd.width / split) r) p q) ∨
            (Before l j i ∧ AllJoined dd (tileLimMin split (dd.width / split) r)
              (tileLimMax split (dd.width / split) r) q p))) ∧
      (∀ c ∈ p.conns, c.connIdx = j →
        ∃ r l m, dp.tilePortalsIndices.get? r = some l ∧ c.score = floatOfSize m ∧
          ((Before l i j ∧ MinPairLength fscore dd (tileLimMin split (dd.width / split) r)
              (tileLimMax split (dd.width / split) r) p q m) ∨
            (Before l j i ∧ MinPairLength fscore dd (tileLimMin split (dd.width / split) r)
              (tileLimMax split (dd.width / split) r) q p m))) := by
  obtain ⟨hs, hlen, ps0, hrect, hconn⟩ := prebuild_map_conns fscore hwf h
  intro i j p q hp hq
  -- a scan of the stored rectangles is a scan of the final portals
  have hscan : ∀ (a b : Nat) (pa pb : PathPortal) (limMin limMax : IVec2) (m : Nat),
      dp.portals.get? a = some pa → dp.portals.get? b = some pb →
      (ScanOk fscore dd limMin limMax ps0 a b m ↔
        scanPairs fscore dd limMin limMax (portalPairs pa pb limMin limMax) 0xffffffff
          = .ok (false, m)) := by
    intro a b pa pb limMin limMax m ha hb
    rw [← scanOk_congr fscore hrect]
    constructor
    · rintro ⟨p2, q2, hp2, hq2, hs2⟩
      rw [ha] at hp2; cases hp2
      rw [hb] at hq2; cases hq2
      exact hs2
    · intro hs2
      exact ⟨pa, pb, ha, hb, hs2⟩
  have hlim : ∀ r l, dp.tilePortalsIndices.get? r = some l →
      LimInGrid dd (tileLimMin split (dd.width / split) r)
        (tileLimMax split (dd.width / split) r) ∧
      (tileLimMin split (dd.width / split) r).x < (tileLimMax split (dd.width / split) r).x ∧
      (tileLimMin split (dd.width / split) r).y < (tileLimMax split (dd.width / split) r).y := by
    intro r l hg
    apply tileLim_inGrid hwf hs
    rw [← hlen]
    rw [List.get?_eq_getElem?] at hg
    by_contra hcon
    rw [List.getElem?_eq_none (Nat.le_of_not_lt hcon)] at hg
    cases hg
  constructor
  · constructor
    · rintro ⟨c, hcm, hcj⟩
      obtain ⟨r, l, hg, i2, j2, m, hbf, hsc, he⟩ := (hconn i c).mp ⟨p, hp, hcm⟩
      obtain ⟨hl1, hl2⟩ := hlim r l hg
      refine ⟨r, l, hg, ?_⟩
      rcases he with ⟨e1, e2⟩ | ⟨e1, e2⟩
      · subst e1
        have ej : j2 = j := by rw [← hcj, e2]
        subst ej
        left
        exact ⟨hbf, (scanPairs_iff_joined fscore hwf hl1 hl2 p q).mp
          ⟨m, (hscan _ _ p q _ _ m hp hq).mp hsc⟩⟩
      · subst e1
        have ej : i2 = j := by rw [← hcj, e2]
        subst ej
        right
        exact ⟨hbf, (scanPairs_iff_joined fscore hwf hl1 hl2 q p).mp
          ⟨m, (hscan _ _ q p _ _ m hq hp).mp hsc⟩⟩
    · rintro ⟨r, l, hg, hcase⟩
      obtain ⟨hl1, hl2⟩ := hlim r l hg
      rcases hcase with ⟨hbf, hj⟩ | ⟨hbf, hj⟩
      · obtain ⟨m, hm⟩ := (scanPairs_iff_joined fscore hwf hl1 hl2 p q).mpr hj
        obtain ⟨p2, hp2, hc2⟩ := (hconn i ⟨j, floatOfSize m⟩).mpr
          ⟨r, l, hg, i, j, m, hbf, (hscan _ _ p q _ _ m hp hq).mpr hm, Or.inl ⟨rfl, rfl⟩⟩
        rw [hp] at hp2; cases hp2
        exact ⟨_, hc2, rfl⟩
      · obtain ⟨m, hm⟩ := (scanPairs_iff_joined fscore hwf hl1 hl2 q p).mpr hj
        obtain ⟨p2, hp2, hc2⟩ := (hconn i ⟨j, floatOfSize m⟩).mpr
          ⟨r, l, hg, j, i, m, hbf, (hscan _ _ q p _ _ m hq hp).mpr hm, Or.inr ⟨rfl, rfl⟩⟩
        rw [hp] at hp2; cases hp2
        exact ⟨_, hc2, rfl⟩
  · intro c hcm hcj
    obtain ⟨r, l, hg, i2, j2, m, hbf, hsc, he⟩ := (hconn i c).mp ⟨p, hp, hcm⟩
    refine ⟨r, l, m, hg, ?_, ?_⟩
    · rcases he with ⟨_, e2⟩ | ⟨_, e2⟩ <;> rw [e2]
    · rcases he with ⟨e1, e2⟩ | ⟨e1, e2⟩
      · subst e1
        have ej : j2 = j := by rw [← hcj, e2]
        subst ej
        left
        obtain ⟨k1, k2, k3⟩ := scanPairs_spec fscore _ _ _ ((hscan _ _ p q _ _ m hp hq).mp hsc)
        exact ⟨hbf, k1, k2, k3⟩
      · subst e1
        have ej : i2 = j := by rw [← hcj, e2]
        subst ej
        right
        obtain ⟨k1, k2, k3⟩ := scanPairs_spec fscore _ _ _ ((hscan _ _ q p _ _ m hq hp).mp hsc)
        exact ⟨hbf, k1, k2, k3⟩

/-- Witness for C17 (as amended): the statement holds of the graph built on the 10x20 grid
`detour` with region size 10. -/
theorem prebuild_map_edge_iff_witness :
    detour.WF ∧ prebuild_map fscoreFix 10 detour = .ok detourPortals ∧
      ∀ i j p q, detourPortals.portals.get? i = some p → detourPortals.portals.get? j = some q →
        ((∃ c ∈ p.conns, c.connIdx = j) ↔
          ∃ r l, detourPortals.tilePortalsIndices.get? r = some l ∧
            ((Before l i j ∧ AllJoined detour (tileLimMin 10 (detour.width / 10) r)
                (tileLimMax 10 (detour.width / 10) r) p q) ∨
              (Before l j i ∧ AllJoined detour (tileLimMin 10 (detour.width / 10) r)
                (tileLimMax 10 (detour.width / 10) r) q p))) ∧
        (∀ c ∈ p.conns, c.connIdx = j →
          ∃ r l m, detourPortals.tilePortalsIndices.get? r = some l ∧ c.score = floatOfSize m ∧
            ((Before l i j ∧ MinPairLength fscoreFix detour (tileLimMin 10 (detour.width / 10) r)
                (tileLimMax 10 (detour.width / 10) r) p q m) ∨
              (Before l j i ∧ MinPairLength fscoreFix detour
                (tileLimMin 10 (detour.width / 10) r)
                (tileLimMax 10 (detour.width / 10) r) q p m))) :=
  ⟨by decide, by rfl,
    prebuild_map_edge_iff fscoreFix 10 detour detourPortals (by decide) (by rfl)⟩

/-- C17 fails as stated: on the 10x20 grid `detour` with region size 10 the region 0 (rows
0 to 9) lists the portals 0 and 1, whose rectangles clipped to that region are the cells
(0,9) and (2,9); no path inside region 0 joins these two cells, and the search bounded by
region 0 returns the empty sequence, yet the graph `prebuild_map` builds has the edge
between the portals 0 and 1, with weight 3: it was recorded for region 1 (rows 10 to 19),
where the clipped cells (0,10) and (2,10) are joined by a path of three cells. -/
theorem prebuild_map_edge_other_region :
    detour.WF ∧ prebuild_map fscoreFix 10 detour = .ok detourPortals ∧
      detourPortals.portals = [⟨0, 9, 0, 10, [⟨1, 3⟩]⟩, ⟨2, 9, 2, 10, [⟨0, 3⟩]⟩] ∧
      detourPortals.tilePortalsIndices.get? 0 = some [0, 1] ∧
      detourPortals.tilePortalsIndices.get? 1 = some [0, 1] ∧
      tileLimMin 10 (detour.width / 10) 0 = ⟨0, 0⟩ ∧
      tileLimMax 10 (detour.width / 10) 0 = ⟨10, 10⟩ ∧
      portalPairs ⟨0, 9, 0, 10, [⟨1, 3⟩]⟩ ⟨2, 9, 2, 10, [⟨0, 3⟩]⟩ ⟨0, 0⟩ ⟨10, 10⟩
        = [(⟨0, 9⟩, ⟨2, 9⟩)] ∧
      find_path_a_star fscoreFix detour ⟨0, 9⟩ ⟨2, 9⟩ ⟨0, 0⟩ ⟨10, 10⟩ = .ok [] ∧
      (¬ ∃ path, ValidPath detour ⟨0, 9⟩ ⟨2, 9⟩ ⟨0, 0⟩ ⟨10, 10⟩ path) ∧
      ¬ AllJoined detour ⟨0, 0⟩ ⟨10, 10⟩ ⟨0, 9, 0, 10, [⟨1, 3⟩]⟩ ⟨2, 9, 2, 10, [⟨0, 3⟩]⟩ ∧
      portalPairs ⟨0, 9, 0, 10, [⟨1, 3⟩]⟩ ⟨2, 9, 2, 10, [⟨0, 3⟩]⟩
        (tileLimMin 10 (detour.width / 10) 1) (tileLimMax 10 (detour.width / 10) 1)
        = [(⟨0, 10⟩, ⟨2, 10⟩)] ∧
      find_path_a_star fscoreFix detour ⟨0, 10⟩ ⟨2, 10⟩
        (tileLimMin 10 (detour.width / 10) 1) (tileLimMax 10 (detour.width / 10) 1)
        = .ok [⟨0, 10⟩, ⟨1, 10⟩, ⟨2, 10⟩] := by
  have hwf : detour.WF := by decide
  have hno : ¬ ∃ path, ValidPath detour ⟨0, 9⟩ ⟨2, 9⟩ ⟨0, 0⟩ ⟨10, 10⟩ path := by
    rintro ⟨path, hp⟩
    obtain ⟨p2, h1, h2⟩ := find_path_a_star_complete fscoreFix hwf
      (by decide : LimInGrid detour ⟨0, 0⟩ ⟨10, 10⟩) (by decide : InGrid detour ⟨0, 9⟩) hp
    have h3 : find_path_a_star fscoreFix detour ⟨0, 9⟩ ⟨2, 9⟩ ⟨0, 0⟩ ⟨10, 10⟩ = .ok [] := by rfl
    rw [h3] at h1
    cases h1
    exact h2 rfl
  have hpp : portalPairs ⟨0, 9, 0, 10, [⟨1, 3⟩]⟩ ⟨2, 9, 2, 10, [⟨0, 3⟩]⟩ ⟨0, 0⟩ ⟨10, 10⟩
      = [(⟨0, 9⟩, ⟨2, 9⟩)] := by rfl
  refine ⟨hwf, by rfl, by rfl, by rfl, by rfl, by rfl, by rfl, hpp, by rfl, hno, ?_,
    by rfl, by rfl⟩
  intro hall
  rcases hall (⟨0, 9⟩, ⟨2, 9⟩) (by rw [hpp]; exact List.mem_singleton.mpr rfl) with e | e
  · revert e; decide
  · exact hno e

/-! ## Claims about gen_player_flee_map -/

/-- C25 (as amended): on a well-formed square grid with every team-0 actor in the grid (on
a floor cell in particular), `gen_player_flee_map` returns for some fuel, and whenever it
returns a field `F`, with `A` the field of `gen_player_approach_map` and `T(s)` the
binary32 product of `A(s)` and `-1.2f` if `A(s)` is below the sentinel and `T(s) = A(s)`
otherwise, every floor cell `c` has `F(c) ≤ T(c)`, `F(c) = T(s) + n` exactly for a floor
walk of `n` steps from some floor cell `s` to `c`, and for every 4-adjacent floor cell
`c2` the binary32 difference `F(c) - 1.f` is at most `F(c2)`, which is the stop test of the
relaxation.  (With exact arithmetic in the stop test this would make `F(c)` the minimum of
`T(s) + d(c, s)`; in binary32 it need not be.) -/
theorem gen_player_flee_map_relaxed (dd : DungeonData) (actors : List Actor) (hwf : dd.WF)
    (hsq : dd.width = dd.height) (hin : ∀ a ∈ actors, a.team = 0 → InGrid dd a.pos) :
    (∃ fuel1 fuel2 A F, gen_player_approach_map dd actors fuel1 = .ok A ∧
      gen_player_flee_map dd actors fuel1 fuel2 = .ok F) ∧
    ∀ fuel1 fuel2 A F, gen_player_approach_map dd actors fuel1 = .ok A →
      gen_player_flee_map dd actors fuel1 fuel2 = .ok F →
      ∀ x y, floorAt dd x y → ∃ v a0, F.get? (y * dd.width + x) = some v ∧
        A.get? (y * dd.width + x) = some a0 ∧
        v ≤ (if a0 < invalid_tile_value then f32 (a0 * flee_factor) else a0) ∧
        (∃ sx sy n a, FloorWalk dd sx sy x y n ∧ A.get? (sy * dd.width + sx) = some a ∧
          v = (if a < invalid_tile_value then f32 (a * flee_factor) else a) + n) ∧
        (∀ x2 y2, NatAdj x y x2 y2 → floorAt dd x2 y2 →
          ∃ v2, F.get? (y2 * dd.width + x2) = some v2 ∧ f32 (v - 1) ≤ v2) := by
  have hflee : ∀ fuel1 fuel2 A, gen_player_approach_map dd actors fuel1 = .ok A →
      gen_player_flee_map dd actors fuel1 fuel2 = process_dmap_f32 dd fuel2 (flee_scale A) := by
    intro fuel1 fuel2 A hA
    unfold gen_player_flee_map
    rw [hA]
  constructor
  · obtain ⟨m0, e0, hl0, _, _⟩ := seedCells_spec hwf
      ((actors.filter (fun a : Actor => decide (a.team = 0))).map (fun a : Actor => a.pos))
      (init_tiles dd) (by simp [init_tiles]) (by
        intro p hp
        obtain ⟨a, ha, rfl⟩ := List.mem_map.mp hp
        obtain ⟨ha1, ha2⟩ := List.mem_filter.mp ha
        exact hin a ha1 (of_decide_eq_true ha2))
    obtain ⟨fuel1, A, hA, _⟩ := process_dmap_total hwf hsq hl0
    have hA2 : gen_player_approach_map dd actors fuel1 = .ok A := by
      unfold gen_player_approach_map
      rw [seed_players_eq, e0]
      exact hA
    have hok := approachOK_of_map hwf hsq hin hA2
    obtain ⟨F, hF⟩ := process_dmap_f32_total_of_rank hwf hsq hok _ _ (fleeInv_init hok)
      (le_refl _)
    exact ⟨fuel1, _, A, F, hA2, by rw [hflee _ _ _ hA2]; exact hF⟩
  · intro fuel1 fuel2 A F hA hF x y hf
    rw [hflee _ _ _ hA] at hF
    have hok := approachOK_of_map hwf hsq hin hA
    obtain ⟨⟨_, hwv, _⟩, hst⟩ := process_dmap_f32_inv hwf hsq hok _ _ _ (fleeInv_init hok) hF
    obtain ⟨v, hv, ⟨sx, sy, n, t, hwalk, ht, hvn⟩, t0, ht0, hvt0⟩ := hwv x y hf
    obtain ⟨a, ha, hta⟩ := flee_scale_get_inv ht
    obtain ⟨a0, ha0, hta0⟩ := flee_scale_get_inv ht0
    refine ⟨v, a0, hv, ha0, by rw [← hta0]; exact hvt0,
      ⟨sx, sy, n, a, hwalk, ha, by rw [hvn, hta]⟩, ?_⟩
    intro x2 y2 hadj hf2
    obtain ⟨v3, mv, hv3, hmin, hnot⟩ := hst (x, y) (mem_scanOrder hf.1 hf.2.1) hf
    simp only at hv3 hmin
    rw [hv] at hv3
    cases hv3
    obtain ⟨v2, hv2, hmv⟩ := getMinNei_le hwf (by omega) hf.1 hf.2.1 hmin x2 y2 hadj hf2
    exact ⟨v2, hv2, le_trans (not_lt.mp hnot) hmv⟩

/-- Witness for C25 (as amended): the 2x2 grid with a wall at (1,0) and a team-0 actor on
the floor cell (0,0); the approach field is `[0, 1e5, 1, 2]` and the flee field holds
-0.400000095..., 1e5, -1.40000009..., -2.40000009.... -/
theorem gen_player_flee_map_relaxed_witness :
    walled2.WF ∧ walled2.width = walled2.height ∧
      (∀ a ∈ [(⟨⟨0, 0⟩, 0⟩ : Actor)], a.team = 0 → InGrid walled2 a.pos) ∧
      gen_player_approach_map walled2 [⟨⟨0, 0⟩, 0⟩] 2 = .ok [0, 100000, 1, 2] ∧
      gen_player_flee_map walled2 [⟨⟨0, 0⟩, 0⟩] 2 3
        = .ok [-838861 / 2097152, 100000, -2936013 / 2097152, -5033165 / 2097152] ∧
      floorAt walled2 0 0 ∧
      ∃ v a0, ([-838861 / 2097152, 100000, -2936013 / 2097152, -5033165 / 2097152] :
            List ℚ).get? (0 * walled2.width + 0) = some v ∧
        ([0, 100000, 1, 2] : List ℚ).get? (0 * walled2.width + 0) = some a0 ∧
        v ≤ (if a0 < invalid_tile_value then f32 (a0 * flee_factor) else a0) ∧
        (∃ sx sy n a, FloorWalk walled2 sx sy 0 0 n ∧
          ([0, 100000, 1, 2] : List ℚ).get? (sy * walled2.width + sx) = some a ∧
          v = (if a < invalid_tile_value then f32 (a * flee_factor) else a) + n) ∧
        (∀ x2 y2, NatAdj 0 0 x2 y2 → floorAt walled2 x2 y2 →
          ∃ v2, ([-838861 / 2097152, 100000, -2936013 / 2097152, -5033165 / 2097152] :
              List ℚ).get? (y2 * walled2.width + x2) = some v2 ∧ f32 (v - 1) ≤ v2) :=
  ⟨by decide, by decide, by decide, by decide!, by decide!, ⟨by decide, by decide, by rfl⟩,
    (gen_player_flee_map_relaxed walled2 [⟨⟨0, 0⟩, 0⟩] (by decide) (by decide)
      (by decide)).2 2 3 [0, 100000, 1, 2]
      [-838861 / 2097152, 100000, -2936013 / 2097152, -5033165 / 2097152] (by decide!)
      (by decide!) 0 0 ⟨by decide, by decide, by rfl⟩⟩

/-- C25 fails as stated: on the 2x2 grid with a wall at (1,0) and a team-0 actor on the
floor cell (0,0) the approach field is `[0, 1e5, 1, 2]` and the program scales it by the
binary32 constant `-1.2f = -5033165/4194304`, not by -6/5; the value written at the floor
cell (0,0) is -838861/2097152 = -0.400000095..., which is not `T(s) + d` for any cell `s`
and any whole number `d` when `T(s) = -1.2 * A(s)` in exact rational arithmetic; the
minimum the claim states is -2/5. -/
theorem gen_player_flee_map_not_exact :
    walled2.WF ∧ walled2.width = walled2.height ∧ floorAt walled2 0 0 ∧
      gen_player_approach_map walled2 [⟨⟨0, 0⟩, 0⟩] 2 = .ok [0, 100000, 1, 2] ∧
      gen_player_flee_map walled2 [⟨⟨0, 0⟩, 0⟩] 2 3
        = .ok [-838861 / 2097152, 100000, -2936013 / 2097152, -5033165 / 2097152] ∧
      flee_factor ≠ -6 / 5 ∧
      process_dmap walled2 3 (([0, 100000, 1, 2] : List ℚ).map
          (fun a => if a < invalid_tile_value then a * (-6 / 5) else a))
        = .ok [-2 / 5, 100000, -7 / 5, -12 / 5] ∧
      ∀ (sx sy n : Nat) (a : ℚ),
        ([0, 100000, 1, 2] : List ℚ).get? (sy * walled2.width + sx) = some a →
        (-838861 / 2097152 : ℚ) ≠ (if a < invalid_tile_value then a * (-6 / 5) else a) + n := by
  refine ⟨by decide, by decide, ⟨by decide, by decide, by rfl⟩, by decide!, by decide!,
    by decide!, by decide!, ?_⟩
  intro sx sy n a ha e
  have hn : (0 : ℚ) ≤ (n : ℚ) := Nat.cast_nonneg n
  have hmem := List.get?_mem ha
  simp only [List.mem_cons, List.mem_singleton, List.not_mem_nil, or_false] at hmem
  rcases hmem with rfl | rfl | rfl | rfl
  · rw [if_pos (by unfold invalid_tile_value; norm_num)] at e
    linarith
  · rw [if_neg (by unfold invalid_tile_value; norm_num)] at e
    linarith
  · rw [if_pos (by unfold invalid_tile_value; norm_num)] at e
    have h2 : (n : ℚ) * 10485760 = 8388607 := by linarith
    have h3 : n * 10485760 = 8388607 := by exact_mod_cast h2
    omega
  · rw [if_pos (by unfold invalid_tile_value; norm_num)] at e
    have h2 : (n : ℚ) * 10485760 = 20971519 := by linarith
    have h3 : n * 10485760 = 20971519 := by exact_mod_cast h2
    omega

/-- Even with the binary32 product for `T`, `F(c)` need not be the minimum of
`T(s) + d(c, s)`: on the grid `tee` with team-0 actors at (0,0) and (7,0) the cell (4,5)
has the approach value 8 and `T = -9.60000038...`, and a floor walk of 6 steps joins it to
(3,0), yet (3,0) keeps its own `T = -3.60000014...`, which is above `T(4,5) + 6`.  Its
neighbour (4,0) holds `-4.60000038...`, which is below `F(3,0) - 1` but equal to the
binary32 difference `F(3,0) - 1.f` of the stop test. -/
theorem gen_player_flee_map_tee :
    tee.WF ∧ tee.width = tee.height ∧ floorAt tee 0 0 ∧ floorAt tee 7 0 ∧
      gen_player_approach_map tee [⟨⟨0, 0⟩, 0⟩, ⟨⟨7, 0⟩, 0⟩] 4 = .ok teeApproach ∧
      gen_player_flee_map tee [⟨⟨0, 0⟩, 0⟩, ⟨⟨7, 0⟩, 0⟩] 4 6 = .ok teeFlee ∧
      teeApproach.get? (5 * tee.width + 4) = some 8 ∧
      f32 (8 * flee_factor) = -5033165 / 524288 ∧
      FloorWalk tee 4 5 3 0 6 ∧
      teeFlee.get? (0 * tee.width + 3) = some (-15099495 / 4194304) ∧
      (-5033165 / 524288 : ℚ) + 6 < -15099495 / 4194304 ∧
      NatAdj 3 0 4 0 ∧
      teeFlee.get? (0 * tee.width + 4) = some (-2411725 / 524288) ∧
      (-2411725 / 524288 : ℚ) < -15099495 / 4194304 - 1 ∧
      f32 (-15099495 / 4194304 - 1) = -2411725 / 524288 := by
  have f : ∀ x y, x < 8 → y < 8 → tee.tiles.get? (y * tee.width + x) = some Tile.floor →
      floorAt tee x y := fun x y hx hy h => ⟨hx, hy, h⟩
  have w0 : FloorWalk tee 4 5 4 5 0 := FloorWalk.refl (f 4 5 (by decide) (by decide) (by rfl))
  have w1 : FloorWalk tee 4 5 4 4 1 :=
    FloorWalk.step w0 (by unfold NatAdj; omega) (f 4 4 (by decide) (by decide) (by rfl))
  have w2 : FloorWalk tee 4 5 4 3 2 :=
    FloorWalk.step w1 (by unfold NatAdj; omega) (f 4 3 (by decide) (by decide) (by rfl))
  have w3 : FloorWalk tee 4 5 4 2 3 :=
    FloorWalk.step w2 (by unfold NatAdj; omega) (f 4 2 (by decide) (by decide) (by rfl))
  have w4 : FloorWalk tee 4 5 4 1 4 :=
    FloorWalk.step w3 (by unfold NatAdj; omega) (f 4 1 (by decide) (by decide) (by rfl))
  have w5 : FloorWalk tee 4 5 4 0 5 :=
    FloorWalk.step w4 (by unfold NatAdj; omega) (f 4 0 (by decide) (by decide) (by rfl))
  have w6 : FloorWalk tee 4 5 3 0 6 :=
    FloorWalk.step w5 (by unfold NatAdj; omega) (f 3 0 (by decide) (by decide) (by rfl))
  refine ⟨by decide, by decide, f 0 0 (by decide) (by decide) (by rfl),
    f 7 0 (by decide) (by decide) (by rfl), by decide!, by decide!, by decide!, by decide!,
    w6, by decide!, by norm_num, by unfold NatAdj; omega, by decide!, by norm_num, by decide!⟩

end Roguelike
